import Mathlib

/-!
Process-Scheduling-Simulation: a shallow embedding and its properties.

The definitions below transcribe the C++ headers of the simulator
(`typedefs.h`, `utility.h`, `stats.h`, `process_utils.h`, `process.h`,
`system.h`).  Conventions of the embedding:

* Values of the types `Step` (`uint32_t`), `PID` (`uint16_t`), `Priority`
  (`uint8_t`) and `CPUID` are natural numbers (`Nat`); arithmetic on `Step`
  that can leave the range is reduced modulo `STEP_MOD = 2^32` explicitly.
* A failed `assert`, an exception thrown by `at()` and a dereference of a null
  or dangling pointer are the result `none`.
* `std::vector`, `std::list` and `std::queue` are lists, front first.
* The `PCB*` held by a unit is the key of the pointed-to entry of the process
  table; the table is threaded through the functions that dereference it.
-/

namespace Simulation

/-! ## typedefs.h -/

/-- Number of values of the type `Step` (`uint32_t`). -/
def STEP_MOD : Nat := 4294967296

/-- The constant ` MAX_PRIO`. -/
def MAX_PRIO : Nat := 7

/-- The record `SystemSettings`, with its default member values. -/
structure SystemSettings where
  CPU_COUNT : Nat := 4
  PROCESS_COUNT : Nat := 10
  RR_TIME : Nat := 100
  SWITCHING_IN_DELAY : Nat := 7
  SWITCHING_OUT_DELAY : Nat := 3
  deriving DecidableEq

/-- The static member `SystemSettings::fcfs`. -/
def SystemSettings.fcfs : SystemSettings := { RR_TIME := 0 }

inductive ProcessState where
  | ready | running | blocked | exit | switching
  deriving DecidableEq

inductive CPUState where
  | idle | assigned_idle | processing | switching_out | switching_in
  deriving DecidableEq

/-! ## stats.h: `History` -/

/-- The nested struct `History<E>::Period`. -/
structure Period (E : Type) where
  state : E
  duration : Nat
  deriving DecidableEq

/-- The class `History<E>`: a vector of periods, oldest first. -/
structure History (E : Type) where
  trace : List (Period E) := []
  deriving DecidableEq

/-- The method `History::push`: open a new period at the back unless the last
period has the same state, in which case its duration grows (in `Step`
arithmetic). -/
def History.push {E : Type} [DecidableEq E] (h : History E) (state : E) (duration : Nat) :
    History E :=
  match h.trace.getLast? with
  | none => { trace := h.trace ++ [{ state := state, duration := duration }] }
  | some b =>
    if b.state ≠ state then
      { trace := h.trace ++ [{ state := state, duration := duration }] }
    else
      { trace := h.trace.dropLast ++
          [{ state := b.state, duration := (b.duration + duration) % STEP_MOD }] }

/-- The method `History::inc`. -/
def History.inc {E : Type} [DecidableEq E] (h : History E) (state : E) : History E :=
  h.push state 1

/-- The method `History::duration()`: the `Step` sum of all durations. -/
def History.duration {E : Type} (h : History E) : Nat :=
  h.trace.foldl (fun sum p => (sum + p.duration) % STEP_MOD) 0

/-- The method `History::duration(E state)`: the `Step` sum of the durations of
the periods of one state. -/
def History.durationOf {E : Type} [DecidableEq E] (h : History E) (state : E) : Nat :=
  h.trace.foldl (fun sum p => if p.state = state then (sum + p.duration) % STEP_MOD else sum) 0

/-! ## utility.h: `Timer` -/

/-- The class `Timer<T>`. -/
structure Timer (T : Type) where
  data : T
  count : Nat
  deriving DecidableEq

/-- The constructor `Timer(Step cc, T dd)`. -/
def Timer.init {T : Type} (cc : Nat) (dd : T) : Timer T := { data := dd, count := cc }

/-- The method `Timer::getData`. -/
def Timer.getData {T : Type} (t : Timer T) : T := t.data

/-- The method `Timer::step`: `assert(count != 0); return --count == 0;`.
A failed assertion is `none`. -/
def Timer.step {T : Type} (t : Timer T) : Option (Bool × Timer T) :=
  if t.count = 0 then none
  else
    let c := (t.count + (STEP_MOD - 1)) % STEP_MOD
    some (decide (c = 0), { t with count := c })

/-- The timer after `k` successive calls of `step()`, `none` once a call has
failed. -/
def Timer.stepN {T : Type} : Nat → Timer T → Option (Timer T)
  | 0, t => some t
  | k + 1, t => (Timer.step t).bind fun r => Timer.stepN k r.2

/-! ## process_utils.h: `ProcessBursts` -/

/-- The class `ProcessBursts`: the remaining burst durations, head first, and
the flag telling whether the head is a CPU burst. -/
structure ProcessBursts where
  bursts : List Nat
  processing : Bool := true
  deriving DecidableEq

def ProcessBursts.isProcessing (b : ProcessBursts) : Bool := b.processing

def ProcessBursts.empty (b : ProcessBursts) : Bool := b.bursts.isEmpty

def ProcessBursts.size (b : ProcessBursts) : Nat := b.bursts.length

/-- The method `ProcessBursts::pop`. -/
def ProcessBursts.pop (b : ProcessBursts) : ProcessBursts :=
  { bursts := b.bursts.tail, processing := !b.processing }

/-- The method `ProcessBursts::step`:
`if(!bursts.empty() && --bursts.front() == 0) { pop(); return true; } return false;`
with the pre-decrement in `Step` arithmetic. -/
def ProcessBursts.step (b : ProcessBursts) : Bool × ProcessBursts :=
  match b.bursts with
  | [] => (false, b)
  | h :: tl =>
    let b1 : ProcessBursts := { b with bursts := (h + (STEP_MOD - 1)) % STEP_MOD :: tl }
    if (h + (STEP_MOD - 1)) % STEP_MOD = 0 then (true, b1.pop) else (false, b1)

/-- The loop of `ProcessBursts::stepsRemaining`: add the element under the
iterator to `total`, then advance the iterator by two, stopping at the end. -/
def ProcessBursts.stepsRemainingLoop : List Nat → Nat → Nat
  | [], total => total
  | [x], total => (total + x) % STEP_MOD
  | x :: _ :: rest, total => ProcessBursts.stepsRemainingLoop rest ((total + x) % STEP_MOD)

/-- The method `ProcessBursts::stepsRemaining`.  The iterator starts at
`begin()` when the head is a CPU burst and at `++begin()` otherwise; on an
empty list `++begin()` is `end()` again, the loop does not run and the result
is 0.  The method has no failure path: the result is always `some`. -/
def ProcessBursts.stepsRemaining (b : ProcessBursts) : Option Nat :=
  if b.processing then some (ProcessBursts.stepsRemainingLoop b.bursts 0)
  else some (ProcessBursts.stepsRemainingLoop b.bursts.tail 0)

/-- The sum, over the naturals, of the CPU-kind elements of a burst sequence:
element `i` is CPU-kind iff `(i is even) == f`. -/
def cpuKindSum (f : Bool) (bs : List Nat) : Nat :=
  ((bs.enum.filter fun e => decide (e.1 % 2 = 0) == f).map fun e => e.2).sum

/-! ## utility.h: `ReadyPriorityQueue` -/

/-- The class `ReadyPriorityQueue<T>`: one FIFO queue per priority value. -/
structure ReadyPriorityQueue (T : Type) where
  queues : List (List T)
  deriving DecidableEq

/-- The constructor `ReadyPriorityQueue(Priority max = MAX_PRIO)`: `max + 1`
empty queues. -/
def ReadyPriorityQueue.init {T : Type} (max : Nat) : ReadyPriorityQueue T :=
  { queues := List.replicate (max + 1) [] }

/-- The method `getTopQueueIndex`: the index of the first non-empty queue, the
number of queues when there is none. -/
def ReadyPriorityQueue.getTopQueueIndex {T : Type} (q : ReadyPriorityQueue T) : Nat :=
  q.queues.findIdx fun b => !b.isEmpty

/-- The method `ReadyPriorityQueue::empty`. -/
def ReadyPriorityQueue.empty {T : Type} (q : ReadyPriorityQueue T) : Bool :=
  decide (q.getTopQueueIndex = q.queues.length)

/-- The method `ReadyPriorityQueue::push`: `queues.at(p).push(val)`; `at`
throws when `p` is not an index. -/
def ReadyPriorityQueue.push {T : Type} (q : ReadyPriorityQueue T) (val : T) (p : Nat) :
    Option (ReadyPriorityQueue T) :=
  match q.queues[p]? with
  | none => none
  | some b => some { queues := q.queues.set p (b ++ [val]) }

/-- The method `ReadyPriorityQueue::front`:
`queues.at(getTopQueueIndex()).front()`. -/
def ReadyPriorityQueue.front {T : Type} (q : ReadyPriorityQueue T) : Option T :=
  match q.queues[q.getTopQueueIndex]? with
  | none => none
  | some b => b.head?

/-- The method `ReadyPriorityQueue::pop`:
`queues.at(getTopQueueIndex()).pop()`. -/
def ReadyPriorityQueue.pop {T : Type} (q : ReadyPriorityQueue T) :
    Option (ReadyPriorityQueue T) :=
  match q.queues[q.getTopQueueIndex]? with
  | none => none
  | some b => some { queues := q.queues.set q.getTopQueueIndex b.tail }

/-- A call on a ready queue: `push(val, p)` or `pop()`. -/
inductive RPQCall (T : Type) where
  | push (val : T) (p : Nat)
  | pop

/-- Run a sequence of calls, in order; `none` as soon as one call fails. -/
def ReadyPriorityQueue.run {T : Type} :
    List (RPQCall T) → ReadyPriorityQueue T → Option (ReadyPriorityQueue T)
  | [], q => some q
  | RPQCall.push v p :: rest, q => (q.push v p).bind (ReadyPriorityQueue.run rest)
  | RPQCall.pop :: rest, q => q.pop.bind (ReadyPriorityQueue.run rest)

/-- Reference model of the ready queue, after the words of the specification:
the pushed and not yet popped entries `(id, priority)`, in push order.  The
entry to yield is the earliest one whose priority number is the smallest. -/
def pendingIsTop {T : Type} (pend : List (T × Nat)) (x : T × Nat) : Bool :=
  pend.all fun y => decide (x.2 ≤ y.2)

/-- Reference model: popping removes exactly the entry to yield; there must be
one. -/
def pendingPop {T : Type} (pend : List (T × Nat)) : Option (List (T × Nat)) :=
  if pend.isEmpty then none else some (pend.eraseP (pendingIsTop pend))

/-- Reference model: the pending entries after a sequence of calls. -/
def pendingRun {T : Type} : List (RPQCall T) → List (T × Nat) → Option (List (T × Nat))
  | [], pend => some pend
  | RPQCall.push v p :: rest, pend => pendingRun rest (pend ++ [(v, p)])
  | RPQCall.pop :: rest, pend => (pendingPop pend).bind (pendingRun rest)

/-- The queue contents that represent a list of pending entries: queue `i`
holds the ids pending with priority `i`, in push order. -/
def bucketsOf {T : Type} (pend : List (T × Nat)) : List (List T) :=
  (List.range ( MAX_PRIO + 1)).map fun i => (pend.filter fun e => decide (e.2 = i)).map fun e => e.1

/-- A sample call sequence on a queue of process ids. -/
def sampleCalls : List (RPQCall Nat) :=
  [RPQCall.push 10 3, RPQCall.push 11 1, RPQCall.push 12 3, RPQCall.pop, RPQCall.push 13 1]

/-! ## process_utils.h, stats.h, process.h: process records -/

/-- The struct `ProcessInit`. -/
structure ProcessInit where
  id : Nat
  prio : Nat
  bursts : ProcessBursts
  deriving DecidableEq

/-- The struct `ProcessPlan`. -/
structure ProcessPlan where
  arrival : Nat
  init : ProcessInit
  deriving DecidableEq

/-- The struct `ProcessStats`. -/
structure ProcessStats where
  id : Nat
  prio : Nat
  started : Nat
  plan : ProcessBursts
  hist : History ProcessState
  deriving DecidableEq

/-- The constructor `ProcessStats(pi, s, h)`. -/
def ProcessStats.init (pi : ProcessInit) (s : Nat) (h : History ProcessState) : ProcessStats :=
  { id := pi.id, prio := pi.prio, started := s, plan := pi.bursts, hist := h }

/-- The struct `PCB`. -/
structure PCB where
  id : Nat
  state : ProcessState
  prio : Nat
  stats : ProcessStats
  bursts : ProcessBursts
  deriving DecidableEq

/-- The constructor `PCB(pi, curr)`. -/
def PCB.init (pi : ProcessInit) (curr : Nat) : PCB :=
  { id := pi.id, state := ProcessState.ready, prio := pi.prio, bursts := pi.bursts,
    stats := ProcessStats.init pi curr {} }

/-- The method `PCB::step`: record one tick of the current state, then step
the bursts when the state is `running` or `blocked`. -/
def PCB.step (p : PCB) : Bool × PCB :=
  let p1 : PCB := { p with stats := { p.stats with hist := p.stats.hist.inc p.state } }
  if p.state = ProcessState.running ∨ p.state = ProcessState.blocked then
    (p1.bursts.step.1, { p1 with bursts := p1.bursts.step.2 })
  else
    (false, p1)

/-! ## system.h: the process table and `CPU` -/

/-- The member `std::map<PID, PCB> PCB_table`, as its list of entries.  A
pointer to an entry is the key of that entry. -/
structure PCBTable where
  entries : List (Nat × PCB) := []
  deriving DecidableEq

/-- Read the entry under a key (`PCB_table.at(id)`, `*proc`); `none` when
there is no such entry. -/
def PCBTable.lookup (tbl : PCBTable) (key : Nat) : Option PCB :=
  (tbl.entries.find? fun e => decide (e.1 = key)).map fun e => e.2

/-- Overwrite the entry under a key (a write through `PCB_table.at(id)` or
through `proc`). -/
def PCBTable.store (tbl : PCBTable) (key : Nat) (p : PCB) : PCBTable :=
  { entries := tbl.entries.map fun e => if e.1 = key then (e.1, p) else e }

/-- The struct `CPUStats`. -/
structure CPUStats where
  id : Nat
  hist : History CPUState := {}
  deriving DecidableEq

/-- The value `std::numeric_limits<PID>::max()`. -/
def PID_MAX : Nat := 65535

/-- The class `CPU`.  The field `proc` is the key of the table entry the
pointer refers to, `none` for `nullptr`. -/
structure CPU where
  proc : Option Nat
  last_id : Nat
  t : Timer CPUState
  stats : CPUStats
  settings : SystemSettings
  deriving DecidableEq

/-- The constructor `CPU(sett, id)`. -/
def CPU.init (sett : SystemSettings) (id : Nat) : CPU :=
  { proc := none, last_id := PID_MAX, t := Timer.init 0 CPUState.idle, stats := { id := id },
    settings := sett }

def CPU.getStats (c : CPU) : CPUStats := c.stats

def CPU.getState (c : CPU) : CPUState := c.t.getData

def CPU.isFCFS (c : CPU) : Bool := decide (c.settings.RR_TIME = 0)

def CPU.assigned (c : CPU) : Bool := decide (c.getState ≠ CPUState.idle)

def CPU.getPID (c : CPU) : Nat := c.last_id

/-- The method `CPU::deassign`, on the unit and the process `*proc`: the
process state becomes `exit` when no burst is left and `switching` otherwise,
and the switch-out timer starts. -/
def CPU.deassignOn (c : CPU) (p : PCB) : CPU × PCB :=
  ({ c with t := Timer.init c.settings.SWITCHING_OUT_DELAY CPUState.switching_out },
   { p with state := if p.bursts.empty then ProcessState.exit else ProcessState.switching })

/-- The method `CPU::deassign`; dereferencing `proc` fails when it is null or
dangling. -/
def CPU.deassign (c : CPU) (tbl : PCBTable) : Option (CPU × PCBTable) :=
  match c.proc with
  | none => none
  | some key =>
    match tbl.lookup key with
    | none => none
    | some p => some ((c.deassignOn p).1, tbl.store key (c.deassignOn p).2)

/-- The method `CPU::assign(PCB* p)`, the pointer given as the key of the table
entry it refers to: bind the process, remember its id, mark it `switching` and
start the switch-in timer. -/
def CPU.assign (c : CPU) (key : Nat) (tbl : PCBTable) : Option (CPU × PCBTable) :=
  match tbl.lookup key with
  | none => none
  | some p =>
    some ({ c with proc := some key, last_id := p.id,
                   t := Timer.init c.settings.SWITCHING_IN_DELAY CPUState.switching_in },
          tbl.store key { p with state := ProcessState.switching })

/-- The `else` branch of `CPU::step` (the unit is assigned), on the unit, whose
trace already has the tick of this step, and the process `*proc`. -/
def CPU.stepOn (c : CPU) (p : PCB) : Option (Bool × CPU × PCB) :=
  let state := c.getState
  -- bool p_ret = proc->step();
  let p_ret := p.step.1
  let p1 := p.step.2
  -- the timer is stepped under round-robin, and under FCFS outside processing/assigned_idle
  let tr : Option (Bool × Timer CPUState) :=
    if !c.isFCFS || (state ≠ CPUState.processing && state ≠ CPUState.assigned_idle) then c.t.step
    else some (false, c.t)
  match tr with
  | none => none
  | some (t_ret, t1) =>
    let c1 : CPU := { c with t := t1 }
    match state with
    | CPUState.assigned_idle | CPUState.processing =>
      if p_ret || t_ret then
        if c1.isFCFS then
          if p1.bursts.empty then
            some (false, (c1.deassignOn p1).1, (c1.deassignOn p1).2)
          else
            let p2 : PCB := { p1 with state :=
              if p1.state = ProcessState.running then ProcessState.blocked
              else ProcessState.running }
            some (false,
              { c1 with t := if p2.state = ProcessState.running
                             then Timer.init 0 CPUState.processing
                             else Timer.init 0 CPUState.assigned_idle },
              p2)
        else
          some (false, (c1.deassignOn p1).1, (c1.deassignOn p1).2)
      else
        some (false, c1, p1)
    | CPUState.switching_out =>
      if t_ret then
        some (true, { c1 with t := Timer.init 0 CPUState.idle, proc := none }, p1)
      else
        some (false, c1, p1)
    | CPUState.switching_in =>
      if t_ret then
        if c1.isFCFS then
          let p2 : PCB := { p1 with state :=
            if p1.bursts.isProcessing then ProcessState.running else ProcessState.blocked }
          some (false,
            { c1 with t := if p2.state = ProcessState.running
                           then Timer.init 0 CPUState.processing
                           else Timer.init 0 CPUState.assigned_idle },
            p2)
        else
          some (false, { c1 with t := Timer.init c1.settings.RR_TIME CPUState.processing },
            { p1 with state := ProcessState.running })
      else
        some (false, c1, p1)
    | CPUState.idle => some (false, c1, p1)

/-- The first statement of `CPU::step`, `stats.hist.inc(state)`: record one
tick of the current unit state. -/
def CPU.recordTick (c : CPU) : CPU :=
  { c with stats := { c.stats with hist := c.stats.hist.inc c.getState } }

/-- The method `CPU::step`: record one tick of the current unit state; an idle
unit returns true; an assigned unit dereferences `proc` (failing when it is
null or dangling), runs the assigned branch on it and writes the process
back. -/
def CPU.step (c : CPU) (tbl : PCBTable) : Option (Bool × CPU × PCBTable) :=
  if !c.assigned then some (true, c.recordTick, tbl)
  else
    match c.proc with
    | none => none
    | some key =>
      match tbl.lookup key with
      | none => none
      | some p =>
        match c.recordTick.stepOn p with
        | none => none
        | some r => some (r.1, r.2.1, tbl.store key r.2.2)

/-- The unit and the table after `n` successive calls of `CPU::step`, with
nothing else touching the table in between; `none` once a call has failed. -/
def CPU.stepN : Nat → CPU → PCBTable → Option (CPU × PCBTable)
  | 0, c, tbl => some (c, tbl)
  | n + 1, c, tbl =>
    match c.step tbl with
    | none => none
    | some r => CPU.stepN n r.2.1 r.2.2

/-- A sample process: id 0, priority 0, bursts `[5 CPU, 3 I/O, 2 CPU]`, created
at tick 0. -/
def samplePCB : PCB := PCB.init { id := 0, prio := 0, bursts := { bursts := [5, 3, 2] } } 0

/-- A table holding a given process under key 0. -/
def tableOf (p : PCB) : PCBTable := { entries := [(0, p)] }

/-- A unit in state `st` with `n` ticks left on its timer, bound to the entry
under key 0. -/
def boundCPU (sett : SystemSettings) (st : CPUState) (n : Nat) : CPU :=
  { CPU.init sett 0 with proc := some 0, last_id := 0, t := Timer.init n st }

/-- A sample process just assigned to a unit: state `switching`, bursts
`[2 CPU, 3 I/O]`. -/
def shortBurstPCB : PCB :=
  { PCB.init { id := 0, prio := 0, bursts := { bursts := [2, 3] } } 0 with
    state := ProcessState.switching }

/-- Round-robin settings with quantum 5. -/
def rrFive : SystemSettings := { RR_TIME := 5 }

/-! ## A unit driven by the scheduler -/

/-- What happens to one unit and the process table between two observations:
the unit's `step()` is called, the scheduler assigns the table entry under
`key` to the unit, or the rest of the system rewrites the table. -/
inductive UnitEvent where
  | step
  | assign (key : Nat)
  | other (tbl : PCBTable)

/-- Does a rewrite of the table from `tbl` to `tbl1` leave alone the entry that
`proc` points to while the unit is assigned?  (`System::simulate` steps and
moves only processes of the ready queue and the blocked collection.) -/
def CPU.boundUntouched (c : CPU) (tbl tbl1 : PCBTable) : Bool :=
  !c.assigned ||
    match c.proc with
    | none => true
    | some key => decide (tbl1.lookup key = tbl.lookup key)

/-- Does the table hold, under `key`, a process whose id is `key`?  (Entries
are created by `PCB_table.emplace(pi.id, PCB(pi, curr))`.) -/
def PCBTable.holds (tbl : PCBTable) (key : Nat) : Bool :=
  match tbl.lookup key with
  | none => false
  | some p => decide (p.id = key)

/-- Run a script of events on a unit and the table.  As in `System::simulate`,
`assign` is called only on a unit that is not assigned, with an entry of the
table; `none` when a call fails or the script does what the scheduler never
does. -/
def CPU.runEvents : List UnitEvent → CPU → PCBTable → Option (CPU × PCBTable)
  | [], c, tbl => some (c, tbl)
  | UnitEvent.step :: rest, c, tbl =>
    match c.step tbl with
    | none => none
    | some r => CPU.runEvents rest r.2.1 r.2.2
  | UnitEvent.assign key :: rest, c, tbl =>
    if !c.assigned && tbl.holds key then
      match c.assign key tbl with
      | none => none
      | some r => CPU.runEvents rest r.1 r.2
    else none
  | UnitEvent.other tbl1 :: rest, c, tbl =>
    if c.boundUntouched tbl tbl1 then CPU.runEvents rest c tbl1 else none

/-- The processing periods of a unit trace respect the quantum `Q`: none is
longer than `Q`, and whatever period follows one is a `switching_out`
period. -/
def processingPeriodsOK (Q : Nat) (trace : List (Period CPUState)) : Prop :=
  (∀ p ∈ trace, p.state = CPUState.processing → p.duration ≤ Q) ∧
  List.Chain' (fun a b => a.state = CPUState.processing → b.state = CPUState.switching_out) trace

/-- The duration recorded so far in the last period of a trace when that is a
processing period, `0` otherwise. -/
def openProcessingTicks (trace : List (Period CPUState)) : Nat :=
  match trace.getLast? with
  | none => 0
  | some b => if b.state = CPUState.processing then b.duration else 0

/-- What holds of a round-robin unit with quantum `Q` throughout a run: its
processing periods respect the quantum, it is never `assigned_idle`, an open
processing period belongs to a unit that is `processing` or has just been
switched out, and a processing unit has as many ticks left on its quantum
timer as the quantum exceeds the open processing period. -/
def CPU.rrInv (Q : Nat) (c : CPU) : Prop :=
  c.settings.RR_TIME = Q ∧
  processingPeriodsOK Q c.stats.hist.trace ∧
  c.getState ≠ CPUState.assigned_idle ∧
  (∀ b, c.stats.hist.trace.getLast? = some b → b.state = CPUState.processing →
    c.getState = CPUState.switching_out ∨ c.getState = CPUState.processing) ∧
  (c.getState = CPUState.processing →
    openProcessingTicks c.stats.hist.trace + c.t.count = Q ∧ 1 ≤ c.t.count)

/-- A sample script: assign the process under key 0, then step three times. -/
def sampleScript : List UnitEvent :=
  [UnitEvent.assign 0, UnitEvent.step, UnitEvent.step, UnitEvent.step]

/-- Round-robin settings with quantum 2, switch-in delay 1 and switch-out
delay 1. -/
def rrTwo : SystemSettings := { RR_TIME := 2, SWITCHING_IN_DELAY := 1, SWITCHING_OUT_DELAY := 1 }

/-- The unit after `sampleScript` under `rrTwo`. -/
def sampleFinalCPU : CPU :=
  { proc := some 0, last_id := 0, t := Timer.init 1 CPUState.switching_out, settings := rrTwo,
    stats := { id := 0, hist := { trace :=
      [{ state := CPUState.switching_in, duration := 1 },
       { state := CPUState.processing, duration := 2 }] } } }

/-- The table after `sampleScript` under `rrTwo`, started from
`tableOf samplePCB`. -/
def sampleFinalTable : PCBTable :=
  tableOf { samplePCB with
    state := ProcessState.switching
    bursts := { bursts := [3, 3, 2] }
    stats := { samplePCB.stats with hist := { trace :=
      [{ state := ProcessState.switching, duration := 1 },
       { state := ProcessState.running, duration := 2 }] } } }

/-! ## utility.h: iteration over a `ReadyPriorityQueue` -/

/-- The class `ReadyPriorityQueue<T>::const_iterator`: a private copy `q` of the
queues and the index `prio` of the queue under the iterator.  (`orig_q` only
identifies the container; all iterators below belong to the same one.) -/
structure RPQIterator (T : Type) where
  q : List (List T)
  prio : Nat

/-- The method `ReadyPriorityQueue::begin`. -/
def ReadyPriorityQueue.begin {T : Type} (r : ReadyPriorityQueue T) : RPQIterator T :=
  { q := r.queues, prio := r.getTopQueueIndex }

/-- The method `ReadyPriorityQueue::end` (a reserved word here, hence
`endIt`). -/
def ReadyPriorityQueue.endIt {T : Type} (r : ReadyPriorityQueue T) : RPQIterator T :=
  { q := r.queues, prio := r.queues.length }

/-- The operator `*it`: `q[prio].front()`, undefined outside the queues or on an
empty queue. -/
def RPQIterator.deref {T : Type} (it : RPQIterator T) : Option T :=
  match it.q[it.prio]? with
  | none => none
  | some b => b.head?

/-- The prefix `++it`: pop the element under the iterator; when that empties
the queue, advance `prio` to the next non-empty queue, or to the number of
queues. -/
def RPQIterator.next {T : Type} (it : RPQIterator T) : Option (RPQIterator T) :=
  match it.q[it.prio]? with
  | none => none
  | some b =>
    if b.tail.isEmpty then
      some { q := it.q.set it.prio b.tail,
             prio := it.prio + 1 +
               ((it.q.set it.prio b.tail).drop (it.prio + 1)).findIdx fun b1 => !b1.isEmpty }
    else
      some { q := it.q.set it.prio b.tail, prio := it.prio }

/-- The elements visited by `for(it = begin; it != end; ++it)`, in order, from
the iterator `it` on; `fuel` bounds the number of rounds. -/
def RPQIterator.visit {T : Type} : Nat → RPQIterator T → Option (List T)
  | 0, it => if it.prio = it.q.length then some [] else none
  | fuel + 1, it =>
    if it.prio = it.q.length then some []
    else
      match it.deref, it.next with
      | some x, some it1 =>
        match RPQIterator.visit fuel it1 with
        | none => none
        | some rest => some (x :: rest)
      | _, _ => none

/-- The elements visited by `for(auto id : ready)`; every round pops one
element of the iterator's copy, so as many rounds as there are elements
suffice. -/
def ReadyPriorityQueue.visited {T : Type} (r : ReadyPriorityQueue T) : Option (List T) :=
  RPQIterator.visit r.queues.flatten.length r.begin

/-- The method `ReadyPriorityQueue::clear`. -/
def ReadyPriorityQueue.clear {T : Type} (r : ReadyPriorityQueue T) : ReadyPriorityQueue T :=
  { queues := r.queues.map fun _ => [] }

/-! ## system.h: `System` -/

/-- `PCB_table.emplace(key, p)`: insert unless the key is present. -/
def PCBTable.emplace (tbl : PCBTable) (key : Nat) (p : PCB) : PCBTable :=
  match tbl.lookup key with
  | none => { entries := tbl.entries ++ [(key, p)] }
  | some _ => tbl

/-- `PCB_table.erase(it)` for the iterator of the entry under `key`. -/
def PCBTable.erase (tbl : PCBTable) (key : Nat) : PCBTable :=
  { entries := tbl.entries.filter fun e => !decide (e.1 = key) }

/-- `PCB_table.empty()`. -/
def PCBTable.empty (tbl : PCBTable) : Bool := tbl.entries.isEmpty

/-- The value `std::numeric_limits<Step>::max()`. -/
def STEP_MAX : Nat := 4294967295

/-- The class `System`. -/
structure System where
  settings : SystemSettings
  cpus : List CPU
  PCB_table : PCBTable
  retired : List PCB
  ready : ReadyPriorityQueue Nat
  blocked : List Nat
  process_entry_timers : List (Timer ProcessInit)
  deriving DecidableEq

/-- The constructor `System(sett)`, through `updateSettings`: empty containers
and `CPU_COUNT` fresh units numbered from 0. -/
def System.init (sett : SystemSettings) : System :=
  { settings := sett
    cpus := (List.range sett.CPU_COUNT).map fun i => CPU.init sett i
    PCB_table := {}
    retired := []
    ready := ReadyPriorityQueue.init MAX_PRIO
    blocked := []
    process_entry_timers := [] }

/-- The method `System::addProcess`. -/
def System.addProcess (sys : System) (pi : ProcessInit) (curr : Nat) : Option System :=
  let tbl := sys.PCB_table.emplace pi.id (PCB.init pi curr)
  if pi.bursts.isProcessing then
    match sys.ready.push pi.id pi.prio with
    | none => none
    | some r => some { sys with PCB_table := tbl, ready := r }
  else
    match tbl.lookup pi.id with
    | none => none
    | some p =>
      some { sys with
        PCB_table := tbl.store pi.id { p with state := ProcessState.blocked }
        blocked := sys.blocked ++ [pi.id] }

/-- Lines 240-259 of `System::simulate`: move the process a unit has released,
by its lifecycle state and the kind of its head burst. -/
def System.relocate (sys : System) (id : Nat) : Option System :=
  match sys.PCB_table.lookup id with
  | none => none
  | some pcb =>
    if pcb.state = ProcessState.exit then
      some { sys with retired := sys.retired ++ [pcb], PCB_table := sys.PCB_table.erase id }
    else if pcb.bursts.isProcessing then
      match sys.ready.push id pcb.prio with
      | none => none
      | some r =>
        some { sys with
          ready := r
          PCB_table := sys.PCB_table.store id { pcb with state := ProcessState.ready } }
    else
      some { sys with
        blocked := sys.blocked ++ [id]
        PCB_table := sys.PCB_table.store id { pcb with state := ProcessState.blocked } }

/-- Lines 264-271 of `System::simulate`: when the ready queue is not empty,
assign its front to the unit and pop it. -/
def System.assignFront (sys : System) (cpu : CPU) : Option (CPU × System) :=
  if !sys.ready.empty then
    match sys.ready.front with
    | none => none
    | some id =>
      match cpu.assign id sys.PCB_table with
      | none => none
      | some r =>
        match sys.ready.pop with
        | none => none
        | some rq => some (r.1, { sys with PCB_table := r.2, ready := rq })
  else some (cpu, sys)

/-- The body of `for(auto &cpu : cpus)` in `System::simulate`, for one unit. -/
def System.cpuBody (sys : System) (cpu : CPU) : Option (CPU × System) :=
  let already_idle := !cpu.assigned
  match cpu.step sys.PCB_table with
  | none => none
  | some r =>
    let sys1 : System := { sys with PCB_table := r.2.2 }
    if r.1 || already_idle then
      if !already_idle then
        match sys1.relocate r.2.1.getPID with
        | none => none
        | some sys2 => sys2.assignFront r.2.1
      else sys1.assignFront r.2.1
    else some (r.2.1, sys1)

/-- The loop `for(auto &cpu : cpus)`: `done` holds the units already served,
`todo` those still to serve. -/
def System.cpuLoop : List CPU → List CPU → System → Option System
  | done, [], sys => some { sys with cpus := done }
  | done, cpu :: todo, sys =>
    match sys.cpuBody cpu with
    | none => none
    | some r => System.cpuLoop (done ++ [r.1]) todo r.2

def System.cpuPass (sys : System) : Option System := System.cpuLoop [] sys.cpus sys

/-- The body of the loop over `blocked` for one id: step the process; on a
burst completion retire it or push it to the ready queue and drop the id from
`blocked` (result `true`), otherwise keep it (result `false`).  Dereferencing
the result of `find` fails when the id is absent. -/
def System.blockedBody (sys : System) (id : Nat) : Option (Bool × System) :=
  match sys.PCB_table.lookup id with
  | none => none
  | some p =>
    if p.step.1 then
      if p.step.2.bursts.empty then
        some (true, { sys with
          retired := sys.retired ++ [p.step.2]
          PCB_table := (sys.PCB_table.store id p.step.2).erase id })
      else
        match sys.ready.push id p.step.2.prio with
        | none => none
        | some r =>
          some (true, { sys with
            ready := r
            PCB_table := sys.PCB_table.store id { p.step.2 with state := ProcessState.ready } })
    else
      some (false, { sys with PCB_table := sys.PCB_table.store id p.step.2 })

/-- The loop over `blocked`: `kept` holds the ids passed and kept, `todo` those
still to visit. -/
def System.blockedLoop : List Nat → List Nat → System → Option System
  | kept, [], sys => some { sys with blocked := kept }
  | kept, id :: todo, sys =>
    match sys.blockedBody id with
    | none => none
    | some r => System.blockedLoop (if r.1 then kept else kept ++ [id]) todo r.2

def System.blockedPass (sys : System) : Option System :=
  System.blockedLoop [] sys.blocked sys

/-- The loop `for(auto id : ready) PCB_table.at(id).step();` over the visited
ids. -/
def System.readyLoop : List Nat → System → Option System
  | [], sys => some sys
  | id :: todo, sys =>
    match sys.PCB_table.lookup id with
    | none => none
    | some p => System.readyLoop todo { sys with PCB_table := sys.PCB_table.store id p.step.2 }

def System.readyPass (sys : System) : Option System :=
  match sys.ready.visited with
  | none => none
  | some ids => System.readyLoop ids sys

/-- The loop over `process_entry_timers` at clock `s`: `kept` holds the timers
stepped and kept, `todo` those still to step. -/
def System.arrivalLoop (s : Nat) :
    List (Timer ProcessInit) → List (Timer ProcessInit) → System → Option System
  | kept, [], sys => some { sys with process_entry_timers := kept }
  | kept, t :: todo, sys =>
    match t.step with
    | none => none
    | some r =>
      if r.1 then
        match sys.addProcess r.2.getData s with
        | none => none
        | some sys1 => System.arrivalLoop s kept todo sys1
      else System.arrivalLoop s (kept ++ [r.2]) todo sys

def System.arrivalPass (sys : System) (s : Nat) : Option System :=
  System.arrivalLoop s [] sys.process_entry_timers sys

/-- One round of the loop of `System::simulate`, at clock `s`. -/
def System.tick (sys : System) (s : Nat) : Option System :=
  match sys.cpuPass with
  | none => none
  | some sys1 =>
    match sys1.blockedPass with
    | none => none
    | some sys2 =>
      match sys2.readyPass with
      | none => none
      | some sys3 => sys3.arrivalPass s

/-- The condition of the loop of `System::simulate`. -/
def System.running (sys : System) (s : Nat) : Bool :=
  decide (s < STEP_MAX) && !(sys.PCB_table.empty && sys.process_entry_timers.isEmpty)

/-- The loop of `System::simulate` from clock `s` on, for at most `fuel`
rounds: the system and the clock when the loop stops. -/
def System.loop : Nat → Nat → System → Option (System × Nat)
  | 0, s, sys => some (sys, s)
  | fuel + 1, s, sys =>
    if sys.running s then
      match sys.tick s with
      | none => none
      | some sys1 => System.loop fuel (s + 1) sys1
    else some (sys, s)

/-- The first statement of `System::simulate`: one entry timer per plan. -/
def System.startTimers (sys : System) (data_files : List ProcessPlan) : System :=
  { sys with process_entry_timers :=
      sys.process_entry_timers ++ data_files.map fun plan => Timer.init plan.arrival plan.init }

/-- The method `System::simulate(data_files)`; the clock never passes
`STEP_MAX`, so `STEP_MAX` rounds are all the loop can make. -/
def System.simulate (sys : System) (data_files : List ProcessPlan) : Option (System × Nat) :=
  System.loop STEP_MAX 0 (sys.startTimers data_files)

/-- The system after `n` rounds from clock `s`, whatever the loop condition. -/
def System.ticks : Nat → Nat → System → Option System
  | 0, _, sys => some sys
  | n + 1, s, sys =>
    match sys.tick s with
    | none => none
    | some sys1 => System.ticks n (s + 1) sys1

/-- The methods `ProcessStats::getTurnaround` and `ProcessStats::getWait`. -/
def ProcessStats.getTurnaround (ps : ProcessStats) : Nat := ps.hist.duration

def ProcessStats.getWait (ps : ProcessStats) : Nat :=
  (((ps.hist.durationOf ProcessState.ready + ps.hist.durationOf ProcessState.switching)
      % STEP_MOD) + ps.hist.durationOf ProcessState.exit) % STEP_MOD

/-- The return values of `n` successive calls of `CPU::step`, with the unit and
the table after them; `none` once a call has failed. -/
def CPU.stepReturns : Nat → CPU → PCBTable → Option (List Bool × CPU × PCBTable)
  | 0, c, tbl => some ([], c, tbl)
  | n + 1, c, tbl =>
    match c.step tbl with
    | none => none
    | some r =>
      match CPU.stepReturns n r.2.1 r.2.2 with
      | none => none
      | some rest => some (r.1 :: rest.1, rest.2.1, rest.2.2)

/-- A table with two processes, under keys 0 and 1. -/
def twoProcessTable : PCBTable :=
  { entries := [(0, samplePCB),
      (1, PCB.init { id := 1, prio := 0, bursts := { bursts := [4] } } 0)] }

/-- What holds of an FCFS unit and the table throughout a run: an assigned unit
points to an entry of the table whose key is the id of the process and the
unit's `last_id`; the process of a unit in `switching_out` has state `exit` and
no burst left; the process of a unit in `processing` is `running` and that of a
unit in `assigned_idle` is `blocked`. -/
def CPU.fcfsInv (c : CPU) (tbl : PCBTable) : Prop :=
  c.settings.RR_TIME = 0 ∧
  (c.getState ≠ CPUState.idle →
    ∃ key p, c.proc = some key ∧ c.last_id = key ∧ tbl.lookup key = some p ∧ p.id = key ∧
      (c.getState = CPUState.switching_out →
        p.state = ProcessState.exit ∧ p.bursts.empty = true) ∧
      (c.getState = CPUState.processing → p.state = ProcessState.running) ∧
      (c.getState = CPUState.assigned_idle → p.state = ProcessState.blocked))

/-- FCFS settings with switch-in delay 1 and switch-out delay 1. -/
def fcfsOne : SystemSettings :=
  { RR_TIME := 0, SWITCHING_IN_DELAY := 1, SWITCHING_OUT_DELAY := 1 }

/-- A process with the single burst `[1 CPU]`. -/
def oneTickPCB : PCB := PCB.init { id := 0, prio := 0, bursts := { bursts := [1] } } 0

/-- The unit after `assign 0, step, step` under `fcfsOne` on `oneTickPCB`. -/
def fcfsFinalCPU : CPU :=
  { proc := some 0, last_id := 0, t := Timer.init 1 CPUState.switching_out, settings := fcfsOne,
    stats := { id := 0, hist := { trace :=
      [{ state := CPUState.switching_in, duration := 1 },
       { state := CPUState.processing, duration := 1 }] } } }

/-- The table after `assign 0, step, step` under `fcfsOne` on `oneTickPCB`. -/
def fcfsFinalTable : PCBTable :=
  tableOf { oneTickPCB with
    state := ProcessState.exit
    bursts := { bursts := [], processing := false }
    stats := { oneTickPCB.stats with hist := { trace :=
      [{ state := ProcessState.switching, duration := 1 },
       { state := ProcessState.running, duration := 1 }] } } }

/-! ## How a run changes the process records -/

/-- The changes a process record undergoes while it is in the table: calls of
`PCB::step` and writes of its lifecycle state, a write of `exit` only when no
burst is left (`CPU::deassign`). -/
inductive PCB.Moves : PCB → PCB → Prop where
  | refl (p : PCB) : PCB.Moves p p
  | step (p q : PCB) : PCB.Moves p q → PCB.Moves p q.step.2
  | setState (p q : PCB) (s : ProcessState) : PCB.Moves p q →
      (s = ProcessState.exit → q.bursts.empty = true) → PCB.Moves p { q with state := s }

/-- The changes the table and the retired collection undergo in the unit pass,
the blocked pass and the ready pass: a record of the table is changed in place;
a record whose state is `exit` or which has no burst left is moved from the
table to the end of `retired`. -/
inductive TableMoves : PCBTable → List PCB → PCBTable → List PCB → Prop where
  | refl (tbl : PCBTable) (ret : List PCB) : TableMoves tbl ret tbl ret
  | store (tbl : PCBTable) (ret : List PCB) (tbl1 : PCBTable) (ret1 : List PCB)
      (key : Nat) (p q : PCB) : TableMoves tbl ret tbl1 ret1 → tbl1.lookup key = some p →
      PCB.Moves p q → TableMoves tbl ret (tbl1.store key q) ret1
  | retire (tbl : PCBTable) (ret : List PCB) (tbl1 : PCBTable) (ret1 : List PCB)
      (key : Nat) (p : PCB) : TableMoves tbl ret tbl1 ret1 → tbl1.lookup key = some p →
      (p.state = ProcessState.exit ∨ p.bursts.empty = true) →
      TableMoves tbl ret (tbl1.erase key) (ret1 ++ [p])

/-- The table and the retired collection of `sys1` come from those of `sys` by
such changes. -/
def System.Evolves (sys sys1 : System) : Prop :=
  TableMoves sys.PCB_table sys.retired sys1.PCB_table sys1.retired

/-! ## Scenarios -/

/-- Settings with one unit, quantum `q`, switch-in delay `i` and switch-out
delay `o`. -/
def oneUnit (q i o : Nat) : SystemSettings :=
  { CPU_COUNT := 1, PROCESS_COUNT := 1, RR_TIME := q, SWITCHING_IN_DELAY := i,
    SWITCHING_OUT_DELAY := o }

/-- Scenario A: one process, id 0, priority 0, bursts `[5 CPU, 3 I/O, 2 CPU]`,
arriving at `a`. -/
def scenarioA (a : Nat) : List ProcessPlan :=
  [{ arrival := a, init := { id := 0, prio := 0, bursts := { bursts := [5, 3, 2] } } }]

/-- Scenario B: processes A (id 0) and B (id 1), priority 0, one CPU burst of 5
ticks each, both arriving at `a`. -/
def scenarioB (a : Nat) : List ProcessPlan :=
  [{ arrival := a, init := { id := 0, prio := 0, bursts := { bursts := [5] } } },
   { arrival := a, init := { id := 1, prio := 0, bursts := { bursts := [5] } } }]

/-- What a run shows of one retired process: id, `started` and trace. -/
structure RetiredReport where
  id : Nat
  started : Nat
  trace : List (Period ProcessState)
  deriving DecidableEq

/-- What a finished run shows: the clock at which the loop stopped, every
retired process in retirement order, the trace of every unit, and the numbers of
processes left in the table and of pending arrival timers. -/
structure RunReport where
  clock : Nat
  retired : List RetiredReport
  units : List (List (Period CPUState))
  inTable : Nat
  pending : Nat
  deriving DecidableEq

def System.report (r : System × Nat) : RunReport :=
  { clock := r.2,
    retired := r.1.retired.map
      (fun p => { id := p.id, started := p.stats.started, trace := p.stats.hist.trace }),
    units := r.1.cpus.map (fun c => c.stats.hist.trace),
    inTable := r.1.PCB_table.entries.length,
    pending := r.1.process_entry_timers.length }

/-- What the arrival pass keeps of a timer: the timer after its step when the
step succeeded and returned false, nothing when it returned true. -/
def Timer.kept {T : Type} (t : Timer T) : Option (Timer T) :=
  t.step.bind fun r => if r.1 then none else some r.2

/-! ## What the containers of a system hold -/

/-- The keys of the process table, in table order. -/
def PCBTable.keys (tbl : PCBTable) : List Nat := tbl.entries.map fun e => e.1

/-- The ids held by a ready queue, bucket 0 first, each bucket front first. -/
def ReadyPriorityQueue.ids {T : Type} (q : ReadyPriorityQueue T) : List T := q.queues.flatten

/-! ## The layout of a system -/

/-- The ids bound to units, in unit order. -/
def boundIds (cpus : List CPU) : List Nat := cpus.filterMap fun c => c.proc

/-- A unit is idle exactly when it is bound to no process, and the id it
remembers is the key of the process it is bound to. -/
def CPU.tidy (c : CPU) : Prop :=
  (c.getState = CPUState.idle ↔ c.proc = none) ∧ ∀ k, c.proc = some k → c.last_id = k

/-- The table has no key twice, every record sits under its own id, and the
ids `ids` are exactly the keys, each once. -/
def Placed (tbl : PCBTable) (ids : List Nat) : Prop :=
  tbl.keys.Nodup ∧ (∀ e ∈ tbl.entries, e.2.id = e.1) ∧ ids.Perm tbl.keys

/-- The layout of a system between two rounds: every process of the table is
in exactly one place, bound to a unit, in the ready queue or in the blocked
list, and nothing else is in any of them; the units are tidy; the pending
timers carry distinct ids, none of which is in the table. -/
def System.Layout (sys : System) : Prop :=
  Placed sys.PCB_table (boundIds sys.cpus ++ (sys.ready.ids ++ sys.blocked)) ∧
  (∀ c ∈ sys.cpus, c.tidy) ∧
  (sys.process_entry_timers.map fun t => t.data.id).Nodup ∧
  ∀ t ∈ sys.process_entry_timers, sys.PCB_table.lookup t.data.id = none

/-! ## What keeps a run from a contract violation -/

/-- The unit has switch delays of at least 1, and when its next step will step
its timer (it is assigned, and the discipline is round-robin or the unit is
switching), the timer has not expired. -/
def CPU.armed (c : CPU) : Prop :=
  1 ≤ c.settings.SWITCHING_IN_DELAY ∧ 1 ≤ c.settings.SWITCHING_OUT_DELAY ∧
  (c.getState ≠ CPUState.idle →
    (c.settings.RR_TIME ≠ 0 ∨ c.getState = CPUState.switching_in ∨
      c.getState = CPUState.switching_out) → 1 ≤ c.t.count)

/-- Every record of the table has a priority the ready queue has a queue
for. -/
def PCBTable.prioOK (tbl : PCBTable) : Prop := ∀ e ∈ tbl.entries, e.2.prio ≤ MAX_PRIO

/-- The units are armed, the ready queue has its `MAX_PRIO + 1` queues, the
priorities in the table and on the timers are at most `MAX_PRIO`, and no
pending timer has expired. -/
def System.Safe (sys : System) : Prop :=
  (∀ c ∈ sys.cpus, c.armed) ∧
  sys.ready.queues.length = MAX_PRIO + 1 ∧
  sys.PCB_table.prioOK ∧
  (∀ t ∈ sys.process_entry_timers, 1 ≤ t.count ∧ t.data.prio ≤ MAX_PRIO)

/-! ## The roles of the processes and the account of their bursts -/

/-- Every remaining burst is a positive `Step`. -/
def ProcessBursts.valid (b : ProcessBursts) : Prop := ∀ x ∈ b.bursts, 1 ≤ x ∧ x < STEP_MOD

/-- The sum, over the naturals, of the I/O-kind elements of a burst sequence
whose head is a CPU burst iff `f`. -/
def ioKindSum (f : Bool) (bs : List Nat) : Nat := cpuKindSum (!f) bs

/-- The account of a record: the recorded time in state `running` plus the
CPU time still to run is the CPU time of the original plan, and the recorded
time in state `blocked` plus the I/O time still to wait is the I/O time of the
original plan, both in `Step` arithmetic. -/
def PCB.accounted (p : PCB) : Prop :=
  (p.stats.hist.durationOf ProcessState.running +
      cpuKindSum p.bursts.processing p.bursts.bursts) % STEP_MOD =
    cpuKindSum p.stats.plan.processing p.stats.plan.bursts % STEP_MOD ∧
  (p.stats.hist.durationOf ProcessState.blocked +
      ioKindSum p.bursts.processing p.bursts.bursts) % STEP_MOD =
    ioKindSum p.stats.plan.processing p.stats.plan.bursts % STEP_MOD

/-- The remaining bursts are valid and the account holds. -/
def PCB.sound (p : PCB) : Prop := p.bursts.valid ∧ p.accounted

/-- A burst is left and the head is a CPU burst. -/
def PCB.cpuAhead (p : PCB) : Prop := p.bursts.bursts ≠ [] ∧ p.bursts.processing = true

/-- A burst is left and the head is an I/O burst. -/
def PCB.ioAhead (p : PCB) : Prop := p.bursts.bursts ≠ [] ∧ p.bursts.processing = false

/-- The role of a process in the ready queue. -/
def PCB.waiting (p : PCB) : Prop := p.state = ProcessState.ready ∧ p.cpuAhead

/-- The role of a process in the blocked list, or held by a unit during an
I/O burst. -/
def PCB.sleeping (p : PCB) : Prop := p.state = ProcessState.blocked ∧ p.ioAhead

/-- The role of a process a unit is switching out or has just released. -/
def PCB.leaving (p : PCB) : Prop :=
  (p.state = ProcessState.exit ∧ p.bursts.bursts = []) ∨
  (p.state = ProcessState.switching ∧ p.bursts.bursts ≠ [])

/-- The role of the process bound to a unit, by the state of the unit. -/
def CPU.serves (c : CPU) (p : PCB) : Prop :=
  match c.getState with
  | CPUState.idle => True
  | CPUState.switching_in => p.state = ProcessState.switching ∧ p.cpuAhead
  | CPUState.processing => p.state = ProcessState.running ∧ p.cpuAhead
  | CPUState.assigned_idle => p.sleeping
  | CPUState.switching_out => p.leaving

/-- The roles of the processes of the table by their places: every record is
sound; the process bound to a unit is in the role the unit serves; the
processes of the ready queue are waiting and those of the blocked list are
sleeping. -/
def Roles (cpus : List CPU) (tbl : PCBTable) (ready : ReadyPriorityQueue Nat)
    (blocked : List Nat) : Prop :=
  (∀ k p, tbl.lookup k = some p → p.sound) ∧
  (∀ c ∈ cpus, ∀ k p, c.proc = some k → tbl.lookup k = some p → c.serves p) ∧
  (∀ k ∈ ready.ids, ∀ p, tbl.lookup k = some p → p.waiting) ∧
  (∀ k ∈ blocked, ∀ p, tbl.lookup k = some p → p.sleeping)

/-- Every retired record has no burst left and is sound. -/
def Finished (retired : List PCB) : Prop := ∀ p ∈ retired, p.bursts.bursts = [] ∧ p.sound

/-- The roles of a system between two rounds, with the retired records
finished and every pending plan non-empty and valid. -/
def System.Sound (sys : System) : Prop :=
  Roles sys.cpus sys.PCB_table sys.ready sys.blocked ∧ Finished sys.retired ∧
  ∀ t ∈ sys.process_entry_timers, t.data.bursts.bursts ≠ [] ∧ t.data.bursts.valid

/-- A property of records holds throughout a system: of every record of the
table, of every retired record, and of the record any pending timer would
create. -/
def System.Keeps (Q : PCB → Prop) (sys : System) : Prop :=
  (∀ k p, sys.PCB_table.lookup k = some p → Q p) ∧ (∀ p ∈ sys.retired, Q p) ∧
  ∀ t ∈ sys.process_entry_timers, ∀ s, Q (PCB.init t.data s)

/-- The record belongs to a plan of the workload: it has the id of the plan
and its `stats.plan` is the burst sequence of the plan. -/
def PCB.fromPlan (plans : List ProcessPlan) (p : PCB) : Prop :=
  ∃ pl ∈ plans, pl.init.id = p.id ∧ p.stats.plan = pl.init.bursts

/-! ## The burst ticks of a process against the clock -/

/-- At most `N` ticks have been taken off the bursts of the record: the
total of the original plan is at most the total still left plus `N`. -/
def PCB.within (N : Nat) (p : PCB) : Prop :=
  p.stats.plan.bursts.sum ≤ p.bursts.bursts.sum + N

/-- During the round of clock `N`: every record of the table has lost at most
`N + 1` burst ticks, and the records of the ids `fresh`, which the round has not
stepped in a burst yet, at most `N`. -/
def Timely (N : Nat) (tbl : PCBTable) (fresh : List Nat) : Prop :=
  (∀ k p, tbl.lookup k = some p → p.within (N + 1)) ∧
  ∀ k ∈ fresh, ∀ p, tbl.lookup k = some p → p.within N

/-- Every retired record has a plan of at most `N` ticks in total. -/
def RetiredBy (N : Nat) (retired : List PCB) : Prop :=
  ∀ p ∈ retired, p.stats.plan.bursts.sum ≤ N

/-- Between two rounds, the clock being `s`: no record has lost more than `s`
burst ticks, and no retired record has a plan of more than `s` ticks. -/
def System.OnTime (sys : System) (s : Nat) : Prop :=
  (∀ k p, sys.PCB_table.lookup k = some p → p.within s) ∧ RetiredBy s sys.retired

/-! ## A history built by calls of `inc` -/

/-- The history after the calls `inc(s)`, for `s` running through `calls` in
order, on an empty history. -/
def History.record {E : Type} [DecidableEq E] (calls : List E) : History E :=
  calls.foldl History.inc {}

/-- The expansion of a trace: every period `(state, duration)` as `duration`
copies of `state`, periods in order. -/
def History.expand {E : Type} (h : History E) : List E :=
  (h.trace.map fun p => List.replicate p.duration p.state).flatten

/-! ## Draining a ready queue -/

/-- The ids obtained by `while(!empty()) { front(); pop(); }`, in order; `fuel`
bounds the number of rounds. -/
def ReadyPriorityQueue.drain {T : Type} : Nat → ReadyPriorityQueue T → Option (List T)
  | 0, q => if q.empty then some [] else none
  | fuel + 1, q =>
    if q.empty then some []
    else
      match q.front, q.pop with
      | some x, some q1 =>
        match ReadyPriorityQueue.drain fuel q1 with
        | none => none
        | some rest => some (x :: rest)
      | _, _ => none

/-- Draining a queue; every round pops one id, so as many rounds as there are
ids suffice. -/
def ReadyPriorityQueue.drained {T : Type} (q : ReadyPriorityQueue T) : Option (List T) :=
  ReadyPriorityQueue.drain q.queues.flatten.length q

/-! ## A unit releasing a process -/

/-- A sample process a round-robin unit is switching out: state `switching`,
bursts `[5 CPU, 3 I/O, 2 CPU]`. -/
def releasedPCB : PCB := { samplePCB with state := ProcessState.switching }

/-- A system under `rrTwo` whose only unit is on the last tick of switching out
the process under key 0. -/
def releasingSystem : System :=
  { System.init rrTwo with
    cpus := [boundCPU rrTwo CPUState.switching_out 1]
    PCB_table := tableOf releasedPCB }

/-- The unit of `releasingSystem` after its step. -/
def releasedCPU : CPU :=
  { proc := none, last_id := 0, t := Timer.init 0 CPUState.idle, settings := rrTwo,
    stats := { id := 0, hist := { trace := [{ state := CPUState.switching_out, duration := 1 }] } } }

/-- The record of `releasingSystem` after the step of the unit. -/
def releasedPCBStepped : PCB :=
  { releasedPCB with
    stats := { releasedPCB.stats with hist := { trace :=
      [{ state := ProcessState.switching, duration := 1 }] } } }

/-- The sum, over the naturals, of the durations of a trace. -/
def History.total {E : Type} (h : History E) : Nat := (h.trace.map fun p => p.duration).sum

/-! ## The census of a system -/

/-- The ids a system knows of: those of the pending timers, the keys of the
table and the ids of the retired records. -/
def System.census (sys : System) : List Nat :=
  (sys.process_entry_timers.map fun t => t.data.id) ++
    (sys.PCB_table.keys ++ sys.retired.map fun p => p.id)

/-! ## The blocked pass, after the words of the specification -/

/-- What the blocked pass makes of a blocked record `p`: the record after its
step when the step completes no burst; nothing (the record leaves the table)
when the step completes the last burst; the record after its step with state
`ready` when the step completes a burst and bursts are left. -/
def PCB.afterBlocked (p : PCB) : Option PCB :=
  if p.step.1 then
    if p.step.2.bursts.empty then none else some { p.step.2 with state := ProcessState.ready }
  else some p.step.2

/-- Does the id stay in the blocked collection: the step of its record
completes no burst. -/
def PCBTable.blockedStays (tbl : PCBTable) (id : Nat) : Bool :=
  match tbl.lookup id with
  | none => false
  | some p => !p.step.1

/-- The record the blocked pass retires for the id, if any: the record after
its step, when the step completes the last burst. -/
def PCBTable.blockedRetires (tbl : PCBTable) (id : Nat) : Option PCB :=
  match tbl.lookup id with
  | none => none
  | some p => if p.step.1 && p.step.2.bursts.empty then some p.step.2 else none

/-- The push the blocked pass makes for the id, if any: the id at the priority
of its record, when the step completes a burst and bursts are left. -/
def PCBTable.blockedPushes (tbl : PCBTable) (id : Nat) : Option (RPQCall Nat) :=
  match tbl.lookup id with
  | none => none
  | some p =>
    if p.step.1 && !p.step.2.bursts.empty then some (RPQCall.push id p.step.2.prio) else none

/-- A blocked record with id `i`, priority `pr` and the bursts `bs`, the head
being an I/O burst. -/
def blockedPCB (i pr : Nat) (bs : List Nat) : PCB :=
  { PCB.init { id := i, prio := pr, bursts := { bursts := bs, processing := false } } 0 with
    state := ProcessState.blocked }

/-- A system with three blocked processes: 0 has three I/O ticks left, 1 has
one I/O tick and then a CPU burst, 2 has one I/O tick and nothing more. -/
def blockedSample : System :=
  { System.init rrTwo with
    PCB_table := { entries :=
      [(0, blockedPCB 0 0 [3, 2]), (1, blockedPCB 1 4 [1, 2]), (2, blockedPCB 2 0 [1])] }
    blocked := [0, 1, 2] }

/-! ## Several units -/

/-- Round-robin settings with `n` units, quantum 2 and switch delays 1. -/
def unitsOf (n : Nat) : SystemSettings :=
  { CPU_COUNT := n, PROCESS_COUNT := 3, RR_TIME := 2, SWITCHING_IN_DELAY := 1,
    SWITCHING_OUT_DELAY := 1 }

/-- Three processes, ids 0, 1, 2, priority 0, one CPU burst of 5 ticks each, all
arriving at 1. -/
def threePlans : List ProcessPlan :=
  [{ arrival := 1, init := { id := 0, prio := 0, bursts := { bursts := [5] } } },
   { arrival := 1, init := { id := 1, prio := 0, bursts := { bursts := [5] } } },
   { arrival := 1, init := { id := 2, prio := 0, bursts := { bursts := [5] } } }]

/-- The unit is assigned and its next step will not signal: it is not on the
last tick of switching out. -/
def CPU.quiet (c : CPU) : Prop :=
  c.getState ≠ CPUState.idle ∧
  (c.getState = CPUState.switching_out → 2 ≤ c.t.count ∧ c.t.count < STEP_MOD)

/-- Three processes, ids 0, 1, 2, priority 0, one CPU burst of 5 ticks each; 0
arrives at 1, and 1 and 2 arrive at 2. -/
def staggeredPlans : List ProcessPlan :=
  [{ arrival := 1, init := { id := 0, prio := 0, bursts := { bursts := [5] } } },
   { arrival := 2, init := { id := 1, prio := 0, bursts := { bursts := [5] } } },
   { arrival := 2, init := { id := 2, prio := 0, bursts := { bursts := [5] } } }]

/-! ## Counting the steps of a record -/

/-- The record `q` comes from the record `p` by `n` calls of `PCB::step` and
any number of writes of the lifecycle state. -/
inductive PCB.StepsTo : Nat → PCB → PCB → Prop where
  | refl (p : PCB) : PCB.StepsTo 0 p p
  | step (n : Nat) (p q : PCB) : PCB.StepsTo n p q → PCB.StepsTo (n + 1) p q.step.2
  | setState (n : Nat) (p q : PCB) (s : ProcessState) : PCB.StepsTo n p q →
      PCB.StepsTo n p { q with state := s }

/-- May a period of state `b` come right after a period of state `a` in the
trace of a unit: a unit leaves `idle` for `switching_in`, `switching_in` for
`processing` or `assigned_idle`, these two for each other or for
`switching_out`, and `switching_out` for `idle` or `switching_in`. -/
def CPUState.follows (a b : CPUState) : Bool :=
  match a, b with
  | CPUState.idle, CPUState.switching_in => true
  | CPUState.switching_in, CPUState.processing => true
  | CPUState.switching_in, CPUState.assigned_idle => true
  | CPUState.processing, CPUState.assigned_idle => true
  | CPUState.processing, CPUState.switching_out => true
  | CPUState.assigned_idle, CPUState.processing => true
  | CPUState.assigned_idle, CPUState.switching_out => true
  | CPUState.switching_out, CPUState.idle => true
  | CPUState.switching_out, CPUState.switching_in => true
  | _, _ => false

/-- The states of a unit between the start of a switch-in and the start of the
switch-out. -/
def CPUState.serving (s : CPUState) : Bool :=
  match s with
  | CPUState.switching_in | CPUState.processing | CPUState.assigned_idle => true
  | _ => false

/-- The duration recorded so far in the last period of a trace when that is a
period of state `st`, `0` otherwise. -/
def openTicks (st : CPUState) (trace : List (Period CPUState)) : Nat :=
  match trace.getLast? with
  | none => 0
  | some b => if b.state = st then b.duration else 0

/-- The number of periods of state `st` in a trace. -/
def periodsOf (st : CPUState) (trace : List (Period CPUState)) : Nat :=
  trace.countP fun p => decide (p.state = st)

/-- A switching-in period lasts `I` ticks and a switching-out period `O`
ticks. -/
def Period.exact (I O : Nat) (p : Period CPUState) : Prop :=
  (p.state = CPUState.switching_in → p.duration = I) ∧
  (p.state = CPUState.switching_out → p.duration = O)

/-- What holds of the trace of a unit, the state `st` of the unit and the count
`n` of its timer, between two steps.  Adjacent periods follow each other as the
states of a unit do, and the state of the unit is that of the last period or one
that follows it; every period but the last is exact; a last switching period is
exact unless the unit is still in that state, and then the ticks recorded and the
ticks left on the timer add up to the delay; there are as many switching-in
periods as switching-out periods, plus one while the last period is one between
a switch-in and a switch-out. -/
def TraceInv (I O : Nat) (trace : List (Period CPUState)) (st : CPUState) (n : Nat) : Prop :=
  List.Chain' (fun a b => a.state.follows b.state = true) trace ∧
  (∀ b, trace.getLast? = some b → b.state = st ∨ b.state.follows st = true) ∧
  (trace = [] → st = CPUState.idle ∨ st = CPUState.switching_in) ∧
  (∀ p ∈ trace.dropLast, p.exact I O) ∧
  (st = CPUState.switching_in → openTicks CPUState.switching_in trace + n = I ∧ 1 ≤ n) ∧
  (st ≠ CPUState.switching_in →
    ∀ b, trace.getLast? = some b → b.state = CPUState.switching_in → b.duration = I) ∧
  (st = CPUState.switching_out → openTicks CPUState.switching_out trace + n = O ∧ 1 ≤ n) ∧
  (st ≠ CPUState.switching_out →
    ∀ b, trace.getLast? = some b → b.state = CPUState.switching_out → b.duration = O) ∧
  periodsOf CPUState.switching_in trace =
    periodsOf CPUState.switching_out trace +
      (match trace.getLast? with
       | none => 0
       | some b => if b.state.serving then 1 else 0)

/-- The changes of state and timer count one `CPU::step` can make, the unit
having switch-out delay `O`: from `(st, n)` to `(st1, n1)`. -/
def switchStep (O : Nat) (st : CPUState) (n : Nat) (st1 : CPUState) (n1 : Nat) : Prop :=
  (st = CPUState.idle ∧ st1 = CPUState.idle) ∨
  (st = CPUState.switching_in ∧
    ((n = 1 ∧ (st1 = CPUState.processing ∨ st1 = CPUState.assigned_idle)) ∨
     (2 ≤ n ∧ st1 = CPUState.switching_in ∧ n1 = n - 1))) ∨
  (st = CPUState.switching_out ∧
    ((n = 1 ∧ st1 = CPUState.idle) ∨ (2 ≤ n ∧ st1 = CPUState.switching_out ∧ n1 = n - 1))) ∨
  ((st = CPUState.processing ∨ st = CPUState.assigned_idle) ∧
    (st1 = CPUState.processing ∨ st1 = CPUState.assigned_idle ∨
      (st1 = CPUState.switching_out ∧ n1 = O)))

/-- The invariant of the switching periods, for a unit with switch-in delay
`I` and switch-out delay `O`. -/
def CPU.switchInv (I O : Nat) (c : CPU) : Prop :=
  c.settings.SWITCHING_IN_DELAY = I ∧ c.settings.SWITCHING_OUT_DELAY = O ∧
  TraceInv I O c.stats.hist.trace c.getState c.t.count

/-- A workload with an I/O burst: process 0 with bursts `[2 CPU, 3 I/O, 2 CPU]`,
processes 1 and 2 with one CPU burst each, all of priority 0 arriving at 1. -/
def mixedPlans : List ProcessPlan :=
  [{ arrival := 1, init := { id := 0, prio := 0, bursts := { bursts := [2, 3, 2] } } },
   { arrival := 1, init := { id := 1, prio := 0, bursts := { bursts := [5] } } },
   { arrival := 1, init := { id := 2, prio := 0, bursts := { bursts := [4] } } }]

/-! ## A zero switch-in delay -/

/-- The unit has switch-in delay 0 and, when it is assigned, it is in state
`switching_in` on an expired timer. -/
def CPU.unarmed (c : CPU) : Prop :=
  c.settings.SWITCHING_IN_DELAY = 0 ∧
  (c.assigned = true → c.getState = CPUState.switching_in ∧ c.t.count = 0)

/-- Some record of the table is in state `switching`. -/
def PCBTable.hasSwitching (tbl : PCBTable) : Prop :=
  ∃ k p, tbl.lookup k = some p ∧ p.state = ProcessState.switching

/-- A workload whose only process arrives at `2^32 - 2`: id 0, priority 0, one
CPU burst of 5 ticks. -/
def latePlans : List ProcessPlan :=
  [{ arrival := 4294967294, init := { id := 0, prio := 0, bursts := { bursts := [5] } } }]

/-- The system of one unit with zero switch-in delay (FCFS, switch-out delay 1)
while the process of `latePlans` is still to arrive: the unit is idle with
trace `hist`, nothing is in the table, and the arrival timer has `k` ticks
left. -/
def waitingSystem (hist : History CPUState) (k : Nat) : System :=
  { System.init (oneUnit 0 0 1) with
    cpus := [{ CPU.init (oneUnit 0 0 1) 0 with stats := { id := 0, hist := hist } }]
    process_entry_timers :=
      [Timer.init k { id := 0, prio := 0, bursts := { bursts := [5] } }] }

/-! ## When the scheduler assigns -/

/-- The unit is idle exactly when it is bound to no process. -/
def CPU.coherent (c : CPU) : Prop := c.getState = CPUState.idle ↔ c.proc = none

/-! ## Theorems -/

/-! ### Timer -/

/-- Decrementing a non-zero `Step` does not wrap. -/
theorem step_pred_eq (n : Nat) (h1 : 1 ≤ n) (hr : n < STEP_MOD) :
    (n + (STEP_MOD - 1)) % STEP_MOD = n - 1 := by
  have hm : STEP_MOD = 4294967296 := rfl
  rw [hm] at hr ⊢
  omega

theorem Timer.step_init_pos {T : Type} (n : Nat) (tag : T) (h1 : 1 ≤ n) (hr : n < STEP_MOD) :
    Timer.step (Timer.init n tag) = some (decide (n - 1 = 0), Timer.init (n - 1) tag) := by
  have hc := step_pred_eq n h1 hr
  have h0 : n ≠ 0 := by omega
  simp [Timer.step, Timer.init, h0, hc]

theorem Timer.stepN_init {T : Type} (tag : T) :
    ∀ (k n : Nat), k ≤ n → n < STEP_MOD →
      Timer.stepN k (Timer.init n tag) = some (Timer.init (n - k) tag) := by
  intro k
  induction k with
  | zero => intro n _ _; simp [Timer.stepN]
  | succ k ih =>
    intro n hk hr
    have h1 : 1 ≤ n := by omega
    have hr1 : n - 1 < STEP_MOD := by omega
    have hk1 : k ≤ n - 1 := by omega
    rw [Timer.stepN, Timer.step_init_pos n tag h1 hr]
    simp only [Option.some_bind]
    rw [ih (n - 1) hk1 hr1]
    have he : n - 1 - k = n - (k + 1) := by omega
    rw [he]

/-- C2: for a timer constructed with count `n ≥ 1` (a `Step` value) and tag
`tag`, every one of the first `n` calls of `step()` succeeds; call number
`k + 1` returns `true` exactly when `k + 1 = n`, so calls `1 .. n-1` return
false and call `n` returns true; `getData()` is `tag` before and after every
one of these calls. -/
theorem Timer.fires_on_nth_step {T : Type} (n : Nat) (tag : T) (h1 : 1 ≤ n)
    (hr : n < STEP_MOD) :
    (∀ k, k < n → ∃ t t1, Timer.stepN k (Timer.init n tag) = some t ∧ t.getData = tag ∧
      Timer.step t = some (decide (k + 1 = n), t1) ∧ t1.getData = tag) ∧
    (∃ t t1, Timer.stepN (n - 1) (Timer.init n tag) = some t ∧
      Timer.step t = some (true, t1)) := by
  have hall : ∀ k, k < n → ∃ t t1, Timer.stepN k (Timer.init n tag) = some t ∧
      t.getData = tag ∧ Timer.step t = some (decide (k + 1 = n), t1) ∧ t1.getData = tag := by
    intro k hk
    have hs := Timer.stepN_init tag k n (Nat.le_of_lt hk) hr
    have h2 : 1 ≤ n - k := by omega
    have h3 : n - k < STEP_MOD := by omega
    refine ⟨Timer.init (n - k) tag, Timer.init (n - k - 1) tag, hs, rfl, ?_, rfl⟩
    rw [Timer.step_init_pos (n - k) tag h2 h3]
    have : (n - k - 1 = 0) ↔ (k + 1 = n) := by omega
    simp [this]
  refine ⟨hall, ?_⟩
  obtain ⟨t, t1, hs, _, hst, _⟩ := hall (n - 1) (by omega)
  have hn : n - 1 + 1 = n := by omega
  refine ⟨t, t1, hs, ?_⟩
  rw [hst]
  simp [hn]

theorem Timer.fires_on_nth_step_witness :
    (∀ k, k < 3 → ∃ t t1, Timer.stepN k (Timer.init 3 CPUState.switching_in) = some t ∧
      t.getData = CPUState.switching_in ∧
      Timer.step t = some (decide (k + 1 = 3), t1) ∧ t1.getData = CPUState.switching_in) ∧
    (∃ t t1, Timer.stepN (3 - 1) (Timer.init 3 CPUState.switching_in) = some t ∧
      Timer.step t = some (true, t1)) :=
  Timer.fires_on_nth_step 3 CPUState.switching_in (by decide) (by decide)

/-! ### ProcessBursts -/

theorem ProcessBursts.step_of_nil (b : ProcessBursts) (he : b.bursts = []) :
    b.step = (false, b) := by
  simp [ProcessBursts.step, he]

theorem ProcessBursts.step_of_ge_two (b : ProcessBursts) (h : Nat) (tl : List Nat)
    (hb : b.bursts = h :: tl) (hr : h < STEP_MOD) (h2 : 2 ≤ h) :
    b.step = (false, { bursts := (h - 1) :: tl, processing := b.processing }) := by
  have hc := step_pred_eq h (by omega) hr
  have hne : h - 1 ≠ 0 := by omega
  simp [ProcessBursts.step, hb, hc, hne]

theorem ProcessBursts.step_of_one (b : ProcessBursts) (tl : List Nat)
    (hb : b.bursts = 1 :: tl) :
    b.step = (true, { bursts := tl, processing := !b.processing }) := by
  simp [ProcessBursts.step, hb, ProcessBursts.pop, STEP_MOD]

/-- C3: `ProcessBursts::step()` returns false and changes nothing on an empty
sequence; with head `h ≥ 2` it returns false and only lowers the head to
`h - 1`; with head `1` it returns true, removes the head, keeps the tail and
flips the processing flag. -/
theorem ProcessBursts.bursts_step_spec (b : ProcessBursts) :
    (b.bursts = [] → b.step = (false, b)) ∧
    (∀ h tl, b.bursts = h :: tl → h < STEP_MOD →
      (2 ≤ h → b.step = (false, { bursts := (h - 1) :: tl, processing := b.processing })) ∧
      (h = 1 → b.step = (true, { bursts := tl, processing := !b.processing }))) := by
  refine ⟨ProcessBursts.step_of_nil b, ?_⟩
  intro h tl hb hr
  refine ⟨ProcessBursts.step_of_ge_two b h tl hb hr, ?_⟩
  intro h1
  subst h1
  exact ProcessBursts.step_of_one b tl hb

theorem ProcessBursts.bursts_step_spec_witness :
    (({ bursts := [3, 4], processing := true } : ProcessBursts).step =
        (false, { bursts := [2, 4], processing := true })) ∧
    (({ bursts := [1, 4], processing := true } : ProcessBursts).step =
        (true, { bursts := [4], processing := false })) :=
  ⟨((ProcessBursts.bursts_step_spec { bursts := [3, 4], processing := true }).2 3 [4] rfl
      (by decide)).1 (by decide),
   ((ProcessBursts.bursts_step_spec { bursts := [1, 4], processing := true }).2 1 [4] rfl
      (by decide)).2 rfl⟩

/-! ### stepsRemaining -/

theorem cpuKindSum_nil (f : Bool) : cpuKindSum f [] = 0 := by
  simp [cpuKindSum]

theorem cpuKindSum_cons (f : Bool) (x : Nat) (xs : List Nat) :
    cpuKindSum f (x :: xs) = (if f then x else 0) + cpuKindSum (!f) xs := by
  have hp : ∀ e : Nat × Nat,
      (decide ((Prod.map (· + 1) id e).1 % 2 = 0) == f) = (decide (e.1 % 2 = 0) == !f) := by
    intro e
    rcases Nat.mod_two_eq_zero_or_one e.1 with h | h <;> cases f <;>
      simp [Prod.map, Nat.add_mod, h]
  unfold cpuKindSum
  rw [List.enum_cons', List.filter_cons, List.filter_map]
  have hf : ((fun e : Nat × Nat => decide (e.1 % 2 = 0) == f) ∘ Prod.map (· + 1) id)
      = fun e : Nat × Nat => decide (e.1 % 2 = 0) == !f := by
    funext e
    exact hp e
  rw [hf]
  cases f <;> simp [List.map_map, Function.comp_def, Prod.map]

theorem ProcessBursts.stepsRemainingLoop_eq (bs : List Nat) (total : Nat)
    (ht : total < STEP_MOD) :
    ProcessBursts.stepsRemainingLoop bs total = (total + cpuKindSum true bs) % STEP_MOD := by
  induction bs, total using ProcessBursts.stepsRemainingLoop.induct with
  | case1 total =>
    simp [ProcessBursts.stepsRemainingLoop, cpuKindSum_nil, Nat.mod_eq_of_lt ht]
  | case2 x total =>
    simp [ProcessBursts.stepsRemainingLoop, cpuKindSum_cons, cpuKindSum_nil]
  | case3 x y rest total ih =>
    have hlt : (total + x) % STEP_MOD < STEP_MOD := Nat.mod_lt _ (by decide)
    rw [ProcessBursts.stepsRemainingLoop, ih hlt]
    simp only [cpuKindSum_cons, Bool.not_true, Bool.not_false, Bool.false_eq_true, if_true, if_false]
    rw [Nat.mod_add_mod]
    congr 1
    omega

/-- C4 (amended): on a non-empty burst sequence `stepsRemaining()` returns the
sum of the CPU-kind elements (element `i` is CPU-kind iff `(i is even) == f`)
reduced modulo `2^32`, the range of `Step`; it is the sum itself whenever
that sum is below `2^32`, in particular `0` when no CPU-kind element remains. -/
theorem ProcessBursts.stepsRemaining_eq_sum_mod (b : ProcessBursts) (hne : b.bursts ≠ []) :
    b.stepsRemaining = some (cpuKindSum b.processing b.bursts % STEP_MOD) ∧
    (cpuKindSum b.processing b.bursts < STEP_MOD →
      b.stepsRemaining = some (cpuKindSum b.processing b.bursts)) := by
  have h0 : (0 : Nat) < STEP_MOD := by decide
  have hmain : b.stepsRemaining = some (cpuKindSum b.processing b.bursts % STEP_MOD) := by
    obtain ⟨bs, f⟩ := b
    cases bs with
    | nil => exact absurd rfl hne
    | cons x rest =>
      cases f
      · simp [ProcessBursts.stepsRemaining, ProcessBursts.stepsRemainingLoop_eq _ _ h0,
          cpuKindSum_cons]
      · simp [ProcessBursts.stepsRemaining, ProcessBursts.stepsRemainingLoop_eq _ _ h0]
  refine ⟨hmain, fun hlt => ?_⟩
  rw [hmain, Nat.mod_eq_of_lt hlt]

theorem ProcessBursts.stepsRemaining_eq_sum_mod_witness :
    (({ bursts := [5, 3, 2], processing := true } : ProcessBursts).stepsRemaining
        = some (cpuKindSum true [5, 3, 2])) ∧ cpuKindSum true [5, 3, 2] = 7 :=
  ⟨(ProcessBursts.stepsRemaining_eq_sum_mod { bursts := [5, 3, 2], processing := true }
      (by decide)).2 (by decide), by decide⟩

/-- C4 as stated fails: with bursts `[2^31, 1, 2^31]` and a CPU-kind head the
CPU-kind sum is `2^32` while `stepsRemaining()` returns `0`. -/
theorem ProcessBursts.stepsRemaining_wraps :
    ¬ (∀ b : ProcessBursts, b.bursts ≠ [] →
        b.stepsRemaining = some (cpuKindSum b.processing b.bursts)) := by
  intro h
  have h1 := h { bursts := [2147483648, 1, 2147483648], processing := true } (by decide)
  revert h1
  decide

/-! ### ReadyPriorityQueue -/

theorem bucketsOf_length {T : Type} (pend : List (T × Nat)) :
    (bucketsOf pend).length = MAX_PRIO + 1 := by
  simp [bucketsOf]

theorem bucketsOf_getElem? {T : Type} (pend : List (T × Nat)) (i : Nat) (hi : i ≤ MAX_PRIO) :
    (bucketsOf pend)[i]? = some ((pend.filter fun e => decide (e.2 = i)).map fun e => e.1) := by
  have : i < MAX_PRIO + 1 := by omega
  simp [bucketsOf, List.getElem?_map, List.getElem?_range this]

theorem bucketsOf_nil {T : Type} :
    (ReadyPriorityQueue.init MAX_PRIO : ReadyPriorityQueue T) = { queues := bucketsOf [] } := by
  simp [ReadyPriorityQueue.init, bucketsOf, MAX_PRIO]

theorem bucketsOf_push {T : Type} (pend : List (T × Nat)) (v : T) (p : Nat) (hp : p ≤ MAX_PRIO) :
    ReadyPriorityQueue.push { queues := bucketsOf pend } v p
      = some { queues := bucketsOf (pend ++ [(v, p)]) } := by
  simp only [ReadyPriorityQueue.push, bucketsOf_getElem? pend p hp]
  congr 2
  apply List.ext_getElem
  · simp [bucketsOf]
  · intro n h1 h2
    simp only [bucketsOf, List.getElem_set, List.getElem_map, List.getElem_range,
      List.filter_append, List.map_append]
    by_cases hpn : p = n
    · subst hpn
      simp
    · have : ¬ (p = n) := hpn
      simp [hpn]


/-- Every non-empty list of entries splits around its earliest entry of
smallest priority number. -/
theorem exists_first_min {T : Type} (pend : List (T × Nat)) (hne : pend ≠ []) :
    ∃ pre x post, pend = pre ++ x :: post ∧ (∀ y ∈ pre, x.2 < y.2) ∧ (∀ y ∈ post, x.2 ≤ y.2) := by
  induction pend with
  | nil => exact absurd rfl hne
  | cons a l ih =>
    by_cases hl : l = []
    · subst hl
      exact ⟨[], a, [], rfl, by simp, by simp⟩
    · obtain ⟨pre, x, post, hsplit, hpre, hpost⟩ := ih hl
      by_cases hax : a.2 ≤ x.2
      · refine ⟨[], a, l, rfl, by simp, ?_⟩
        intro y hy
        rw [hsplit] at hy
        rcases List.mem_append.mp hy with h | h
        · have := hpre y h
          omega
        · rcases List.mem_cons.mp h with h | h
          · subst h
            exact hax
          · have := hpost y h
            omega
      · refine ⟨a :: pre, x, post, by simp [hsplit], ?_, hpost⟩
        intro y hy
        rcases List.mem_cons.mp hy with h | h
        · subst h
          omega
        · exact hpre y h

theorem filter_prio_eq_nil {T : Type} (l : List (T × Nat)) (i : Nat)
    (h : ∀ y ∈ l, y.2 ≠ i) : (l.filter fun e => decide (e.2 = i)) = [] := by
  rw [List.filter_eq_nil_iff]
  intro y hy
  simpa using h y hy

theorem bucketsOf_split_at {T : Type} (pre post : List (T × Nat)) (v : T) (p : Nat)
    (hpre : ∀ y ∈ pre, p < y.2) :
    ((pre ++ (v, p) :: post).filter fun e => decide (e.2 = p)).map (fun e => e.1)
      = v :: ((pre ++ post).filter fun e => decide (e.2 = p)).map (fun e => e.1) := by
  have h1 : (pre.filter fun e => decide (e.2 = p)) = [] :=
    filter_prio_eq_nil pre p (fun y hy => by have := hpre y hy; omega)
  simp [List.filter_append, h1, List.filter_cons]

theorem bucketsOf_split_other {T : Type} (pre post : List (T × Nat)) (v : T) (p i : Nat)
    (hi : i ≠ p) :
    ((pre ++ (v, p) :: post).filter fun e => decide (e.2 = i))
      = ((pre ++ post).filter fun e => decide (e.2 = i)) := by
  have : ¬ (p = i) := fun h => hi h.symm
  simp [List.filter_append, List.filter_cons, this]

theorem bucketsOf_below_nil {T : Type} (pre post : List (T × Nat)) (v : T) (p j : Nat)
    (hpre : ∀ y ∈ pre, p < y.2) (hpost : ∀ y ∈ post, p ≤ y.2) (hj : j < p) :
    ((pre ++ (v, p) :: post).filter fun e => decide (e.2 = j)) = [] := by
  apply filter_prio_eq_nil
  intro y hy
  rcases List.mem_append.mp hy with h | h
  · have := hpre y h
    omega
  · rcases List.mem_cons.mp h with h | h
    · subst h
      simp
      omega
    · have := hpost y h
      omega

theorem bucketsOf_top {T : Type} (pre post : List (T × Nat)) (v : T) (p : Nat)
    (hp : p ≤ MAX_PRIO) (hpre : ∀ y ∈ pre, p < y.2) (hpost : ∀ y ∈ post, p ≤ y.2) :
    ReadyPriorityQueue.getTopQueueIndex { queues := bucketsOf (pre ++ (v, p) :: post) } = p := by
  have hlen : p < (bucketsOf (pre ++ (v, p) :: post)).length := by
    rw [bucketsOf_length]
    omega
  unfold ReadyPriorityQueue.getTopQueueIndex
  rw [List.findIdx_eq hlen]
  refine ⟨?_, ?_⟩
  · have h := bucketsOf_getElem? (pre ++ (v, p) :: post) p hp
    rw [List.getElem?_eq_getElem hlen] at h
    injection h with h
    rw [h, bucketsOf_split_at pre post v p hpre]
    rfl
  · intro j hj
    have hjm : j ≤ MAX_PRIO := by omega
    have hjl : j < (bucketsOf (pre ++ (v, p) :: post)).length := by
      rw [bucketsOf_length]
      omega
    have h := bucketsOf_getElem? (pre ++ (v, p) :: post) j hjm
    rw [List.getElem?_eq_getElem hjl] at h
    injection h with h
    rw [h, bucketsOf_below_nil pre post v p j hpre hpost hj]
    rfl

theorem bucketsOf_front {T : Type} (pre post : List (T × Nat)) (v : T) (p : Nat)
    (hp : p ≤ MAX_PRIO) (hpre : ∀ y ∈ pre, p < y.2) (hpost : ∀ y ∈ post, p ≤ y.2) :
    ReadyPriorityQueue.front { queues := bucketsOf (pre ++ (v, p) :: post) } = some v := by
  unfold ReadyPriorityQueue.front
  rw [bucketsOf_top pre post v p hp hpre hpost]
  simp only [bucketsOf_getElem? _ p hp, bucketsOf_split_at pre post v p hpre]
  rfl

theorem bucketsOf_pop {T : Type} (pre post : List (T × Nat)) (v : T) (p : Nat)
    (hp : p ≤ MAX_PRIO) (hpre : ∀ y ∈ pre, p < y.2) (hpost : ∀ y ∈ post, p ≤ y.2) :
    ReadyPriorityQueue.pop { queues := bucketsOf (pre ++ (v, p) :: post) }
      = some { queues := bucketsOf (pre ++ post) } := by
  unfold ReadyPriorityQueue.pop
  rw [bucketsOf_top pre post v p hp hpre hpost]
  simp only [bucketsOf_getElem? _ p hp, bucketsOf_split_at pre post v p hpre, List.tail_cons]
  congr 2
  apply List.ext_getElem
  · simp [bucketsOf]
  · intro n h1 h2
    simp only [bucketsOf, List.getElem_set, List.getElem_map, List.getElem_range]
    by_cases hpn : p = n
    · subst hpn
      simp
    · have hnp : n ≠ p := fun h => hpn h.symm
      rw [if_neg hpn, bucketsOf_split_other pre post v p n hnp]

theorem bucketsOf_empty {T : Type} (pend : List (T × Nat)) (hb : ∀ y ∈ pend, y.2 ≤ MAX_PRIO) :
    ReadyPriorityQueue.empty { queues := bucketsOf pend } = pend.isEmpty := by
  by_cases hne : pend = []
  · subst hne
    simp [ReadyPriorityQueue.empty, ReadyPriorityQueue.getTopQueueIndex, bucketsOf, MAX_PRIO]
    rfl
  · obtain ⟨pre, x, post, hsplit, hpre, hpost⟩ := exists_first_min pend hne
    obtain ⟨v, p⟩ := x
    have hp : p ≤ MAX_PRIO := hb (v, p) (by simp [hsplit])
    have htop := bucketsOf_top pre post v p hp hpre hpost
    rw [← hsplit] at htop
    have hlen := bucketsOf_length pend
    have h1 : pend.isEmpty = false := by
      cases pend with
      | nil => exact absurd rfl hne
      | cons a l => rfl
    rw [h1]
    simp only [ReadyPriorityQueue.empty, htop, hlen, decide_eq_false_iff_not]
    omega

theorem pendingPop_split {T : Type} (pre post : List (T × Nat)) (x : T × Nat)
    (hpre : ∀ y ∈ pre, x.2 < y.2) (hpost : ∀ y ∈ post, x.2 ≤ y.2) :
    pendingPop (pre ++ x :: post) = some (pre ++ post) := by
  have hx : pendingIsTop (pre ++ x :: post) x = true := by
    simp only [pendingIsTop, List.all_eq_true, decide_eq_true_eq]
    intro y hy
    rcases List.mem_append.mp hy with h | h
    · exact Nat.le_of_lt (hpre y h)
    · rcases List.mem_cons.mp h with h | h
      · subst h
        exact Nat.le_refl _
      · exact hpost y h
  have hn : ∀ y ∈ pre, ¬ pendingIsTop (pre ++ x :: post) y = true := by
    intro y hy hc
    simp only [pendingIsTop, List.all_eq_true, decide_eq_true_eq] at hc
    have h1 := hc x (by simp)
    have h2 := hpre y hy
    omega
  have hemp : (pre ++ x :: post).isEmpty = false := by
    cases pre <;> rfl
  unfold pendingPop
  rw [hemp]
  simp only [Bool.false_eq_true, if_false]
  rw [List.eraseP_append_right _ hn, List.eraseP_cons_of_pos hx]

theorem bucketsOf_pop_nil {T : Type} :
    ReadyPriorityQueue.pop ({ queues := bucketsOf [] } : ReadyPriorityQueue T) = none := rfl

theorem pendingPop_bound {T : Type} (pend pend1 : List (T × Nat))
    (hb : ∀ y ∈ pend, y.2 ≤ MAX_PRIO) (h : pendingPop pend = some pend1) :
    ∀ y ∈ pend1, y.2 ≤ MAX_PRIO := by
  unfold pendingPop at h
  split at h
  · exact absurd h (by simp)
  · injection h with h
    subst h
    intro y hy
    exact hb y ((List.eraseP_subset _) hy)

theorem bucketsOf_pop_eq {T : Type} (pend : List (T × Nat))
    (hb : ∀ y ∈ pend, y.2 ≤ MAX_PRIO) :
    ReadyPriorityQueue.pop { queues := bucketsOf pend }
      = (pendingPop pend).map fun l => { queues := bucketsOf l } := by
  by_cases hne : pend = []
  · subst hne
    rw [bucketsOf_pop_nil]
    rfl
  · obtain ⟨pre, x, post, hsplit, hpre, hpost⟩ := exists_first_min pend hne
    obtain ⟨v, p⟩ := x
    have hp : p ≤ MAX_PRIO := hb (v, p) (by simp [hsplit])
    rw [hsplit, bucketsOf_pop pre post v p hp hpre hpost, pendingPop_split pre post (v, p) hpre hpost]
    rfl

theorem run_bucketsOf {T : Type} (ops : List (RPQCall T)) :
    ∀ pend : List (T × Nat), (∀ y ∈ pend, y.2 ≤ MAX_PRIO) →
      (∀ v p, RPQCall.push v p ∈ ops → p ≤ MAX_PRIO) →
      ReadyPriorityQueue.run ops { queues := bucketsOf pend }
          = (pendingRun ops pend).map (fun l => { queues := bucketsOf l }) ∧
        ∀ l, pendingRun ops pend = some l → ∀ y ∈ l, y.2 ≤ MAX_PRIO := by
  induction ops with
  | nil =>
    intro pend hb _
    refine ⟨rfl, ?_⟩
    intro l hl
    simp only [pendingRun, Option.some.injEq] at hl
    subst hl
    exact hb
  | cons c rest ih =>
    intro pend hb hv
    have hv1 : ∀ v p, RPQCall.push v p ∈ rest → p ≤ MAX_PRIO :=
      fun v p h => hv v p (List.mem_cons_of_mem _ h)
    cases c with
    | push v p =>
      have hp : p ≤ MAX_PRIO := hv v p (List.mem_cons_self _ _)
      have hb1 : ∀ y ∈ pend ++ [(v, p)], y.2 ≤ MAX_PRIO := by
        intro y hy
        rcases List.mem_append.mp hy with h | h
        · exact hb y h
        · simp only [List.mem_singleton] at h
          subst h
          exact hp
      have := ih (pend ++ [(v, p)]) hb1 hv1
      simpa [ReadyPriorityQueue.run, pendingRun, bucketsOf_push pend v p hp] using this
    | pop =>
      simp only [ReadyPriorityQueue.run, pendingRun, bucketsOf_pop_eq pend hb]
      cases hpp : pendingPop pend with
      | none => simp
      | some pend1 =>
        have hb1 := pendingPop_bound pend pend1 hb hpp
        have := ih pend1 hb1 hv1
        simpa using this

/-- C1: run any sequence of `push(id, p)` (with `p ≤ MAX_PRIO`) and `pop()`
calls on an initially empty queue.  The run fails only by a `pop()` on an empty
queue.  Otherwise the queue holds exactly the pushed and not yet popped
entries, is empty iff there is none, and when there is one, `front()` is the
id `v` of the entry `(v, p)` such that every entry pushed earlier and still
pending has a strictly larger priority number and every later one has a
priority number at least `p`; `pop()` removes exactly that entry. -/
theorem ReadyPriorityQueue.priority_then_fifo {T : Type} (ops : List (RPQCall T))
    (hv : ∀ v p, RPQCall.push v p ∈ ops → p ≤ MAX_PRIO) :
    (pendingRun ops [] = none →
      ReadyPriorityQueue.run ops (ReadyPriorityQueue.init MAX_PRIO) = none) ∧
    (∀ pend, pendingRun ops [] = some pend →
      ∃ q, ReadyPriorityQueue.run ops (ReadyPriorityQueue.init MAX_PRIO) = some q ∧
        q.queues = bucketsOf pend ∧ q.empty = pend.isEmpty ∧
        (pend ≠ [] → ∃ pre v p post q1, pend = pre ++ (v, p) :: post ∧
          (∀ y ∈ pre, p < y.2) ∧ (∀ y ∈ post, p ≤ y.2) ∧
          q.front = some v ∧ q.pop = some q1 ∧ q1.queues = bucketsOf (pre ++ post) ∧
          pendingPop pend = some (pre ++ post))) := by
  have hrun := run_bucketsOf ops [] (by simp) hv
  rw [← bucketsOf_nil] at hrun
  refine ⟨?_, ?_⟩
  · intro hnone
    rw [hrun.1, hnone]
    rfl
  · intro pend hsome
    have hb := hrun.2 pend hsome
    refine ⟨{ queues := bucketsOf pend }, ?_, rfl, bucketsOf_empty pend hb, ?_⟩
    · rw [hrun.1, hsome]
      rfl
    · intro hne
      obtain ⟨pre, x, post, hsplit, hpre, hpost⟩ := exists_first_min pend hne
      obtain ⟨v, p⟩ := x
      have hp : p ≤ MAX_PRIO := hb (v, p) (by simp [hsplit])
      refine ⟨pre, v, p, post, { queues := bucketsOf (pre ++ post) }, hsplit, hpre, hpost, ?_, ?_,
        rfl, ?_⟩
      · rw [hsplit]
        exact bucketsOf_front pre post v p hp hpre hpost
      · rw [hsplit]
        exact bucketsOf_pop pre post v p hp hpre hpost
      · rw [hsplit]
        exact pendingPop_split pre post (v, p) hpre hpost

theorem ReadyPriorityQueue.priority_then_fifo_witness :
    ∃ q, ReadyPriorityQueue.run sampleCalls (ReadyPriorityQueue.init MAX_PRIO) = some q ∧
      q.queues = bucketsOf [(10, 3), (12, 3), (13, 1)] ∧
      q.empty = [(10, 3), (12, 3), (13, 1)].isEmpty ∧
      ([(10, 3), (12, 3), (13, 1)] ≠ [] → ∃ pre v p post q1,
        [(10, 3), (12, 3), (13, 1)] = pre ++ (v, p) :: post ∧
        (∀ y ∈ pre, p < y.2) ∧ (∀ y ∈ post, p ≤ y.2) ∧
        q.front = some v ∧ q.pop = some q1 ∧ q1.queues = bucketsOf (pre ++ post) ∧
        pendingPop [(10, 3), (12, 3), (13, 1)] = some (pre ++ post)) :=
  (ReadyPriorityQueue.priority_then_fifo sampleCalls (by
    intro v p h
    simp [sampleCalls] at h
    unfold MAX_PRIO
    omega)).2 [(10, 3), (12, 3), (13, 1)] (by decide)

/-! ### History -/

theorem foldl_concat_durationOf {E : Type} [DecidableEq E] (l : List (Period E)) (x : Period E)
    (s : E) :
    History.durationOf { trace := l ++ [x] } s =
      if x.state = s then (History.durationOf { trace := l } s + x.duration) % STEP_MOD
      else History.durationOf { trace := l } s := by
  simp [History.durationOf, List.foldl_append]

/-- One `inc(st)` raises the recorded duration of `st` by one (in `Step`
arithmetic) and leaves the recorded duration of every other state alone. -/
theorem History.durationOf_inc {E : Type} [DecidableEq E] (h : History E) (st s : E) :
    (h.inc st).durationOf s =
      if s = st then (h.durationOf s + 1) % STEP_MOD else h.durationOf s := by
  obtain ⟨l⟩ := h
  rcases List.eq_nil_or_concat l with hl | ⟨l1, b, hl⟩
  · subst hl
    by_cases hs : s = st
    · subst hs
      simp [History.inc, History.push, History.durationOf]
    · have : ¬ st = s := fun h => hs h.symm
      simp [History.inc, History.push, History.durationOf, hs, this]
  · rw [List.concat_eq_append] at hl
    subst hl
    by_cases hb : b.state = st
    · have hpush : (History.inc { trace := l1 ++ [b] } st)
          = { trace := l1 ++ [{ state := b.state, duration := (b.duration + 1) % STEP_MOD }] } := by
        simp [History.inc, History.push, hb]
      rw [hpush, foldl_concat_durationOf, foldl_concat_durationOf]
      subst hb
      by_cases hs : s = b.state
      · subst hs
        simp only [if_true]
        rw [Nat.add_mod_mod, Nat.mod_add_mod, Nat.add_assoc]
      · have : ¬ b.state = s := fun h => hs h.symm
        simp [hs, this]
    · have hpush : (History.inc { trace := l1 ++ [b] } st)
          = { trace := (l1 ++ [b]) ++ [{ state := st, duration := 1 }] } := by
        simp [History.inc, History.push, hb]
      rw [hpush, foldl_concat_durationOf]
      by_cases hs : s = st
      · subst hs
        simp
      · have : ¬ st = s := fun h => hs h.symm
        simp [hs, this]

/-! ### PCB -/

theorem PCB.step_hist (p : PCB) : p.step.2.stats.hist = p.stats.hist.inc p.state := by
  unfold PCB.step
  split <;> rfl

theorem PCB.step_state (p : PCB) : p.step.2.state = p.state := by
  unfold PCB.step
  split <;> rfl

theorem PCB.step_id (p : PCB) : p.step.2.id = p.id := by
  unfold PCB.step
  split <;> rfl

theorem PCB.step_prio (p : PCB) : p.step.2.prio = p.prio := by
  unfold PCB.step
  split <;> rfl

theorem PCB.step_of_active (p : PCB)
    (hs : p.state = ProcessState.running ∨ p.state = ProcessState.blocked) :
    p.step.1 = p.bursts.step.1 ∧ p.step.2.bursts = p.bursts.step.2 := by
  simp [PCB.step, hs]

theorem PCB.step_of_inactive (p : PCB)
    (hs : p.state = ProcessState.ready ∨ p.state = ProcessState.switching ∨
        p.state = ProcessState.exit) :
    p.step.1 = false ∧ p.step.2.bursts = p.bursts := by
  have hn : ¬ (p.state = ProcessState.running ∨ p.state = ProcessState.blocked) := by
    rcases hs with h | h | h <;> simp [h]
  simp [PCB.step, hn]

/-- C5: `PCB::step()` performs exactly one `inc` of the current lifecycle state
on the trace, which raises the recorded duration of that state by one tick and
of no other state; in state `running` or `blocked` it performs one step of the
burst sequence and returns its result; in state `ready`, `switching` or `exit`
it returns false and leaves the burst sequence unchanged; id, priority and
lifecycle state never change. -/
theorem PCB.pcb_step_spec (p : PCB) :
    p.step.2.stats.hist = p.stats.hist.inc p.state ∧
    (∀ s, p.step.2.stats.hist.durationOf s =
      if s = p.state then (p.stats.hist.durationOf s + 1) % STEP_MOD
      else p.stats.hist.durationOf s) ∧
    (p.state = ProcessState.running ∨ p.state = ProcessState.blocked →
      p.step.1 = p.bursts.step.1 ∧ p.step.2.bursts = p.bursts.step.2) ∧
    (p.state = ProcessState.ready ∨ p.state = ProcessState.switching ∨
        p.state = ProcessState.exit →
      p.step.1 = false ∧ p.step.2.bursts = p.bursts) ∧
    p.step.2.id = p.id ∧ p.step.2.prio = p.prio ∧ p.step.2.state = p.state := by
  refine ⟨PCB.step_hist p, ?_, PCB.step_of_active p, PCB.step_of_inactive p, PCB.step_id p,
    PCB.step_prio p, PCB.step_state p⟩
  intro s
  rw [PCB.step_hist, History.durationOf_inc]

/-- A process in state `running` with bursts `[1, 4]`, and the same process in
state `ready`. -/
theorem PCB.pcb_step_spec_witness :
    ((PCB.init { id := 3, prio := 2, bursts := { bursts := [1, 4] } } 0).step.1 = false ∧
      (PCB.init { id := 3, prio := 2, bursts := { bursts := [1, 4] } } 0).step.2.bursts
        = { bursts := [1, 4] }) ∧
    (({ PCB.init { id := 3, prio := 2, bursts := { bursts := [1, 4] } } 0 with
          state := ProcessState.running }).step.1 = true) :=
  ⟨(PCB.pcb_step_spec (PCB.init { id := 3, prio := 2, bursts := { bursts := [1, 4] } } 0)).2.2.2.1
      (Or.inl rfl),
   by
    have h := (PCB.pcb_step_spec ({ PCB.init { id := 3, prio := 2, bursts := { bursts := [1, 4] } } 0
      with state := ProcessState.running })).2.2.1 (Or.inl rfl)
    rw [h.1]
    decide⟩

/-! ### CPU: one step -/

theorem CPU.assigned_eq_true (c : CPU) (h : c.getState ≠ CPUState.idle) : c.assigned = true := by
  simp [CPU.assigned, h]

theorem CPU.recordTick_getState (c : CPU) : c.recordTick.getState = c.getState := rfl

theorem CPU.recordTick_t (c : CPU) : c.recordTick.t = c.t := rfl

theorem CPU.recordTick_proc (c : CPU) : c.recordTick.proc = c.proc := rfl

theorem CPU.recordTick_settings (c : CPU) : c.recordTick.settings = c.settings := rfl

theorem CPU.recordTick_hist (c : CPU) :
    c.recordTick.stats.hist = c.stats.hist.inc c.getState := rfl

/-- An idle unit only records the tick and signals. -/
theorem CPU.step_idle (c : CPU) (tbl : PCBTable) (h : c.getState = CPUState.idle) :
    c.step tbl = some (true, c.recordTick, tbl) := by
  simp [CPU.step, CPU.assigned, h]

/-- An assigned unit with a valid `proc` runs the assigned branch on `*proc`. -/
theorem CPU.step_assigned (c : CPU) (tbl : PCBTable) (key : Nat) (p : PCB)
    (h : c.getState ≠ CPUState.idle) (hk : c.proc = some key) (hp : tbl.lookup key = some p) :
    c.step tbl =
      (c.recordTick.stepOn p).map fun r => (r.1, r.2.1, tbl.store key r.2.2) := by
  unfold CPU.step
  simp only [CPU.assigned_eq_true c h, Bool.not_true, Bool.false_eq_true, if_false, hk, hp]
  cases c.recordTick.stepOn p <;> rfl

/-- A successful step of an assigned unit went through the assigned branch. -/
theorem CPU.step_assigned_inv (c : CPU) (tbl : PCBTable) (r : Bool) (c1 : CPU) (tbl1 : PCBTable)
    (h : c.getState ≠ CPUState.idle) (hs : c.step tbl = some (r, c1, tbl1)) :
    ∃ key p p1, c.proc = some key ∧ tbl.lookup key = some p ∧
      c.recordTick.stepOn p = some (r, c1, p1) ∧ tbl1 = tbl.store key p1 := by
  unfold CPU.step at hs
  simp only [CPU.assigned_eq_true c h, Bool.not_true, Bool.false_eq_true, if_false] at hs
  cases hk : c.proc with
  | none => simp [hk] at hs
  | some key =>
    cases hp : tbl.lookup key with
    | none => simp [hk, hp] at hs
    | some p =>
      simp only [hk, hp] at hs
      cases hon : c.recordTick.stepOn p with
      | none => simp [hon] at hs
      | some res =>
        obtain ⟨r0, c0, p0⟩ := res
        simp only [hon, Option.some.injEq, Prod.mk.injEq] at hs
        obtain ⟨h1, h2, h3⟩ := hs
        subst h1 h2
        exact ⟨key, p, p0, rfl, hp, hon, h3.symm⟩

/-- The assigned branch in state `switching_out`. -/
theorem CPU.stepOn_switching_out (c : CPU) (p : PCB)
    (h : c.getState = CPUState.switching_out) :
    c.stepOn p = (c.t.step).map fun tr =>
      if tr.1 then (true, { c with t := Timer.init 0 CPUState.idle, proc := none }, p.step.2)
      else (false, { c with t := tr.2 }, p.step.2) := by
  unfold CPU.stepOn
  simp only [h]
  cases hts : c.t.step with
  | none => simp
  | some tr =>
    obtain ⟨t_ret, t1⟩ := tr
    cases t_ret <;> simp

/-- The assigned branch in state `switching_in`. -/
theorem CPU.stepOn_switching_in (c : CPU) (p : PCB)
    (h : c.getState = CPUState.switching_in) :
    c.stepOn p = (c.t.step).map fun tr =>
      if tr.1 then
        if c.isFCFS then
          (false,
            { c with t := if p.step.2.bursts.isProcessing then Timer.init 0 CPUState.processing
                          else Timer.init 0 CPUState.assigned_idle },
            { p.step.2 with state := if p.step.2.bursts.isProcessing then ProcessState.running
                                     else ProcessState.blocked })
        else
          (false, { c with t := Timer.init c.settings.RR_TIME CPUState.processing },
            { p.step.2 with state := ProcessState.running })
      else (false, { c with t := tr.2 }, p.step.2) := by
  unfold CPU.stepOn
  simp only [h]
  cases hts : c.t.step with
  | none => simp
  | some tr =>
    obtain ⟨t_ret, t1⟩ := tr
    cases t_ret
    · simp
    · cases hf : c.isFCFS
      · simp [CPU.isFCFS] at hf ⊢
        simp [hf]
      · simp [CPU.isFCFS] at hf ⊢
        simp [hf]

/-- The assigned branch in state `processing` or `assigned_idle` under FCFS:
the timer is not stepped; at a burst completion the unit switches out when no
burst is left and otherwise toggles in place. -/
theorem CPU.stepOn_busy_fcfs (c : CPU) (p : PCB)
    (h : c.getState = CPUState.processing ∨ c.getState = CPUState.assigned_idle)
    (hf : c.settings.RR_TIME = 0) :
    c.stepOn p = some (false,
      if p.step.1 then
        if p.step.2.bursts.empty then c.deassignOn p.step.2
        else
          ({ c with t := if p.step.2.state = ProcessState.running
                         then Timer.init 0 CPUState.assigned_idle
                         else Timer.init 0 CPUState.processing },
           { p.step.2 with state := if p.step.2.state = ProcessState.running
                                    then ProcessState.blocked else ProcessState.running })
      else (c, p.step.2)) := by
  unfold CPU.stepOn
  rcases h with h | h <;>
    simp only [h, CPU.isFCFS, hf] <;>
    cases hp : p.step.1 <;>
    simp <;>
    cases p.step.2.bursts.empty <;>
    simp

/-- The assigned branch in state `processing` or `assigned_idle` under
round-robin: the timer is stepped, and a burst completion or the timer firing
switches the unit out. -/
theorem CPU.stepOn_busy_rr (c : CPU) (p : PCB)
    (h : c.getState = CPUState.processing ∨ c.getState = CPUState.assigned_idle)
    (hf : c.settings.RR_TIME ≠ 0) :
    c.stepOn p = (c.t.step).map fun tr =>
      if p.step.1 || tr.1 then
        (false, { c with t := Timer.init c.settings.SWITCHING_OUT_DELAY CPUState.switching_out },
          { p.step.2 with state := if p.step.2.bursts.empty then ProcessState.exit
                                   else ProcessState.switching })
      else (false, { c with t := tr.2 }, p.step.2) := by
  unfold CPU.stepOn
  rcases h with h | h <;>
    simp only [h, CPU.isFCFS, hf] <;>
    cases hts : c.t.step <;>
    simp [CPU.deassignOn] <;>
    cases hp : p.step.1 <;>
    simp <;>
    split <;>
    rfl

/-- Outside `switching_out` the assigned branch returns false. -/
theorem CPU.stepOn_false (c : CPU) (p : PCB) (r : Bool) (c1 : CPU) (p1 : PCB)
    (hne : c.getState ≠ CPUState.switching_out) (hs : c.stepOn p = some (r, c1, p1)) :
    r = false := by
  cases hst : c.getState with
  | idle =>
    unfold CPU.stepOn at hs
    simp only [hst] at hs
    cases hts : c.t.step with
    | none => simp [hts] at hs
    | some tr =>
      simp [hts] at hs
      exact hs.1
  | switching_out => exact absurd hst hne
  | switching_in =>
    rw [CPU.stepOn_switching_in c p hst] at hs
    cases hts : c.t.step with
    | none => simp [hts] at hs
    | some tr =>
      simp only [hts, Option.map_some', Option.some.injEq] at hs
      split at hs
      · split at hs <;> simp only [Prod.mk.injEq] at hs <;> exact hs.1.symm
      · simp only [Prod.mk.injEq] at hs
        exact hs.1.symm
  | processing =>
    by_cases hf : c.settings.RR_TIME = 0
    · rw [CPU.stepOn_busy_fcfs c p (Or.inl hst) hf] at hs
      simp only [Option.some.injEq, Prod.mk.injEq] at hs
      exact hs.1.symm
    · rw [CPU.stepOn_busy_rr c p (Or.inl hst) hf] at hs
      cases hts : c.t.step with
      | none => simp [hts] at hs
      | some tr =>
        simp only [hts, Option.map_some', Option.some.injEq] at hs
        split at hs <;> simp only [Prod.mk.injEq] at hs <;> exact hs.1.symm
  | assigned_idle =>
    by_cases hf : c.settings.RR_TIME = 0
    · rw [CPU.stepOn_busy_fcfs c p (Or.inr hst) hf] at hs
      simp only [Option.some.injEq, Prod.mk.injEq] at hs
      exact hs.1.symm
    · rw [CPU.stepOn_busy_rr c p (Or.inr hst) hf] at hs
      cases hts : c.t.step with
      | none => simp [hts] at hs
      | some tr =>
        simp only [hts, Option.map_some', Option.some.injEq] at hs
        split at hs <;> simp only [Prod.mk.injEq] at hs <;> exact hs.1.symm

/-- C6: `CPU::step()` returns true when the unit was idle at the start of the
step, and when it was in `switching_out` and its delay timer fired on this
step, after which the unit is idle with no bound process; every step that
returns true is one of these two cases. -/
theorem CPU.cpu_step_true_iff (c : CPU) (tbl : PCBTable) :
    (c.getState = CPUState.idle → c.step tbl = some (true, c.recordTick, tbl)) ∧
    (∀ key p t1, c.getState = CPUState.switching_out → c.t.step = some (true, t1) →
      c.proc = some key → tbl.lookup key = some p →
      ∃ c1 tbl1, c.step tbl = some (true, c1, tbl1) ∧ c1.getState = CPUState.idle ∧
        c1.proc = none) ∧
    (∀ r c1 tbl1, c.step tbl = some (r, c1, tbl1) →
      (r = true ↔ (c.getState = CPUState.idle ∨
        (c.getState = CPUState.switching_out ∧ ∃ t1, c.t.step = some (true, t1)))) ∧
      (r = true → c.getState = CPUState.switching_out →
        c1.getState = CPUState.idle ∧ c1.proc = none)) := by
  refine ⟨CPU.step_idle c tbl, ?_, ?_⟩
  · intro key p t1 hst hts hk hp
    have hne : c.getState ≠ CPUState.idle := by rw [hst]; decide
    rw [CPU.step_assigned c tbl key p hne hk hp,
      CPU.stepOn_switching_out c.recordTick p hst, CPU.recordTick_t, hts]
    exact ⟨_, _, rfl, rfl, rfl⟩
  · intro r c1 tbl1 hs
    by_cases hidle : c.getState = CPUState.idle
    · rw [CPU.step_idle c tbl hidle] at hs
      simp only [Option.some.injEq, Prod.mk.injEq] at hs
      refine ⟨⟨fun _ => Or.inl hidle, fun _ => hs.1.symm⟩, ?_⟩
      intro _ hso
      rw [hidle] at hso
      exact absurd hso (by decide)
    · obtain ⟨key, p, p1, hk, hp, hon, _⟩ := CPU.step_assigned_inv c tbl r c1 tbl1 hidle hs
      by_cases hso : c.getState = CPUState.switching_out
      · rw [CPU.stepOn_switching_out c.recordTick p hso, CPU.recordTick_t] at hon
        cases hts : c.t.step with
        | none => simp [hts] at hon
        | some tr =>
          obtain ⟨t_ret, t1⟩ := tr
          simp only [hts, Option.map_some', Option.some.injEq] at hon
          cases t_ret
          · simp only [Bool.false_eq_true, if_false, Prod.mk.injEq] at hon
            have hr : r = false := hon.1.symm
            subst hr
            simp [hidle]
          · simp only [if_true, Prod.mk.injEq] at hon
            obtain ⟨hr, hc, _⟩ := hon
            subst hr hc
            refine ⟨⟨fun _ => Or.inr ⟨hso, t1, rfl⟩, fun _ => rfl⟩, fun _ _ => ⟨rfl, rfl⟩⟩
      · have hr : r = false := CPU.stepOn_false c.recordTick p r c1 p1 hso hon
        subst hr
        simp [hidle, hso]

theorem CPU.cpu_step_true_iff_witness :
    (CPU.init {} 0).step {} = some (true, (CPU.init {} 0).recordTick, {}) ∧
    (∃ c1 tbl1, (boundCPU {} CPUState.switching_out 1).step (tableOf samplePCB)
        = some (true, c1, tbl1) ∧ c1.getState = CPUState.idle ∧ c1.proc = none) :=
  ⟨(CPU.cpu_step_true_iff (CPU.init {} 0) {}).1 rfl,
   (CPU.cpu_step_true_iff (boundCPU {} CPUState.switching_out 1) (tableOf samplePCB)).2.1
      0 samplePCB (Timer.init 0 CPUState.switching_out) rfl (by decide) rfl rfl⟩

/-! ### The process table -/

theorem PCBTable.lookup_store (tbl : PCBTable) (key : Nat) (p p1 : PCB)
    (h : tbl.lookup key = some p) : (tbl.store key p1).lookup key = some p1 := by
  obtain ⟨l⟩ := tbl
  simp only [PCBTable.lookup, PCBTable.store] at h ⊢
  induction l with
  | nil => simp at h
  | cons e l ih =>
    rw [List.map_cons, List.find?_cons]
    rw [List.find?_cons] at h
    by_cases he : e.1 = key
    · rw [if_pos he]
      have hd : decide ((e.1, p1).1 = key) = true := by simpa using he
      rw [hd]
      rfl
    · rw [if_neg he]
      have hd : decide (e.1 = key) = false := by simpa using he
      rw [hd] at h ⊢
      exact ih h

theorem PCBTable.lookup_store_ne (tbl : PCBTable) (key k : Nat) (p1 : PCB) (h : k ≠ key) :
    (tbl.store key p1).lookup k = tbl.lookup k := by
  obtain ⟨l⟩ := tbl
  simp only [PCBTable.lookup, PCBTable.store]
  induction l with
  | nil => rfl
  | cons e l ih =>
    rw [List.map_cons, List.find?_cons, List.find?_cons]
    by_cases he : e.1 = key
    · rw [if_pos he]
      have hk : ¬ e.1 = k := fun h1 => h (h1.symm.trans he)
      have hd : decide ((e.1, p1).1 = k) = false := by simpa using hk
      rw [hd]
      exact ih
    · rw [if_neg he]
      by_cases hk : e.1 = k
      · have hd : decide (e.1 = k) = true := by simpa using hk
        rw [hd]
      · have hd : decide (e.1 = k) = false := by simpa using hk
        rw [hd]
        exact ih

/-! ### Burst boundaries -/

/-- A burst step reports completion exactly when the head duration is 1. -/
theorem ProcessBursts.bursts_step_true_iff (b : ProcessBursts) (hr : ∀ x ∈ b.bursts, x < STEP_MOD) :
    b.step.1 = true ↔ ∃ tl, b.bursts = 1 :: tl := by
  obtain ⟨bs, f⟩ := b
  cases bs with
  | nil => simp [ProcessBursts.step]
  | cons h tl =>
    have hh : h < STEP_MOD := hr h (by simp)
    have hm : STEP_MOD = 4294967296 := rfl
    simp only [ProcessBursts.step]
    by_cases h1 : h = 1
    · subst h1
      simp [hm]
    · have hne : (h + (STEP_MOD - 1)) % STEP_MOD ≠ 0 := by
        rw [hm] at hh ⊢
        omega
      simp [hne, h1]

/-- A process step reports completion exactly when the process is `running` or
`blocked` and its head burst has duration 1. -/
theorem PCB.pcb_step_true_iff (p : PCB) (hr : ∀ x ∈ p.bursts.bursts, x < STEP_MOD) :
    p.step.1 = true ↔
      (p.state = ProcessState.running ∨ p.state = ProcessState.blocked) ∧
        ∃ tl, p.bursts.bursts = 1 :: tl := by
  by_cases hs : p.state = ProcessState.running ∨ p.state = ProcessState.blocked
  · have : p.step.1 = p.bursts.step.1 := by simp [PCB.step, hs]
    rw [this, ProcessBursts.bursts_step_true_iff p.bursts hr]
    simp [hs]
  · have : p.step.1 = false := by simp [PCB.step, hs]
    simp [this, hs]

/-! ### CPU under FCFS -/

/-- C9: under quantum 0, a step of a unit in state `processing` or
`assigned_idle` (bound to a process of the table) succeeds and returns false;
unless the process is `running` or `blocked` with a head burst of duration 1,
i.e. unless its burst step of this tick brings the head burst to exactly 0,
the unit state, the bound process, the unit timer and the lifecycle state of
the process are unchanged.  So the unit state changes only at such a tick. -/
theorem CPU.fcfs_busy_step (c : CPU) (tbl : PCBTable) (key : Nat) (p : PCB)
    (hf : c.settings.RR_TIME = 0)
    (hst : c.getState = CPUState.processing ∨ c.getState = CPUState.assigned_idle)
    (hk : c.proc = some key) (hp : tbl.lookup key = some p)
    (hr : ∀ x ∈ p.bursts.bursts, x < STEP_MOD) :
    ∃ c1 tbl1 p1, c.step tbl = some (false, c1, tbl1) ∧ tbl1.lookup key = some p1 ∧
      (¬ ((p.state = ProcessState.running ∨ p.state = ProcessState.blocked) ∧
            ∃ tl, p.bursts.bursts = 1 :: tl) →
        c1.getState = c.getState ∧ c1.proc = c.proc ∧ c1.t = c.t ∧ p1.state = p.state) ∧
      (c1.getState ≠ c.getState →
        (p.state = ProcessState.running ∨ p.state = ProcessState.blocked) ∧
          ∃ tl, p.bursts.bursts = 1 :: tl) := by
  have hne : c.getState ≠ CPUState.idle := by
    rcases hst with h | h <;> rw [h] <;> decide
  have hstep := CPU.step_assigned c tbl key p hne hk hp
  rw [CPU.stepOn_busy_fcfs c.recordTick p hst hf] at hstep
  simp only [Option.map_some'] at hstep
  have hunch : p.step.1 = false →
      (if p.step.1 = true then
        if p.step.2.bursts.empty = true then c.recordTick.deassignOn p.step.2
        else
          ({ c.recordTick with t := if p.step.2.state = ProcessState.running
                         then Timer.init 0 CPUState.assigned_idle
                         else Timer.init 0 CPUState.processing },
           { p.step.2 with state := if p.step.2.state = ProcessState.running
                                    then ProcessState.blocked else ProcessState.running })
      else (c.recordTick, p.step.2)) = (c.recordTick, p.step.2) := by
    intro h
    simp [h]
  refine ⟨_, _, _, hstep, PCBTable.lookup_store tbl key p _ hp, ?_, ?_⟩
  · intro hb
    have hfalse : p.step.1 = false := by
      rw [← PCB.pcb_step_true_iff p hr] at hb
      simpa using hb
    rw [hunch hfalse]
    exact ⟨rfl, rfl, rfl, PCB.step_state p⟩
  · intro hchg
    rw [← PCB.pcb_step_true_iff p hr]
    by_contra hb
    have hfalse : p.step.1 = false := by simpa using hb
    rw [hunch hfalse] at hchg
    exact hchg rfl

theorem CPU.fcfs_busy_step_witness :
    ∃ c1 tbl1 p1,
      (boundCPU SystemSettings.fcfs CPUState.processing 0).step
          (tableOf { samplePCB with state := ProcessState.running })
        = some (false, c1, tbl1) ∧ tbl1.lookup 0 = some p1 ∧
      (¬ ((ProcessState.running = ProcessState.running ∨
            ProcessState.running = ProcessState.blocked) ∧
            ∃ tl, [5, 3, 2] = 1 :: tl) →
        c1.getState = CPUState.processing ∧ c1.proc = some 0 ∧
          c1.t = Timer.init 0 CPUState.processing ∧ p1.state = ProcessState.running) ∧
      (c1.getState ≠ CPUState.processing →
        (ProcessState.running = ProcessState.running ∨
            ProcessState.running = ProcessState.blocked) ∧
          ∃ tl, [5, 3, 2] = 1 :: tl) :=
  CPU.fcfs_busy_step (boundCPU SystemSettings.fcfs CPUState.processing 0)
    (tableOf { samplePCB with state := ProcessState.running }) 0
    { samplePCB with state := ProcessState.running } rfl (Or.inl rfl) rfl rfl (by decide)

/-! ### CPU under round-robin -/

theorem Timer.step_pos {T : Type} (t : Timer T) (h1 : 1 ≤ t.count) (hr : t.count < STEP_MOD) :
    t.step = some (decide (t.count - 1 = 0), { t with count := t.count - 1 }) := by
  have hc := step_pred_eq t.count h1 hr
  have h0 : t.count ≠ 0 := by omega
  simp [Timer.step, h0, hc]

/-- One step of a round-robin unit in state `processing` or `assigned_idle`
whose timer has not expired. -/
theorem CPU.step_busy_rr (c : CPU) (tbl : PCBTable) (key : Nat) (p : PCB)
    (hst : c.getState = CPUState.processing ∨ c.getState = CPUState.assigned_idle)
    (hf : c.settings.RR_TIME ≠ 0) (hk : c.proc = some key) (hp : tbl.lookup key = some p)
    (hn : 1 ≤ c.t.count) (hM : c.t.count < STEP_MOD) :
    c.step tbl = some
      (if (p.step.1 || decide (c.t.count - 1 = 0)) = true then
        (false,
          { c.recordTick with
              t := Timer.init c.settings.SWITCHING_OUT_DELAY CPUState.switching_out },
          tbl.store key { p.step.2 with state :=
            if p.step.2.bursts.empty then ProcessState.exit else ProcessState.switching })
      else
        (false, { c.recordTick with t := { c.t with count := c.t.count - 1 } },
          tbl.store key p.step.2)) := by
  have hne : c.getState ≠ CPUState.idle := by
    rcases hst with h | h <;> rw [h] <;> decide
  rw [CPU.step_assigned c tbl key p hne hk hp, CPU.stepOn_busy_rr c.recordTick p hst hf,
    CPU.recordTick_t, Timer.step_pos c.t hn hM]
  simp only [Option.map_some']
  split <;> rfl

/-- The step of a round-robin unit that completes a switch-in. -/
theorem CPU.step_switch_in_done_rr (c : CPU) (tbl : PCBTable) (key : Nat) (p : PCB)
    (hst : c.getState = CPUState.switching_in) (hf : c.settings.RR_TIME ≠ 0)
    (hk : c.proc = some key) (hp : tbl.lookup key = some p) (hn : c.t.count = 1) :
    c.step tbl = some (false,
      { c.recordTick with t := Timer.init c.settings.RR_TIME CPUState.processing },
      tbl.store key { p.step.2 with state := ProcessState.running }) := by
  have hne : c.getState ≠ CPUState.idle := by rw [hst]; decide
  have hM : c.t.count < STEP_MOD := by rw [hn]; decide
  have hfc : c.recordTick.isFCFS = false := by simp [CPU.isFCFS, CPU.recordTick, hf]
  rw [CPU.step_assigned c tbl key p hne hk hp, CPU.stepOn_switching_in c.recordTick p hst,
    CPU.recordTick_t, Timer.step_pos c.t (by omega) hM]
  simp [hn, hfc, CPU.recordTick_settings]

/-- A running process whose head burst has `r ≥ 2` ticks left keeps running
with `r - 1` ticks left. -/
theorem PCB.step_running_ge_two (p : PCB) (r : Nat) (tl : List Nat)
    (hs : p.state = ProcessState.running) (hb : p.bursts.bursts = r :: tl)
    (h2 : 2 ≤ r) (hM : r < STEP_MOD) :
    p.step.1 = false ∧ p.step.2.state = ProcessState.running ∧
      p.step.2.bursts.bursts = (r - 1) :: tl := by
  have hb2 := ProcessBursts.step_of_ge_two p.bursts r tl hb hM h2
  obtain ⟨h1, h2'⟩ := PCB.step_of_active p (Or.inl hs)
  refine ⟨?_, ?_, ?_⟩
  · rw [h1, hb2]
  · rw [PCB.step_state, hs]
  · rw [h2', hb2]

/-- A running process whose head burst has one tick left completes it. -/
theorem PCB.step_running_one (p : PCB) (tl : List Nat)
    (hs : p.state = ProcessState.running) (hb : p.bursts.bursts = 1 :: tl) :
    p.step.1 = true := by
  have hb2 := ProcessBursts.step_of_one p.bursts tl hb
  rw [(PCB.step_of_active p (Or.inl hs)).1, hb2]

theorem CPU.stepN_zero (c : CPU) (tbl : PCBTable) : CPU.stepN 0 c tbl = some (c, tbl) := rfl

theorem CPU.stepN_succ_of_step (j : Nat) (c : CPU) (tbl : PCBTable) (r : Bool) (c1 : CPU)
    (tbl1 : PCBTable) (h : c.step tbl = some (r, c1, tbl1)) :
    CPU.stepN (j + 1) c tbl = CPU.stepN j c1 tbl1 := by
  simp only [CPU.stepN, h]

/-- From a round-robin unit in state `processing` with `n` ticks left on its
quantum timer, bound to a running process with `r` ticks left on its head
burst: the next `min n r` steps are all taken in state `processing`, and the
last of them puts the unit in `switching_out`. -/
theorem CPU.rr_quantum_run : ∀ (j : Nat) (c : CPU) (tbl : PCBTable) (key : Nat) (p : PCB)
    (r : Nat) (tl : List Nat),
    c.getState = CPUState.processing → c.settings.RR_TIME ≠ 0 → c.proc = some key →
    tbl.lookup key = some p → 1 ≤ c.t.count → c.t.count < STEP_MOD →
    p.state = ProcessState.running → p.bursts.bursts = r :: tl → 1 ≤ r → r < STEP_MOD →
    j ≤ min c.t.count r →
    ∃ cj tblj, CPU.stepN j c tbl = some (cj, tblj) ∧
      cj.stats.hist = (fun h => h.inc CPUState.processing)^[j] c.stats.hist ∧
      (j < min c.t.count r → cj.getState = CPUState.processing) ∧
      (j = min c.t.count r → cj.getState = CPUState.switching_out) := by
  intro j
  induction j with
  | zero =>
    intro c tbl key p r tl hst _ _ _ hn _ _ _ hr _ _
    refine ⟨c, tbl, rfl, rfl, fun _ => hst, ?_⟩
    intro h0
    omega
  | succ j ih =>
    intro c tbl key p r tl hst hf hk hp hn hM hs hb hr hrM hj
    have hstep := CPU.step_busy_rr c tbl key p (Or.inl hst) hf hk hp hn hM
    by_cases hone : c.t.count = 1 ∨ r = 1
    · have hj0 : j = 0 := by omega
      subst hj0
      have hcond : (p.step.1 || decide (c.t.count - 1 = 0)) = true := by
        rcases hone with h | h
        · simp [h]
        · subst h
          simp [PCB.step_running_one p tl hs hb]
      rw [if_pos hcond] at hstep
      have hh : c.recordTick.stats.hist
          = (fun h => h.inc CPUState.processing)^[0 + 1] c.stats.hist := by
        rw [CPU.recordTick_hist, hst]
        rfl
      exact ⟨_, _, (CPU.stepN_succ_of_step 0 c tbl _ _ _ hstep).trans (CPU.stepN_zero _ _), hh,
        fun hlt => by omega, fun _ => rfl⟩
    · have h2n : 2 ≤ c.t.count := by omega
      have h2r : 2 ≤ r := by omega
      obtain ⟨hp1, hp2, hp3⟩ := PCB.step_running_ge_two p r tl hs hb h2r hrM
      have hcond : ¬ (p.step.1 || decide (c.t.count - 1 = 0)) = true := by
        have : ¬ (c.t.count - 1 = 0) := by omega
        simp [hp1, this]
      rw [if_neg hcond] at hstep
      have hlk := PCBTable.lookup_store tbl key p p.step.2 hp
      obtain ⟨cj, tblj, hrun, hhist, hlt, heq⟩ :=
        ih { c.recordTick with t := { c.t with count := c.t.count - 1 } }
          (tbl.store key p.step.2) key p.step.2 (r - 1) tl hst hf hk hlk
          (by show 1 ≤ c.t.count - 1; omega) (by show c.t.count - 1 < STEP_MOD; omega)
          hp2 hp3 (by omega) (by omega) (by show j ≤ min (c.t.count - 1) (r - 1); omega)
      refine ⟨cj, tblj, ?_, ?_, ?_, ?_⟩
      · rw [CPU.stepN_succ_of_step j c tbl _ _ _ hstep]
        exact hrun
      · rw [hhist, Function.iterate_succ_apply]
        show _ = (fun h => h.inc CPUState.processing)^[j] (c.stats.hist.inc CPUState.processing)
        rw [← hst, ← CPU.recordTick_hist]
      · intro h
        exact hlt (by show j < min (c.t.count - 1) (r - 1); omega)
      · intro h
        exact heq (by show j = min (c.t.count - 1) (r - 1); omega)

/-- C8 (amended): under round-robin with quantum `Q ≥ 1`, take a unit whose
switch-in completes on its next step, bound to a process (in state
`switching`, as `assign` left it) whose head burst has `r ≥ 1` ticks left.
After that step the unit spends exactly `min Q r` ticks in state `processing`
and is then in `switching_out`: exactly `Q` ticks when the burst does not
complete earlier, and only `r` ticks when the burst completes first.  The
unit's trace grows by one `switching_in` tick and `min Q r` `processing`
ticks. -/
theorem CPU.rr_processing_ticks (c : CPU) (tbl : PCBTable) (key : Nat) (p : PCB)
    (r : Nat) (tl : List Nat) (Q : Nat)
    (hQ : c.settings.RR_TIME = Q) (hQ1 : 1 ≤ Q) (hQM : Q < STEP_MOD)
    (hst : c.getState = CPUState.switching_in) (hn : c.t.count = 1)
    (hk : c.proc = some key) (hp : tbl.lookup key = some p)
    (hs : p.state = ProcessState.switching) (hb : p.bursts.bursts = r :: tl)
    (hr : 1 ≤ r) (hrM : r < STEP_MOD) (k : Nat) (hkm : k ≤ min Q r) :
    ∃ ck tblk, CPU.stepN (k + 1) c tbl = some (ck, tblk) ∧
      ck.stats.hist = (fun h => h.inc CPUState.processing)^[k]
        (c.stats.hist.inc CPUState.switching_in) ∧
      (k < min Q r → ck.getState = CPUState.processing) ∧
      (k = min Q r → ck.getState = CPUState.switching_out) := by
  have hf : c.settings.RR_TIME ≠ 0 := by omega
  have hstep := CPU.step_switch_in_done_rr c tbl key p hst hf hk hp hn
  have hlk := PCBTable.lookup_store tbl key p
    { p.step.2 with state := ProcessState.running } hp
  have hbs : p.step.2.bursts = p.bursts :=
    (PCB.step_of_inactive p (Or.inr (Or.inl hs))).2
  obtain ⟨ck, tblk, hrun, hhist, hlt, heq⟩ :=
    CPU.rr_quantum_run k
      { c.recordTick with t := Timer.init c.settings.RR_TIME CPUState.processing }
      (tbl.store key { p.step.2 with state := ProcessState.running }) key
      { p.step.2 with state := ProcessState.running } r tl rfl hf hk hlk
      (by show 1 ≤ c.settings.RR_TIME; omega) (by show c.settings.RR_TIME < STEP_MOD; omega)
      rfl (by show p.step.2.bursts.bursts = r :: tl; rw [hbs, hb]) hr hrM
      (by show k ≤ min c.settings.RR_TIME r; omega)
  refine ⟨ck, tblk, ?_, ?_, ?_, ?_⟩
  · rw [CPU.stepN_succ_of_step k c tbl _ _ _ hstep]
    exact hrun
  · rw [hhist]
    show _ = (fun h => h.inc CPUState.processing)^[k] (c.stats.hist.inc CPUState.switching_in)
    rw [← hst, ← CPU.recordTick_hist]
  · intro h
    exact hlt (by show k < min c.settings.RR_TIME r; omega)
  · intro h
    exact heq (by show k = min c.settings.RR_TIME r; omega)

theorem CPU.rr_processing_ticks_witness :
    ∃ ck tblk, CPU.stepN (2 + 1) (boundCPU rrFive CPUState.switching_in 1)
        (tableOf shortBurstPCB) = some (ck, tblk) ∧
      ck.stats.hist = (fun h => h.inc CPUState.processing)^[2]
        ((boundCPU rrFive CPUState.switching_in 1).stats.hist.inc CPUState.switching_in) ∧
      (2 < min 5 2 → ck.getState = CPUState.processing) ∧
      (2 = min 5 2 → ck.getState = CPUState.switching_out) :=
  CPU.rr_processing_ticks (boundCPU rrFive CPUState.switching_in 1) (tableOf shortBurstPCB) 0
    shortBurstPCB 2 [3] 5 rfl (by decide) (by decide) rfl rfl rfl rfl rfl rfl (by decide)
    (by decide) 2 (by decide)

/-- C8 as stated fails: with quantum 5 and a head burst of 2 ticks, the unit
is in `switching_out` after 2 ticks of `processing`, not after 5; its trace is
`[switching_in:1, processing:2]` at that point. -/
theorem CPU.rr_not_exactly_quantum :
    ¬ (∀ (c : CPU) (tbl : PCBTable) (key : Nat) (p : PCB) (r : Nat) (tl : List Nat) (Q : Nat),
        c.settings.RR_TIME = Q → 1 ≤ Q → Q < STEP_MOD →
        c.getState = CPUState.switching_in → c.t.count = 1 →
        c.proc = some key → tbl.lookup key = some p →
        p.state = ProcessState.switching → p.bursts.bursts = r :: tl →
        1 ≤ r → r < STEP_MOD → ∀ k, k ≤ Q →
        ∃ ck tblk, CPU.stepN (k + 1) c tbl = some (ck, tblk) ∧
          (k < Q → ck.getState = CPUState.processing) ∧
          (k = Q → ck.getState = CPUState.switching_out)) ∧
    (CPU.stepN 3 (boundCPU rrFive CPUState.switching_in 1) (tableOf shortBurstPCB)).map
        (fun x => (x.1.getState, x.1.stats.hist.trace))
      = some (CPUState.switching_out,
          [{ state := CPUState.switching_in, duration := 1 },
           { state := CPUState.processing, duration := 2 }]) := by
  refine ⟨?_, by decide⟩
  intro h
  obtain ⟨ck, tblk, hrun, hlt, _⟩ :=
    h (boundCPU rrFive CPUState.switching_in 1) (tableOf shortBurstPCB) 0 shortBurstPCB 2 [3] 5
      rfl (by decide) (by decide) rfl rfl rfl rfl rfl rfl (by decide) (by decide) 2 (by decide)
  have hst := hlt (by decide)
  have hval : CPU.stepN 3 (boundCPU rrFive CPUState.switching_in 1) (tableOf shortBurstPCB)
      = some (ck, tblk) := hrun
  have hdec : (CPU.stepN 3 (boundCPU rrFive CPUState.switching_in 1) (tableOf shortBurstPCB)).map
      (fun x => x.1.getState) = some CPUState.switching_out := by decide
  rw [hval] at hdec
  simp only [Option.map_some', Option.some.injEq] at hdec
  rw [hst] at hdec
  exact absurd hdec (by decide)

/-! ### Traces -/

/-- The three ways `inc` changes a trace. -/
theorem History.inc_cases {E : Type} [DecidableEq E] (h : History E) (s : E) :
    (h.trace = [] ∧ (h.inc s).trace = [{ state := s, duration := 1 }]) ∨
    (∃ l b, h.trace = l ++ [b] ∧ b.state = s ∧
      (h.inc s).trace = l ++ [{ state := s, duration := (b.duration + 1) % STEP_MOD }]) ∨
    (∃ l b, h.trace = l ++ [b] ∧ b.state ≠ s ∧
      (h.inc s).trace = l ++ [b] ++ [{ state := s, duration := 1 }]) := by
  obtain ⟨l⟩ := h
  rcases List.eq_nil_or_concat l with hl | ⟨l1, b, hl⟩
  · subst hl
    left
    exact ⟨rfl, rfl⟩
  · rw [List.concat_eq_append] at hl
    subst hl
    right
    by_cases hb : b.state = s
    · left
      refine ⟨l1, b, rfl, hb, ?_⟩
      simp [History.inc, History.push, hb]
    · right
      refine ⟨l1, b, rfl, hb, ?_⟩
      simp [History.inc, History.push, hb]

theorem chain_concat_iff {α : Type} (R : α → α → Prop) (l : List α) (b : α) :
    List.Chain' R (l ++ [b]) ↔ List.Chain' R l ∧ ∀ x, l.getLast? = some x → R x b := by
  rw [List.chain'_append]
  simp [List.chain'_singleton]

/-- Recording a tick of a state other than `processing` keeps the processing
periods in order, provided an open processing period is only followed by
`switching_out`. -/
theorem processingPeriodsOK_inc_other (Q : Nat) (h : History CPUState) (s : CPUState)
    (hok : processingPeriodsOK Q h.trace) (hs : s ≠ CPUState.processing)
    (hlast : ∀ b, h.trace.getLast? = some b → b.state = CPUState.processing →
      s = CPUState.switching_out) :
    processingPeriodsOK Q (h.inc s).trace ∧
      ∀ b, (h.inc s).trace.getLast? = some b → b.state = s := by
  obtain ⟨hdur, hchain⟩ := hok
  rcases History.inc_cases h s with ⟨_, hnew⟩ | ⟨l, b, hold, hbs, hnew⟩ | ⟨l, b, hold, hbs, hnew⟩
  · rw [hnew]
    refine ⟨⟨?_, List.chain'_singleton _⟩, ?_⟩
    · intro p hp hps
      simp only [List.mem_singleton] at hp
      subst hp
      exact absurd hps hs
    · intro b hb
      simp only [List.getLast?_singleton, Option.some.injEq] at hb
      subst hb
      rfl
  · rw [hnew]
    rw [hold] at hdur hchain
    rw [chain_concat_iff] at hchain
    refine ⟨⟨?_, ?_⟩, ?_⟩
    · intro p hp hps
      rcases List.mem_append.mp hp with hp | hp
      · exact hdur p (List.mem_append_left _ hp) hps
      · simp only [List.mem_singleton] at hp
        subst hp
        exact absurd hps hs
    · rw [chain_concat_iff]
      refine ⟨hchain.1, ?_⟩
      intro x hx hxp
      have := hchain.2 x hx hxp
      rw [hbs] at this
      exact this
    · intro b1 hb1
      rw [List.getLast?_concat] at hb1
      injection hb1 with hb1
      subst hb1
      rfl
  · rw [hnew]
    rw [hold] at hdur hchain hlast
    refine ⟨⟨?_, ?_⟩, ?_⟩
    · intro p hp hps
      rcases List.mem_append.mp hp with hp | hp
      · exact hdur p hp hps
      · simp only [List.mem_singleton] at hp
        subst hp
        exact absurd hps hs
    · rw [chain_concat_iff]
      refine ⟨hchain, ?_⟩
      intro x hx hxp
      exact hlast x hx hxp
    · intro b1 hb1
      rw [List.getLast?_concat] at hb1
      injection hb1 with hb1
      subst hb1
      rfl

/-- Recording a processing tick while the open processing period is shorter
than the quantum keeps the processing periods in order and lengthens the open
period by one. -/
theorem processingPeriodsOK_inc_processing (Q : Nat) (h : History CPUState)
    (hok : processingPeriodsOK Q h.trace) (hlt : openProcessingTicks h.trace + 1 ≤ Q)
    (hQM : Q < STEP_MOD) :
    processingPeriodsOK Q (h.inc CPUState.processing).trace ∧
      (h.inc CPUState.processing).trace.getLast?
        = some { state := CPUState.processing, duration := openProcessingTicks h.trace + 1 } := by
  obtain ⟨hdur, hchain⟩ := hok
  rcases History.inc_cases h CPUState.processing with
    ⟨hold, hnew⟩ | ⟨l, b, hold, hbs, hnew⟩ | ⟨l, b, hold, hbs, hnew⟩
  · rw [hnew]
    have h0 : openProcessingTicks h.trace = 0 := by simp [openProcessingTicks, hold]
    rw [h0] at hlt ⊢
    refine ⟨⟨?_, List.chain'_singleton _⟩, rfl⟩
    intro p hp _
    simp only [List.mem_singleton] at hp
    subst hp
    exact hlt
  · have hopen : openProcessingTicks h.trace = b.duration := by
      simp [openProcessingTicks, hold, hbs]
    rw [hopen] at hlt ⊢
    have hmod : (b.duration + 1) % STEP_MOD = b.duration + 1 :=
      Nat.mod_eq_of_lt (by omega)
    rw [hnew, hmod]
    rw [hold] at hdur hchain
    rw [chain_concat_iff] at hchain
    refine ⟨⟨?_, ?_⟩, List.getLast?_concat _⟩
    · intro p hp hps
      rcases List.mem_append.mp hp with hp | hp
      · exact hdur p (List.mem_append_left _ hp) hps
      · simp only [List.mem_singleton] at hp
        subst hp
        exact hlt
    · rw [chain_concat_iff]
      refine ⟨hchain.1, ?_⟩
      intro x hx hxp
      have := hchain.2 x hx hxp
      rw [hbs] at this
      exact absurd this (by decide)
  · have hopen : openProcessingTicks h.trace = 0 := by
      simp [openProcessingTicks, hold, hbs]
    rw [hopen] at hlt ⊢
    rw [hnew]
    rw [hold] at hdur hchain
    refine ⟨⟨?_, ?_⟩, List.getLast?_concat _⟩
    · intro p hp hps
      rcases List.mem_append.mp hp with hp | hp
      · exact hdur p hp hps
      · simp only [List.mem_singleton] at hp
        subst hp
        exact hlt
    · rw [chain_concat_iff]
      refine ⟨hchain, ?_⟩
      intro x hx hxp
      rw [List.getLast?_concat] at hx
      injection hx with hx
      subst hx
      exact absurd hxp hbs

/-! ### CPU: what one step keeps and changes -/

theorem Timer.step_data {T : Type} (t : Timer T) (tr : Bool × Timer T)
    (h : t.step = some tr) : tr.2.data = t.data := by
  by_cases h0 : t.count = 0
  · simp [Timer.step, h0] at h
  · simp only [Timer.step, h0, if_false, Option.some.injEq] at h
    generalize (t.count + (STEP_MOD - 1)) % STEP_MOD = c at h
    have h2 : tr.2 = { data := t.data, count := c } := by rw [← h]
    rw [h2]

theorem Timer.step_some_pos {T : Type} (t : Timer T) (tr : Bool × Timer T)
    (h : t.step = some tr) : 1 ≤ t.count := by
  by_cases h0 : t.count = 0
  · simp [Timer.step, h0] at h
  · exact Nat.pos_of_ne_zero h0

/-- The assigned branch writes neither the trace nor the settings nor
`last_id` of the unit. -/
theorem CPU.stepOn_frame (c : CPU) (p : PCB) (r : Bool) (c1 : CPU) (p1 : PCB)
    (hs : c.stepOn p = some (r, c1, p1)) :
    c1.stats = c.stats ∧ c1.settings = c.settings ∧ c1.last_id = c.last_id := by
  cases hst : c.getState with
  | idle =>
    unfold CPU.stepOn at hs
    simp only [hst] at hs
    cases hts : c.t.step with
    | none => simp [hts] at hs
    | some tr =>
      simp [hts] at hs
      obtain ⟨_, hc, _⟩ := hs
      subst hc
      exact ⟨rfl, rfl, rfl⟩
  | switching_out =>
    rw [CPU.stepOn_switching_out c p hst] at hs
    cases hts : c.t.step with
    | none => simp [hts] at hs
    | some tr =>
      simp only [hts, Option.map_some', Option.some.injEq] at hs
      split at hs <;>
        (simp only [Prod.mk.injEq] at hs
         obtain ⟨_, hc, _⟩ := hs
         subst hc
         exact ⟨rfl, rfl, rfl⟩)
  | switching_in =>
    rw [CPU.stepOn_switching_in c p hst] at hs
    cases hts : c.t.step with
    | none => simp [hts] at hs
    | some tr =>
      simp only [hts, Option.map_some', Option.some.injEq] at hs
      split at hs
      · split at hs <;>
          (simp only [Prod.mk.injEq] at hs
           obtain ⟨_, hc, _⟩ := hs
           subst hc
           exact ⟨rfl, rfl, rfl⟩)
      · simp only [Prod.mk.injEq] at hs
        obtain ⟨_, hc, _⟩ := hs
        subst hc
        exact ⟨rfl, rfl, rfl⟩
  | processing =>
    by_cases hf : c.settings.RR_TIME = 0
    · rw [CPU.stepOn_busy_fcfs c p (Or.inl hst) hf] at hs
      simp only [Option.some.injEq, Prod.mk.injEq] at hs
      obtain ⟨_, hc⟩ := hs
      split at hc
      · split at hc <;>
          (simp only [CPU.deassignOn, Prod.mk.injEq] at hc
           obtain ⟨hc, _⟩ := hc
           subst hc
           exact ⟨rfl, rfl, rfl⟩)
      · simp only [Prod.mk.injEq] at hc
        obtain ⟨hc, _⟩ := hc
        subst hc
        exact ⟨rfl, rfl, rfl⟩
    · rw [CPU.stepOn_busy_rr c p (Or.inl hst) hf] at hs
      cases hts : c.t.step with
      | none => simp [hts] at hs
      | some tr =>
        simp only [hts, Option.map_some', Option.some.injEq] at hs
        split at hs <;>
          (simp only [Prod.mk.injEq] at hs
           obtain ⟨_, hc, _⟩ := hs
           subst hc
           exact ⟨rfl, rfl, rfl⟩)
  | assigned_idle =>
    by_cases hf : c.settings.RR_TIME = 0
    · rw [CPU.stepOn_busy_fcfs c p (Or.inr hst) hf] at hs
      simp only [Option.some.injEq, Prod.mk.injEq] at hs
      obtain ⟨_, hc⟩ := hs
      split at hc
      · split at hc <;>
          (simp only [CPU.deassignOn, Prod.mk.injEq] at hc
           obtain ⟨hc, _⟩ := hc
           subst hc
           exact ⟨rfl, rfl, rfl⟩)
      · simp only [Prod.mk.injEq] at hc
        obtain ⟨hc, _⟩ := hc
        subst hc
        exact ⟨rfl, rfl, rfl⟩
    · rw [CPU.stepOn_busy_rr c p (Or.inr hst) hf] at hs
      cases hts : c.t.step with
      | none => simp [hts] at hs
      | some tr =>
        simp only [hts, Option.map_some', Option.some.injEq] at hs
        split at hs <;>
          (simp only [Prod.mk.injEq] at hs
           obtain ⟨_, hc, _⟩ := hs
           subst hc
           exact ⟨rfl, rfl, rfl⟩)

/-- Every successful `CPU::step` records exactly one tick of the state the unit
had at the start of the step, and keeps the settings. -/
theorem CPU.step_frame (c : CPU) (tbl : PCBTable) (r : Bool) (c1 : CPU) (tbl1 : PCBTable)
    (hs : c.step tbl = some (r, c1, tbl1)) :
    c1.stats.hist = c.stats.hist.inc c.getState ∧ c1.settings = c.settings := by
  by_cases hidle : c.getState = CPUState.idle
  · rw [CPU.step_idle c tbl hidle] at hs
    simp only [Option.some.injEq, Prod.mk.injEq] at hs
    obtain ⟨_, hc, _⟩ := hs
    subst hc
    exact ⟨rfl, rfl⟩
  · obtain ⟨key, p, p1, _, _, hon, _⟩ := CPU.step_assigned_inv c tbl r c1 tbl1 hidle hs
    obtain ⟨h1, h2, _⟩ := CPU.stepOn_frame c.recordTick p r c1 p1 hon
    rw [h1, h2]
    exact ⟨rfl, rfl⟩

/-- The state changes one step of a round-robin unit can make. -/
theorem CPU.step_rr_transition (c : CPU) (tbl : PCBTable) (r : Bool) (c1 : CPU)
    (tbl1 : PCBTable) (hf : c.settings.RR_TIME ≠ 0) (hs : c.step tbl = some (r, c1, tbl1)) :
    (c.getState = CPUState.idle → c1.getState = CPUState.idle) ∧
    (c.getState = CPUState.switching_in →
      c1.getState = CPUState.switching_in ∨
        (c1.getState = CPUState.processing ∧ c1.t.count = c.settings.RR_TIME)) ∧
    (c.getState = CPUState.switching_out →
      c1.getState = CPUState.switching_out ∨ c1.getState = CPUState.idle) ∧
    (c.getState = CPUState.processing → c.t.count < STEP_MOD →
      1 ≤ c.t.count ∧
        (c1.getState = CPUState.switching_out ∨
          (c1.getState = CPUState.processing ∧ c1.t.count = c.t.count - 1 ∧
            1 ≤ c1.t.count))) := by
  refine ⟨?_, ?_, ?_, ?_⟩
  · intro hst
    rw [CPU.step_idle c tbl hst] at hs
    simp only [Option.some.injEq, Prod.mk.injEq] at hs
    obtain ⟨_, hc, _⟩ := hs
    subst hc
    exact hst
  · intro hst
    have hne : c.getState ≠ CPUState.idle := by rw [hst]; decide
    obtain ⟨key, p, p1, _, _, hon, _⟩ := CPU.step_assigned_inv c tbl r c1 tbl1 hne hs
    rw [CPU.stepOn_switching_in c.recordTick p hst, CPU.recordTick_t] at hon
    have hfc : c.recordTick.isFCFS = false := by simp [CPU.isFCFS, CPU.recordTick, hf]
    cases hts : c.t.step with
    | none => simp [hts] at hon
    | some tr =>
      have hd := Timer.step_data c.t tr hts
      simp only [hts, Option.map_some', Option.some.injEq, hfc, Bool.false_eq_true,
        if_false] at hon
      split at hon
      · simp only [Prod.mk.injEq] at hon
        obtain ⟨_, hc, _⟩ := hon
        subst hc
        right
        exact ⟨rfl, rfl⟩
      · simp only [Prod.mk.injEq] at hon
        obtain ⟨_, hc, _⟩ := hon
        subst hc
        left
        show tr.2.data = CPUState.switching_in
        rw [hd]
        exact hst
  · intro hst
    have hne : c.getState ≠ CPUState.idle := by rw [hst]; decide
    obtain ⟨key, p, p1, _, _, hon, _⟩ := CPU.step_assigned_inv c tbl r c1 tbl1 hne hs
    rw [CPU.stepOn_switching_out c.recordTick p hst, CPU.recordTick_t] at hon
    cases hts : c.t.step with
    | none => simp [hts] at hon
    | some tr =>
      have hd := Timer.step_data c.t tr hts
      simp only [hts, Option.map_some', Option.some.injEq] at hon
      split at hon
      · simp only [Prod.mk.injEq] at hon
        obtain ⟨_, hc, _⟩ := hon
        subst hc
        right
        rfl
      · simp only [Prod.mk.injEq] at hon
        obtain ⟨_, hc, _⟩ := hon
        subst hc
        left
        show tr.2.data = CPUState.switching_out
        rw [hd]
        exact hst
  · intro hst hM
    have hne : c.getState ≠ CPUState.idle := by rw [hst]; decide
    obtain ⟨key, p, p1, _, _, hon, _⟩ := CPU.step_assigned_inv c tbl r c1 tbl1 hne hs
    rw [CPU.stepOn_busy_rr c.recordTick p (Or.inl hst) hf, CPU.recordTick_t] at hon
    cases hts : c.t.step with
    | none => simp [hts] at hon
    | some tr =>
      have hpos := Timer.step_some_pos c.t tr hts
      have htr := Timer.step_pos c.t hpos hM
      rw [hts] at htr
      injection htr with htr
      simp only [hts, Option.map_some', Option.some.injEq] at hon
      subst htr
      refine ⟨hpos, ?_⟩
      split at hon
      · simp only [Prod.mk.injEq] at hon
        obtain ⟨_, hc, _⟩ := hon
        subst hc
        left
        rfl
      · rename_i hcond
        simp only [Prod.mk.injEq] at hon
        obtain ⟨_, hc, _⟩ := hon
        subst hc
        right
        simp only [Bool.or_eq_true, decide_eq_true_eq, not_or] at hcond
        refine ⟨hst, rfl, ?_⟩
        show 1 ≤ c.t.count - 1
        omega

/-! ### The round-robin bound -/

theorem openProcessingTicks_of_last (trace : List (Period CPUState)) (s : CPUState)
    (hs : s ≠ CPUState.processing)
    (hlast : ∀ b, trace.getLast? = some b → b.state = s) :
    openProcessingTicks trace = 0 := by
  unfold openProcessingTicks
  cases hg : trace.getLast? with
  | none => rfl
  | some b =>
    have hb := hlast b hg
    have : ¬ b.state = CPUState.processing := by rw [hb]; exact hs
    simp [this]

theorem CPU.rrInv_init (sett : SystemSettings) (id : Nat) :
    CPU.rrInv sett.RR_TIME (CPU.init sett id) := by
  refine ⟨rfl, ⟨?_, ?_⟩, by show CPUState.idle ≠ CPUState.assigned_idle; decide, ?_, ?_⟩
  · intro p hp
    cases hp
  · exact List.chain'_nil
  · intro b hb
    cases hb
  · intro h
    cases h

theorem CPU.rrInv_assign (Q : Nat) (c : CPU) (key : Nat) (tbl : PCBTable) (c1 : CPU)
    (tbl1 : PCBTable) (hinv : CPU.rrInv Q c) (hidle : c.assigned = false)
    (ha : c.assign key tbl = some (c1, tbl1)) : CPU.rrInv Q c1 := by
  obtain ⟨h1, h2, _, h4, _⟩ := hinv
  have hst : c.getState = CPUState.idle := by
    simpa [CPU.assigned] using hidle
  unfold CPU.assign at ha
  split at ha
  · cases ha
  · simp only [Option.some.injEq, Prod.mk.injEq] at ha
    obtain ⟨hc, _⟩ := ha
    subst hc
    refine ⟨h1, h2, by show CPUState.switching_in ≠ CPUState.assigned_idle; decide, ?_, ?_⟩
    · intro b hb hbp
      rcases h4 b hb hbp with h | h <;> rw [hst] at h <;> cases h
    · intro h
      cases h

theorem CPU.rrInv_step (Q : Nat) (c : CPU) (tbl : PCBTable) (r : Bool) (c1 : CPU)
    (tbl1 : PCBTable) (hQ1 : 1 ≤ Q) (hQM : Q < STEP_MOD) (hinv : CPU.rrInv Q c)
    (hs : c.step tbl = some (r, c1, tbl1)) : CPU.rrInv Q c1 := by
  obtain ⟨h1, h2, h3, h4, h5⟩ := hinv
  have hf : c.settings.RR_TIME ≠ 0 := by omega
  obtain ⟨hhist, hsett⟩ := CPU.step_frame c tbl r c1 tbl1 hs
  obtain ⟨tidle, tin, tout, tproc⟩ := CPU.step_rr_transition c tbl r c1 tbl1 hf hs
  have hnotproc : ∀ s, c.getState = s → s ≠ CPUState.processing →
      s ≠ CPUState.switching_out →
      ∀ b, c.stats.hist.trace.getLast? = some b → b.state = CPUState.processing →
        s = CPUState.switching_out := by
    intro s hcs hsp hso b hb hbp
    rcases h4 b hb hbp with h | h
    · rw [hcs] at h
      exact h
    · rw [hcs] at h
      exact absurd h hsp
  cases hst : c.getState with
  | idle =>
    obtain ⟨hok, hlast⟩ := processingPeriodsOK_inc_other Q c.stats.hist CPUState.idle h2
      (by decide) (hnotproc _ hst (by decide) (by decide))
    have hc1 := tidle hst
    rw [hst] at hhist
    rw [← hhist] at hok hlast
    refine ⟨by rw [hsett]; exact h1, hok, by rw [hc1]; decide, ?_, ?_⟩
    · intro b hb hbp
      rw [hlast b hb] at hbp
      cases hbp
    · intro h
      rw [hc1] at h
      cases h
  | assigned_idle => exact absurd hst h3
  | switching_in =>
    obtain ⟨hok, hlast⟩ := processingPeriodsOK_inc_other Q c.stats.hist CPUState.switching_in h2
      (by decide) (hnotproc _ hst (by decide) (by decide))
    rw [hst] at hhist
    rw [← hhist] at hok hlast
    have hopen := openProcessingTicks_of_last c1.stats.hist.trace CPUState.switching_in
      (by decide) hlast
    refine ⟨by rw [hsett]; exact h1, hok, ?_, ?_, ?_⟩
    · rcases tin hst with h | ⟨h, _⟩ <;> rw [h] <;> decide
    · intro b hb hbp
      rw [hlast b hb] at hbp
      cases hbp
    · intro h
      rcases tin hst with h' | ⟨_, hcnt⟩
      · rw [h'] at h
        cases h
      · rw [hopen, hcnt, h1]
        omega
  | switching_out =>
    obtain ⟨hok, hlast⟩ := processingPeriodsOK_inc_other Q c.stats.hist CPUState.switching_out h2
      (by decide) (fun _ _ _ => rfl)
    rw [hst] at hhist
    rw [← hhist] at hok hlast
    refine ⟨by rw [hsett]; exact h1, hok, ?_, ?_, ?_⟩
    · rcases tout hst with h | h <;> rw [h] <;> decide
    · intro b hb hbp
      rw [hlast b hb] at hbp
      cases hbp
    · intro h
      rcases tout hst with h' | h' <;> rw [h'] at h <;> cases h
  | processing =>
    obtain ⟨hsum, hpos⟩ := h5 hst
    obtain ⟨hok, hlast⟩ := processingPeriodsOK_inc_processing Q c.stats.hist h2 (by omega) hQM
    rw [hst] at hhist
    rw [← hhist] at hok hlast
    obtain ⟨_, htr⟩ := tproc hst (by omega)
    refine ⟨by rw [hsett]; exact h1, hok, ?_, ?_, ?_⟩
    · rcases htr with h | ⟨h, _⟩ <;> rw [h] <;> decide
    · intro _ _ _
      rcases htr with h | ⟨h, _⟩
      · exact Or.inl h
      · exact Or.inr h
    · intro h
      rcases htr with h' | ⟨_, hcnt, hpos1⟩
      · rw [h'] at h
        cases h
      · have hopen : openProcessingTicks c1.stats.hist.trace
            = openProcessingTicks c.stats.hist.trace + 1 := by
          simp [openProcessingTicks, hlast]
        rw [hopen, hcnt]
        omega

theorem CPU.rrInv_run (Q : Nat) (hQ1 : 1 ≤ Q) (hQM : Q < STEP_MOD) (evs : List UnitEvent) :
    ∀ (c : CPU) (tbl : PCBTable) (c1 : CPU) (tbl1 : PCBTable), CPU.rrInv Q c →
      CPU.runEvents evs c tbl = some (c1, tbl1) → CPU.rrInv Q c1 := by
  induction evs with
  | nil =>
    intro c tbl c1 tbl1 hinv hrun
    simp only [CPU.runEvents, Option.some.injEq, Prod.mk.injEq] at hrun
    rw [← hrun.1]
    exact hinv
  | cons e rest ih =>
    intro c tbl c1 tbl1 hinv hrun
    cases e with
    | step =>
      simp only [CPU.runEvents] at hrun
      cases hs : c.step tbl with
      | none => simp [hs] at hrun
      | some res =>
        obtain ⟨r, c2, tbl2⟩ := res
        simp only [hs] at hrun
        exact ih c2 tbl2 c1 tbl1 (CPU.rrInv_step Q c tbl r c2 tbl2 hQ1 hQM hinv hs) hrun
    | assign key =>
      simp only [CPU.runEvents] at hrun
      split at hrun
      · rename_i hg
        simp only [Bool.and_eq_true, Bool.not_eq_true'] at hg
        cases ha : c.assign key tbl with
        | none => simp [ha] at hrun
        | some res =>
          obtain ⟨c2, tbl2⟩ := res
          simp only [ha] at hrun
          exact ih c2 tbl2 c1 tbl1 (CPU.rrInv_assign Q c key tbl c2 tbl2 hinv hg.1 ha) hrun
      · cases hrun
    | other tbl2 =>
      simp only [CPU.runEvents] at hrun
      split at hrun
      · exact ih c tbl2 c1 tbl1 hinv hrun
      · cases hrun

/-- C7: take a round-robin unit with quantum `Q ≥ 1`, freshly constructed and
then driven by any script of `step()` calls, assignments to the idle unit and
table rewrites by the rest of the system.  In its trace every processing period
has duration at most `Q` and whatever period follows a processing period is a
`switching_out` period.  While the last period is an open processing period of
duration `d`, either the unit has already been forced into `switching_out`, or
it is still `processing` with `Q - d ≥ 1` ticks left on its quantum timer,
whatever the length of the process's burst. -/
theorem CPU.rr_processing_bounded (sett : SystemSettings) (id : Nat) (evs : List UnitEvent)
    (tbl0 : PCBTable) (c : CPU) (tbl : PCBTable)
    (hQ1 : 1 ≤ sett.RR_TIME) (hQM : sett.RR_TIME < STEP_MOD)
    (hrun : CPU.runEvents evs (CPU.init sett id) tbl0 = some (c, tbl)) :
    (∀ p ∈ c.stats.hist.trace, p.state = CPUState.processing → p.duration ≤ sett.RR_TIME) ∧
    List.Chain' (fun a b => a.state = CPUState.processing → b.state = CPUState.switching_out)
      c.stats.hist.trace ∧
    (∀ b, c.stats.hist.trace.getLast? = some b → b.state = CPUState.processing →
      c.getState = CPUState.switching_out ∨
        (c.getState = CPUState.processing ∧ b.duration + c.t.count = sett.RR_TIME ∧
          1 ≤ c.t.count)) := by
  obtain ⟨_, ⟨hdur, hchain⟩, _, h4, h5⟩ :=
    CPU.rrInv_run sett.RR_TIME hQ1 hQM evs (CPU.init sett id) tbl0 c tbl
      (CPU.rrInv_init sett id) hrun
  refine ⟨hdur, hchain, ?_⟩
  intro b hb hbp
  rcases h4 b hb hbp with h | h
  · exact Or.inl h
  · right
    obtain ⟨hsum, hpos⟩ := h5 h
    have hopen : openProcessingTicks c.stats.hist.trace = b.duration := by
      simp [openProcessingTicks, hb, hbp]
    rw [hopen] at hsum
    exact ⟨h, hsum, hpos⟩

theorem CPU.rr_processing_bounded_witness :
    (∀ p ∈ sampleFinalCPU.stats.hist.trace, p.state = CPUState.processing →
      p.duration ≤ rrTwo.RR_TIME) ∧
    List.Chain' (fun a b => a.state = CPUState.processing → b.state = CPUState.switching_out)
      sampleFinalCPU.stats.hist.trace ∧
    (∀ b, sampleFinalCPU.stats.hist.trace.getLast? = some b → b.state = CPUState.processing →
      sampleFinalCPU.getState = CPUState.switching_out ∨
        (sampleFinalCPU.getState = CPUState.processing ∧
          b.duration + sampleFinalCPU.t.count = rrTwo.RR_TIME ∧ 1 ≤ sampleFinalCPU.t.count)) :=
  CPU.rr_processing_bounded rrTwo 0 sampleScript (tableOf samplePCB) sampleFinalCPU
    sampleFinalTable (by decide) (by decide) (by decide)

/-! ### Idle units -/

theorem CPU.recordTick_idle_trace (c : CPU) (d : Nat) (hst : c.getState = CPUState.idle)
    (htr : c.stats.hist.trace = [{ state := CPUState.idle, duration := d }]) :
    c.recordTick.stats.hist.trace
      = [{ state := CPUState.idle, duration := (d + 1) % STEP_MOD }] := by
  rw [CPU.recordTick_hist, hst]
  simp [History.inc, History.push, htr]

theorem CPU.idle_steps : ∀ (n : Nat) (c : CPU) (tbl : PCBTable) (d : Nat),
    c.getState = CPUState.idle →
    c.stats.hist.trace = [{ state := CPUState.idle, duration := d }] → d < STEP_MOD →
    ∃ c1, CPU.stepReturns n c tbl = some (List.replicate n true, c1, tbl) ∧
      c1.getState = CPUState.idle ∧ c1.proc = c.proc ∧
      c1.stats.hist.trace = [{ state := CPUState.idle, duration := (d + n) % STEP_MOD }] := by
  intro n
  induction n with
  | zero =>
    intro c tbl d hst htr hd
    refine ⟨c, rfl, hst, rfl, ?_⟩
    rw [htr, Nat.add_zero, Nat.mod_eq_of_lt hd]
  | succ n ih =>
    intro c tbl d hst htr _
    have hstep := CPU.step_idle c tbl hst
    have htr1 := CPU.recordTick_idle_trace c d hst htr
    obtain ⟨c1, hrun, h1, h2, h3⟩ := ih c.recordTick tbl ((d + 1) % STEP_MOD) hst htr1
      (Nat.mod_lt _ (by decide))
    refine ⟨c1, ?_, h1, h2, ?_⟩
    · simp only [CPU.stepReturns, hstep, hrun, List.replicate_succ]
    · rw [h3, Nat.mod_add_mod, Nat.add_assoc, Nat.add_comm 1 n]

/-- A freshly constructed unit stepped `m + 1` times: every call returns true,
the unit stays idle and unbound, and its trace is the single period of state
`idle` whose duration is `m + 1` in `Step` arithmetic. -/
theorem CPU.fresh_idle_steps (sett : SystemSettings) (id : Nat) (tbl : PCBTable) (m : Nat) :
    ∃ c1, CPU.stepReturns (m + 1) (CPU.init sett id) tbl
        = some (List.replicate (m + 1) true, c1, tbl) ∧
      c1.getState = CPUState.idle ∧ c1.proc = none ∧
      c1.stats.hist.trace = [{ state := CPUState.idle, duration := (m + 1) % STEP_MOD }] := by
  have hst : (CPU.init sett id).getState = CPUState.idle := rfl
  have hstep := CPU.step_idle (CPU.init sett id) tbl hst
  have htr1 : (CPU.init sett id).recordTick.stats.hist.trace
      = [{ state := CPUState.idle, duration := 1 }] := rfl
  obtain ⟨c1, hrun, h2, h3, h4⟩ :=
    CPU.idle_steps m (CPU.init sett id).recordTick tbl 1 hst htr1 (by decide)
  refine ⟨c1, ?_, h2, h3, ?_⟩
  · simp only [CPU.stepReturns, hstep, hrun, List.replicate_succ]
  · rw [h4, Nat.add_comm 1 m]

/-- C14 as stated fails: the duration of a period is a `Step`.  After `2^32`
calls of `step()` on a fresh unit, every call has returned true and the unit is
still idle and unbound, but its trace is the single period `(idle, 0)`, not
`(idle, 2^32)`. -/
theorem CPU.idle_trace_wraps :
    (∃ c1, CPU.stepReturns STEP_MOD (CPU.init {} 0) {}
        = some (List.replicate STEP_MOD true, c1, {}) ∧
      c1.getState = CPUState.idle ∧ c1.proc = none ∧
      c1.stats.hist.trace = [{ state := CPUState.idle, duration := 0 }]) ∧
    ¬ (∀ n, 1 ≤ n → ∃ c1, CPU.stepReturns n (CPU.init {} 0) {}
        = some (List.replicate n true, c1, {}) ∧
      c1.getState = CPUState.idle ∧ c1.proc = none ∧
      c1.stats.hist.trace = [{ state := CPUState.idle, duration := n }]) := by
  have e : 4294967295 + 1 = STEP_MOD := by decide
  have hmod : STEP_MOD % STEP_MOD = 0 := Nat.mod_self _
  obtain ⟨c1, hrun, h2, h3, h4⟩ := CPU.fresh_idle_steps {} 0 {} 4294967295
  rw [e] at hrun h4
  rw [hmod] at h4
  refine ⟨⟨c1, hrun, h2, h3, h4⟩, ?_⟩
  intro hall
  obtain ⟨c2, hrun2, _, _, h5⟩ := hall STEP_MOD (Nat.le_of_ble_eq_true rfl)
  have hc : c1 = c2 :=
    (Prod.mk.inj (Prod.mk.inj (Option.some.inj (hrun.symm.trans hrun2))).2).1
  rw [← hc, h4] at h5
  have hd : (0 : Nat) = STEP_MOD := congrArg Period.duration (List.head_eq_of_cons_eq h5)
  exact absurd hd (by decide)

/-- C14 (amended): a freshly constructed unit on which only `step()` is called:
for every `n ≥ 1`, the `n` calls succeed and each returns true, the unit is
still idle with no process bound, and its trace is the single period of state
`idle` whose duration is `n` in `Step` arithmetic (`n mod 2^32`), that is `n`
itself for every `n` below `2^32`. -/
theorem CPU.idle_forever (sett : SystemSettings) (id : Nat) (tbl : PCBTable) (n : Nat)
    (h1 : 1 ≤ n) :
    ∃ c1, CPU.stepReturns n (CPU.init sett id) tbl = some (List.replicate n true, c1, tbl) ∧
      c1.getState = CPUState.idle ∧ c1.proc = none ∧
      c1.stats.hist.trace = [{ state := CPUState.idle, duration := n % STEP_MOD }] ∧
      (n < STEP_MOD →
        c1.stats.hist.trace = [{ state := CPUState.idle, duration := n }]) := by
  obtain ⟨m, rfl⟩ : ∃ m, n = m + 1 := ⟨n - 1, by omega⟩
  have hst : (CPU.init sett id).getState = CPUState.idle := rfl
  have hstep := CPU.step_idle (CPU.init sett id) tbl hst
  have htr1 : (CPU.init sett id).recordTick.stats.hist.trace
      = [{ state := CPUState.idle, duration := 1 }] := rfl
  have hfin : ∃ c1, CPU.stepReturns (m + 1) (CPU.init sett id) tbl
        = some (List.replicate (m + 1) true, c1, tbl) ∧
      c1.getState = CPUState.idle ∧ c1.proc = none ∧
      c1.stats.hist.trace = [{ state := CPUState.idle, duration := (m + 1) % STEP_MOD }] := by
    obtain ⟨c1, hrun, h2, h3, h4⟩ :=
      CPU.idle_steps m (CPU.init sett id).recordTick tbl 1 hst htr1 (by decide)
    refine ⟨c1, ?_, h2, h3, ?_⟩
    · simp only [CPU.stepReturns, hstep, hrun, List.replicate_succ]
    · rw [h4, Nat.add_comm 1 m]
  obtain ⟨c1, hrun, h2, h3, h4⟩ := hfin
  refine ⟨c1, hrun, h2, h3, h4, ?_⟩
  intro hlt
  rw [h4, Nat.mod_eq_of_lt hlt]

theorem CPU.idle_forever_witness :
    ∃ c1, CPU.stepReturns 3 (CPU.init {} 0) {} = some (List.replicate 3 true, c1, {}) ∧
      c1.getState = CPUState.idle ∧ c1.proc = none ∧
      c1.stats.hist.trace = [{ state := CPUState.idle, duration := 3 % STEP_MOD }] ∧
      (3 < STEP_MOD →
        c1.stats.hist.trace = [{ state := CPUState.idle, duration := 3 }]) :=
  CPU.idle_forever {} 0 {} 3 (by decide)

/-! ### Contract violations -/

/-- C15: `step()` on a timer whose count is zero fails (the assertion
`count != 0`), whether the timer was constructed with count 0 or has already
fired; it returns neither true nor false. -/
theorem Timer.step_expired_fails {T : Type} :
    (∀ tag : T, (Timer.init 0 tag).step = none) ∧
    (∀ t : Timer T, t.count = 0 → t.step = none) ∧
    (∀ t t1 : Timer T, t.step = some (true, t1) → t1.step = none) := by
  have hzero : ∀ t : Timer T, t.count = 0 → t.step = none := by
    intro t h0
    simp [Timer.step, h0]
  refine ⟨fun tag => hzero _ rfl, hzero, ?_⟩
  intro t t1 h
  apply hzero
  by_cases h0 : t.count = 0
  · simp [Timer.step, h0] at h
  · simp only [Timer.step, h0, if_false, Option.some.injEq, Prod.mk.injEq,
      decide_eq_true_eq] at h
    obtain ⟨hc, ht⟩ := h
    generalize (t.count + (STEP_MOD - 1)) % STEP_MOD = c at hc ht
    subst hc
    rw [← ht]

theorem Timer.step_expired_fails_witness :
    (Timer.init 0 CPUState.idle).step = none ∧
    (Timer.init 0 CPUState.switching_in).step = none :=
  ⟨(Timer.step_expired_fails).2.1 (Timer.init 0 CPUState.idle) rfl,
   (Timer.step_expired_fails).2.2 (Timer.init 1 CPUState.switching_in)
     (Timer.init 0 CPUState.switching_in) (by decide)⟩

theorem ReadyPriorityQueue.top_le_length {T : Type} (q : ReadyPriorityQueue T) :
    q.getTopQueueIndex ≤ q.queues.length :=
  List.findIdx_le_length _

theorem ReadyPriorityQueue.top_nonempty {T : Type} (q : ReadyPriorityQueue T)
    (h : q.getTopQueueIndex < q.queues.length) :
    ∃ x rest, q.queues[q.getTopQueueIndex]? = some (x :: rest) := by
  have hg : (fun b : List T => !b.isEmpty) (q.queues[q.getTopQueueIndex]) = true :=
    @List.findIdx_getElem _ (fun b : List T => !b.isEmpty) q.queues h
  rw [List.getElem?_eq_getElem h]
  cases hb : q.queues[q.getTopQueueIndex] with
  | nil => simp [hb] at hg
  | cons x rest => exact ⟨x, rest, rfl⟩

theorem ReadyPriorityQueue.empty_iff_all_nil {T : Type} (q : ReadyPriorityQueue T) :
    q.empty = true ↔ ∀ b ∈ q.queues, b = [] := by
  simp only [ReadyPriorityQueue.empty, ReadyPriorityQueue.getTopQueueIndex,
    decide_eq_true_eq, List.findIdx_eq_length]
  constructor
  · intro h b hb
    have := h b hb
    cases b with
    | nil => rfl
    | cons x rest => simp at this
  · intro h b hb
    rw [h b hb]
    rfl

/-- C16: `front()` fails iff the queue is empty, `pop()` fails iff the queue is
empty, and the queue is empty iff every priority bucket is empty; so on a
non-empty queue both succeed. -/
theorem ReadyPriorityQueue.front_pop_fail_iff {T : Type} (q : ReadyPriorityQueue T) :
    (q.front = none ↔ q.empty = true) ∧ (q.pop = none ↔ q.empty = true) ∧
    (q.empty = true ↔ ∀ b ∈ q.queues, b = []) ∧
    (q.empty = false → ∃ x q1, q.front = some x ∧ q.pop = some q1) := by
  have hle := ReadyPriorityQueue.top_le_length q
  have hcase : q.empty = true ∨
      (q.empty = false ∧ ∃ x rest, q.queues[q.getTopQueueIndex]? = some (x :: rest)) := by
    by_cases h : q.getTopQueueIndex = q.queues.length
    · left
      simp [ReadyPriorityQueue.empty, h]
    · right
      refine ⟨by simp [ReadyPriorityQueue.empty, h], ?_⟩
      exact ReadyPriorityQueue.top_nonempty q (by omega)
  have hnone : q.empty = true → q.queues[q.getTopQueueIndex]? = none := by
    intro h
    simp only [ReadyPriorityQueue.empty, decide_eq_true_eq] at h
    rw [h]
    simp
  refine ⟨?_, ?_, ReadyPriorityQueue.empty_iff_all_nil q, ?_⟩
  · rcases hcase with h | ⟨h, x, rest, hx⟩
    · simp [ReadyPriorityQueue.front, hnone h, h]
    · simp [ReadyPriorityQueue.front, hx, h]
  · rcases hcase with h | ⟨h, x, rest, hx⟩
    · simp [ReadyPriorityQueue.pop, hnone h, h]
    · simp [ReadyPriorityQueue.pop, hx, h]
  · intro he
    rcases hcase with h | ⟨_, x, rest, hx⟩
    · rw [h] at he
      cases he
    · exact ⟨x, { queues := q.queues.set q.getTopQueueIndex rest },
        by simp [ReadyPriorityQueue.front, hx], by simp [ReadyPriorityQueue.pop, hx]⟩

theorem ReadyPriorityQueue.front_pop_fail_iff_witness :
    ∃ x q1, ({ queues := [[], [4, 5], [6]] } : ReadyPriorityQueue Nat).front = some x ∧
      ({ queues := [[], [4, 5], [6]] } : ReadyPriorityQueue Nat).pop = some q1 :=
  (ReadyPriorityQueue.front_pop_fail_iff { queues := [[], [4, 5], [6]] }).2.2.2 (by decide)

/-- C17 (amended): `CPU::assign` makes no check of the unit state: whatever
the state of the unit, assigning an entry of the table succeeds, binds that
entry, overwrites `last_id` with its id, marks the process `switching` and
restarts the unit timer with the switch-in delay. -/
theorem CPU.assign_unchecked (c : CPU) (key : Nat) (tbl : PCBTable) (p : PCB)
    (hp : tbl.lookup key = some p) :
    c.assign key tbl = some
      ({ c with proc := some key, last_id := p.id,
                t := Timer.init c.settings.SWITCHING_IN_DELAY CPUState.switching_in },
       tbl.store key { p with state := ProcessState.switching }) := by
  simp [CPU.assign, hp]

theorem CPU.assign_unchecked_witness :
    (boundCPU rrFive CPUState.processing 3).assign 1 twoProcessTable = some
      ({ boundCPU rrFive CPUState.processing 3 with
            proc := some 1, last_id := 1,
            t := Timer.init rrFive.SWITCHING_IN_DELAY CPUState.switching_in },
       twoProcessTable.store 1
         { PCB.init { id := 1, prio := 0, bursts := { bursts := [4] } } 0 with
           state := ProcessState.switching }) :=
  CPU.assign_unchecked (boundCPU rrFive CPUState.processing 3) 1 twoProcessTable
    (PCB.init { id := 1, prio := 0, bursts := { bursts := [4] } } 0) (by decide)

/-- C17 as stated fails: a unit in state `processing` bound to process 0 accepts
`assign` of process 1; afterwards it is bound to process 1, `last_id` is 1 and
its timer is the switch-in timer. -/
theorem CPU.assign_on_busy_unit_succeeds :
    (boundCPU rrFive CPUState.processing 3).getState ≠ CPUState.idle ∧
    ((boundCPU rrFive CPUState.processing 3).assign 1 twoProcessTable).map
        (fun r => (r.1.proc, r.1.last_id, r.1.t))
      = some (some 1, 1, Timer.init 7 CPUState.switching_in) := by
  decide

/-! ### FCFS: a unit keeps its process until no burst is left -/

/-- One step of an FCFS unit in state `processing` or `assigned_idle`, on the
table. -/
theorem CPU.step_busy_fcfs (c : CPU) (tbl : PCBTable) (key : Nat) (p : PCB)
    (hst : c.getState = CPUState.processing ∨ c.getState = CPUState.assigned_idle)
    (hf : c.settings.RR_TIME = 0) (hk : c.proc = some key) (hp : tbl.lookup key = some p) :
    c.step tbl = some (false,
      (if p.step.1 then
        if p.step.2.bursts.empty then c.recordTick.deassignOn p.step.2
        else
          ({ c.recordTick with t := if p.step.2.state = ProcessState.running
                         then Timer.init 0 CPUState.assigned_idle
                         else Timer.init 0 CPUState.processing },
           { p.step.2 with state := if p.step.2.state = ProcessState.running
                                    then ProcessState.blocked else ProcessState.running })
      else (c.recordTick, p.step.2)).1,
      tbl.store key
      (if p.step.1 then
        if p.step.2.bursts.empty then c.recordTick.deassignOn p.step.2
        else
          ({ c.recordTick with t := if p.step.2.state = ProcessState.running
                         then Timer.init 0 CPUState.assigned_idle
                         else Timer.init 0 CPUState.processing },
           { p.step.2 with state := if p.step.2.state = ProcessState.running
                                    then ProcessState.blocked else ProcessState.running })
      else (c.recordTick, p.step.2)).2) := by
  have hne : c.getState ≠ CPUState.idle := by
    rcases hst with h | h <;> rw [h] <;> decide
  rw [CPU.step_assigned c tbl key p hne hk hp, CPU.stepOn_busy_fcfs c.recordTick p hst hf]
  rfl

theorem CPU.fcfsInv_init (sett : SystemSettings) (id : Nat) (tbl : PCBTable)
    (hf : sett.RR_TIME = 0) : CPU.fcfsInv (CPU.init sett id) tbl :=
  ⟨hf, fun h => absurd rfl h⟩

theorem CPU.fcfsInv_assign (c : CPU) (key : Nat) (tbl : PCBTable) (c1 : CPU) (tbl1 : PCBTable)
    (hinv : CPU.fcfsInv c tbl) (hholds : tbl.holds key = true)
    (ha : c.assign key tbl = some (c1, tbl1)) : CPU.fcfsInv c1 tbl1 := by
  cases hp : tbl.lookup key with
  | none => simp [PCBTable.holds, hp] at hholds
  | some p =>
    have hid : p.id = key := by simpa [PCBTable.holds, hp] using hholds
    rw [CPU.assign_unchecked c key tbl p hp] at ha
    simp only [Option.some.injEq, Prod.mk.injEq] at ha
    obtain ⟨hc, ht⟩ := ha
    subst hc ht
    refine ⟨hinv.1, fun _ => ⟨key, { p with state := ProcessState.switching }, rfl, hid,
      PCBTable.lookup_store tbl key p _ hp, hid, ?_, ?_, ?_⟩⟩
    · intro h
      cases h
    · intro h
      cases h
    · intro h
      cases h

theorem CPU.fcfsInv_other (c : CPU) (tbl tbl1 : PCBTable) (hinv : CPU.fcfsInv c tbl)
    (hg : c.boundUntouched tbl tbl1 = true) : CPU.fcfsInv c tbl1 := by
  refine ⟨hinv.1, fun hne => ?_⟩
  obtain ⟨key, p, hk, hl, hp, hrest⟩ := hinv.2 hne
  have ha := CPU.assigned_eq_true c hne
  simp only [CPU.boundUntouched, ha, hk, Bool.not_true, Bool.false_or,
    decide_eq_true_eq] at hg
  exact ⟨key, p, hk, hl, by rw [hg]; exact hp, hrest⟩

theorem CPU.fcfsInv_step (c : CPU) (tbl : PCBTable) (r : Bool) (c1 : CPU) (tbl1 : PCBTable)
    (hinv : CPU.fcfsInv c tbl) (hs : c.step tbl = some (r, c1, tbl1)) :
    CPU.fcfsInv c1 tbl1 := by
  obtain ⟨hf, hbound⟩ := hinv
  by_cases hidle : c.getState = CPUState.idle
  · rw [CPU.step_idle c tbl hidle] at hs
    simp only [Option.some.injEq, Prod.mk.injEq] at hs
    obtain ⟨_, hc, _⟩ := hs
    subst hc
    exact ⟨hf, fun h => absurd hidle h⟩
  · obtain ⟨key, p, hk, hl, hp, hid, hout, hproc, hidl⟩ := hbound hidle
    have hlk : ∀ q, (tbl.store key q).lookup key = some q :=
      fun q => PCBTable.lookup_store tbl key p q hp
    have hsid : p.step.2.id = key := by rw [PCB.step_id, hid]
    cases hst : c.getState with
    | idle => exact absurd hst hidle
    | switching_out =>
      rw [CPU.step_assigned c tbl key p hidle hk hp,
        CPU.stepOn_switching_out c.recordTick p hst, CPU.recordTick_t] at hs
      obtain ⟨hpe, hpb⟩ := hout hst
      have hb : p.step.2.bursts = p.bursts :=
        (PCB.step_of_inactive p (Or.inr (Or.inr hpe))).2
      cases hts : c.t.step with
      | none => simp [hts] at hs
      | some tr =>
        have hd := Timer.step_data c.t tr hts
        simp only [hts, Option.map_some', Option.some.injEq] at hs
        split at hs
        · simp only [Prod.mk.injEq] at hs
          obtain ⟨_, hc, _⟩ := hs
          subst hc
          exact ⟨hf, fun h => absurd rfl h⟩
        · simp only [Prod.mk.injEq] at hs
          obtain ⟨_, hc, ht⟩ := hs
          subst hc ht
          refine ⟨hf, fun _ => ⟨key, p.step.2, hk, hl, hlk _, hsid, ?_, ?_, ?_⟩⟩
          · intro _
            rw [PCB.step_state, hb]
            exact ⟨hpe, hpb⟩
          · intro h
            have h1 : tr.2.data = CPUState.processing := h
            rw [hd] at h1
            exact absurd (h1.symm.trans hst) (by decide)
          · intro h
            have h1 : tr.2.data = CPUState.assigned_idle := h
            rw [hd] at h1
            exact absurd (h1.symm.trans hst) (by decide)
    | switching_in =>
      rw [CPU.step_assigned c tbl key p hidle hk hp,
        CPU.stepOn_switching_in c.recordTick p hst, CPU.recordTick_t] at hs
      have hfc : c.recordTick.isFCFS = true := by simp [CPU.isFCFS, CPU.recordTick, hf]
      cases hts : c.t.step with
      | none => simp [hts] at hs
      | some tr =>
        have hd := Timer.step_data c.t tr hts
        simp only [hts, Option.map_some', Option.some.injEq, hfc, if_true] at hs
        split at hs
        · simp only [Prod.mk.injEq] at hs
          obtain ⟨_, hc, ht⟩ := hs
          subst hc ht
          cases hpk : p.step.2.bursts.isProcessing
          · refine ⟨hf, fun _ => ⟨key, _, hk, hl, hlk _, hsid, ?_, ?_, ?_⟩⟩
            · intro h
              simp [CPU.getState, Timer.getData, Timer.init] at h
            · intro h
              simp [CPU.getState, Timer.getData, Timer.init] at h
            · intro _
              simp
          · refine ⟨hf, fun _ => ⟨key, _, hk, hl, hlk _, hsid, ?_, ?_, ?_⟩⟩
            · intro h
              simp [CPU.getState, Timer.getData, Timer.init] at h
            · intro _
              simp
            · intro h
              simp [CPU.getState, Timer.getData, Timer.init] at h
        · simp only [Prod.mk.injEq] at hs
          obtain ⟨_, hc, ht⟩ := hs
          subst hc ht
          have hst1 : tr.2.data = CPUState.switching_in := by rw [hd]; exact hst
          refine ⟨hf, fun _ => ⟨key, p.step.2, hk, hl, hlk _, hsid, ?_, ?_, ?_⟩⟩
          · intro h
            have h1 : tr.2.data = CPUState.switching_out := h
            rw [hst1] at h1
            cases h1
          · intro h
            have h1 : tr.2.data = CPUState.processing := h
            rw [hst1] at h1
            cases h1
          · intro h
            have h1 : tr.2.data = CPUState.assigned_idle := h
            rw [hst1] at h1
            cases h1
    | processing =>
      rw [CPU.step_busy_fcfs c tbl key p (Or.inl hst) hf hk hp] at hs
      simp only [Option.some.injEq, Prod.mk.injEq] at hs
      obtain ⟨_, hc, ht⟩ := hs
      have hrun := hproc hst
      have hs2 : p.step.2.state = ProcessState.running := by rw [PCB.step_state, hrun]
      cases h1 : p.step.1
      · simp only [h1, Bool.false_eq_true, if_false] at hc ht
        subst hc ht
        refine ⟨hf, fun _ => ⟨key, p.step.2, hk, hl, hlk _, hsid, ?_, ?_, ?_⟩⟩
        · intro h
          rw [CPU.recordTick_getState, hst] at h
          cases h
        · intro _
          exact hs2
        · intro h
          rw [CPU.recordTick_getState, hst] at h
          cases h
      · cases h2 : p.step.2.bursts.empty
        · simp only [h1, h2, if_true, Bool.false_eq_true, if_false, hs2] at hc ht
          subst hc ht
          refine ⟨hf, fun _ => ⟨key, _, hk, hl, hlk _, hsid, ?_, ?_, ?_⟩⟩
          · intro h
            cases h
          · intro h
            cases h
          · intro _
            rfl
        · simp only [h1, h2, if_true, CPU.deassignOn] at hc ht
          subst hc ht
          refine ⟨hf, fun _ => ⟨key, _, hk, hl, hlk _, hsid, ?_, ?_, ?_⟩⟩
          · intro _
            exact ⟨rfl, h2⟩
          · intro h
            cases h
          · intro h
            cases h
    | assigned_idle =>
      rw [CPU.step_busy_fcfs c tbl key p (Or.inr hst) hf hk hp] at hs
      simp only [Option.some.injEq, Prod.mk.injEq] at hs
      obtain ⟨_, hc, ht⟩ := hs
      have hblk := hidl hst
      have hs2 : p.step.2.state = ProcessState.blocked := by rw [PCB.step_state, hblk]
      have hs3 : ¬ p.step.2.state = ProcessState.running := by rw [hs2]; decide
      cases h1 : p.step.1
      · simp only [h1, Bool.false_eq_true, if_false] at hc ht
        subst hc ht
        refine ⟨hf, fun _ => ⟨key, p.step.2, hk, hl, hlk _, hsid, ?_, ?_, ?_⟩⟩
        · intro h
          rw [CPU.recordTick_getState, hst] at h
          cases h
        · intro h
          rw [CPU.recordTick_getState, hst] at h
          cases h
        · intro _
          exact hs2
      · cases h2 : p.step.2.bursts.empty
        · simp only [h1, h2, if_true, Bool.false_eq_true, if_false, hs3] at hc ht
          subst hc ht
          refine ⟨hf, fun _ => ⟨key, _, hk, hl, hlk _, hsid, ?_, ?_, ?_⟩⟩
          · intro h
            cases h
          · intro _
            rfl
          · intro h
            cases h
        · simp only [h1, h2, if_true, CPU.deassignOn] at hc ht
          subst hc ht
          refine ⟨hf, fun _ => ⟨key, _, hk, hl, hlk _, hsid, ?_, ?_, ?_⟩⟩
          · intro _
            exact ⟨rfl, h2⟩
          · intro h
            cases h
          · intro h
            cases h

theorem CPU.fcfsInv_run (evs : List UnitEvent) :
    ∀ (c : CPU) (tbl : PCBTable) (c1 : CPU) (tbl1 : PCBTable), CPU.fcfsInv c tbl →
      CPU.runEvents evs c tbl = some (c1, tbl1) → CPU.fcfsInv c1 tbl1 := by
  induction evs with
  | nil =>
    intro c tbl c1 tbl1 hinv hrun
    simp only [CPU.runEvents, Option.some.injEq, Prod.mk.injEq] at hrun
    rw [← hrun.1, ← hrun.2]
    exact hinv
  | cons e rest ih =>
    intro c tbl c1 tbl1 hinv hrun
    cases e with
    | step =>
      simp only [CPU.runEvents] at hrun
      cases hs : c.step tbl with
      | none => simp [hs] at hrun
      | some res =>
        obtain ⟨r, c2, tbl2⟩ := res
        simp only [hs] at hrun
        exact ih c2 tbl2 c1 tbl1 (CPU.fcfsInv_step c tbl r c2 tbl2 hinv hs) hrun
    | assign key =>
      simp only [CPU.runEvents] at hrun
      split at hrun
      · rename_i hg
        simp only [Bool.and_eq_true, Bool.not_eq_true'] at hg
        cases ha : c.assign key tbl with
        | none => simp [ha] at hrun
        | some res =>
          obtain ⟨c2, tbl2⟩ := res
          simp only [ha] at hrun
          exact ih c2 tbl2 c1 tbl1 (CPU.fcfsInv_assign c key tbl c2 tbl2 hinv hg.2 ha) hrun
      · cases hrun
    | other tbl2 =>
      simp only [CPU.runEvents] at hrun
      split at hrun
      · rename_i hg
        exact ih c tbl2 c1 tbl1 (CPU.fcfsInv_other c tbl tbl2 hinv hg) hrun
      · cases hrun

/-- The scheduler retires a released process whose state is `exit`: its PCB is
appended to `retired` and erased from the table; the ready queue and the
blocked collection are not touched. -/
theorem System.relocate_exit (sys : System) (id : Nat) (p : PCB)
    (hp : sys.PCB_table.lookup id = some p) (he : p.state = ProcessState.exit) :
    sys.relocate id
      = some { sys with retired := sys.retired ++ [p], PCB_table := sys.PCB_table.erase id } := by
  simp [System.relocate, hp, he]

/-- A step of an FCFS unit that is idle or switching in does not lead to
`switching_out`. -/
theorem CPU.step_fcfs_not_out (c : CPU) (tbl : PCBTable) (r : Bool) (c1 : CPU)
    (tbl1 : PCBTable) (hf : c.settings.RR_TIME = 0)
    (hst : c.getState = CPUState.idle ∨ c.getState = CPUState.switching_in)
    (hs : c.step tbl = some (r, c1, tbl1)) : c1.getState ≠ CPUState.switching_out := by
  rcases hst with hst | hst
  · rw [CPU.step_idle c tbl hst] at hs
    simp only [Option.some.injEq, Prod.mk.injEq] at hs
    obtain ⟨_, hc, _⟩ := hs
    subst hc
    rw [CPU.recordTick_getState, hst]
    decide
  · have hne : c.getState ≠ CPUState.idle := by rw [hst]; decide
    obtain ⟨key, p, p1, _, _, hon, _⟩ := CPU.step_assigned_inv c tbl r c1 tbl1 hne hs
    rw [CPU.stepOn_switching_in c.recordTick p hst, CPU.recordTick_t] at hon
    have hfc : c.recordTick.isFCFS = true := by simp [CPU.isFCFS, CPU.recordTick, hf]
    cases hts : c.t.step with
    | none => simp [hts] at hon
    | some tr =>
      have hd := Timer.step_data c.t tr hts
      simp only [hts, Option.map_some', Option.some.injEq, hfc, if_true] at hon
      split at hon
      · simp only [Prod.mk.injEq] at hon
        obtain ⟨_, hc, _⟩ := hon
        subst hc
        cases p.step.2.bursts.isProcessing <;>
          simp [CPU.getState, Timer.getData, Timer.init]
      · simp only [Prod.mk.injEq] at hon
        obtain ⟨_, hc, _⟩ := hon
        subst hc
        intro h
        have h1 : tr.2.data = CPUState.switching_out := h
        rw [hd] at h1
        exact absurd (h1.symm.trans hst) (by decide)

/-- C10: take an FCFS unit (quantum 0), freshly constructed and then driven by
any script of `step()` calls, assignments of table entries to the unassigned
unit and table rewrites that leave the bound entry alone.
(1) Whenever the unit is in `switching_out`, its process has state `exit` and
no burst left.
(2) A step taken in `processing` or `assigned_idle` leads to `switching_out`
exactly when the burst step of this tick completes a burst and leaves the
sequence empty; at a burst completion that leaves bursts, the unit stays bound
and toggles between `processing` and `assigned_idle`; without a completion
state and binding are unchanged.
(3) A step taken when idle or switching in never leads to `switching_out`.
(4) When the unit signals the release of its process, that process is in the
table under the unit's `getPID()` with state `exit`, and the scheduler's
relocation appends it to `retired` and erases it from the table, leaving the
ready queue and the blocked collection as they are. -/
theorem CPU.fcfs_release_only_at_exit (sett : SystemSettings) (id : Nat)
    (evs : List UnitEvent) (tbl0 : PCBTable) (c : CPU) (tbl : PCBTable)
    (hf : sett.RR_TIME = 0)
    (hrun : CPU.runEvents evs (CPU.init sett id) tbl0 = some (c, tbl)) :
    (c.getState = CPUState.switching_out →
      ∃ key p, c.proc = some key ∧ tbl.lookup key = some p ∧
        p.state = ProcessState.exit ∧ p.bursts.empty = true) ∧
    (c.getState = CPUState.processing ∨ c.getState = CPUState.assigned_idle →
      ∃ key p c1 tbl1, c.proc = some key ∧ tbl.lookup key = some p ∧
        c.step tbl = some (false, c1, tbl1) ∧
        (c1.getState = CPUState.switching_out ↔
          (p.step.1 = true ∧ p.step.2.bursts.empty = true)) ∧
        (p.step.1 = true → p.step.2.bursts.empty = false →
          c1.proc = c.proc ∧
          (c.getState = CPUState.processing → c1.getState = CPUState.assigned_idle) ∧
          (c.getState = CPUState.assigned_idle → c1.getState = CPUState.processing)) ∧
        (p.step.1 = false → c1.getState = c.getState ∧ c1.proc = c.proc)) ∧
    (∀ r c1 tbl1, c.getState = CPUState.idle ∨ c.getState = CPUState.switching_in →
      c.step tbl = some (r, c1, tbl1) → c1.getState ≠ CPUState.switching_out) ∧
    (∀ c1 tbl1, c.getState ≠ CPUState.idle → c.step tbl = some (true, c1, tbl1) →
      ∃ p, tbl1.lookup c1.getPID = some p ∧ p.state = ProcessState.exit ∧
        ∀ sys : System, sys.PCB_table = tbl1 →
          sys.relocate c1.getPID = some { sys with
            retired := sys.retired ++ [p], PCB_table := tbl1.erase c1.getPID }) := by
  have hinv := CPU.fcfsInv_run evs (CPU.init sett id) tbl0 c tbl
    (CPU.fcfsInv_init sett id tbl0 hf) hrun
  obtain ⟨hfc, hbound⟩ := hinv
  refine ⟨?_, ?_, ?_, ?_⟩
  · intro hst
    have hne : c.getState ≠ CPUState.idle := by rw [hst]; decide
    obtain ⟨key, p, hk, _, hp, _, hout, _, _⟩ := hbound hne
    exact ⟨key, p, hk, hp, (hout hst).1, (hout hst).2⟩
  · intro hst
    have hne : c.getState ≠ CPUState.idle := by
      rcases hst with h | h <;> rw [h] <;> decide
    obtain ⟨key, p, hk, _, hp, _, _, hproc, hidl⟩ := hbound hne
    have hstep := CPU.step_busy_fcfs c tbl key p hst hfc hk hp
    refine ⟨key, p, _, _, hk, hp, hstep, ?_, ?_, ?_⟩
    · cases h1 : p.step.1
      · simp only [Bool.false_eq_true, if_false, false_and, iff_false]
        rw [CPU.recordTick_getState]
        rcases hst with h | h <;> rw [h] <;> decide
      · cases h2 : p.step.2.bursts.empty
        · simp only [if_true, Bool.false_eq_true, if_false, and_false, iff_false]
          cases hps : decide (p.step.2.state = ProcessState.running) <;>
            simp only [decide_eq_true_eq, decide_eq_false_iff_not] at hps <;>
            simp [CPU.getState, Timer.getData, Timer.init, hps]
        · simp [CPU.deassignOn, CPU.getState, Timer.getData, Timer.init]
    · intro h1 h2
      simp only [h1, h2, if_true, Bool.false_eq_true, if_false]
      refine ⟨rfl, ?_, ?_⟩
      · intro hc
        have hs2 : p.step.2.state = ProcessState.running := by
          rw [PCB.step_state, hproc hc]
        simp [CPU.getState, Timer.getData, Timer.init, hs2]
      · intro hc
        have hs2 : ¬ p.step.2.state = ProcessState.running := by
          rw [PCB.step_state, hidl hc]
          decide
        simp [CPU.getState, Timer.getData, Timer.init, hs2]
    · intro h1
      simp only [h1, Bool.false_eq_true, if_false]
      exact ⟨rfl, rfl⟩
  · intro r c1 tbl1 hst hs
    exact CPU.step_fcfs_not_out c tbl r c1 tbl1 hfc hst hs
  · intro c1 tbl1 hne hs
    obtain ⟨key, p, hk, hl, hp, hid, hout, _, _⟩ := hbound hne
    obtain ⟨key1, p0, p1, hk1, hp0, hon, htbl⟩ :=
      CPU.step_assigned_inv c tbl true c1 tbl1 hne hs
    rw [hk] at hk1
    injection hk1 with hk1
    subst hk1
    rw [hp] at hp0
    injection hp0 with hp0
    subst hp0
    have hso : c.getState = CPUState.switching_out := by
      by_contra hnot
      have := CPU.stepOn_false c.recordTick p true c1 p1 hnot hon
      cases this
    obtain ⟨hpe, _⟩ := hout hso
    rw [CPU.stepOn_switching_out c.recordTick p hso, CPU.recordTick_t] at hon
    cases hts : c.t.step with
    | none => simp [hts] at hon
    | some tr =>
      simp only [hts, Option.map_some', Option.some.injEq] at hon
      split at hon
      · simp only [Prod.mk.injEq, true_and] at hon
        obtain ⟨hc, hp1⟩ := hon
        subst hc hp1
        have hlk : tbl1.lookup key = some p.step.2 := by
          rw [htbl]
          exact PCBTable.lookup_store tbl key p _ hp
        have hpid : (CPU.getPID { c.recordTick with
            t := Timer.init 0 CPUState.idle, proc := none }) = key := hl
        rw [hpid]
        have hst2 : p.step.2.state = ProcessState.exit := by rw [PCB.step_state, hpe]
        refine ⟨p.step.2, hlk, hst2, ?_⟩
        intro sys hsys
        have hlk2 : sys.PCB_table.lookup key = some p.step.2 := by rw [hsys]; exact hlk
        rw [System.relocate_exit sys key p.step.2 hlk2 hst2, hsys]
      · simp only [Prod.mk.injEq] at hon
        exact absurd hon.1 (by decide)

theorem CPU.fcfs_release_only_at_exit_witness :
    ∃ key p, fcfsFinalCPU.proc = some key ∧ fcfsFinalTable.lookup key = some p ∧
      p.state = ProcessState.exit ∧ p.bursts.empty = true :=
  (CPU.fcfs_release_only_at_exit fcfsOne 0
    [UnitEvent.assign 0, UnitEvent.step, UnitEvent.step] (tableOf oneTickPCB)
    fcfsFinalCPU fcfsFinalTable (by decide) (by decide)).1 (by decide)

/-! ### Scenarios A and B -/

/-- C19 as stated fails: Scenario A with arrival 0 and zero switch delays does
not complete, and each of the three zeros is fatal by itself (a timer of count 0
is stepped: the arrival timer in the first round, the switch-in timer on the
step after the assignment, the switch-out timer on the step after the
release). -/
theorem System.scenarioA_zero_aborts :
    System.simulate (System.init (oneUnit 0 0 0)) (scenarioA 0) = none ∧
    System.simulate (System.init (oneUnit 0 1 1)) (scenarioA 0) = none ∧
    System.simulate (System.init (oneUnit 0 0 1)) (scenarioA 1) = none ∧
    System.simulate (System.init (oneUnit 0 1 0)) (scenarioA 1) = none := by
  decide

/-- C19 (amended): Scenario A with the least admissible values, arrival 1 and
both switch delays 1 (FCFS, one unit): the run completes when the clock is 14,
nothing is left in the table or pending; the process is retired with
`started = 0` and trace exactly
`[switching:1, running:5, blocked:3, running:2, exit:1]`, so its burst progress
is `running:5, blocked:3, running:2` with no ready tick; the unit's trace is
`[idle:2, switching_in:1, processing:5, assigned_idle:3, processing:2,
switching_out:1]`. -/
theorem System.scenarioA_run :
    (System.simulate (System.init (oneUnit 0 1 1)) (scenarioA 1)).map System.report
      = some
        { clock := 14,
          retired := [{ id := 0, started := 0, trace :=
            [{ state := ProcessState.switching, duration := 1 },
             { state := ProcessState.running, duration := 5 },
             { state := ProcessState.blocked, duration := 3 },
             { state := ProcessState.running, duration := 2 },
             { state := ProcessState.exit, duration := 1 }] }],
          units := [[{ state := CPUState.idle, duration := 2 },
            { state := CPUState.switching_in, duration := 1 },
            { state := CPUState.processing, duration := 5 },
            { state := CPUState.assigned_idle, duration := 3 },
            { state := CPUState.processing, duration := 2 },
            { state := CPUState.switching_out, duration := 1 }]],
          inTable := 0, pending := 0 } := by
  decide

/-- C20 as stated fails: Scenario B with arrival 0 and zero switch delays does
not complete, and each of the three zeros is fatal by itself. -/
theorem System.scenarioB_zero_aborts :
    System.simulate (System.init (oneUnit 2 0 0)) (scenarioB 0) = none ∧
    System.simulate (System.init (oneUnit 2 1 1)) (scenarioB 0) = none ∧
    System.simulate (System.init (oneUnit 2 0 1)) (scenarioB 1) = none ∧
    System.simulate (System.init (oneUnit 2 1 0)) (scenarioB 1) = none := by
  decide

/-- C20 (amended): Scenario B with the least admissible values, arrival 1 and
both switch delays 1 (quantum 2, one unit): the unit serves A, B, A, B, A, B in
processing slices of 2, 2, 2, 2, 1, 1 ticks, each between a switch-in and a
switch-out tick; each process runs 2 + 2 + 1 ticks; the run completes when the
clock is 24 with A retired before B and nothing left. -/
theorem System.scenarioB_run :
    (System.simulate (System.init (oneUnit 2 1 1)) (scenarioB 1)).map System.report
      = some
        { clock := 24,
          retired := [{ id := 0, started := 0, trace :=
            [{ state := ProcessState.switching, duration := 1 },
             { state := ProcessState.running, duration := 2 },
             { state := ProcessState.switching, duration := 1 },
             { state := ProcessState.ready, duration := 4 },
             { state := ProcessState.switching, duration := 1 },
             { state := ProcessState.running, duration := 2 },
             { state := ProcessState.switching, duration := 1 },
             { state := ProcessState.ready, duration := 4 },
             { state := ProcessState.switching, duration := 1 },
             { state := ProcessState.running, duration := 1 },
             { state := ProcessState.exit, duration := 1 }] },
           { id := 1, started := 0, trace :=
            [{ state := ProcessState.ready, duration := 4 },
             { state := ProcessState.switching, duration := 1 },
             { state := ProcessState.running, duration := 2 },
             { state := ProcessState.switching, duration := 1 },
             { state := ProcessState.ready, duration := 4 },
             { state := ProcessState.switching, duration := 1 },
             { state := ProcessState.running, duration := 2 },
             { state := ProcessState.switching, duration := 1 },
             { state := ProcessState.ready, duration := 3 },
             { state := ProcessState.switching, duration := 1 },
             { state := ProcessState.running, duration := 1 },
             { state := ProcessState.exit, duration := 1 }] }],
          units := [[{ state := CPUState.idle, duration := 2 },
            { state := CPUState.switching_in, duration := 1 },
            { state := CPUState.processing, duration := 2 },
            { state := CPUState.switching_out, duration := 1 },
            { state := CPUState.switching_in, duration := 1 },
            { state := CPUState.processing, duration := 2 },
            { state := CPUState.switching_out, duration := 1 },
            { state := CPUState.switching_in, duration := 1 },
            { state := CPUState.processing, duration := 2 },
            { state := CPUState.switching_out, duration := 1 },
            { state := CPUState.switching_in, duration := 1 },
            { state := CPUState.processing, duration := 2 },
            { state := CPUState.switching_out, duration := 1 },
            { state := CPUState.switching_in, duration := 1 },
            { state := CPUState.processing, duration := 1 },
            { state := CPUState.switching_out, duration := 1 },
            { state := CPUState.switching_in, duration := 1 },
            { state := CPUState.processing, duration := 1 },
            { state := CPUState.switching_out, duration := 1 }]],
          inTable := 0, pending := 0 } := by
  decide

/-! ### How the passes change the table -/

theorem TableMoves.chain {tbl : PCBTable} {ret : List PCB} {tbl1 : PCBTable} {ret1 : List PCB}
    {tbl2 : PCBTable} {ret2 : List PCB} (h1 : TableMoves tbl ret tbl1 ret1)
    (h2 : TableMoves tbl1 ret1 tbl2 ret2) : TableMoves tbl ret tbl2 ret2 := by
  induction h2 with
  | refl => exact h1
  | store tbl3 ret3 key p q _ hl hm ih => exact TableMoves.store _ _ _ _ key p q ih hl hm
  | retire tbl3 ret3 key p _ hl hc ih => exact TableMoves.retire _ _ _ _ key p ih hl hc

theorem System.Evolves.same (sys : System) : System.Evolves sys sys :=
  TableMoves.refl _ _

theorem System.Evolves.follow {sys sys1 sys2 : System} (h1 : System.Evolves sys sys1)
    (h2 : System.Evolves sys1 sys2) : System.Evolves sys sys2 :=
  TableMoves.chain h1 h2

/-- The assigned branch of `CPU::step` changes the process by one `PCB::step`
and at most one write of its state. -/
theorem CPU.stepOn_moves (c : CPU) (p : PCB) (r : Bool) (c1 : CPU) (p1 : PCB)
    (hs : c.stepOn p = some (r, c1, p1)) : PCB.Moves p p1 := by
  have hstep : PCB.Moves p p.step.2 := PCB.Moves.step p p (PCB.Moves.refl p)
  have hset : ∀ s : ProcessState, s ≠ ProcessState.exit →
      PCB.Moves p { p.step.2 with state := s } :=
    fun s hs => PCB.Moves.setState p p.step.2 s hstep (fun h => absurd h hs)
  have hde : PCB.Moves p { p.step.2 with state :=
      if p.step.2.bursts.empty then ProcessState.exit else ProcessState.switching } := by
    apply PCB.Moves.setState p p.step.2 _ hstep
    intro h
    cases hb : p.step.2.bursts.empty
    · simp [hb] at h
    · rfl
  have hbusy : ∀ (hst : c.getState = CPUState.processing ∨ c.getState = CPUState.assigned_idle),
      PCB.Moves p p1 := by
    intro hst
    by_cases hf : c.settings.RR_TIME = 0
    · rw [CPU.stepOn_busy_fcfs c p hst hf] at hs
      simp only [Option.some.injEq, Prod.mk.injEq] at hs
      obtain ⟨_, hc⟩ := hs
      split at hc
      · split at hc
        · simp only [CPU.deassignOn, Prod.mk.injEq] at hc
          rw [← hc.2]
          exact hde
        · simp only [Prod.mk.injEq] at hc
          rw [← hc.2]
          apply hset
          split <;> decide
      · simp only [Prod.mk.injEq] at hc
        rw [← hc.2]
        exact hstep
    · rw [CPU.stepOn_busy_rr c p hst hf] at hs
      cases hts : c.t.step with
      | none => simp [hts] at hs
      | some tr =>
        simp only [hts, Option.map_some', Option.some.injEq] at hs
        split at hs
        · simp only [Prod.mk.injEq] at hs
          rw [← hs.2.2]
          exact hde
        · simp only [Prod.mk.injEq] at hs
          rw [← hs.2.2]
          exact hstep
  cases hst : c.getState with
  | idle =>
    unfold CPU.stepOn at hs
    simp only [hst] at hs
    cases hts : c.t.step with
    | none => simp [hts] at hs
    | some tr =>
      simp [hts] at hs
      rw [← hs.2.2]
      exact hstep
  | switching_out =>
    rw [CPU.stepOn_switching_out c p hst] at hs
    cases hts : c.t.step with
    | none => simp [hts] at hs
    | some tr =>
      simp only [hts, Option.map_some', Option.some.injEq] at hs
      split at hs <;>
        (simp only [Prod.mk.injEq] at hs
         rw [← hs.2.2]
         exact hstep)
  | switching_in =>
    rw [CPU.stepOn_switching_in c p hst] at hs
    cases hts : c.t.step with
    | none => simp [hts] at hs
    | some tr =>
      simp only [hts, Option.map_some', Option.some.injEq] at hs
      split at hs
      · split at hs
        · simp only [Prod.mk.injEq] at hs
          rw [← hs.2.2]
          apply hset
          split <;> decide
        · simp only [Prod.mk.injEq] at hs
          rw [← hs.2.2]
          exact hset _ (by decide)
      · simp only [Prod.mk.injEq] at hs
        rw [← hs.2.2]
        exact hstep
  | processing => exact hbusy (Or.inl hst)
  | assigned_idle => exact hbusy (Or.inr hst)

/-- `CPU::step` leaves the table alone or changes one record in place. -/
theorem CPU.step_table (c : CPU) (tbl : PCBTable) (r : Bool) (c1 : CPU) (tbl1 : PCBTable)
    (ret : List PCB) (hs : c.step tbl = some (r, c1, tbl1)) : TableMoves tbl ret tbl1 ret := by
  by_cases hidle : c.getState = CPUState.idle
  · rw [CPU.step_idle c tbl hidle] at hs
    simp only [Option.some.injEq, Prod.mk.injEq] at hs
    rw [← hs.2.2]
    exact TableMoves.refl _ _
  · obtain ⟨key, p, p1, _, hp, hon, htbl⟩ := CPU.step_assigned_inv c tbl r c1 tbl1 hidle hs
    rw [htbl]
    exact TableMoves.store _ _ _ _ key p p1 (TableMoves.refl _ _) hp
      (CPU.stepOn_moves c.recordTick p r c1 p1 hon)

theorem System.relocate_evolves (sys : System) (id : Nat) (sys1 : System)
    (h : sys.relocate id = some sys1) :
    System.Evolves sys sys1 ∧ sys1.process_entry_timers = sys.process_entry_timers ∧
      sys1.settings = sys.settings := by
  unfold System.relocate at h
  cases hp : sys.PCB_table.lookup id with
  | none => simp [hp] at h
  | some pcb =>
    simp only [hp] at h
    split at h
    · rename_i he
      simp only [Option.some.injEq] at h
      subst h
      exact ⟨TableMoves.retire _ _ _ _ id pcb (TableMoves.refl _ _) hp (Or.inl he), rfl, rfl⟩
    · split at h
      · cases hpush : sys.ready.push id pcb.prio with
        | none => simp [hpush] at h
        | some rq =>
          simp only [hpush, Option.some.injEq] at h
          subst h
          exact ⟨TableMoves.store _ _ _ _ id pcb _ (TableMoves.refl _ _) hp
            (PCB.Moves.setState pcb pcb _ (PCB.Moves.refl pcb) (fun h => by cases h)),
            rfl, rfl⟩
      · simp only [Option.some.injEq] at h
        subst h
        exact ⟨TableMoves.store _ _ _ _ id pcb _ (TableMoves.refl _ _) hp
          (PCB.Moves.setState pcb pcb _ (PCB.Moves.refl pcb) (fun h => by cases h)),
          rfl, rfl⟩

theorem System.assignFront_evolves (sys : System) (cpu cpu1 : CPU) (sys1 : System)
    (h : sys.assignFront cpu = some (cpu1, sys1)) :
    System.Evolves sys sys1 ∧ sys1.process_entry_timers = sys.process_entry_timers ∧
      sys1.settings = sys.settings := by
  unfold System.assignFront at h
  split at h
  · cases hfr : sys.ready.front with
    | none => simp [hfr] at h
    | some id =>
      simp only [hfr] at h
      cases hp : sys.PCB_table.lookup id with
      | none => simp [CPU.assign, hp] at h
      | some p =>
        simp only [CPU.assign, hp] at h
        cases hpop : sys.ready.pop with
        | none => simp [hpop] at h
        | some rq =>
          simp only [hpop, Option.some.injEq, Prod.mk.injEq] at h
          obtain ⟨_, hsys⟩ := h
          subst hsys
          exact ⟨TableMoves.store _ _ _ _ id p _ (TableMoves.refl _ _) hp
            (PCB.Moves.setState p p _ (PCB.Moves.refl p) (fun h => by cases h)), rfl, rfl⟩
  · simp only [Option.some.injEq, Prod.mk.injEq] at h
    obtain ⟨_, hsys⟩ := h
    subst hsys
    exact ⟨TableMoves.refl _ _, rfl, rfl⟩

theorem System.cpuBody_evolves (sys : System) (cpu cpu1 : CPU) (sys1 : System)
    (h : sys.cpuBody cpu = some (cpu1, sys1)) :
    System.Evolves sys sys1 ∧ sys1.process_entry_timers = sys.process_entry_timers ∧
      sys1.settings = sys.settings := by
  unfold System.cpuBody at h
  cases hs : cpu.step sys.PCB_table with
  | none => simp [hs] at h
  | some res =>
    obtain ⟨r, c1, tbl1⟩ := res
    have hstep : System.Evolves sys { sys with PCB_table := tbl1 } :=
      CPU.step_table cpu sys.PCB_table r c1 tbl1 sys.retired hs
    simp only [hs] at h
    split at h
    · split at h
      · cases hrel : System.relocate { sys with PCB_table := tbl1 } c1.getPID with
        | none => simp [hrel] at h
        | some sys2 =>
          simp only [hrel] at h
          obtain ⟨e1, t1, s1⟩ := System.relocate_evolves _ _ _ hrel
          obtain ⟨e2, t2, s2⟩ := System.assignFront_evolves _ _ _ _ h
          exact ⟨(hstep.follow e1).follow e2, by rw [t2, t1], by rw [s2, s1]⟩
      · obtain ⟨e2, t2, s2⟩ := System.assignFront_evolves _ _ _ _ h
        exact ⟨hstep.follow e2, by rw [t2], by rw [s2]⟩
    · simp only [Option.some.injEq, Prod.mk.injEq] at h
      obtain ⟨_, hsys⟩ := h
      subst hsys
      exact ⟨hstep, rfl, rfl⟩

theorem System.cpuLoop_evolves : ∀ (todo done : List CPU) (sys sys1 : System),
    System.cpuLoop done todo sys = some sys1 →
    System.Evolves sys sys1 ∧ sys1.process_entry_timers = sys.process_entry_timers ∧
      sys1.settings = sys.settings := by
  intro todo
  induction todo with
  | nil =>
    intro done sys sys1 h
    simp only [System.cpuLoop, Option.some.injEq] at h
    subst h
    exact ⟨TableMoves.refl _ _, rfl, rfl⟩
  | cons cpu todo ih =>
    intro done sys sys1 h
    simp only [System.cpuLoop] at h
    cases hb : sys.cpuBody cpu with
    | none => simp [hb] at h
    | some res =>
      obtain ⟨c1, sys2⟩ := res
      simp only [hb] at h
      obtain ⟨e1, t1, s1⟩ := System.cpuBody_evolves sys cpu c1 sys2 hb
      obtain ⟨e2, t2, s2⟩ := ih _ sys2 sys1 h
      exact ⟨e1.follow e2, by rw [t2, t1], by rw [s2, s1]⟩

theorem System.blockedBody_evolves (sys : System) (id : Nat) (r : Bool) (sys1 : System)
    (h : sys.blockedBody id = some (r, sys1)) :
    System.Evolves sys sys1 ∧ sys1.process_entry_timers = sys.process_entry_timers ∧
      sys1.settings = sys.settings := by
  unfold System.blockedBody at h
  cases hp : sys.PCB_table.lookup id with
  | none => simp [hp] at h
  | some p =>
    have hstep : PCB.Moves p p.step.2 := PCB.Moves.step p p (PCB.Moves.refl p)
    simp only [hp] at h
    split at h
    · split at h
      · rename_i hempty
        simp only [Option.some.injEq, Prod.mk.injEq] at h
        obtain ⟨_, hsys⟩ := h
        subst hsys
        refine ⟨?_, rfl, rfl⟩
        exact TableMoves.retire _ _ _ _ id p.step.2
          (TableMoves.store _ _ _ _ id p p.step.2 (TableMoves.refl _ _) hp hstep)
          (PCBTable.lookup_store _ id p _ hp) (Or.inr hempty)
      · cases hpush : sys.ready.push id p.step.2.prio with
        | none => simp [hpush] at h
        | some rq =>
          simp only [hpush, Option.some.injEq, Prod.mk.injEq] at h
          obtain ⟨_, hsys⟩ := h
          subst hsys
          exact ⟨TableMoves.store _ _ _ _ id p _ (TableMoves.refl _ _) hp
            (PCB.Moves.setState p p.step.2 _ hstep (fun h => by cases h)), rfl, rfl⟩
    · simp only [Option.some.injEq, Prod.mk.injEq] at h
      obtain ⟨_, hsys⟩ := h
      subst hsys
      exact ⟨TableMoves.store _ _ _ _ id p _ (TableMoves.refl _ _) hp hstep, rfl, rfl⟩

theorem System.blockedLoop_evolves : ∀ (todo kept : List Nat) (sys sys1 : System),
    System.blockedLoop kept todo sys = some sys1 →
    System.Evolves sys sys1 ∧ sys1.process_entry_timers = sys.process_entry_timers ∧
      sys1.settings = sys.settings := by
  intro todo
  induction todo with
  | nil =>
    intro kept sys sys1 h
    simp only [System.blockedLoop, Option.some.injEq] at h
    subst h
    exact ⟨TableMoves.refl _ _, rfl, rfl⟩
  | cons id todo ih =>
    intro kept sys sys1 h
    simp only [System.blockedLoop] at h
    cases hb : sys.blockedBody id with
    | none => simp [hb] at h
    | some res =>
      obtain ⟨r, sys2⟩ := res
      simp only [hb] at h
      obtain ⟨e1, t1, s1⟩ := System.blockedBody_evolves sys id r sys2 hb
      obtain ⟨e2, t2, s2⟩ := ih _ sys2 sys1 h
      exact ⟨e1.follow e2, by rw [t2, t1], by rw [s2, s1]⟩

theorem System.readyLoop_evolves : ∀ (ids : List Nat) (sys sys1 : System),
    System.readyLoop ids sys = some sys1 →
    System.Evolves sys sys1 ∧ sys1.process_entry_timers = sys.process_entry_timers ∧
      sys1.settings = sys.settings := by
  intro ids
  induction ids with
  | nil =>
    intro sys sys1 h
    simp only [System.readyLoop, Option.some.injEq] at h
    subst h
    exact ⟨TableMoves.refl _ _, rfl, rfl⟩
  | cons id todo ih =>
    intro sys sys1 h
    simp only [System.readyLoop] at h
    cases hp : sys.PCB_table.lookup id with
    | none => simp [hp] at h
    | some p =>
      simp only [hp] at h
      obtain ⟨e2, t2, s2⟩ := ih _ sys1 h
      have e1 : System.Evolves sys { sys with PCB_table := sys.PCB_table.store id p.step.2 } :=
        TableMoves.store _ _ _ _ id p _ (TableMoves.refl _ _) hp
          (PCB.Moves.step p p (PCB.Moves.refl p))
      exact ⟨e1.follow e2, t2, s2⟩

/-! ### Reading the table after a write -/

theorem PCBTable.lookup_nil (k : Nat) : PCBTable.lookup { entries := [] } k = none := rfl

theorem PCBTable.lookup_cons (e : Nat × PCB) (l : List (Nat × PCB)) (k : Nat) :
    PCBTable.lookup { entries := e :: l } k =
      if e.1 = k then some e.2 else PCBTable.lookup { entries := l } k := by
  unfold PCBTable.lookup
  rw [List.find?_cons]
  by_cases h : e.1 = k
  · simp [h]
  · simp [h]

theorem PCBTable.lookup_store_eq (tbl : PCBTable) (key k : Nat) (q : PCB) :
    (tbl.store key q).lookup k =
      if k = key then (tbl.lookup k).map (fun _ => q) else tbl.lookup k := by
  obtain ⟨l⟩ := tbl
  induction l with
  | nil => simp [PCBTable.store, PCBTable.lookup]
  | cons e l ih =>
    have hs : PCBTable.store { entries := e :: l } key q =
        { entries := (if e.1 = key then (e.1, q) else e) ::
            (PCBTable.store { entries := l } key q).entries } := rfl
    rw [hs, PCBTable.lookup_cons, PCBTable.lookup_cons]
    have ih1 : PCBTable.lookup { entries := (PCBTable.store { entries := l } key q).entries } k
        = if k = key then (PCBTable.lookup { entries := l } k).map (fun _ => q)
          else PCBTable.lookup { entries := l } k := ih
    rw [ih1]
    by_cases h1 : e.1 = key
    · by_cases h2 : e.1 = k
      · have h3 : k = key := h2 ▸ h1
        simp [h1, h2, h3]
      · have h3 : ¬ key = k := fun h => h2 (h1.trans h)
        simp [h1, h2, h3]
    · by_cases h2 : e.1 = k
      · have h3 : ¬ k = key := fun h => h1 (h2.trans h)
        simp [h1, h2, h3]
      · simp [h1, h2]

theorem PCBTable.lookup_erase (tbl : PCBTable) (key k : Nat) :
    (tbl.erase key).lookup k = if k = key then none else tbl.lookup k := by
  obtain ⟨l⟩ := tbl
  induction l with
  | nil => simp [PCBTable.erase, PCBTable.lookup]
  | cons e l ih =>
    have ih1 : PCBTable.lookup { entries := l.filter fun e => !decide (e.1 = key) } k
        = if k = key then none else PCBTable.lookup { entries := l } k := ih
    by_cases h1 : e.1 = key
    · have hs : PCBTable.erase { entries := e :: l } key =
          { entries := l.filter fun e => !decide (e.1 = key) } := by
        simp [PCBTable.erase, List.filter_cons, h1]
      rw [hs, ih1, PCBTable.lookup_cons]
      by_cases h2 : k = key
      · simp [h2]
      · have h3 : ¬ e.1 = k := fun h => h2 (h.symm.trans h1)
        simp [h2, h3]
    · have hs : PCBTable.erase { entries := e :: l } key =
          { entries := e :: l.filter fun e => !decide (e.1 = key) } := by
        simp [PCBTable.erase, List.filter_cons, h1]
      rw [hs, PCBTable.lookup_cons, PCBTable.lookup_cons, ih1]
      by_cases h2 : e.1 = k
      · have h3 : ¬ k = key := fun h => h1 (h2.trans h)
        simp [h2, h3]
      · simp [h2]

theorem PCBTable.lookup_append (l : List (Nat × PCB)) (e : Nat × PCB) (k : Nat) :
    PCBTable.lookup { entries := l ++ [e] } k =
      match PCBTable.lookup { entries := l } k with
      | some p => some p
      | none => if e.1 = k then some e.2 else none := by
  induction l with
  | nil =>
    rw [List.nil_append, PCBTable.lookup_cons, PCBTable.lookup_nil]
  | cons d l ih =>
    rw [List.cons_append, PCBTable.lookup_cons, PCBTable.lookup_cons, ih]
    by_cases h : d.1 = k
    · simp [h]
    · simp [h]

theorem PCBTable.lookup_emplace (tbl : PCBTable) (key k : Nat) (p : PCB)
    (h : tbl.lookup key = none) :
    (tbl.emplace key p).lookup k = if k = key then some p else tbl.lookup k := by
  obtain ⟨l⟩ := tbl
  have hs : PCBTable.emplace { entries := l } key p = { entries := l ++ [(key, p)] } := by
    simp only [PCBTable.emplace, h]
  rw [hs, PCBTable.lookup_append]
  by_cases h1 : k = key
  · subst h1
    simp [h]
  · have h2 : ¬ key = k := fun h => h1 h.symm
    simp only [h1, h2, if_false]
    cases PCBTable.lookup { entries := l } k <;> rfl

/-- The unit pass, the blocked pass and the ready pass create no record. -/
theorem TableMoves.lookup_none {tbl : PCBTable} {ret : List PCB} {tbl1 : PCBTable}
    {ret1 : List PCB} (h : TableMoves tbl ret tbl1 ret1) (k : Nat)
    (hk : tbl.lookup k = none) : tbl1.lookup k = none := by
  induction h with
  | refl => exact hk
  | store tbl3 ret3 key p q _ _ _ ih =>
    rw [PCBTable.lookup_store_eq, ih]
    simp
  | retire tbl3 ret3 key p _ _ _ ih =>
    rw [PCBTable.lookup_erase, ih]
    simp

/-! ### Arrivals -/

theorem PCBTable.lookup_emplace_ne (tbl : PCBTable) (key k : Nat) (p : PCB) (h : k ≠ key) :
    (tbl.emplace key p).lookup k = tbl.lookup k := by
  cases hl : tbl.lookup key with
  | none => rw [PCBTable.lookup_emplace tbl key k p hl, if_neg h]
  | some q => simp only [PCBTable.emplace, hl]

/-- `addProcess` leaves the records of the other ids and the timers alone. -/
theorem System.addProcess_other (sys : System) (pi : ProcessInit) (s : Nat) (sys1 : System)
    (h : sys.addProcess pi s = some sys1) :
    (∀ k, k ≠ pi.id → sys1.PCB_table.lookup k = sys.PCB_table.lookup k) ∧
      sys1.process_entry_timers = sys.process_entry_timers := by
  unfold System.addProcess at h
  simp only at h
  split at h
  · cases hpush : sys.ready.push pi.id pi.prio with
    | none => simp [hpush] at h
    | some rq =>
      simp only [hpush, Option.some.injEq] at h
      subst h
      exact ⟨fun k hk => PCBTable.lookup_emplace_ne _ _ _ _ hk, rfl⟩
  · cases hp : (sys.PCB_table.emplace pi.id (PCB.init pi s)).lookup pi.id with
    | none => simp [hp] at h
    | some p =>
      simp only [hp, Option.some.injEq] at h
      subst h
      refine ⟨fun k hk => ?_, rfl⟩
      show ((sys.PCB_table.emplace pi.id (PCB.init pi s)).store pi.id _).lookup k = _
      rw [PCBTable.lookup_store_eq, if_neg hk]
      exact PCBTable.lookup_emplace_ne _ _ _ _ hk

/-- `addProcess` for an id that is not in the table creates the record
`PCB(pi, curr)`, with state `blocked` when the first burst is an I/O burst. -/
theorem System.addProcess_fresh (sys : System) (pi : ProcessInit) (s : Nat) (sys1 : System)
    (h : sys.addProcess pi s = some sys1) (hk : sys.PCB_table.lookup pi.id = none) :
    sys1.PCB_table.lookup pi.id =
      some (if pi.bursts.isProcessing then PCB.init pi s
            else { PCB.init pi s with state := ProcessState.blocked }) := by
  have hem : (sys.PCB_table.emplace pi.id (PCB.init pi s)).lookup pi.id = some (PCB.init pi s) := by
    rw [PCBTable.lookup_emplace _ _ _ _ hk, if_pos rfl]
  unfold System.addProcess at h
  simp only at h
  split at h
  · rename_i hproc
    cases hpush : sys.ready.push pi.id pi.prio with
    | none => simp [hpush] at h
    | some rq =>
      simp only [hpush, Option.some.injEq] at h
      subst h
      rw [if_pos hproc]
      exact hem
  · rename_i hproc
    simp only [hem, Option.some.injEq] at h
    subst h
    rw [if_neg hproc]
    show ((sys.PCB_table.emplace pi.id (PCB.init pi s)).store pi.id _).lookup pi.id = _
    rw [PCBTable.lookup_store_eq, if_pos rfl, hem]
    rfl

/-- The arrival pass keeps exactly the timers whose step returned false, each
after its step and in the original order. -/
theorem System.arrivalLoop_timers (s : Nat) :
    ∀ (todo kept : List (Timer ProcessInit)) (sys sys1 : System),
    System.arrivalLoop s kept todo sys = some sys1 →
    sys1.process_entry_timers =
      kept ++ todo.filterMap Timer.kept := by
  intro todo
  induction todo with
  | nil =>
    intro kept sys sys1 h
    simp only [System.arrivalLoop, Option.some.injEq] at h
    subst h
    simp
  | cons t todo ih =>
    intro kept sys sys1 h
    simp only [System.arrivalLoop] at h
    cases hts : t.step with
    | none => simp [hts] at h
    | some tr =>
      simp only [hts] at h
      split at h
      · rename_i hfire
        cases ha : sys.addProcess tr.2.getData s with
        | none => simp [ha] at h
        | some sys2 =>
          simp only [ha] at h
          have hk : Timer.kept t = none := by simp [Timer.kept, hts, hfire]
          rw [ih kept sys2 sys1 h, List.filterMap_cons_none hk]
      · rename_i hfire
        have hk : Timer.kept t = some tr.2 := by simp [Timer.kept, hts, hfire]
        rw [ih _ sys sys1 h, List.filterMap_cons_some hk, List.append_assoc]
        rfl

/-- The arrival pass creates no record under an id none of whose timers
fires. -/
theorem System.arrivalLoop_lookup_none (s : Nat) (k : Nat) :
    ∀ (todo kept : List (Timer ProcessInit)) (sys sys1 : System),
    System.arrivalLoop s kept todo sys = some sys1 →
    (∀ t ∈ todo, ∀ tr, t.step = some tr → tr.1 = true → t.data.id ≠ k) →
    sys1.PCB_table.lookup k = sys.PCB_table.lookup k := by
  intro todo
  induction todo with
  | nil =>
    intro kept sys sys1 h _
    simp only [System.arrivalLoop, Option.some.injEq] at h
    subst h
    rfl
  | cons t todo ih =>
    intro kept sys sys1 h hne
    simp only [System.arrivalLoop] at h
    have hrest : ∀ t1 ∈ todo, ∀ tr, t1.step = some tr → tr.1 = true → t1.data.id ≠ k :=
      fun t1 ht1 => hne t1 (List.mem_cons_of_mem _ ht1)
    cases hts : t.step with
    | none => simp [hts] at h
    | some tr =>
      simp only [hts] at h
      split at h
      · rename_i hfire
        cases ha : sys.addProcess tr.2.getData s with
        | none => simp [ha] at h
        | some sys2 =>
          simp only [ha] at h
          have hid : k ≠ tr.2.getData.id := by
            have h1 := hne t (List.mem_cons_self _ _) tr hts hfire
            have h2 : tr.2.getData.id = t.data.id := by
              rw [Timer.getData, Timer.step_data t tr hts]
            rw [h2]
            exact fun h => h1 h.symm
          rw [ih kept sys2 sys1 h hrest]
          exact (System.addProcess_other sys _ s sys2 ha).1 k hid
      · exact ih _ sys sys1 h hrest

/-- The arrival pass creates the record of a timer that fires, when the id is
not in the table and no other timer of the pass carries it. -/
theorem System.arrivalLoop_fires (s : Nat) :
    ∀ (todo kept : List (Timer ProcessInit)) (sys sys1 : System),
    System.arrivalLoop s kept todo sys = some sys1 →
    ∀ t0 ∈ todo, ∀ tr, t0.step = some tr → tr.1 = true →
    (todo.map fun t => t.data.id).Nodup →
    sys.PCB_table.lookup t0.data.id = none →
    sys1.PCB_table.lookup t0.data.id =
      some (if t0.data.bursts.isProcessing then PCB.init t0.data s
            else { PCB.init t0.data s with state := ProcessState.blocked }) := by
  intro todo
  induction todo with
  | nil => intro kept sys sys1 _ t0 ht0; cases ht0
  | cons t todo ih =>
    intro kept sys sys1 h t0 ht0 tr0 hts0 hfire0 hnd hnone
    simp only [System.arrivalLoop] at h
    rw [List.map_cons, List.nodup_cons] at hnd
    obtain ⟨hnotin, hnd1⟩ := hnd
    rcases List.mem_cons.mp ht0 with heq | hmem
    · subst heq
      simp only [hts0, hfire0, if_true] at h
      have hd : tr0.2.getData = t0.data := by rw [Timer.getData, Timer.step_data t0 tr0 hts0]
      rw [hd] at h
      cases ha : sys.addProcess t0.data s with
      | none => simp [ha] at h
      | some sys2 =>
        simp only [ha] at h
        rw [System.arrivalLoop_lookup_none s t0.data.id todo kept sys2 sys1 h]
        · exact System.addProcess_fresh sys t0.data s sys2 ha hnone
        · intro t1 ht1 _ _ _ heq
          exact hnotin (List.mem_map.mpr ⟨t1, ht1, heq⟩)
    · have hne : t0.data.id ≠ t.data.id := by
        intro heq
        exact hnotin (List.mem_map.mpr ⟨t0, hmem, heq⟩)
      cases hts : t.step with
      | none => simp [hts] at h
      | some tr =>
        simp only [hts] at h
        split at h
        · cases ha : sys.addProcess tr.2.getData s with
          | none => simp [ha] at h
          | some sys2 =>
            simp only [ha] at h
            have hd : tr.2.getData.id = t.data.id := by
              rw [Timer.getData, Timer.step_data t tr hts]
            have hother := (System.addProcess_other sys _ s sys2 ha).1 t0.data.id
              (by rw [hd]; exact hne)
            exact ih kept sys2 sys1 h t0 hmem tr0 hts0 hfire0 hnd1 (by rw [hother]; exact hnone)
        · exact ih _ sys sys1 h t0 hmem tr0 hts0 hfire0 hnd1 hnone

/-- A round of the loop is the three passes over the processes, which keep the
timers and the settings and create no record, followed by the arrival pass. -/
theorem System.tick_split (sys : System) (s : Nat) (sys1 : System)
    (h : sys.tick s = some sys1) :
    ∃ sys3, System.Evolves sys sys3 ∧ sys3.process_entry_timers = sys.process_entry_timers ∧
      sys3.settings = sys.settings ∧
      System.arrivalLoop s [] sys.process_entry_timers sys3 = some sys1 := by
  unfold System.tick at h
  cases h1 : sys.cpuPass with
  | none => simp [h1] at h
  | some sysa =>
    simp only [h1] at h
    cases h2 : sysa.blockedPass with
    | none => simp [h2] at h
    | some sysb =>
      simp only [h2] at h
      cases h3 : sysb.readyPass with
      | none => simp [h3] at h
      | some sysc =>
        simp only [h3] at h
        obtain ⟨e1, t1, s1⟩ := System.cpuLoop_evolves _ _ _ _ h1
        obtain ⟨e2, t2, s2⟩ := System.blockedLoop_evolves _ _ _ _ h2
        have h3a : ∃ ids, System.readyLoop ids sysb = some sysc := by
          unfold System.readyPass at h3
          cases hv : sysb.ready.visited with
          | none => simp [hv] at h3
          | some ids => exact ⟨ids, by simpa [hv] using h3⟩
        obtain ⟨ids, h3b⟩ := h3a
        obtain ⟨e3, t3, s3⟩ := System.readyLoop_evolves _ _ _ h3b
        refine ⟨sysc, (e1.follow e2).follow e3, by rw [t3, t2, t1], by rw [s3, s2, s1], ?_⟩
        unfold System.arrivalPass at h
        rw [t3, t2, t1] at h
        exact h

theorem System.ticks_succ : ∀ (n s : Nat) (sys : System),
    System.ticks (n + 1) s sys = (System.ticks n s sys).bind fun sysn => sysn.tick (s + n) := by
  intro n
  induction n with
  | zero =>
    intro s sys
    simp only [System.ticks, Nat.add_zero, Option.some_bind]
    cases sys.tick s <;> rfl
  | succ n ih =>
    intro s sys
    rw [System.ticks]
    cases ht : sys.tick s with
    | none => simp [System.ticks, ht]
    | some sys1 =>
      simp only []
      rw [ih (s + 1) sys1]
      have he : s + 1 + n = s + (n + 1) := by omega
      rw [he]
      conv_rhs => rw [System.ticks, ht]

/-- The timers a round keeps carry ids the round started with, in the same
order. -/
theorem timers_kept_sublist (l : List (Timer ProcessInit)) :
    ((l.filterMap Timer.kept).map fun t => t.data.id).Sublist (l.map fun t => t.data.id) := by
  induction l with
  | nil => simp
  | cons t l ih =>
    cases hk : Timer.kept t with
    | none =>
      rw [List.filterMap_cons_none hk, List.map_cons]
      exact List.Sublist.cons _ ih
    | some t1 =>
      rw [List.filterMap_cons_some hk, List.map_cons, List.map_cons]
      have hd : t1.data = t.data := by
        cases hts : t.step with
        | none => simp [Timer.kept, hts] at hk
        | some tr =>
          simp only [Timer.kept, hts, Option.some_bind] at hk
          split at hk
          · cases hk
          · simp only [Option.some.injEq] at hk
            rw [← hk]
            exact Timer.step_data t tr hts
      rw [hd]
      exact List.Sublist.cons₂ _ ih

theorem Timer.kept_init_ge_two {T : Type} (c : Nat) (tag : T) (h2 : 2 ≤ c) (hr : c < STEP_MOD) :
    Timer.kept (Timer.init c tag) = some (Timer.init (c - 1) tag) := by
  have hd : decide (c - 1 = 0) = false := by
    apply decide_eq_false
    omega
  rw [Timer.kept, Timer.step_init_pos c tag (by omega) hr, hd]
  rfl

theorem Timer.kept_init_one {T : Type} (tag : T) :
    Timer.kept (Timer.init 1 tag) = none := by
  have hM : (1 : Nat) < STEP_MOD := by decide
  rw [Timer.kept, Timer.step_init_pos 1 tag (le_refl 1) hM]
  rfl

theorem Timer.kept_data {T : Type} (t t1 : Timer T) (h : Timer.kept t = some t1) :
    t1.data = t.data := by
  cases hts : t.step with
  | none => simp [Timer.kept, hts] at h
  | some tr =>
    simp only [Timer.kept, hts, Option.some_bind] at h
    split at h
    · cases h
    · simp only [Option.some.injEq] at h
      rw [← h]
      exact Timer.step_data t tr hts

theorem Timer.kept_of_fired {T : Type} (t : Timer T) (tr : Bool × Timer T)
    (h : t.step = some tr) (hf : tr.1 = true) : Timer.kept t = none := by
  simp [Timer.kept, h, hf]

/-- Among timers with distinct ids, the timer of an id is the only one. -/
theorem timer_of_id (l : List (Timer ProcessInit)) (hnd : (l.map fun t => t.data.id).Nodup)
    (t t0 : Timer ProcessInit) (ht : t ∈ l) (ht0 : t0 ∈ l) (h : t.data.id = t0.data.id) :
    t = t0 :=
  List.inj_on_of_nodup_map hnd ht ht0 h

/-- A round in which the timer of a process does not fire: the timer stays, its
count one lower, and the process still has no record. -/
theorem System.tick_pending (sys : System) (s : Nat) (sys1 : System) (pi : ProcessInit)
    (c : Nat) (h : sys.tick s = some sys1)
    (hnd : (sys.process_entry_timers.map fun t => t.data.id).Nodup)
    (hmem : Timer.init c pi ∈ sys.process_entry_timers) (h2 : 2 ≤ c) (hr : c < STEP_MOD)
    (hnone : sys.PCB_table.lookup pi.id = none) :
    (sys1.process_entry_timers.map fun t => t.data.id).Nodup ∧
      Timer.init (c - 1) pi ∈ sys1.process_entry_timers ∧
      sys1.PCB_table.lookup pi.id = none := by
  obtain ⟨sys3, hev, ht3, _, harr⟩ := System.tick_split sys s sys1 h
  have htim := System.arrivalLoop_timers s _ _ _ _ harr
  rw [List.nil_append] at htim
  refine ⟨?_, ?_, ?_⟩
  · rw [htim]
    exact (timers_kept_sublist _).nodup hnd
  · rw [htim]
    exact List.mem_filterMap.mpr ⟨_, hmem, Timer.kept_init_ge_two c pi h2 hr⟩
  · rw [System.arrivalLoop_lookup_none s pi.id _ _ _ _ harr]
    · exact TableMoves.lookup_none hev pi.id hnone
    · intro t ht tr hts hfire hid
      have heq : t = Timer.init c pi := timer_of_id _ hnd t _ ht hmem hid
      have hk := Timer.kept_of_fired t tr hts hfire
      rw [heq, Timer.kept_init_ge_two c pi h2 hr] at hk
      cases hk

/-- The round in which the timer of a process fires: the timer is dropped and
the record of the process is created with the clock of the round. -/
theorem System.tick_arrives (sys : System) (s : Nat) (sys1 : System) (pi : ProcessInit)
    (h : sys.tick s = some sys1)
    (hnd : (sys.process_entry_timers.map fun t => t.data.id).Nodup)
    (hmem : Timer.init 1 pi ∈ sys.process_entry_timers)
    (hnone : sys.PCB_table.lookup pi.id = none) :
    (∀ t ∈ sys1.process_entry_timers, t.data.id ≠ pi.id) ∧
      sys1.PCB_table.lookup pi.id =
        some (if pi.bursts.isProcessing then PCB.init pi s
              else { PCB.init pi s with state := ProcessState.blocked }) := by
  obtain ⟨sys3, hev, ht3, _, harr⟩ := System.tick_split sys s sys1 h
  have htim := System.arrivalLoop_timers s _ _ _ _ harr
  rw [List.nil_append] at htim
  have hM : (1 : Nat) < STEP_MOD := by decide
  constructor
  · intro t ht hid
    rw [htim] at ht
    obtain ⟨t0, ht0, hk⟩ := List.mem_filterMap.mp ht
    have hd := Timer.kept_data t0 t hk
    have heq : t0 = Timer.init 1 pi := timer_of_id _ hnd t0 _ ht0 hmem (by rw [← hd]; exact hid)
    rw [heq, Timer.kept_init_one] at hk
    cases hk
  · exact System.arrivalLoop_fires s _ _ _ _ harr (Timer.init 1 pi) hmem _
      (Timer.step_init_pos 1 pi (le_refl 1) hM) rfl hnd (TableMoves.lookup_none hev pi.id hnone)

/-- While the loop condition holds at every round, the loop of `simulate` goes
through the states of `ticks`. -/
theorem System.loop_of_ticks : ∀ (n s : Nat) (sys sysn : System) (f : Nat),
    System.ticks n s sys = some sysn →
    (∀ j, j < n → ∀ sysj, System.ticks j s sys = some sysj → sysj.running (s + j) = true) →
    System.loop (n + f) s sys = System.loop f (s + n) sysn := by
  intro n
  induction n with
  | zero =>
    intro s sys sysn f h _
    simp only [System.ticks, Option.some.injEq] at h
    subst h
    simp
  | succ n ih =>
    intro s sys sysn f h hrun
    have hr0 : sys.running s = true := hrun 0 (Nat.succ_pos n) sys rfl
    rw [System.ticks] at h
    cases ht : sys.tick s with
    | none => simp [ht] at h
    | some sys1 =>
      simp only [ht] at h
      have he : n + 1 + f = (n + f) + 1 := by omega
      rw [he, System.loop, if_pos hr0]
      simp only [ht]
      rw [ih (s + 1) sys1 sysn f h]
      · have he2 : s + 1 + n = s + (n + 1) := by omega
        rw [he2]
      · intro j hj sysj hsj
        have h1 : System.ticks (j + 1) s sys = some sysj := by
          rw [System.ticks]
          simp only [ht]
          exact hsj
        have h2 := hrun (j + 1) (by omega) sysj h1
        have he3 : s + (j + 1) = s + 1 + j := by omega
        rw [he3] at h2
        exact h2

/-- Before its timer fires, a process has its timer pending, the count lowered
by the number of rounds made, and no record. -/
theorem System.arrival_pending (pi : ProcessInit) (a : Nat) (hM : a < STEP_MOD) :
    ∀ (j s : Nat) (sys sysj : System), System.ticks j s sys = some sysj → j < a →
    (sys.process_entry_timers.map fun t => t.data.id).Nodup →
    Timer.init a pi ∈ sys.process_entry_timers →
    sys.PCB_table.lookup pi.id = none →
    (sysj.process_entry_timers.map fun t => t.data.id).Nodup ∧
      Timer.init (a - j) pi ∈ sysj.process_entry_timers ∧
      sysj.PCB_table.lookup pi.id = none := by
  intro j
  induction j with
  | zero =>
    intro s sys sysj h _ hnd hmem hnone
    simp only [System.ticks, Option.some.injEq] at h
    subst h
    exact ⟨hnd, hmem, hnone⟩
  | succ j ih =>
    intro s sys sysj1 h hj hnd hmem hnone
    rw [System.ticks_succ] at h
    cases hp : System.ticks j s sys with
    | none => simp [hp] at h
    | some sysj =>
      simp only [hp, Option.some_bind] at h
      obtain ⟨hnd1, hmem1, hnone1⟩ := ih s sys sysj hp (by omega) hnd hmem hnone
      have h3 := System.tick_pending sysj (s + j) sysj1 pi (a - j) h hnd1 hmem1 (by omega)
        (by omega) hnone1
      have he : a - j - 1 = a - (j + 1) := by omega
      rw [he] at h3
      exact h3

theorem System.running_of_timer (sys : System) (s : Nat) (t : Timer ProcessInit)
    (hs : s < STEP_MAX) (ht : t ∈ sys.process_entry_timers) : sys.running s = true := by
  have hne : sys.process_entry_timers.isEmpty = false := by
    cases hl : sys.process_entry_timers with
    | nil => rw [hl] at ht; cases ht
    | cons _ _ => rfl
  simp [System.running, hs, hne]

/-- C11 as stated fails: for a plan with arrival 1 the timer fires in the
first round, whose clock is 0, not in the round whose clock is 1: after one
round no timer is pending and the record of process 0 exists with
`started = 0`; and a plan with arrival 0 makes the first round step an expired
timer. -/
theorem System.arrival_not_at_clock_a :
    (System.ticks 1 0 ((System.init (oneUnit 0 1 1)).startTimers (scenarioA 1))).map
        (fun sys => (sys.process_entry_timers.length,
          sys.PCB_table.entries.map fun e => (e.1, e.2.stats.started))) = some (0, [(0, 0)]) ∧
    System.ticks 1 0 ((System.init (oneUnit 0 1 1)).startTimers (scenarioA 0)) = none := by
  decide

/-- C11 (amended): in a workload with distinct ids, for a plan with arrival
step `a`, `1 ≤ a < 2^32`: through the first `a - 1` rounds of the run (clocks
`0 .. a - 2`) the timer stays pending, its count lowered by one per round, and
the process has no record; the timer fires in round number `a`, whose clock is
`a - 1`: after that round the timer is gone and the table holds the record
`PCB(init, a - 1)`, so `started = a - 1` (state `blocked` when the first burst
is an I/O burst).  Each of these states is a state of the loop of
`simulate`. -/
theorem System.arrival_clock (sett : SystemSettings) (plans : List ProcessPlan)
    (pl : ProcessPlan) (hpl : pl ∈ plans) (hids : (plans.map fun p => p.init.id).Nodup)
    (h1 : 1 ≤ pl.arrival) (hM : pl.arrival < STEP_MOD) :
    (∀ j sysj, j < pl.arrival →
        System.ticks j 0 ((System.init sett).startTimers plans) = some sysj →
        Timer.init (pl.arrival - j) pl.init ∈ sysj.process_entry_timers ∧
        sysj.PCB_table.lookup pl.init.id = none ∧
        System.simulate (System.init sett) plans = System.loop (STEP_MAX - j) j sysj) ∧
    (∀ sysa, System.ticks pl.arrival 0 ((System.init sett).startTimers plans) = some sysa →
        (∀ t ∈ sysa.process_entry_timers, t.data.id ≠ pl.init.id) ∧
        sysa.PCB_table.lookup pl.init.id =
          some (if pl.init.bursts.isProcessing then PCB.init pl.init (pl.arrival - 1)
                else { PCB.init pl.init (pl.arrival - 1) with state := ProcessState.blocked }) ∧
        System.simulate (System.init sett) plans =
          System.loop (STEP_MAX - pl.arrival) pl.arrival sysa) := by
  have hmax : STEP_MAX = 4294967295 := rfl
  have hmod : STEP_MOD = 4294967296 := rfl
  have hnd0 : (((System.init sett).startTimers plans).process_entry_timers.map
      fun t => t.data.id).Nodup := by
    have he : ((System.init sett).startTimers plans).process_entry_timers.map
        (fun t => t.data.id) = plans.map fun p => p.init.id := by
      simp [System.startTimers, System.init, Timer.init]
    rw [he]
    exact hids
  have hmem0 : Timer.init pl.arrival pl.init ∈
      ((System.init sett).startTimers plans).process_entry_timers := by
    simp only [System.startTimers, System.init, List.nil_append]
    exact List.mem_map.mpr ⟨pl, hpl, rfl⟩
  have hnone0 : ((System.init sett).startTimers plans).PCB_table.lookup pl.init.id = none := rfl
  have hpend := fun j sysj (hj : j < pl.arrival)
      (ht : System.ticks j 0 ((System.init sett).startTimers plans) = some sysj) =>
    System.arrival_pending pl.init pl.arrival hM j 0 _ sysj ht hj hnd0 hmem0 hnone0
  have hrun : ∀ n, n ≤ pl.arrival → ∀ k, k < n → ∀ sysk,
      System.ticks k 0 ((System.init sett).startTimers plans) = some sysk →
      sysk.running (0 + k) = true := by
    intro n hn k hk sysk hsk
    obtain ⟨_, hm, _⟩ := hpend k sysk (by omega) hsk
    exact System.running_of_timer sysk (0 + k) _ (by omega) hm
  have hsim : ∀ n sysn, n ≤ pl.arrival →
      System.ticks n 0 ((System.init sett).startTimers plans) = some sysn →
      System.simulate (System.init sett) plans = System.loop (STEP_MAX - n) n sysn := by
    intro n sysn hn hsn
    have he : STEP_MAX = n + (STEP_MAX - n) := by omega
    have h2 := System.loop_of_ticks n 0 _ sysn (STEP_MAX - n) hsn (hrun n hn)
    rw [← he, Nat.zero_add] at h2
    exact h2
  constructor
  · intro j sysj hj ht
    obtain ⟨_, hm, hn⟩ := hpend j sysj hj ht
    exact ⟨hm, hn, hsim j sysj (by omega) ht⟩
  · intro sysa ht
    have hsa := hsim pl.arrival sysa (le_refl _) ht
    have he : pl.arrival = (pl.arrival - 1) + 1 := by omega
    rw [he, System.ticks_succ] at ht
    cases hp : System.ticks (pl.arrival - 1) 0 ((System.init sett).startTimers plans) with
    | none => simp [hp] at ht
    | some sysp =>
      simp only [hp, Option.some_bind, Nat.zero_add] at ht
      obtain ⟨hnd, hm, hn⟩ := hpend (pl.arrival - 1) sysp (by omega) hp
      have h1a : pl.arrival - (pl.arrival - 1) = 1 := by omega
      rw [h1a] at hm
      obtain ⟨r1, r2⟩ := System.tick_arrives sysp (pl.arrival - 1) sysa pl.init ht hnd hm hn
      exact ⟨r1, r2, hsa⟩

theorem System.arrival_clock_witness :
    ((scenarioA 3).map fun p => p.init.id).Nodup ∧
    (System.ticks 3 0 ((System.init (oneUnit 0 1 1)).startTimers (scenarioA 3))).isSome = true ∧
    ∀ sysa, System.ticks 3 0 ((System.init (oneUnit 0 1 1)).startTimers (scenarioA 3)) = some sysa →
      (∀ t ∈ sysa.process_entry_timers, t.data.id ≠ 0) ∧
      sysa.PCB_table.lookup 0 =
        some (PCB.init { id := 0, prio := 0, bursts := { bursts := [5, 3, 2] } } 2) ∧
      System.simulate (System.init (oneUnit 0 1 1)) (scenarioA 3) =
        System.loop (STEP_MAX - 3) 3 sysa :=
  ⟨by decide, by decide,
   (System.arrival_clock (oneUnit 0 1 1) (scenarioA 3)
      { arrival := 3, init := { id := 0, prio := 0, bursts := { bursts := [5, 3, 2] } } }
      (by decide) (by decide) (by decide) (by decide)).2⟩

/-! ### The ready queue as a list of ids -/

theorem findIdx_nonempty_append {T : Type} (pre post : List (List T))
    (hpre : ∀ b ∈ pre, b = []) :
    (pre ++ post).findIdx (fun b => !b.isEmpty) =
      pre.length + post.findIdx (fun b => !b.isEmpty) := by
  induction pre with
  | nil => simp
  | cons b pre ih =>
    have hb : b = [] := hpre b (List.mem_cons_self _ _)
    have hrest : ∀ b1 ∈ pre, b1 = [] := fun b1 h1 => hpre b1 (List.mem_cons_of_mem _ h1)
    rw [List.cons_append, List.findIdx_cons, ih hrest, hb]
    simp only [List.isEmpty_nil, Bool.not_true, cond_false, List.length_cons]
    omega

theorem flatten_empty_front {T : Type} (pre post : List (List T))
    (hpre : ∀ b ∈ pre, b = []) : (pre ++ post).flatten = post.flatten := by
  induction pre with
  | nil => rfl
  | cons b pre ih =>
    have hb : b = [] := hpre b (List.mem_cons_self _ _)
    have hrest : ∀ b1 ∈ pre, b1 = [] := fun b1 h1 => hpre b1 (List.mem_cons_of_mem _ h1)
    rw [List.cons_append, List.flatten_cons, ih hrest, hb, List.nil_append]

/-- A list of queues with a non-empty queue splits at the first one. -/
theorem split_at_top {T : Type} (l : List (List T))
    (h : l.findIdx (fun b => !b.isEmpty) < l.length) :
    ∃ pre x rest post, l = pre ++ (x :: rest) :: post ∧
      pre.length = l.findIdx (fun b => !b.isEmpty) ∧ ∀ b ∈ pre, b = [] := by
  induction l with
  | nil => simp at h
  | cons b l ih =>
    cases b with
    | nil =>
      rw [List.findIdx_cons] at h ⊢
      simp only [List.isEmpty_nil, Bool.not_true, cond_false, List.length_cons] at h ⊢
      obtain ⟨pre, x, rest, post, h1, h2, h3⟩ := ih (by omega)
      refine ⟨[] :: pre, x, rest, post, by rw [h1]; rfl, by simp [h2], ?_⟩
      intro b1 hb1
      rcases List.mem_cons.mp hb1 with hb | hb
      · exact hb
      · exact h3 b1 hb
    | cons x rest =>
      refine ⟨[], x, rest, l, rfl, ?_, by simp⟩
      rw [List.findIdx_cons]
      rfl

theorem ReadyPriorityQueue.empty_iff_ids {T : Type} (q : ReadyPriorityQueue T) :
    q.empty = true ↔ q.ids = [] := by
  rw [ReadyPriorityQueue.empty_iff_all_nil, ReadyPriorityQueue.ids, List.flatten_eq_nil_iff]

/-- On a non-empty queue `front()` is the first id and `pop()` removes it. -/
theorem ReadyPriorityQueue.front_pop_ids {T : Type} (q : ReadyPriorityQueue T)
    (h : q.empty = false) :
    ∃ x q1, q.front = some x ∧ q.pop = some q1 ∧ q.ids = x :: q1.ids ∧
      q1.queues.length = q.queues.length := by
  have hlt : q.getTopQueueIndex < q.queues.length := by
    have hle := ReadyPriorityQueue.top_le_length q
    have hne : q.getTopQueueIndex ≠ q.queues.length := by
      simpa [ReadyPriorityQueue.empty] using h
    omega
  obtain ⟨pre, x, rest, post, hq, hlen, hpre⟩ := split_at_top q.queues hlt
  have htop : q.getTopQueueIndex = pre.length := hlen.symm
  have hget : q.queues[q.getTopQueueIndex]? = some (x :: rest) := by
    rw [htop, hq, List.getElem?_append_right (le_refl _), Nat.sub_self, List.getElem?_cons_zero]
  have hset : q.queues.set q.getTopQueueIndex rest = pre ++ rest :: post := by
    rw [htop, hq]
    simp
  refine ⟨x, { queues := q.queues.set q.getTopQueueIndex rest }, ?_, ?_, ?_, ?_⟩
  · simp [ReadyPriorityQueue.front, hget]
  · simp [ReadyPriorityQueue.pop, hget]
  · simp only [ReadyPriorityQueue.ids]
    rw [hset, flatten_empty_front pre _ hpre, List.flatten_cons]
    conv_lhs => rw [hq]
    rw [flatten_empty_front pre _ hpre, List.flatten_cons]
    rfl
  · simp

/-- A successful `push(val, p)` adds `val` to the ids and keeps the number of
queues. -/
theorem ReadyPriorityQueue.push_ids {T : Type} (q q1 : ReadyPriorityQueue T) (v : T) (p : Nat)
    (h : q.push v p = some q1) :
    q1.ids.Perm (v :: q.ids) ∧ q1.queues.length = q.queues.length := by
  unfold ReadyPriorityQueue.push at h
  cases hb : q.queues[p]? with
  | none => simp [hb] at h
  | some b =>
    simp only [hb, Option.some.injEq] at h
    subst h
    have hp : p < q.queues.length := by
      rcases Nat.lt_or_ge p q.queues.length with h1 | h1
      · exact h1
      · rw [List.getElem?_eq_none h1] at hb
        cases hb
    have hbe : q.queues[p] = b := by
      rw [List.getElem?_eq_getElem hp] at hb
      exact Option.some.inj hb
    constructor
    · simp only [ReadyPriorityQueue.ids]
      have hsplit : q.queues = q.queues.take p ++ b :: q.queues.drop (p + 1) := by
        rw [← hbe]
        exact (List.take_append_drop p q.queues).symm.trans (by rw [List.drop_eq_getElem_cons hp])
      have hset : q.queues.set p (b ++ [v]) =
          q.queues.take p ++ (b ++ [v]) :: q.queues.drop (p + 1) := by
        rw [List.set_eq_take_append_cons_drop, if_pos hp]
      rw [hset]
      conv_rhs => rw [hsplit]
      simp only [List.flatten_append, List.flatten_cons]
      have h1 : ((q.queues.take p).flatten ++ ((b ++ [v]) ++ (q.queues.drop (p + 1)).flatten)).Perm
          ((q.queues.take p).flatten ++ (v :: (b ++ (q.queues.drop (p + 1)).flatten))) := by
        apply List.Perm.append_left
        rw [List.append_assoc]
        exact List.perm_middle
      exact h1.trans List.perm_middle
    · simp

theorem ReadyPriorityQueue.push_some {T : Type} (q : ReadyPriorityQueue T) (v : T) (p : Nat)
    (hp : p < q.queues.length) : ∃ q1, q.push v p = some q1 := by
  unfold ReadyPriorityQueue.push
  rw [List.getElem?_eq_getElem hp]
  exact ⟨_, rfl⟩

theorem flatten_nil_of_top_eq_length {T : Type} (l : List (List T))
    (h : l.findIdx (fun b => !b.isEmpty) = l.length) : l.flatten = [] := by
  rw [List.flatten_eq_nil_iff]
  intro b hb
  have h1 := (List.findIdx_eq_length.mp h) b hb
  cases b with
  | nil => rfl
  | cons x rest => simp at h1

/-- The loop `for(it = begin; it != end; ++it)` visits the ids of the queue in
order, front to back. -/
theorem RPQIterator.visit_all {T : Type} : ∀ (fuel : Nat) (it : RPQIterator T),
    it.prio = it.q.findIdx (fun b => !b.isEmpty) → it.q.flatten.length ≤ fuel →
    RPQIterator.visit fuel it = some it.q.flatten := by
  intro fuel
  induction fuel with
  | zero =>
    intro it hp hlen
    have hnil : it.q.flatten = [] := List.eq_nil_of_length_eq_zero (by omega)
    have hall : ∀ b ∈ it.q, b = [] := List.flatten_eq_nil_iff.mp hnil
    have hidx : it.q.findIdx (fun b => !b.isEmpty) = it.q.length := by
      rw [List.findIdx_eq_length]
      intro b hb
      rw [hall b hb]
      rfl
    rw [RPQIterator.visit, if_pos (hp.trans hidx), hnil]
  | succ fuel ih =>
    intro it hp hlen
    by_cases hend : it.prio = it.q.length
    · rw [RPQIterator.visit, if_pos hend, flatten_nil_of_top_eq_length it.q (hp ▸ hend)]
    · have hlt : it.q.findIdx (fun b => !b.isEmpty) < it.q.length := by
        have hle : it.q.findIdx (fun b => !b.isEmpty) ≤ it.q.length := List.findIdx_le_length _
        rw [hp] at hend
        omega
      obtain ⟨pre, x, rest, post, hq, hpl, hpre⟩ := split_at_top it.q hlt
      have hprio : it.prio = pre.length := hp.trans hpl.symm
      have hget : it.q[it.prio]? = some (x :: rest) := by
        rw [hprio, hq, List.getElem?_append_right (le_refl _), Nat.sub_self,
          List.getElem?_cons_zero]
      have hset : it.q.set it.prio rest = pre ++ rest :: post := by
        rw [hprio, hq]
        simp
      have hflat : it.q.flatten = x :: (pre ++ rest :: post).flatten := by
        rw [hq, flatten_empty_front pre _ hpre, flatten_empty_front pre _ hpre]
        rfl
      have hderef : it.deref = some x := by simp [RPQIterator.deref, hget]
      have hnext : ∃ it1, it.next = some it1 ∧ it1.q = pre ++ rest :: post ∧
          it1.prio = it1.q.findIdx (fun b => !b.isEmpty) := by
        cases rest with
        | nil =>
          refine ⟨{ q := pre ++ [] :: post,
                    prio := pre.length + 1 + post.findIdx (fun b => !b.isEmpty) }, ?_, rfl, ?_⟩
          · simp only [RPQIterator.next, hget, List.tail_cons, List.isEmpty_nil, if_true, hset]
            rw [hprio]
            simp
          · show pre.length + 1 + post.findIdx (fun b => !b.isEmpty) = _
            rw [findIdx_nonempty_append pre _ hpre, List.findIdx_cons]
            simp only [List.isEmpty_nil, Bool.not_true, cond_false]
            omega
        | cons y rest1 =>
          refine ⟨{ q := pre ++ (y :: rest1) :: post, prio := pre.length }, ?_, rfl, ?_⟩
          · simp only [RPQIterator.next, hget, List.tail_cons, List.isEmpty_cons, hset]
            rw [hprio]
            simp
          · show pre.length = _
            rw [findIdx_nonempty_append pre _ hpre, List.findIdx_cons]
            rfl
      obtain ⟨it1, hn, hq1, hp1⟩ := hnext
      have hlen1 : it1.q.flatten.length ≤ fuel := by
        rw [hflat, List.length_cons, ← hq1] at hlen
        omega
      rw [RPQIterator.visit, if_neg hend]
      simp only [hderef, hn]
      rw [ih it1 hp1 hlen1, hflat, hq1]

theorem ReadyPriorityQueue.visited_eq {T : Type} (q : ReadyPriorityQueue T) :
    q.visited = some q.ids :=
  RPQIterator.visit_all _ q.begin rfl (le_refl _)

/-! ### Keys of the table -/

theorem PCBTable.keys_store (tbl : PCBTable) (key : Nat) (q : PCB) :
    (tbl.store key q).keys = tbl.keys := by
  simp only [PCBTable.keys, PCBTable.store, List.map_map]
  apply List.map_congr_left
  intro e _
  simp only [Function.comp]
  split <;> rfl

theorem PCBTable.keys_erase (tbl : PCBTable) (key : Nat) :
    (tbl.erase key).keys = tbl.keys.filter fun k => !decide (k = key) := by
  simp only [PCBTable.keys, PCBTable.erase, List.filter_map]
  rfl

theorem PCBTable.mem_keys_iff (tbl : PCBTable) (k : Nat) :
    k ∈ tbl.keys ↔ ∃ p, tbl.lookup k = some p := by
  obtain ⟨l⟩ := tbl
  induction l with
  | nil => simp [PCBTable.keys, PCBTable.lookup]
  | cons e l ih =>
    have hk : PCBTable.keys { entries := e :: l } = e.1 :: PCBTable.keys { entries := l } := rfl
    rw [hk, PCBTable.lookup_cons, List.mem_cons, ih]
    by_cases h : e.1 = k
    · simp [h]
    · have h1 : ¬ k = e.1 := fun h2 => h h2.symm
      simp [h, h1]

theorem PCBTable.lookup_none_iff (tbl : PCBTable) (k : Nat) :
    tbl.lookup k = none ↔ k ∉ tbl.keys := by
  rw [PCBTable.mem_keys_iff]
  cases tbl.lookup k <;> simp

theorem PCBTable.lookup_mem (tbl : PCBTable) (k : Nat) (p : PCB) (h : tbl.lookup k = some p) :
    (k, p) ∈ tbl.entries := by
  unfold PCBTable.lookup at h
  cases hf : tbl.entries.find? (fun e => decide (e.1 = k)) with
  | none => simp [hf] at h
  | some e =>
    simp only [hf, Option.map_some', Option.some.injEq] at h
    have h1 := List.find?_some hf
    have h2 := List.mem_of_find?_eq_some hf
    simp only [decide_eq_true_eq] at h1
    have he : e = (k, p) := Prod.ext h1 h
    rw [← he]
    exact h2

theorem PCBTable.keys_emplace (tbl : PCBTable) (key : Nat) (p : PCB)
    (h : tbl.lookup key = none) : (tbl.emplace key p).keys = tbl.keys ++ [key] := by
  simp [PCBTable.emplace, h, PCBTable.keys]

theorem Placed.of_store {tbl : PCBTable} {ids : List Nat} (h : Placed tbl ids) (key : Nat)
    (q : PCB) (hq : q.id = key) : Placed (tbl.store key q) ids := by
  obtain ⟨h1, h2, h3⟩ := h
  refine ⟨by rw [PCBTable.keys_store]; exact h1, ?_, by rw [PCBTable.keys_store]; exact h3⟩
  intro e he
  simp only [PCBTable.store, List.mem_map] at he
  obtain ⟨d, hd, hde⟩ := he
  by_cases hk : d.1 = key
  · rw [if_pos hk] at hde
    rw [← hde]
    exact hq.trans hk.symm
  · rw [if_neg hk] at hde
    rw [← hde]
    exact h2 d hd

theorem Placed.of_erase {tbl : PCBTable} {ids : List Nat} {key : Nat}
    (h : Placed tbl (key :: ids)) : Placed (tbl.erase key) ids := by
  obtain ⟨h1, h2, h3⟩ := h
  have hf : (tbl.erase key).keys = tbl.keys.erase key := by
    rw [PCBTable.keys_erase, h1.erase_eq_filter]
    apply List.filter_congr
    intro x _
    by_cases hx : x = key <;> simp [hx]
  refine ⟨by rw [hf]; exact h1.erase key, ?_, ?_⟩
  · intro e he
    apply h2 e
    simp only [PCBTable.erase, List.mem_filter] at he
    exact he.1
  · rw [hf]
    have h4 := h3.erase key
    rw [List.erase_cons_head] at h4
    exact h4

theorem Placed.of_emplace {tbl : PCBTable} {ids : List Nat} (h : Placed tbl ids) (key : Nat)
    (p : PCB) (hk : tbl.lookup key = none) (hp : p.id = key) :
    Placed (tbl.emplace key p) (key :: ids) := by
  obtain ⟨h1, h2, h3⟩ := h
  have hnot : key ∉ tbl.keys := (PCBTable.lookup_none_iff tbl key).mp hk
  rw [Placed, PCBTable.keys_emplace tbl key p hk]
  refine ⟨?_, ?_, ?_⟩
  · rw [List.nodup_append]
    refine ⟨h1, List.nodup_singleton key, ?_⟩
    intro x hx1 hx2
    rw [List.mem_singleton] at hx2
    exact hnot (hx2 ▸ hx1)
  · intro e he
    simp only [PCBTable.emplace, hk, List.mem_append, List.mem_singleton] at he
    rcases he with he | he
    · exact h2 e he
    · rw [he]
      exact hp
  · exact (List.Perm.cons key h3).trans (List.perm_append_singleton key tbl.keys).symm

theorem Placed.of_perm {tbl : PCBTable} {ids ids1 : List Nat} (h : Placed tbl ids)
    (hp : ids1.Perm ids) : Placed tbl ids1 :=
  ⟨h.1, h.2.1, hp.trans h.2.2⟩

theorem Placed.has_record {tbl : PCBTable} {ids : List Nat} (h : Placed tbl ids) (k : Nat)
    (hk : k ∈ ids) : ∃ p, tbl.lookup k = some p ∧ p.id = k := by
  obtain ⟨p, hp⟩ := (PCBTable.mem_keys_iff tbl k).mp (h.2.2.subset hk)
  exact ⟨p, hp, h.2.1 _ (PCBTable.lookup_mem tbl k p hp)⟩

theorem Placed.id_of_lookup {tbl : PCBTable} {ids : List Nat} (h : Placed tbl ids) (k : Nat)
    (p : PCB) (hp : tbl.lookup k = some p) : p.id = k :=
  h.2.1 _ (PCBTable.lookup_mem tbl k p hp)

theorem Placed.ids_nodup {tbl : PCBTable} {ids : List Nat} (h : Placed tbl ids) : ids.Nodup :=
  h.2.2.nodup_iff.mpr h.1

/-! ### What the changes of a record keep -/

theorem PCB.Moves.keeps {p q : PCB} (h : PCB.Moves p q) :
    q.id = p.id ∧ q.prio = p.prio ∧ q.stats.id = p.stats.id ∧ q.stats.prio = p.stats.prio ∧
      q.stats.started = p.stats.started ∧ q.stats.plan = p.stats.plan := by
  induction h with
  | refl => exact ⟨rfl, rfl, rfl, rfl, rfl, rfl⟩
  | step q _ ih =>
    have h1 : q.step.2.id = q.id := PCB.step_id q
    have h2 : q.step.2.prio = q.prio := PCB.step_prio q
    have h3 : q.step.2.stats = { q.stats with hist := q.stats.hist.inc q.state } := by
      unfold PCB.step
      split <;> rfl
    rw [h1, h2, h3]
    exact ih
  | setState q s _ _ ih => exact ih

/-! ### The layout through one step of a unit -/

/-- A step of an assigned unit either keeps it bound and assigned and returns
false, or unbinds it, leaves it idle and returns true; the id of the process and
the id the unit remembers stay. -/
theorem CPU.stepOn_bound (c : CPU) (p : PCB) (r : Bool) (c1 : CPU) (p1 : PCB)
    (hs : c.stepOn p = some (r, c1, p1)) (hne : c.getState ≠ CPUState.idle) :
    p1.id = p.id ∧ c1.last_id = c.last_id ∧
      ((r = false ∧ c1.proc = c.proc ∧ c1.getState ≠ CPUState.idle) ∨
       (r = true ∧ c1.proc = none ∧ c1.getState = CPUState.idle)) := by
  refine ⟨(CPU.stepOn_moves c p r c1 p1 hs).keeps.1, (CPU.stepOn_frame c p r c1 p1 hs).2.2, ?_⟩
  have hkeep : ∀ T : Timer CPUState, T.data ≠ CPUState.idle →
      ({ c with t := T } : CPU).proc = c.proc ∧
        ({ c with t := T } : CPU).getState ≠ CPUState.idle := fun T hT => ⟨rfl, hT⟩
  have hinit : ∀ (n : Nat) (s : CPUState), s ≠ CPUState.idle →
      (Timer.init n s).data ≠ CPUState.idle := fun _ _ h => h
  have hbusy : ∀ (hst : c.getState = CPUState.processing ∨ c.getState = CPUState.assigned_idle),
      (r = false ∧ c1.proc = c.proc ∧ c1.getState ≠ CPUState.idle) ∨
       (r = true ∧ c1.proc = none ∧ c1.getState = CPUState.idle) := by
    intro hst
    left
    by_cases hf : c.settings.RR_TIME = 0
    · rw [CPU.stepOn_busy_fcfs c p hst hf] at hs
      simp only [Option.some.injEq, Prod.mk.injEq] at hs
      obtain ⟨hr, hc⟩ := hs
      refine ⟨hr.symm, ?_⟩
      split at hc
      · split at hc
        · simp only [CPU.deassignOn, Prod.mk.injEq] at hc
          rw [← hc.1]
          exact hkeep _ (hinit _ _ (by decide))
        · simp only [Prod.mk.injEq] at hc
          rw [← hc.1]
          apply hkeep
          split <;> decide
      · simp only [Prod.mk.injEq] at hc
        rw [← hc.1]
        exact ⟨rfl, hne⟩
    · rw [CPU.stepOn_busy_rr c p hst hf] at hs
      cases hts : c.t.step with
      | none => simp [hts] at hs
      | some tr =>
        simp only [hts, Option.map_some', Option.some.injEq] at hs
        split at hs
        · simp only [Prod.mk.injEq] at hs
          rw [← hs.2.1]
          exact ⟨hs.1.symm, hkeep _ (hinit _ _ (by decide))⟩
        · simp only [Prod.mk.injEq] at hs
          rw [← hs.2.1]
          refine ⟨hs.1.symm, hkeep _ ?_⟩
          rw [Timer.step_data c.t tr hts]
          exact hne
  cases hst : c.getState with
  | idle => exact absurd hst hne
  | switching_out =>
    rw [CPU.stepOn_switching_out c p hst] at hs
    cases hts : c.t.step with
    | none => simp [hts] at hs
    | some tr =>
      simp only [hts, Option.map_some', Option.some.injEq] at hs
      split at hs
      · simp only [Prod.mk.injEq] at hs
        rw [← hs.2.1]
        exact Or.inr ⟨hs.1.symm, rfl, rfl⟩
      · simp only [Prod.mk.injEq] at hs
        rw [← hs.2.1]
        refine Or.inl ⟨hs.1.symm, hkeep _ ?_⟩
        rw [Timer.step_data c.t tr hts]
        exact hne
  | switching_in =>
    rw [CPU.stepOn_switching_in c p hst] at hs
    cases hts : c.t.step with
    | none => simp [hts] at hs
    | some tr =>
      simp only [hts, Option.map_some', Option.some.injEq] at hs
      split at hs
      · split at hs
        · simp only [Prod.mk.injEq] at hs
          rw [← hs.2.1]
          refine Or.inl ⟨hs.1.symm, hkeep _ ?_⟩
          split <;> decide
        · simp only [Prod.mk.injEq] at hs
          rw [← hs.2.1]
          exact Or.inl ⟨hs.1.symm, hkeep _ (hinit _ _ (by decide))⟩
      · simp only [Prod.mk.injEq] at hs
        rw [← hs.2.1]
        refine Or.inl ⟨hs.1.symm, hkeep _ ?_⟩
        rw [Timer.step_data c.t tr hts]
        exact hne
  | processing => exact hbusy (Or.inl hst)
  | assigned_idle => exact hbusy (Or.inr hst)

/-- The layout through `CPU::step`: an idle unit changes nothing and returns
true; an assigned unit changes the record of its process in place and either
stays bound (false) or releases the process (true), which is then in no place
until the scheduler moves it. -/
theorem CPU.step_layout (c : CPU) (tbl : PCBTable) (rest : List Nat) (r : Bool) (c1 : CPU)
    (tbl1 : PCBTable) (hs : c.step tbl = some (r, c1, tbl1)) (ht : c.tidy)
    (hp : Placed tbl (c.proc.toList ++ rest)) :
    c1.tidy ∧
      ((c.getState = CPUState.idle ∧ r = true ∧ c1.proc = none ∧ tbl1 = tbl) ∨
       (c.getState ≠ CPUState.idle ∧ r = false ∧ Placed tbl1 (c1.proc.toList ++ rest)) ∨
       (c.getState ≠ CPUState.idle ∧ r = true ∧ c1.proc = none ∧
          Placed tbl1 (c1.getPID :: rest))) := by
  by_cases hidle : c.getState = CPUState.idle
  · rw [CPU.step_idle c tbl hidle] at hs
    simp only [Option.some.injEq, Prod.mk.injEq] at hs
    obtain ⟨hr, hc, htb⟩ := hs
    have hproc : c1.proc = none := by
      rw [← hc]
      exact ht.1.mp hidle
    refine ⟨?_, Or.inl ⟨hidle, hr.symm, hproc, htb.symm⟩⟩
    rw [← hc]
    exact ht
  · obtain ⟨key, p, p1, hk, hl, hon, htb⟩ := CPU.step_assigned_inv c tbl r c1 tbl1 hidle hs
    obtain ⟨hid, hlast, hcase⟩ := CPU.stepOn_bound c.recordTick p r c1 p1 hon hidle
    have hpid : p.id = key := hp.id_of_lookup key p hl
    have hlast1 : c1.last_id = key := hlast.trans (ht.2 key hk)
    have hst : Placed tbl1 (c.proc.toList ++ rest) := by
      rw [htb]
      exact hp.of_store key p1 (hid.trans hpid)
    rcases hcase with ⟨hr, hpr, hne⟩ | ⟨hr, hpr, hi⟩
    · have hpr1 : c1.proc = some key := hpr.trans hk
      refine ⟨⟨⟨fun h => absurd h hne, fun h => by rw [hpr1] at h; cases h⟩, ?_⟩,
        Or.inr (Or.inl ⟨hidle, hr, ?_⟩)⟩
      · intro k hk1
        rw [hpr1] at hk1
        cases hk1
        exact hlast1
      · rw [hpr1, ← hk]
        exact hst
    · refine ⟨⟨⟨fun _ => hpr, fun _ => hi⟩, ?_⟩, Or.inr (Or.inr ⟨hidle, hr, hpr, ?_⟩)⟩
      · intro k hk1
        rw [hpr] at hk1
        cases hk1
      · rw [hk] at hst
        rw [CPU.getPID, hlast1]
        exact hst

/-! ### The layout through the unit pass -/

/-- The layout through the relocation of a released process: the process goes
from no place to the ready queue, to the blocked list or out of the table. -/
theorem System.relocate_layout (sys : System) (id : Nat) (sys1 : System) (rest : List Nat)
    (h : sys.relocate id = some sys1)
    (hp : Placed sys.PCB_table (id :: (rest ++ (sys.ready.ids ++ sys.blocked)))) :
    Placed sys1.PCB_table (rest ++ (sys1.ready.ids ++ sys1.blocked)) := by
  unfold System.relocate at h
  cases hl : sys.PCB_table.lookup id with
  | none => simp [hl] at h
  | some pcb =>
    have hid : pcb.id = id := hp.id_of_lookup id pcb hl
    simp only [hl] at h
    split at h
    · simp only [Option.some.injEq] at h
      subst h
      exact hp.of_erase
    · split at h
      · cases hpush : sys.ready.push id pcb.prio with
        | none => simp [hpush] at h
        | some rq =>
          simp only [hpush, Option.some.injEq] at h
          subst h
          have h1 := (ReadyPriorityQueue.push_ids sys.ready rq id pcb.prio hpush).1
          apply (hp.of_store id { pcb with state := ProcessState.ready } hid).of_perm
          show (rest ++ (rq.ids ++ sys.blocked)).Perm _
          rw [← Multiset.coe_eq_coe] at h1 ⊢
          simp only [← Multiset.coe_add, ← Multiset.cons_coe, ← Multiset.singleton_add] at h1 ⊢
          rw [h1]
          abel
      · simp only [Option.some.injEq] at h
        subst h
        apply (hp.of_store id { pcb with state := ProcessState.blocked } hid).of_perm
        show (rest ++ (sys.ready.ids ++ (sys.blocked ++ [id]))).Perm _
        rw [← Multiset.coe_eq_coe]
        simp only [← Multiset.coe_add, ← Multiset.cons_coe, ← Multiset.singleton_add,
          Multiset.coe_nil, Multiset.cons_zero]
        abel

/-- The layout through the assignment of the front of the ready queue to a
unit that is bound to nothing. -/
theorem System.assignFront_layout (sys : System) (cpu cpu1 : CPU) (sys1 : System)
    (rest : List Nat) (h : sys.assignFront cpu = some (cpu1, sys1)) (ht : cpu.tidy)
    (hfree : cpu.proc = none)
    (hp : Placed sys.PCB_table (rest ++ (sys.ready.ids ++ sys.blocked))) :
    cpu1.tidy ∧
      Placed sys1.PCB_table (cpu1.proc.toList ++ (rest ++ (sys1.ready.ids ++ sys1.blocked))) := by
  unfold System.assignFront at h
  split at h
  · rename_i hne
    have hne1 : sys.ready.empty = false := by simpa using hne
    obtain ⟨x, q1, hfr, hpop, hids, _⟩ := ReadyPriorityQueue.front_pop_ids sys.ready hne1
    simp only [hfr] at h
    cases hl : sys.PCB_table.lookup x with
    | none => simp [CPU.assign, hl] at h
    | some p =>
      have hid : p.id = x := hp.id_of_lookup x p hl
      simp only [CPU.assign, hl, hpop, Option.some.injEq, Prod.mk.injEq] at h
      obtain ⟨hc, hsys⟩ := h
      subst hc hsys
      refine ⟨⟨⟨fun h1 => (by cases h1), fun h1 => (by cases h1)⟩, ?_⟩, ?_⟩
      · intro k hk
        simp only [Option.some.injEq] at hk
        exact hid.trans hk
      · apply (hp.of_store x { p with state := ProcessState.switching } hid).of_perm
        show ([x] ++ (rest ++ (q1.ids ++ sys.blocked))).Perm _
        rw [hids, ← Multiset.coe_eq_coe]
        simp only [← Multiset.coe_add, ← Multiset.cons_coe, ← Multiset.singleton_add,
          Multiset.coe_nil, Multiset.cons_zero]
        abel
  · simp only [Option.some.injEq, Prod.mk.injEq] at h
    obtain ⟨hc, hsys⟩ := h
    subst hc hsys
    refine ⟨ht, ?_⟩
    rw [hfree]
    exact hp

theorem CPU.assigned_eq_false (c : CPU) (h : c.getState = CPUState.idle) :
    c.assigned = false := by
  simp [CPU.assigned, h]

/-- The layout through the body of the unit loop for one unit. -/
theorem System.cpuBody_layout (sys : System) (cpu cpu1 : CPU) (sys1 : System)
    (rest : List Nat) (h : sys.cpuBody cpu = some (cpu1, sys1)) (ht : cpu.tidy)
    (hp : Placed sys.PCB_table (cpu.proc.toList ++ (rest ++ (sys.ready.ids ++ sys.blocked)))) :
    cpu1.tidy ∧
      Placed sys1.PCB_table (cpu1.proc.toList ++ (rest ++ (sys1.ready.ids ++ sys1.blocked))) := by
  unfold System.cpuBody at h
  cases hs : cpu.step sys.PCB_table with
  | none => simp [hs] at h
  | some res =>
    obtain ⟨r, c1, tbl1⟩ := res
    simp only [hs] at h
    obtain ⟨ht1, hcase⟩ := CPU.step_layout cpu sys.PCB_table _ r c1 tbl1 hs ht hp
    rcases hcase with ⟨hidle, hr, hpr, htb⟩ | ⟨hne, hr, hpl⟩ | ⟨hne, hr, hpr, hpl⟩
    · have ha := CPU.assigned_eq_false cpu hidle
      simp only [hr, ha, Bool.not_false, Bool.or_true, if_true, Bool.not_true] at h
      simp only [Bool.false_eq_true, if_false] at h
      refine System.assignFront_layout _ c1 cpu1 sys1 rest h ht1 hpr ?_
      rw [ht.1.mp hidle] at hp
      rw [htb]
      exact hp
    · have ha := CPU.assigned_eq_true cpu hne
      simp only [hr, ha, Bool.not_true, Bool.or_false, Bool.false_eq_true, if_false,
        Option.some.injEq, Prod.mk.injEq] at h
      obtain ⟨hc, hsys⟩ := h
      subst hc hsys
      exact ⟨ht1, hpl⟩
    · have ha := CPU.assigned_eq_true cpu hne
      simp only [hr, ha, Bool.not_true, Bool.or_false, Bool.not_false, if_true] at h
      cases hrel : System.relocate { sys with PCB_table := tbl1 } c1.getPID with
      | none => simp [hrel] at h
      | some sys2 =>
        simp only [hrel] at h
        have h2 := System.relocate_layout _ c1.getPID sys2 rest hrel hpl
        exact System.assignFront_layout sys2 c1 cpu1 sys1 rest h ht1 hpr h2

theorem boundIds_nil : boundIds [] = [] := rfl

theorem boundIds_append (a b : List CPU) : boundIds (a ++ b) = boundIds a ++ boundIds b := by
  simp [boundIds, List.filterMap_append]

theorem boundIds_cons (c : CPU) (l : List CPU) : boundIds (c :: l) = c.proc.toList ++ boundIds l := by
  cases hc : c.proc with
  | none => simp [boundIds, List.filterMap_cons, hc]
  | some k => simp [boundIds, List.filterMap_cons, hc]

/-- The layout through the unit loop. -/
theorem System.cpuLoop_layout : ∀ (todo done : List CPU) (sys sys1 : System),
    System.cpuLoop done todo sys = some sys1 →
    (∀ c ∈ done ++ todo, c.tidy) →
    Placed sys.PCB_table (boundIds (done ++ todo) ++ (sys.ready.ids ++ sys.blocked)) →
    (∀ c ∈ sys1.cpus, c.tidy) ∧
      Placed sys1.PCB_table (boundIds sys1.cpus ++ (sys1.ready.ids ++ sys1.blocked)) := by
  intro todo
  induction todo with
  | nil =>
    intro done sys sys1 h ht hp
    simp only [System.cpuLoop, Option.some.injEq] at h
    subst h
    rw [List.append_nil] at ht hp
    exact ⟨ht, hp⟩
  | cons cpu todo ih =>
    intro done sys sys1 h ht hp
    simp only [System.cpuLoop] at h
    cases hb : sys.cpuBody cpu with
    | none => simp [hb] at h
    | some res =>
      obtain ⟨c1, sys2⟩ := res
      simp only [hb] at h
      have htc : cpu.tidy := ht cpu (by simp)
      have hp1 : Placed sys.PCB_table
          (cpu.proc.toList ++ (boundIds (done ++ todo) ++ (sys.ready.ids ++ sys.blocked))) := by
        apply hp.of_perm
        rw [boundIds_append, boundIds_append, boundIds_cons, ← Multiset.coe_eq_coe]
        simp only [← Multiset.coe_add]
        abel
      obtain ⟨ht1, hp2⟩ := System.cpuBody_layout sys cpu c1 sys2 _ hb htc hp1
      apply ih (done ++ [c1]) sys2 sys1 h
      · intro c hc
        simp only [List.append_assoc, List.singleton_append, List.mem_append,
          List.mem_cons] at hc
        rcases hc with hc | hc | hc
        · exact ht c (by simp [hc])
        · rw [hc]
          exact ht1
        · exact ht c (by simp [hc])
      · apply hp2.of_perm
        rw [boundIds_append, boundIds_append, boundIds_append, boundIds_cons, boundIds_nil,
          ← Multiset.coe_eq_coe]
        simp only [← Multiset.coe_add, Multiset.coe_nil]
        abel

theorem System.cpuPass_layout (sys sys1 : System) (h : sys.cpuPass = some sys1)
    (ht : ∀ c ∈ sys.cpus, c.tidy)
    (hp : Placed sys.PCB_table (boundIds sys.cpus ++ (sys.ready.ids ++ sys.blocked))) :
    (∀ c ∈ sys1.cpus, c.tidy) ∧
      Placed sys1.PCB_table (boundIds sys1.cpus ++ (sys1.ready.ids ++ sys1.blocked)) :=
  System.cpuLoop_layout sys.cpus [] sys sys1 h ht hp

/-! ### The layout through the blocked pass and the ready pass -/

/-- The layout through the body of the blocked loop for one id: the process
stays in the blocked list, goes to the ready queue, or leaves the table. -/
theorem System.blockedBody_layout (sys : System) (id : Nat) (b : Bool) (sys1 : System)
    (rest : List Nat) (h : sys.blockedBody id = some (b, sys1))
    (hp : Placed sys.PCB_table (id :: (rest ++ sys.ready.ids))) :
    Placed sys1.PCB_table ((if b then [] else [id]) ++ (rest ++ sys1.ready.ids)) ∧
      sys1.cpus = sys.cpus := by
  unfold System.blockedBody at h
  cases hl : sys.PCB_table.lookup id with
  | none => simp [hl] at h
  | some p =>
    have hid : p.step.2.id = id := (PCB.step_id p).trans (hp.id_of_lookup id p hl)
    simp only [hl] at h
    split at h
    · split at h
      · simp only [Option.some.injEq, Prod.mk.injEq] at h
        obtain ⟨hb, hsys⟩ := h
        subst hb hsys
        exact ⟨(hp.of_store id p.step.2 hid).of_erase, rfl⟩
      · cases hpush : sys.ready.push id p.step.2.prio with
        | none => simp [hpush] at h
        | some rq =>
          simp only [hpush, Option.some.injEq, Prod.mk.injEq] at h
          obtain ⟨hb, hsys⟩ := h
          subst hb hsys
          have h1 := (ReadyPriorityQueue.push_ids sys.ready rq id p.step.2.prio hpush).1
          refine ⟨?_, rfl⟩
          apply (hp.of_store id { p.step.2 with state := ProcessState.ready } hid).of_perm
          show ([] ++ (rest ++ rq.ids)).Perm _
          rw [← Multiset.coe_eq_coe] at h1 ⊢
          simp only [← Multiset.coe_add, ← Multiset.cons_coe, ← Multiset.singleton_add,
            Multiset.coe_nil] at h1 ⊢
          rw [h1]
          abel
    · simp only [Option.some.injEq, Prod.mk.injEq] at h
      obtain ⟨hb, hsys⟩ := h
      subst hb hsys
      exact ⟨hp.of_store id p.step.2 hid, rfl⟩

/-- The layout through the blocked loop. -/
theorem System.blockedLoop_layout : ∀ (todo kept : List Nat) (sys sys1 : System),
    System.blockedLoop kept todo sys = some sys1 →
    Placed sys.PCB_table (boundIds sys.cpus ++ (sys.ready.ids ++ (kept ++ todo))) →
    Placed sys1.PCB_table (boundIds sys1.cpus ++ (sys1.ready.ids ++ sys1.blocked)) ∧
      sys1.cpus = sys.cpus := by
  intro todo
  induction todo with
  | nil =>
    intro kept sys sys1 h hp
    simp only [System.blockedLoop, Option.some.injEq] at h
    subst h
    rw [List.append_nil] at hp
    exact ⟨hp, rfl⟩
  | cons id todo ih =>
    intro kept sys sys1 h hp
    simp only [System.blockedLoop] at h
    cases hb : sys.blockedBody id with
    | none => simp [hb] at h
    | some res =>
      obtain ⟨b, sys2⟩ := res
      simp only [hb] at h
      have hp1 : Placed sys.PCB_table
          (id :: ((boundIds sys.cpus ++ (kept ++ todo)) ++ sys.ready.ids)) := by
        apply hp.of_perm
        rw [← Multiset.coe_eq_coe]
        simp only [← Multiset.coe_add, ← Multiset.cons_coe, ← Multiset.singleton_add]
        abel
      obtain ⟨hp2, hc2⟩ := System.blockedBody_layout sys id b sys2 _ hb hp1
      obtain ⟨hp3, hc3⟩ := ih _ sys2 sys1 h (by
        apply hp2.of_perm
        rw [hc2, ← Multiset.coe_eq_coe]
        cases b
        · simp only [Bool.false_eq_true, if_false, ← Multiset.coe_add, ← Multiset.cons_coe,
            ← Multiset.singleton_add, Multiset.coe_nil, Multiset.cons_zero]
          abel
        · simp only [if_true, ← Multiset.coe_add, Multiset.coe_nil]
          abel)
      exact ⟨hp3, hc3.trans hc2⟩

/-- The layout through the ready loop: records change in place only. -/
theorem System.readyLoop_layout (ids0 : List Nat) : ∀ (ids : List Nat) (sys sys1 : System),
    System.readyLoop ids sys = some sys1 → Placed sys.PCB_table ids0 →
    Placed sys1.PCB_table ids0 ∧ sys1.cpus = sys.cpus ∧ sys1.ready = sys.ready ∧
      sys1.blocked = sys.blocked := by
  intro ids
  induction ids with
  | nil =>
    intro sys sys1 h hp
    simp only [System.readyLoop, Option.some.injEq] at h
    subst h
    exact ⟨hp, rfl, rfl, rfl⟩
  | cons id todo ih =>
    intro sys sys1 h hp
    simp only [System.readyLoop] at h
    cases hl : sys.PCB_table.lookup id with
    | none => simp [hl] at h
    | some p =>
      simp only [hl] at h
      have hid : p.step.2.id = id := (PCB.step_id p).trans (hp.id_of_lookup id p hl)
      exact ih { sys with PCB_table := sys.PCB_table.store id p.step.2 } sys1 h
        (hp.of_store id p.step.2 hid)

/-! ### The layout through the arrival pass -/

/-- The layout through `addProcess` for an id that is not in the table. -/
theorem System.addProcess_layout (sys : System) (pi : ProcessInit) (s : Nat) (sys1 : System)
    (rest : List Nat) (h : sys.addProcess pi s = some sys1)
    (hnone : sys.PCB_table.lookup pi.id = none)
    (hp : Placed sys.PCB_table (rest ++ (sys.ready.ids ++ sys.blocked))) :
    Placed sys1.PCB_table (rest ++ (sys1.ready.ids ++ sys1.blocked)) ∧
      sys1.cpus = sys.cpus := by
  have hem := hp.of_emplace pi.id (PCB.init pi s) hnone rfl
  unfold System.addProcess at h
  simp only at h
  split at h
  · cases hpush : sys.ready.push pi.id pi.prio with
    | none => simp [hpush] at h
    | some rq =>
      simp only [hpush, Option.some.injEq] at h
      subst h
      have h1 := (ReadyPriorityQueue.push_ids sys.ready rq pi.id pi.prio hpush).1
      refine ⟨?_, rfl⟩
      apply hem.of_perm
      show (rest ++ (rq.ids ++ sys.blocked)).Perm _
      rw [← Multiset.coe_eq_coe] at h1 ⊢
      simp only [← Multiset.coe_add, ← Multiset.cons_coe, ← Multiset.singleton_add] at h1 ⊢
      rw [h1]
      abel
  · cases hl : (sys.PCB_table.emplace pi.id (PCB.init pi s)).lookup pi.id with
    | none => simp [hl] at h
    | some p =>
      simp only [hl, Option.some.injEq] at h
      subst h
      have hid : p.id = pi.id := hem.id_of_lookup pi.id p hl
      refine ⟨?_, rfl⟩
      apply (hem.of_store pi.id { p with state := ProcessState.blocked } hid).of_perm
      show (rest ++ (sys.ready.ids ++ (sys.blocked ++ [pi.id]))).Perm _
      rw [← Multiset.coe_eq_coe]
      simp only [← Multiset.coe_add, ← Multiset.cons_coe, ← Multiset.singleton_add,
        Multiset.coe_nil, Multiset.cons_zero]
      abel

/-- The layout through the arrival loop. -/
theorem System.arrivalLoop_layout (s : Nat) :
    ∀ (todo kept : List (Timer ProcessInit)) (sys sys1 : System),
    System.arrivalLoop s kept todo sys = some sys1 →
    Placed sys.PCB_table (boundIds sys.cpus ++ (sys.ready.ids ++ sys.blocked)) →
    ((kept ++ todo).map fun t => t.data.id).Nodup →
    (∀ t ∈ kept ++ todo, sys.PCB_table.lookup t.data.id = none) →
    Placed sys1.PCB_table (boundIds sys1.cpus ++ (sys1.ready.ids ++ sys1.blocked)) ∧
      sys1.cpus = sys.cpus ∧
      (sys1.process_entry_timers.map fun t => t.data.id).Nodup ∧
      ∀ t ∈ sys1.process_entry_timers, sys1.PCB_table.lookup t.data.id = none := by
  intro todo
  induction todo with
  | nil =>
    intro kept sys sys1 h hp hnd hnone
    simp only [System.arrivalLoop, Option.some.injEq] at h
    subst h
    rw [List.append_nil] at hnd hnone
    exact ⟨hp, rfl, hnd, hnone⟩
  | cons t todo ih =>
    intro kept sys sys1 h hp hnd hnone
    simp only [System.arrivalLoop] at h
    cases hts : t.step with
    | none => simp [hts] at h
    | some tr =>
      have hd : tr.2.data = t.data := Timer.step_data t tr hts
      simp only [hts] at h
      split at h
      · cases ha : sys.addProcess tr.2.getData s with
        | none => simp [ha] at h
        | some sys2 =>
          simp only [ha] at h
          have hgd : tr.2.getData = t.data := hd
          rw [hgd] at ha
          have htn : sys.PCB_table.lookup t.data.id = none := hnone t (by simp)
          obtain ⟨hp2, hc2⟩ := System.addProcess_layout sys t.data s sys2 (boundIds sys.cpus)
            ha htn hp
          have hsub : (kept ++ todo).Sublist (kept ++ t :: todo) :=
            List.Sublist.append_left (List.sublist_cons_self t todo) kept
          have hnd2 : ((kept ++ todo).map fun t => t.data.id).Nodup :=
            (hsub.map _).nodup hnd
          have hnone2 : ∀ t1 ∈ kept ++ todo, sys2.PCB_table.lookup t1.data.id = none := by
            intro t1 ht1
            have hmem : t1 ∈ kept ++ t :: todo := hsub.subset ht1
            have hne : t1.data.id ≠ t.data.id := by
              intro heq
              have hmid : (kept ++ t :: todo).map (fun t => t.data.id) =
                  kept.map (fun t => t.data.id) ++ t.data.id ::
                    todo.map (fun t => t.data.id) := by simp
              rw [hmid] at hnd
              have h3 := List.nodup_middle.mp hnd
              rw [List.nodup_cons] at h3
              apply h3.1
              rw [← heq, ← List.map_append]
              exact List.mem_map_of_mem _ ht1
            rw [(System.addProcess_other sys t.data s sys2 ha).1 _ hne]
            exact hnone t1 hmem
          obtain ⟨r1, r2, r3, r4⟩ := ih kept sys2 sys1 h
            (by rw [hc2]; exact hp2) hnd2 hnone2
          exact ⟨r1, r2.trans hc2, r3, r4⟩
      · have hmap : ((kept ++ [tr.2]) ++ todo).map (fun t => t.data.id) =
            (kept ++ t :: todo).map fun t => t.data.id := by
          simp [hd]
        apply ih (kept ++ [tr.2]) sys sys1 h hp (by rw [hmap]; exact hnd)
        intro t1 ht1
        simp only [List.append_assoc, List.singleton_append, List.mem_append,
          List.mem_cons] at ht1
        rcases ht1 with h1 | h1 | h1
        · exact hnone t1 (by simp [h1])
        · rw [h1, hd]
          exact hnone t (by simp)
        · exact hnone t1 (by simp [h1])

/-! ### The layout through a round and a run -/

/-- One round of the loop keeps the layout. -/
theorem System.tick_layout (sys : System) (s : Nat) (sys1 : System)
    (h : sys.tick s = some sys1) (hl : sys.Layout) : sys1.Layout := by
  obtain ⟨hp, ht, hnd, hnone⟩ := hl
  unfold System.tick at h
  cases h1 : sys.cpuPass with
  | none => simp [h1] at h
  | some sysa =>
    simp only [h1] at h
    cases h2 : sysa.blockedPass with
    | none => simp [h2] at h
    | some sysb =>
      simp only [h2] at h
      cases h3 : sysb.readyPass with
      | none => simp [h3] at h
      | some sysc =>
        simp only [h3] at h
        obtain ⟨e1, t1, _⟩ := System.cpuLoop_evolves _ _ _ _ h1
        obtain ⟨e2, t2, _⟩ := System.blockedLoop_evolves _ _ _ _ h2
        have h3a : System.readyLoop sysb.ready.ids sysb = some sysc := by
          unfold System.readyPass at h3
          rw [ReadyPriorityQueue.visited_eq] at h3
          exact h3
        obtain ⟨e3, t3, _⟩ := System.readyLoop_evolves _ _ _ h3a
        obtain ⟨hta, hpa⟩ := System.cpuPass_layout sys sysa h1 ht hp
        obtain ⟨hpb, hcb⟩ := System.blockedLoop_layout sysa.blocked [] sysa sysb h2 hpa
        obtain ⟨hpc, hcc, hrc, hbc⟩ := System.readyLoop_layout _ _ sysb sysc h3a hpb
        have htim : sysc.process_entry_timers = sys.process_entry_timers := by
          rw [t3, t2, t1]
        have hev : System.Evolves sys sysc := (e1.follow e2).follow e3
        unfold System.arrivalPass at h
        rw [htim] at h
        obtain ⟨r1, r2, r3, r4⟩ := System.arrivalLoop_layout s _ [] sysc sys1 h
          (by rw [hcc, hrc, hbc]; exact hpc) hnd
          (fun t ht1 => TableMoves.lookup_none hev _ (hnone t ht1))
        refine ⟨r1, ?_, r3, r4⟩
        rw [r2, hcc, hcb]
        exact hta

/-- The rounds of a run keep the layout. -/
theorem System.ticks_layout : ∀ (n s : Nat) (sys sys1 : System),
    System.ticks n s sys = some sys1 → sys.Layout → sys1.Layout := by
  intro n
  induction n with
  | zero =>
    intro s sys sys1 h hl
    simp only [System.ticks, Option.some.injEq] at h
    subst h
    exact hl
  | succ n ih =>
    intro s sys sys1 h hl
    rw [System.ticks] at h
    cases ht : sys.tick s with
    | none => simp [ht] at h
    | some sys2 =>
      simp only [ht] at h
      exact ih (s + 1) sys2 sys1 h (System.tick_layout sys s sys2 ht hl)

theorem boundIds_init (sett : SystemSettings) (l : List Nat) :
    boundIds (l.map fun i => CPU.init sett i) = [] := by
  induction l with
  | nil => rfl
  | cons i l ih =>
    rw [List.map_cons, boundIds_cons, ih]
    rfl

/-- A fresh system with the timers of a workload of distinct ids has the
layout. -/
theorem System.startTimers_layout (sett : SystemSettings) (plans : List ProcessPlan)
    (hids : (plans.map fun p => p.init.id).Nodup) :
    ((System.init sett).startTimers plans).Layout := by
  refine ⟨⟨?_, ?_, ?_⟩, ?_, ?_, ?_⟩
  · exact List.nodup_nil
  · intro e he
    cases he
  · show (boundIds ((List.range sett.CPU_COUNT).map fun i => CPU.init sett i) ++
      ((ReadyPriorityQueue.init MAX_PRIO : ReadyPriorityQueue Nat).ids ++ [])).Perm []
    rw [boundIds_init, List.append_nil, List.nil_append]
    have hq : (ReadyPriorityQueue.init MAX_PRIO : ReadyPriorityQueue Nat).ids = [] := by
      rw [← ReadyPriorityQueue.empty_iff_ids]
      rfl
    rw [hq]
  · intro c hc
    simp only [System.startTimers, System.init, List.mem_map] at hc
    obtain ⟨i, _, hi⟩ := hc
    rw [← hi]
    exact ⟨⟨fun _ => rfl, fun _ => rfl⟩, fun k hk => by cases hk⟩
  · have he : ((System.init sett).startTimers plans).process_entry_timers.map
        (fun t => t.data.id) = plans.map fun p => p.init.id := by
      simp [System.startTimers, System.init, Timer.init]
    rw [he]
    exact hids
  · intro t _
    rfl

/-! ### No contract violation: the units -/

theorem Timer.step_ok {T : Type} (t : Timer T) (h : 1 ≤ t.count) :
    ∃ tr, t.step = some tr ∧ tr.2.data = t.data ∧ (tr.1 = false → 1 ≤ tr.2.count) := by
  have h0 : t.count ≠ 0 := by omega
  cases hts : t.step with
  | none => simp [Timer.step, h0] at hts
  | some tr =>
    refine ⟨tr, rfl, Timer.step_data t tr hts, ?_⟩
    simp only [Timer.step, h0, if_false, Option.some.injEq] at hts
    generalize (t.count + (STEP_MOD - 1)) % STEP_MOD = c at hts
    rw [← hts]
    intro hf
    simp only [decide_eq_false_iff_not] at hf
    exact Nat.pos_of_ne_zero hf

/-- An assigned, armed unit steps without a contract violation. -/
theorem CPU.stepOn_some (c : CPU) (p : PCB) (ha : c.armed)
    (hne : c.getState ≠ CPUState.idle) : ∃ res, c.stepOn p = some res := by
  obtain ⟨_, _, hcount⟩ := ha
  have hbusy : ∀ (hst : c.getState = CPUState.processing ∨ c.getState = CPUState.assigned_idle),
      ∃ res, c.stepOn p = some res := by
    intro hst
    by_cases hf : c.settings.RR_TIME = 0
    · rw [CPU.stepOn_busy_fcfs c p hst hf]
      exact ⟨_, rfl⟩
    · obtain ⟨tr, hts, _, _⟩ := Timer.step_ok c.t (hcount hne (Or.inl hf))
      rw [CPU.stepOn_busy_rr c p hst hf, hts]
      exact ⟨_, rfl⟩
  cases hst : c.getState with
  | idle => exact absurd hst hne
  | switching_out =>
    obtain ⟨tr, hts, _, _⟩ := Timer.step_ok c.t (hcount hne (Or.inr (Or.inr hst)))
    rw [CPU.stepOn_switching_out c p hst, hts]
    exact ⟨_, rfl⟩
  | switching_in =>
    obtain ⟨tr, hts, _, _⟩ := Timer.step_ok c.t (hcount hne (Or.inr (Or.inl hst)))
    rw [CPU.stepOn_switching_in c p hst, hts]
    exact ⟨_, rfl⟩
  | processing => exact hbusy (Or.inl hst)
  | assigned_idle => exact hbusy (Or.inr hst)

/-- A step of an assigned, armed unit leaves it armed. -/
theorem CPU.stepOn_keeps_armed (c : CPU) (p : PCB) (r : Bool) (c1 : CPU) (p1 : PCB)
    (hs : c.stepOn p = some (r, c1, p1)) (ha : c.armed) : c1.armed := by
  obtain ⟨hin, hout, hcount⟩ := ha
  have hnew : ∀ (n : Nat) (s : CPUState), ((c.settings.RR_TIME ≠ 0 ∨ s = CPUState.switching_in ∨
      s = CPUState.switching_out) → 1 ≤ n) → ({ c with t := Timer.init n s } : CPU).armed :=
    fun n s h => ⟨hin, hout, fun _ h1 => h h1⟩
  have hfree : ∀ T : Timer CPUState, c.settings.RR_TIME = 0 →
      (T.data = CPUState.processing ∨ T.data = CPUState.assigned_idle) →
      ({ c with t := T } : CPU).armed := by
    intro T hf hT
    refine ⟨hin, hout, fun _ h => ?_⟩
    exfalso
    have h1 : ({ c with t := T } : CPU).getState = T.data := rfl
    rw [h1] at h
    rcases h with h | h | h
    · exact h hf
    · rcases hT with hT | hT <;> rw [hT] at h <;> cases h
    · rcases hT with hT | hT <;> rw [hT] at h <;> cases h
  have hsame : ∀ tr : Bool × Timer CPUState, c.t.step = some tr → tr.1 = false →
      ({ c with t := tr.2 } : CPU).armed := by
    intro tr hts hf
    obtain ⟨tr1, hts1, _, hpos⟩ := Timer.step_ok c.t (Timer.step_some_pos c.t tr hts)
    rw [hts] at hts1
    cases hts1
    exact ⟨hin, hout, fun _ _ => hpos hf⟩
  have hbusy : ∀ (hst : c.getState = CPUState.processing ∨ c.getState = CPUState.assigned_idle),
      c1.armed := by
    intro hst
    by_cases hf : c.settings.RR_TIME = 0
    · rw [CPU.stepOn_busy_fcfs c p hst hf] at hs
      simp only [Option.some.injEq, Prod.mk.injEq] at hs
      obtain ⟨_, hc⟩ := hs
      split at hc
      · split at hc
        · simp only [CPU.deassignOn, Prod.mk.injEq] at hc
          rw [← hc.1]
          exact hnew _ _ (fun _ => hout)
        · simp only [Prod.mk.injEq] at hc
          rw [← hc.1]
          apply hfree _ hf
          split
          · exact Or.inr rfl
          · exact Or.inl rfl
      · simp only [Prod.mk.injEq] at hc
        rw [← hc.1]
        exact ⟨hin, hout, hcount⟩
    · rw [CPU.stepOn_busy_rr c p hst hf] at hs
      cases hts : c.t.step with
      | none => simp [hts] at hs
      | some tr =>
        simp only [hts, Option.map_some', Option.some.injEq] at hs
        split at hs
        · simp only [Prod.mk.injEq] at hs
          rw [← hs.2.1]
          exact hnew _ _ (fun _ => hout)
        · rename_i hfire
          simp only [Prod.mk.injEq] at hs
          rw [← hs.2.1]
          apply hsame tr hts
          simp only [Bool.or_eq_true, not_or, Bool.not_eq_true] at hfire
          exact hfire.2
  cases hst : c.getState with
  | idle =>
    unfold CPU.stepOn at hs
    simp only [hst] at hs
    cases hts : c.t.step with
    | none => simp [hts] at hs
    | some tr =>
      simp [hts] at hs
      rw [← hs.2.1]
      refine ⟨hin, hout, fun h => ?_⟩
      exfalso
      apply h
      show tr.2.data = CPUState.idle
      rw [Timer.step_data c.t tr hts]
      exact hst
  | switching_out =>
    rw [CPU.stepOn_switching_out c p hst] at hs
    cases hts : c.t.step with
    | none => simp [hts] at hs
    | some tr =>
      simp only [hts, Option.map_some', Option.some.injEq] at hs
      split at hs
      · simp only [Prod.mk.injEq] at hs
        rw [← hs.2.1]
        exact ⟨hin, hout, fun h => absurd rfl h⟩
      · rename_i hfire
        simp only [Prod.mk.injEq] at hs
        rw [← hs.2.1]
        exact hsame tr hts (by simpa using hfire)
  | switching_in =>
    rw [CPU.stepOn_switching_in c p hst] at hs
    cases hts : c.t.step with
    | none => simp [hts] at hs
    | some tr =>
      simp only [hts, Option.map_some', Option.some.injEq] at hs
      split at hs
      · split at hs
        · rename_i hf
          have hf0 : c.settings.RR_TIME = 0 := by simpa [CPU.isFCFS] using hf
          simp only [Prod.mk.injEq] at hs
          rw [← hs.2.1]
          apply hfree _ hf0
          split
          · exact Or.inl rfl
          · exact Or.inr rfl
        · rename_i hf
          have hf0 : c.settings.RR_TIME ≠ 0 := by simpa [CPU.isFCFS] using hf
          simp only [Prod.mk.injEq] at hs
          rw [← hs.2.1]
          exact hnew _ _ (fun _ => Nat.pos_of_ne_zero hf0)
      · rename_i hfire
        simp only [Prod.mk.injEq] at hs
        rw [← hs.2.1]
        exact hsame tr hts (by simpa using hfire)
  | processing => exact hbusy (Or.inl hst)
  | assigned_idle => exact hbusy (Or.inr hst)

theorem PCBTable.prioOK_store (tbl : PCBTable) (key : Nat) (q : PCB) (h : tbl.prioOK)
    (hq : q.prio ≤ MAX_PRIO) : (tbl.store key q).prioOK := by
  intro e he
  simp only [PCBTable.store, List.mem_map] at he
  obtain ⟨d, hd, hde⟩ := he
  by_cases hk : d.1 = key
  · rw [if_pos hk] at hde
    rw [← hde]
    exact hq
  · rw [if_neg hk] at hde
    rw [← hde]
    exact h d hd

theorem PCBTable.prioOK_erase (tbl : PCBTable) (key : Nat) (h : tbl.prioOK) :
    (tbl.erase key).prioOK := by
  intro e he
  simp only [PCBTable.erase, List.mem_filter] at he
  exact h e he.1

theorem PCBTable.prioOK_emplace (tbl : PCBTable) (key : Nat) (p : PCB) (h : tbl.prioOK)
    (hp : p.prio ≤ MAX_PRIO) : (tbl.emplace key p).prioOK := by
  unfold PCBTable.emplace
  split
  · intro e he
    simp only [List.mem_append, List.mem_singleton] at he
    rcases he with he | he
    · exact h e he
    · rw [he]
      exact hp
  · exact h

theorem PCBTable.prioOK_lookup (tbl : PCBTable) (k : Nat) (p : PCB) (h : tbl.prioOK)
    (hl : tbl.lookup k = some p) : p.prio ≤ MAX_PRIO :=
  h _ (PCBTable.lookup_mem tbl k p hl)

/-- The unit pass, the blocked pass and the ready pass keep the priorities. -/
theorem TableMoves.keeps_prioOK {tbl : PCBTable} {ret : List PCB} {tbl1 : PCBTable}
    {ret1 : List PCB} (h : TableMoves tbl ret tbl1 ret1) (hp : tbl.prioOK) : tbl1.prioOK := by
  induction h with
  | refl => exact hp
  | store tbl3 ret3 key p q _ hl hm ih =>
    apply PCBTable.prioOK_store _ _ _ ih
    rw [hm.keeps.2.1]
    exact PCBTable.prioOK_lookup _ key p ih hl
  | retire tbl3 ret3 key p _ _ _ ih => exact PCBTable.prioOK_erase _ _ ih

/-- A tidy, armed unit whose process is in the table steps without a contract
violation. -/
theorem CPU.step_some (c : CPU) (tbl : PCBTable) (rest : List Nat) (ht : c.tidy)
    (ha : c.armed) (hp : Placed tbl (c.proc.toList ++ rest)) : ∃ res, c.step tbl = some res := by
  by_cases hidle : c.getState = CPUState.idle
  · exact ⟨_, CPU.step_idle c tbl hidle⟩
  · cases hk : c.proc with
    | none => exact absurd (ht.1.mpr hk) hidle
    | some key =>
      rw [hk] at hp
      obtain ⟨p, hl, _⟩ := hp.has_record key (by simp)
      obtain ⟨res, hres⟩ := CPU.stepOn_some c.recordTick p ha hidle
      rw [CPU.step_assigned c tbl key p hidle hk hl, hres]
      exact ⟨_, rfl⟩

theorem CPU.step_keeps_armed (c : CPU) (tbl : PCBTable) (r : Bool) (c1 : CPU) (tbl1 : PCBTable)
    (hs : c.step tbl = some (r, c1, tbl1)) (ha : c.armed) : c1.armed := by
  by_cases hidle : c.getState = CPUState.idle
  · rw [CPU.step_idle c tbl hidle] at hs
    simp only [Option.some.injEq, Prod.mk.injEq] at hs
    rw [← hs.2.1]
    exact ha
  · obtain ⟨key, p, p1, _, _, hon, _⟩ := CPU.step_assigned_inv c tbl r c1 tbl1 hidle hs
    exact CPU.stepOn_keeps_armed c.recordTick p r c1 p1 hon ha

/-! ### No contract violation: the unit pass -/

theorem System.relocate_safe (sys : System) (id : Nat) (rest : List Nat)
    (hp : Placed sys.PCB_table (id :: rest)) (hprio : sys.PCB_table.prioOK)
    (hq : sys.ready.queues.length = MAX_PRIO + 1) :
    ∃ sys1, sys.relocate id = some sys1 ∧ sys1.ready.queues.length = MAX_PRIO + 1 := by
  obtain ⟨pcb, hl, _⟩ := hp.has_record id (by simp)
  have hpr : pcb.prio < sys.ready.queues.length := by
    have := PCBTable.prioOK_lookup _ id pcb hprio hl
    omega
  obtain ⟨rq, hpush⟩ := ReadyPriorityQueue.push_some sys.ready id pcb.prio hpr
  have hrq := (ReadyPriorityQueue.push_ids sys.ready rq id pcb.prio hpush).2
  unfold System.relocate
  simp only [hl]
  split
  · exact ⟨_, rfl, hq⟩
  · split
    · simp only [hpush]
      exact ⟨_, rfl, by rw [← hq]; exact hrq⟩
    · exact ⟨_, rfl, hq⟩

theorem System.assignFront_safe (sys : System) (cpu : CPU) (rest : List Nat)
    (hp : Placed sys.PCB_table (rest ++ (sys.ready.ids ++ sys.blocked)))
    (hq : sys.ready.queues.length = MAX_PRIO + 1) (ha : cpu.armed) :
    ∃ cpu1 sys1, sys.assignFront cpu = some (cpu1, sys1) ∧ cpu1.armed ∧
      sys1.ready.queues.length = MAX_PRIO + 1 := by
  unfold System.assignFront
  split
  · rename_i hne
    have hne1 : sys.ready.empty = false := by simpa using hne
    obtain ⟨x, q1, hfr, hpop, hids, hlen⟩ := ReadyPriorityQueue.front_pop_ids sys.ready hne1
    obtain ⟨p, hl, _⟩ := hp.has_record x (by simp [hids])
    simp only [hfr, CPU.assign, hl, hpop]
    exact ⟨_, _, rfl, ⟨ha.1, ha.2.1, fun _ _ => ha.1⟩, by rw [← hq]; exact hlen⟩
  · exact ⟨_, _, rfl, ha, hq⟩

theorem System.cpuBody_safe (sys : System) (cpu : CPU) (rest : List Nat) (ht : cpu.tidy)
    (ha : cpu.armed)
    (hp : Placed sys.PCB_table (cpu.proc.toList ++ (rest ++ (sys.ready.ids ++ sys.blocked))))
    (hprio : sys.PCB_table.prioOK) (hq : sys.ready.queues.length = MAX_PRIO + 1) :
    ∃ cpu1 sys1, sys.cpuBody cpu = some (cpu1, sys1) ∧ cpu1.armed ∧
      sys1.ready.queues.length = MAX_PRIO + 1 := by
  obtain ⟨res, hs⟩ := CPU.step_some cpu sys.PCB_table _ ht ha hp
  obtain ⟨r, c1, tbl1⟩ := res
  have ha1 := CPU.step_keeps_armed cpu sys.PCB_table r c1 tbl1 hs ha
  have hprio1 : tbl1.prioOK :=
    (CPU.step_table cpu sys.PCB_table r c1 tbl1 [] hs).keeps_prioOK hprio
  obtain ⟨_, hcase⟩ := CPU.step_layout cpu sys.PCB_table _ r c1 tbl1 hs ht hp
  unfold System.cpuBody
  simp only [hs]
  rcases hcase with ⟨hidle, hr, hpr, htb⟩ | ⟨hne, hr, hpl⟩ | ⟨hne, hr, hpr, hpl⟩
  · have hasg := CPU.assigned_eq_false cpu hidle
    simp only [hr, hasg, Bool.not_false, Bool.or_true, if_true, Bool.not_true]
    simp only [Bool.false_eq_true, if_false]
    refine System.assignFront_safe { sys with PCB_table := tbl1 } c1 rest ?_ hq ha1
    rw [ht.1.mp hidle] at hp
    rw [htb]
    exact hp
  · have hasg := CPU.assigned_eq_true cpu hne
    simp only [hr, hasg, Bool.not_true, Bool.or_false, Bool.false_eq_true, if_false]
    exact ⟨_, _, rfl, ha1, hq⟩
  · have hasg := CPU.assigned_eq_true cpu hne
    simp only [hr, hasg, Bool.not_true, Bool.or_false, Bool.not_false, if_true]
    obtain ⟨sys2, hrel, hq2⟩ := System.relocate_safe { sys with PCB_table := tbl1 } c1.getPID _
      hpl hprio1 hq
    simp only [hrel]
    have hp2 := System.relocate_layout _ c1.getPID sys2 rest hrel hpl
    exact System.assignFront_safe sys2 c1 rest hp2 hq2 ha1

theorem System.cpuLoop_safe : ∀ (todo done : List CPU) (sys : System),
    (∀ c ∈ done ++ todo, c.tidy ∧ c.armed) →
    Placed sys.PCB_table (boundIds (done ++ todo) ++ (sys.ready.ids ++ sys.blocked)) →
    sys.PCB_table.prioOK → sys.ready.queues.length = MAX_PRIO + 1 →
    ∃ sys1, System.cpuLoop done todo sys = some sys1 ∧ (∀ c ∈ sys1.cpus, c.armed) ∧
      sys1.ready.queues.length = MAX_PRIO + 1 := by
  intro todo
  induction todo with
  | nil =>
    intro done sys hc _ _ hq
    rw [List.append_nil] at hc
    exact ⟨_, rfl, fun c h => (hc c h).2, hq⟩
  | cons cpu todo ih =>
    intro done sys hc hp hprio hq
    have htc := hc cpu (by simp)
    have hp1 : Placed sys.PCB_table
        (cpu.proc.toList ++ (boundIds (done ++ todo) ++ (sys.ready.ids ++ sys.blocked))) := by
      apply hp.of_perm
      rw [boundIds_append, boundIds_append, boundIds_cons, ← Multiset.coe_eq_coe]
      simp only [← Multiset.coe_add]
      abel
    obtain ⟨c1, sys2, hb, ha1, hq2⟩ := System.cpuBody_safe sys cpu _ htc.1 htc.2 hp1 hprio hq
    obtain ⟨ht1, hp2⟩ := System.cpuBody_layout sys cpu c1 sys2 _ hb htc.1 hp1
    have hprio2 : sys2.PCB_table.prioOK :=
      (System.cpuBody_evolves sys cpu c1 sys2 hb).1.keeps_prioOK hprio
    simp only [System.cpuLoop, hb]
    apply ih (done ++ [c1]) sys2 _ _ hprio2 hq2
    · intro c hcm
      simp only [List.append_assoc, List.singleton_append, List.mem_append,
        List.mem_cons] at hcm
      rcases hcm with h | h | h
      · exact hc c (by simp [h])
      · rw [h]
        exact ⟨ht1, ha1⟩
      · exact hc c (by simp [h])
    · apply hp2.of_perm
      rw [boundIds_append, boundIds_append, boundIds_append, boundIds_cons, boundIds_nil,
        ← Multiset.coe_eq_coe]
      simp only [← Multiset.coe_add, Multiset.coe_nil]
      abel

/-! ### No contract violation: the other passes -/

theorem System.blockedBody_safe (sys : System) (id : Nat) (rest : List Nat)
    (hp : Placed sys.PCB_table (id :: rest)) (hprio : sys.PCB_table.prioOK)
    (hq : sys.ready.queues.length = MAX_PRIO + 1) :
    ∃ b sys1, sys.blockedBody id = some (b, sys1) ∧
      sys1.ready.queues.length = MAX_PRIO + 1 := by
  obtain ⟨p, hl, _⟩ := hp.has_record id (by simp)
  have hpr : p.step.2.prio < sys.ready.queues.length := by
    have := PCBTable.prioOK_lookup _ id p hprio hl
    rw [PCB.step_prio]
    omega
  obtain ⟨rq, hpush⟩ := ReadyPriorityQueue.push_some sys.ready id p.step.2.prio hpr
  have hrq := (ReadyPriorityQueue.push_ids sys.ready rq id p.step.2.prio hpush).2
  unfold System.blockedBody
  simp only [hl]
  split
  · split
    · exact ⟨_, _, rfl, hq⟩
    · simp only [hpush]
      exact ⟨_, _, rfl, by rw [← hq]; exact hrq⟩
  · exact ⟨_, _, rfl, hq⟩

theorem System.blockedLoop_safe : ∀ (todo kept : List Nat) (sys : System),
    Placed sys.PCB_table (boundIds sys.cpus ++ (sys.ready.ids ++ (kept ++ todo))) →
    sys.PCB_table.prioOK → sys.ready.queues.length = MAX_PRIO + 1 →
    ∃ sys1, System.blockedLoop kept todo sys = some sys1 ∧
      sys1.ready.queues.length = MAX_PRIO + 1 := by
  intro todo
  induction todo with
  | nil =>
    intro kept sys _ _ hq
    exact ⟨_, rfl, hq⟩
  | cons id todo ih =>
    intro kept sys hp hprio hq
    have hp1 : Placed sys.PCB_table
        (id :: ((boundIds sys.cpus ++ (kept ++ todo)) ++ sys.ready.ids)) := by
      apply hp.of_perm
      rw [← Multiset.coe_eq_coe]
      simp only [← Multiset.coe_add, ← Multiset.cons_coe, ← Multiset.singleton_add]
      abel
    obtain ⟨b, sys2, hb, hq2⟩ := System.blockedBody_safe sys id _ hp1 hprio hq
    obtain ⟨hp2, hc2⟩ := System.blockedBody_layout sys id b sys2 _ hb hp1
    have hprio2 : sys2.PCB_table.prioOK :=
      (System.blockedBody_evolves sys id b sys2 hb).1.keeps_prioOK hprio
    simp only [System.blockedLoop, hb]
    apply ih _ sys2 _ hprio2 hq2
    apply hp2.of_perm
    rw [hc2, ← Multiset.coe_eq_coe]
    cases b
    · simp only [Bool.false_eq_true, if_false, ← Multiset.coe_add, ← Multiset.cons_coe,
        ← Multiset.singleton_add, Multiset.coe_nil, Multiset.cons_zero]
      abel
    · simp only [if_true, ← Multiset.coe_add, Multiset.coe_nil]
      abel

theorem System.readyLoop_safe (ids0 : List Nat) : ∀ (ids : List Nat) (sys : System),
    Placed sys.PCB_table ids0 → (∀ id ∈ ids, id ∈ ids0) →
    ∃ sys1, System.readyLoop ids sys = some sys1 := by
  intro ids
  induction ids with
  | nil => intro sys _ _; exact ⟨_, rfl⟩
  | cons id todo ih =>
    intro sys hp hsub
    obtain ⟨p, hl, hid⟩ := hp.has_record id (hsub id (by simp))
    simp only [System.readyLoop, hl]
    exact ih { sys with PCB_table := sys.PCB_table.store id p.step.2 }
      (hp.of_store id p.step.2 ((PCB.step_id p).trans hid))
      (fun i hi => hsub i (List.mem_cons_of_mem _ hi))

theorem System.addProcess_safe (sys : System) (pi : ProcessInit) (s : Nat)
    (hpi : pi.prio ≤ MAX_PRIO) (hq : sys.ready.queues.length = MAX_PRIO + 1)
    (hprio : sys.PCB_table.prioOK) :
    ∃ sys1, sys.addProcess pi s = some sys1 ∧ sys1.ready.queues.length = MAX_PRIO + 1 ∧
      sys1.PCB_table.prioOK := by
  have hem : (sys.PCB_table.emplace pi.id (PCB.init pi s)).prioOK :=
    PCBTable.prioOK_emplace _ _ _ hprio hpi
  obtain ⟨rq, hpush⟩ := ReadyPriorityQueue.push_some sys.ready pi.id pi.prio (by omega)
  have hrq := (ReadyPriorityQueue.push_ids sys.ready rq pi.id pi.prio hpush).2
  have hex : ∃ p, (sys.PCB_table.emplace pi.id (PCB.init pi s)).lookup pi.id = some p := by
    cases hl : sys.PCB_table.lookup pi.id with
    | none =>
      rw [PCBTable.lookup_emplace _ _ _ _ hl, if_pos rfl]
      exact ⟨_, rfl⟩
    | some q =>
      have he : sys.PCB_table.emplace pi.id (PCB.init pi s) = sys.PCB_table := by
        simp only [PCBTable.emplace, hl]
      rw [he]
      exact ⟨q, hl⟩
  obtain ⟨p, hl⟩ := hex
  unfold System.addProcess
  simp only
  split
  · simp only [hpush]
    exact ⟨_, rfl, by rw [← hq]; exact hrq, hem⟩
  · simp only [hl]
    refine ⟨_, rfl, hq, ?_⟩
    exact PCBTable.prioOK_store _ _ _ hem (PCBTable.prioOK_lookup _ _ p hem hl)

theorem System.arrivalLoop_safe (s : Nat) :
    ∀ (todo kept : List (Timer ProcessInit)) (sys : System),
    (∀ t ∈ kept ++ todo, 1 ≤ t.count ∧ t.data.prio ≤ MAX_PRIO) →
    sys.ready.queues.length = MAX_PRIO + 1 → sys.PCB_table.prioOK →
    ∃ sys1, System.arrivalLoop s kept todo sys = some sys1 ∧
      sys1.ready.queues.length = MAX_PRIO + 1 ∧ sys1.PCB_table.prioOK ∧
      ∀ t ∈ sys1.process_entry_timers, 1 ≤ t.count ∧ t.data.prio ≤ MAX_PRIO := by
  intro todo
  induction todo with
  | nil =>
    intro kept sys ht hq hprio
    rw [List.append_nil] at ht
    exact ⟨_, rfl, hq, hprio, ht⟩
  | cons t todo ih =>
    intro kept sys ht hq hprio
    have htt := ht t (by simp)
    obtain ⟨tr, hts, hd, hpos⟩ := Timer.step_ok t htt.1
    simp only [System.arrivalLoop, hts]
    by_cases hf : tr.1 = true
    · simp only [hf, if_true]
      have hgd : tr.2.getData = t.data := hd
      rw [hgd]
      obtain ⟨sys2, ha, hq2, hprio2⟩ := System.addProcess_safe sys t.data s htt.2 hq hprio
      simp only [ha]
      apply ih kept sys2 _ hq2 hprio2
      intro t1 ht1
      apply ht t1
      simp only [List.mem_append, List.mem_cons] at ht1 ⊢
      rcases ht1 with h | h
      · exact Or.inl h
      · exact Or.inr (Or.inr h)
    · simp only [hf, if_false]
      apply ih (kept ++ [tr.2]) sys _ hq hprio
      intro t1 ht1
      simp only [List.append_assoc, List.singleton_append, List.mem_append,
        List.mem_cons] at ht1
      rcases ht1 with h | h | h
      · exact ht t1 (by simp [h])
      · rw [h, hd]
        exact ⟨hpos (by simpa using hf), htt.2⟩
      · exact ht t1 (by simp [h])

/-! ### No contract violation: a round and a run -/

/-- A round from a safe system with the layout succeeds and gives a safe
system. -/
theorem System.tick_safe (sys : System) (s : Nat) (hl : sys.Layout) (hs : sys.Safe) :
    ∃ sys1, sys.tick s = some sys1 ∧ sys1.Safe := by
  obtain ⟨hp, ht, hnd, hnone⟩ := hl
  obtain ⟨ha, hq, hprio, htim⟩ := hs
  obtain ⟨sysa, h1, haa, hqa⟩ := System.cpuLoop_safe sys.cpus [] sys
    (fun c hc => ⟨ht c hc, ha c hc⟩) hp hprio hq
  obtain ⟨e1, t1, _⟩ := System.cpuLoop_evolves _ _ _ _ h1
  obtain ⟨hta, hpa⟩ := System.cpuLoop_layout sys.cpus [] sys sysa h1 ht hp
  have hprioa : sysa.PCB_table.prioOK := e1.keeps_prioOK hprio
  obtain ⟨sysb, h2, hqb⟩ := System.blockedLoop_safe sysa.blocked [] sysa hpa hprioa hqa
  obtain ⟨e2, t2, _⟩ := System.blockedLoop_evolves _ _ _ _ h2
  obtain ⟨hpb, hcb⟩ := System.blockedLoop_layout sysa.blocked [] sysa sysb h2 hpa
  have hpriob : sysb.PCB_table.prioOK := e2.keeps_prioOK hprioa
  obtain ⟨sysc, h3⟩ := System.readyLoop_safe _ sysb.ready.ids sysb hpb
    (fun id hid => by simp [hid])
  obtain ⟨e3, t3, _⟩ := System.readyLoop_evolves _ _ _ h3
  obtain ⟨hpc, hcc, hrc, hbc⟩ := System.readyLoop_layout _ _ sysb sysc h3 hpb
  have hprioc : sysc.PCB_table.prioOK := e3.keeps_prioOK hpriob
  have htimc : sysc.process_entry_timers = sys.process_entry_timers := by rw [t3, t2, t1]
  obtain ⟨sys1, h4, hq1, hprio1, htim1⟩ := System.arrivalLoop_safe s sys.process_entry_timers []
    sysc htim (by rw [hrc]; exact hqb) hprioc
  have hev : System.Evolves sys sysc := (e1.follow e2).follow e3
  obtain ⟨_, hc1, _, _⟩ := System.arrivalLoop_layout s _ [] sysc sys1 h4
    (by rw [hcc, hrc, hbc]; exact hpc) hnd
    (fun t ht1 => TableMoves.lookup_none hev _ (hnone t ht1))
  refine ⟨sys1, ?_, ?_, hq1, hprio1, htim1⟩
  · unfold System.tick
    have h1a : sys.cpuPass = some sysa := h1
    have h2a : sysa.blockedPass = some sysb := h2
    have h3a : sysb.readyPass = some sysc := by
      unfold System.readyPass
      rw [ReadyPriorityQueue.visited_eq]
      exact h3
    simp only [h1a, h2a, h3a, System.arrivalPass, htimc]
    exact h4
  · rw [hc1, hcc, hcb]
    exact haa

theorem System.loop_some : ∀ (fuel s : Nat) (sys : System), sys.Layout → sys.Safe →
    ∃ r, System.loop fuel s sys = some r := by
  intro fuel
  induction fuel with
  | zero => intro s sys _ _; exact ⟨_, rfl⟩
  | succ fuel ih =>
    intro s sys hl hs
    rw [System.loop]
    by_cases hr : sys.running s = true
    · obtain ⟨sys1, ht, hs1⟩ := System.tick_safe sys s hl hs
      rw [if_pos hr]
      simp only [ht]
      exact ih (s + 1) sys1 (System.tick_layout sys s sys1 ht hl) hs1
    · rw [if_neg hr]
      exact ⟨_, rfl⟩

/-- When the loop of `simulate` stops, its condition is false. -/
theorem System.loop_stops : ∀ (fuel s : Nat) (sys : System) (r : System × Nat),
    System.loop fuel s sys = some r → s + fuel = STEP_MAX →
    r.2 ≤ STEP_MAX ∧ r.1.running r.2 = false := by
  intro fuel
  induction fuel with
  | zero =>
    intro s sys r h hsum
    simp only [System.loop, Option.some.injEq] at h
    subst h
    refine ⟨by simp only; omega, ?_⟩
    have hn : ¬ s < STEP_MAX := by omega
    simp [System.running, hn]
  | succ fuel ih =>
    intro s sys r h hsum
    rw [System.loop] at h
    by_cases hr : sys.running s = true
    · rw [if_pos hr] at h
      cases ht : sys.tick s with
      | none => simp [ht] at h
      | some sys1 =>
        simp only [ht] at h
        exact ih (s + 1) sys1 r h (by omega)
    · rw [if_neg hr] at h
      simp only [Option.some.injEq] at h
      subst h
      exact ⟨by simp only; omega, by simpa using hr⟩

theorem System.startTimers_safe (sett : SystemSettings) (plans : List ProcessPlan)
    (hin : 1 ≤ sett.SWITCHING_IN_DELAY) (hout : 1 ≤ sett.SWITCHING_OUT_DELAY)
    (hvalid : ∀ p ∈ plans, p.init.prio ≤ MAX_PRIO ∧ 1 ≤ p.arrival) :
    ((System.init sett).startTimers plans).Safe := by
  refine ⟨?_, ?_, ?_, ?_⟩
  · intro c hc
    simp only [System.startTimers, System.init, List.mem_map] at hc
    obtain ⟨i, _, hi⟩ := hc
    rw [← hi]
    exact ⟨hin, hout, fun h => absurd rfl h⟩
  · show (List.replicate ( MAX_PRIO + 1) ([] : List Nat)).length = MAX_PRIO + 1
    exact List.length_replicate _ _
  · intro e he
    cases he
  · intro t ht
    simp only [System.startTimers, System.init, List.nil_append, List.mem_map] at ht
    obtain ⟨p, hp, hpt⟩ := ht
    rw [← hpt]
    exact ⟨(hvalid p hp).2, (hvalid p hp).1⟩

/-- C18: for every configuration with switch-in delay and switch-out delay at
least 1 (any quantum, any number of units) and every workload with distinct
ids, priorities at most `MAX_PRIO` and arrivals at least 1, `simulate` reaches
no contract violation (no step of an expired timer, no `front`/`pop` on an empty
ready queue, no lookup of an absent id, no step through an unbound process): it
returns, and it stops either with the table and the pending timers empty or at
the overflow guard, the clock being `STEP_MAX`.  Nothing is assumed of the burst
plans. -/
theorem System.simulate_no_violation (sett : SystemSettings) (plans : List ProcessPlan)
    (hin : 1 ≤ sett.SWITCHING_IN_DELAY) (hout : 1 ≤ sett.SWITCHING_OUT_DELAY)
    (hids : (plans.map fun p => p.init.id).Nodup)
    (hvalid : ∀ p ∈ plans, p.init.prio ≤ MAX_PRIO ∧ 1 ≤ p.arrival) :
    ∃ r, System.simulate (System.init sett) plans = some r ∧
      (r.2 = STEP_MAX ∨
        (r.1.PCB_table.empty = true ∧ r.1.process_entry_timers.isEmpty = true)) := by
  obtain ⟨r, hr⟩ := System.loop_some STEP_MAX 0 _ (System.startTimers_layout sett plans hids)
    (System.startTimers_safe sett plans hin hout hvalid)
  refine ⟨r, hr, ?_⟩
  obtain ⟨hle, hstop⟩ := System.loop_stops STEP_MAX 0 _ r hr (Nat.zero_add _)
  by_cases hlt : r.2 < STEP_MAX
  · right
    simpa [System.running, hlt] using hstop
  · left
    omega

theorem System.simulate_no_violation_witness :
    (1 ≤ (oneUnit 2 1 1).SWITCHING_IN_DELAY ∧ 1 ≤ (oneUnit 2 1 1).SWITCHING_OUT_DELAY ∧
      ((scenarioB 1).map fun p => p.init.id).Nodup ∧
      ∀ p ∈ scenarioB 1, p.init.prio ≤ MAX_PRIO ∧ 1 ≤ p.arrival) ∧
    ∃ r, System.simulate (System.init (oneUnit 2 1 1)) (scenarioB 1) = some r ∧
      (r.2 = STEP_MAX ∨
        (r.1.PCB_table.empty = true ∧ r.1.process_entry_timers.isEmpty = true)) :=
  ⟨⟨by decide, by decide, by decide, by decide⟩,
   System.simulate_no_violation (oneUnit 2 1 1) (scenarioB 1) (by decide) (by decide)
    (by decide) (by decide)⟩

/-! ### The account of a record through `PCB::step` -/

theorem PCB.step_plan (p : PCB) : p.step.2.stats.plan = p.stats.plan :=
  (PCB.Moves.step p p (PCB.Moves.refl p)).keeps.2.2.2.2.2

theorem PCB.step_duration (p : PCB) (s : ProcessState) :
    p.step.2.stats.hist.durationOf s =
      if s = p.state then (p.stats.hist.durationOf s + 1) % STEP_MOD
      else p.stats.hist.durationOf s := by
  rw [PCB.step_hist, History.durationOf_inc]

/-- A step in state `ready`, `switching` or `exit` keeps the bursts and the
account. -/
theorem PCB.step_inactive_sound (p : PCB) (hs : p.sound)
    (hst : p.state = ProcessState.ready ∨ p.state = ProcessState.switching ∨
      p.state = ProcessState.exit) :
    p.step.1 = false ∧ p.step.2.bursts = p.bursts ∧ p.step.2.sound := by
  obtain ⟨h1, h2⟩ := PCB.step_of_inactive p hst
  refine ⟨h1, h2, ?_, ?_, ?_⟩
  · rw [h2]
    exact hs.1
  · have hne : ¬ ProcessState.running = p.state := by
      rcases hst with h | h | h <;> rw [h] <;> decide
    rw [PCB.step_duration, if_neg hne, h2, PCB.step_plan]
    exact hs.2.1
  · have hne : ¬ ProcessState.blocked = p.state := by
      rcases hst with h | h | h <;> rw [h] <;> decide
    rw [PCB.step_duration, if_neg hne, h2, PCB.step_plan]
    exact hs.2.2

/-- One step of a valid burst sequence: the head loses one tick, and is
popped, with the flag flipped, when that was its last. -/
theorem ProcessBursts.step_valid (b : ProcessBursts) (h : Nat) (tl : List Nat)
    (hb : b.bursts = h :: tl) (hv : b.valid) :
    (2 ≤ h ∧ b.step = (false, { bursts := (h - 1) :: tl, processing := b.processing })) ∨
    (h = 1 ∧ b.step = (true, { bursts := tl, processing := !b.processing })) := by
  have hh := hv h (by rw [hb]; exact List.mem_cons_self _ _)
  by_cases h2 : 2 ≤ h
  · exact Or.inl ⟨h2, ProcessBursts.step_of_ge_two b h tl hb hh.2 h2⟩
  · have h1 : h = 1 := by omega
    subst h1
    exact Or.inr ⟨rfl, ProcessBursts.step_of_one b tl hb⟩

/-- A step in state `running` on a CPU burst, or in state `blocked` on an I/O
burst, keeps the account: the tick recorded is the tick taken off the head
burst. -/
theorem PCB.step_active_sound (p : PCB) (hs : p.sound)
    (hst : (p.state = ProcessState.running ∧ p.cpuAhead) ∨
      (p.state = ProcessState.blocked ∧ p.ioAhead)) :
    p.step.2.sound ∧
      (p.step.1 = false → p.step.2.bursts.bursts ≠ [] ∧
        p.step.2.bursts.processing = p.bursts.processing) ∧
      (p.step.1 = true → p.step.2.bursts.processing = !p.bursts.processing) := by
  have hM : STEP_MOD = 4294967296 := rfl
  have hact : p.state = ProcessState.running ∨ p.state = ProcessState.blocked := by
    rcases hst with h | h
    · exact Or.inl h.1
    · exact Or.inr h.1
  obtain ⟨h1, h2⟩ := PCB.step_of_active p hact
  have hne : p.bursts.bursts ≠ [] := by
    rcases hst with h | h
    · exact h.2.1
    · exact h.2.1
  obtain ⟨hd, tl, hb⟩ := List.exists_cons_of_ne_nil hne
  have hvt : ∀ x ∈ tl, 1 ≤ x ∧ x < STEP_MOD :=
    fun x hx => hs.1 x (by rw [hb]; exact List.mem_cons_of_mem _ hx)
  have hr := PCB.step_duration p ProcessState.running
  have hbk := PCB.step_duration p ProcessState.blocked
  obtain ⟨ha1, ha2⟩ := hs.2
  rw [hb, cpuKindSum_cons] at ha1
  rw [hb, ioKindSum, cpuKindSum_cons] at ha2
  rcases ProcessBursts.step_valid p.bursts hd tl hb hs.1 with ⟨hge, hstep⟩ | ⟨hone, hstep⟩
  · have hbs : p.step.2.bursts = { bursts := (hd - 1) :: tl, processing := p.bursts.processing } := by
      rw [h2, hstep]
    have hret : p.step.1 = false := by rw [h1, hstep]
    refine ⟨⟨?_, ?_, ?_⟩, fun _ => ⟨by rw [hbs]; simp, by rw [hbs]⟩, fun h => ?_⟩
    · intro x hx
      rw [hbs] at hx
      rcases List.mem_cons.mp hx with hx | hx
      · have := hs.1 hd (by rw [hb]; exact List.mem_cons_self _ _)
        rw [hx]
        omega
      · exact hvt x hx
    · rw [hr, hbs, PCB.step_plan, cpuKindSum_cons, ← ha1]
      rcases hst with ⟨hsr, _, hp⟩ | ⟨hsb, _, hp⟩
      · rw [hsr, hp, hM]
        simp only [if_true]
        omega
      · have hn : ¬ ProcessState.running = p.state := by rw [hsb]; decide
        rw [hp, if_neg hn]
        simp
    · rw [hbk, hbs, PCB.step_plan, ioKindSum, cpuKindSum_cons, ← ha2]
      rcases hst with ⟨hsr, _, hp⟩ | ⟨hsb, _, hp⟩
      · have hn : ¬ ProcessState.blocked = p.state := by rw [hsr]; decide
        rw [hp, if_neg hn]
        simp
      · rw [hsb, hp, hM]
        simp only [if_true, Bool.not_false]
        omega
    · rw [hret] at h
      cases h
  · have hbs : p.step.2.bursts = { bursts := tl, processing := !p.bursts.processing } := by
      rw [h2, hstep]
    have hret : p.step.1 = true := by rw [h1, hstep]
    refine ⟨⟨?_, ?_, ?_⟩, fun h => ?_, fun _ => by rw [hbs]⟩
    · intro x hx
      rw [hbs] at hx
      exact hvt x hx
    · rw [hr, hbs, PCB.step_plan, ← ha1]
      rcases hst with ⟨hsr, _, hp⟩ | ⟨hsb, _, hp⟩
      · rw [hsr, hp, hM, hone]
        simp only [if_true]
        omega
      · have hn : ¬ ProcessState.running = p.state := by rw [hsb]; decide
        rw [hp, if_neg hn]
        simp
    · rw [hbk, hbs, PCB.step_plan, ioKindSum, ← ha2]
      rcases hst with ⟨hsr, _, hp⟩ | ⟨hsb, _, hp⟩
      · have hn : ¬ ProcessState.blocked = p.state := by rw [hsr]; decide
        rw [hp, if_neg hn]
        simp
      · rw [hsb, hp, hM, hone]
        simp only [if_true, Bool.not_false]
        omega
    · rw [hret] at h
      cases h

/-! ### The roles through one step of a unit -/

theorem CPU.serves_switching_in (c : CPU) (p : PCB) (h : c.getState = CPUState.switching_in) :
    c.serves p ↔ (p.state = ProcessState.switching ∧ p.cpuAhead) := by
  unfold CPU.serves
  rw [h]

theorem CPU.serves_processing (c : CPU) (p : PCB) (h : c.getState = CPUState.processing) :
    c.serves p ↔ (p.state = ProcessState.running ∧ p.cpuAhead) := by
  unfold CPU.serves
  rw [h]

theorem CPU.serves_assigned_idle (c : CPU) (p : PCB) (h : c.getState = CPUState.assigned_idle) :
    c.serves p ↔ p.sleeping := by
  unfold CPU.serves
  rw [h]

theorem CPU.serves_switching_out (c : CPU) (p : PCB) (h : c.getState = CPUState.switching_out) :
    c.serves p ↔ p.leaving := by
  unfold CPU.serves
  rw [h]

/-- What `deassign` leaves: a process in state `exit` without bursts, or in
state `switching` with bursts. -/
theorem PCB.leaving_of_deassign (c : CPU) (q : PCB) : (c.deassignOn q).2.leaving := by
  unfold CPU.deassignOn PCB.leaving
  cases hb : q.bursts.bursts with
  | nil => left; simp [ProcessBursts.empty, hb]
  | cons x tl => right; simp [ProcessBursts.empty, hb]

/-- A step of a unit in state `processing` or `assigned_idle`, on the process
and the flag `fire` of the timer: the process ends in the role the unit then
serves. -/
theorem PCB.step_busy_roles (p : PCB) (hs : p.sound)
    (hst : (p.state = ProcessState.running ∧ p.cpuAhead) ∨
      (p.state = ProcessState.blocked ∧ p.ioAhead)) :
    p.step.2.sound ∧
    (p.step.1 = false → (p.step.2.state = ProcessState.running ∧ p.step.2.cpuAhead) ∨
      (p.step.2.state = ProcessState.blocked ∧ p.step.2.ioAhead)) ∧
    (p.step.1 = false → p.step.2.bursts.bursts ≠ []) ∧
    (p.step.1 = false → (p.state = ProcessState.running ↔ p.step.2.bursts.processing = true)) ∧
    (p.step.1 = true → (p.state = ProcessState.running ↔ p.step.2.bursts.processing = false)) := by
  obtain ⟨h1, h2, h3⟩ := PCB.step_active_sound p hs hst
  have hstate := PCB.step_state p
  have hiff : p.state = ProcessState.running ↔ p.bursts.processing = true := by
    rcases hst with ⟨hs1, _, hp⟩ | ⟨hs1, _, hp⟩
    · simp [hs1, hp]
    · simp [hs1, hp]
  refine ⟨h1, fun hf => ?_, fun hf => (h2 hf).1, fun hf => ?_, fun ht => ?_⟩
  · obtain ⟨hne, hpr⟩ := h2 hf
    rcases hst with ⟨hs1, _, hp⟩ | ⟨hs1, _, hp⟩
    · exact Or.inl ⟨hstate.trans hs1, hne, hpr.trans hp⟩
    · exact Or.inr ⟨hstate.trans hs1, hne, hpr.trans hp⟩
  · rw [(h2 hf).2]
    exact hiff
  · rw [h3 ht, hiff]
    cases p.bursts.processing <;> simp

theorem PCB.cpuAhead_isProcessing (p : PCB) (h : p.cpuAhead) : p.bursts.isProcessing = true := h.2

theorem PCB.empty_iff (p : PCB) : p.bursts.empty = true ↔ p.bursts.bursts = [] := by
  unfold ProcessBursts.empty
  exact List.isEmpty_iff

/-- The roles through the assigned branch of `CPU::step`: the account of the
process is kept, and the process ends in the role the unit then serves, or, when
the unit releases it, in the role of a leaving process. -/
theorem CPU.stepOn_roles (c : CPU) (p : PCB) (r : Bool) (c1 : CPU) (p1 : PCB)
    (hs : c.stepOn p = some (r, c1, p1)) (hne : c.getState ≠ CPUState.idle)
    (hserve : c.serves p) (hsound : p.sound) :
    p1.sound ∧ (r = false → c1.serves p1) ∧ (r = true → p1.leaving) := by
  have hstate := PCB.step_state p
  have hbusy : ∀ (hst : c.getState = CPUState.processing ∨ c.getState = CPUState.assigned_idle),
      p1.sound ∧ (r = false → c1.serves p1) ∧ (r = true → p1.leaving) := by
    intro hst
    have hrole : (p.state = ProcessState.running ∧ p.cpuAhead) ∨
        (p.state = ProcessState.blocked ∧ p.ioAhead) := by
      rcases hst with h | h
      · exact Or.inl ((CPU.serves_processing c p h).mp hserve)
      · exact Or.inr ((CPU.serves_assigned_idle c p h).mp hserve)
    have hmatch : c.getState = CPUState.processing ↔ p.state = ProcessState.running := by
      rcases hst with h | h
      · have := (CPU.serves_processing c p h).mp hserve
        simp [h, this.1]
      · have := (CPU.serves_assigned_idle c p h).mp hserve
        simp [h, this.1]
    obtain ⟨hsd, hkeep, hnonempty, hsame, hflip⟩ := PCB.step_busy_roles p hsound hrole
    have hstay : p.step.1 = false → c.serves p.step.2 := by
      intro hf
      rcases hst with h | h
      · rw [CPU.serves_processing c _ h]
        rcases hkeep hf with h1 | h1
        · exact h1
        · have h2 := hmatch.mp h
          rw [← hstate, h1.1] at h2
          cases h2
      · rw [CPU.serves_assigned_idle c _ h]
        rcases hkeep hf with h1 | h1
        · have h2 : p.state = ProcessState.running := hstate.symm.trans h1.1
          have h3 := hmatch.mpr h2
          rw [h] at h3
          cases h3
        · exact h1
    by_cases hf : c.settings.RR_TIME = 0
    · rw [CPU.stepOn_busy_fcfs c p hst hf] at hs
      simp only [Option.some.injEq, Prod.mk.injEq] at hs
      obtain ⟨hr, hc⟩ := hs
      subst hr
      have key : p1.sound ∧ c1.serves p1 := by
        by_cases hret : p.step.1 = true
        · rw [if_pos hret] at hc
          by_cases hem : p.step.2.bursts.empty = true
          · rw [if_pos hem] at hc
            simp only [CPU.deassignOn, Prod.mk.injEq] at hc
            rw [← hc.1, ← hc.2]
            exact ⟨hsd, (CPU.serves_switching_out
              { c with t := Timer.init c.settings.SWITCHING_OUT_DELAY CPUState.switching_out } _
              rfl).mpr (PCB.leaving_of_deassign c p.step.2)⟩
          · rw [if_neg hem] at hc
            have hne1 : p.step.2.bursts.bursts ≠ [] := fun h => hem ((PCB.empty_iff _).mpr h)
            by_cases hrun : p.step.2.state = ProcessState.running
            · simp only [hrun, if_true, Prod.mk.injEq] at hc
              rw [← hc.1, ← hc.2]
              refine ⟨hsd, (CPU.serves_assigned_idle
                { c with t := Timer.init 0 CPUState.assigned_idle } _ rfl).mpr ⟨rfl, hne1, ?_⟩⟩
              exact (hflip hret).mp (hstate.symm.trans hrun)
            · simp only [hrun, if_false, Prod.mk.injEq] at hc
              rw [← hc.1, ← hc.2]
              refine ⟨hsd, (CPU.serves_processing
                { c with t := Timer.init 0 CPUState.processing } _ rfl).mpr ⟨rfl, hne1, ?_⟩⟩
              have h2 : ¬ p.step.2.bursts.processing = false := fun h =>
                hrun (hstate.trans ((hflip hret).mpr h))
              simpa using h2
        · have hret1 : p.step.1 = false := by simpa using hret
          rw [if_neg hret] at hc
          simp only [Prod.mk.injEq] at hc
          rw [← hc.1, ← hc.2]
          exact ⟨hsd, hstay hret1⟩
      exact ⟨key.1, fun _ => key.2, fun h => absurd h (by decide)⟩
    · rw [CPU.stepOn_busy_rr c p hst hf] at hs
      cases hts : c.t.step with
      | none => simp [hts] at hs
      | some tr =>
        simp only [hts, Option.map_some', Option.some.injEq] at hs
        split at hs
        · simp only [Prod.mk.injEq] at hs
          obtain ⟨hr, hc, hp⟩ := hs
          subst hr
          refine ⟨(by rw [← hp]; exact hsd), fun _ => ?_, fun h => absurd h (by decide)⟩
          rw [← hc, ← hp]
          exact (CPU.serves_switching_out
            { c with t := Timer.init c.settings.SWITCHING_OUT_DELAY CPUState.switching_out } _
            rfl).mpr (PCB.leaving_of_deassign c p.step.2)
        · rename_i hfire
          simp only [Bool.or_eq_true, not_or, Bool.not_eq_true] at hfire
          simp only [Prod.mk.injEq] at hs
          obtain ⟨hr, hc, hp⟩ := hs
          subst hr
          refine ⟨(by rw [← hp]; exact hsd), fun _ => ?_, fun h => absurd h (by decide)⟩
          rw [← hc, ← hp]
          have hst1 : ({ c with t := tr.2 } : CPU).getState = c.getState :=
            Timer.step_data c.t tr hts
          have h4 := hstay hfire.1
          unfold CPU.serves at h4 ⊢
          rw [hst1]
          exact h4
  cases hst : c.getState with
  | idle => exact absurd hst hne
  | processing => exact hbusy (Or.inl hst)
  | assigned_idle => exact hbusy (Or.inr hst)
  | switching_out =>
    have hl : p.leaving := (CPU.serves_switching_out c p hst).mp hserve
    have hin : p.state = ProcessState.ready ∨ p.state = ProcessState.switching ∨
        p.state = ProcessState.exit := by
      rcases hl with h | h
      · exact Or.inr (Or.inr h.1)
      · exact Or.inr (Or.inl h.1)
    obtain ⟨_, hb, hsd⟩ := PCB.step_inactive_sound p hsound hin
    have hl2 : p.step.2.leaving := by
      unfold PCB.leaving
      rw [hstate, hb]
      exact hl
    rw [CPU.stepOn_switching_out c p hst] at hs
    cases hts : c.t.step with
    | none => simp [hts] at hs
    | some tr =>
      simp only [hts, Option.map_some', Option.some.injEq] at hs
      split at hs
      · simp only [Prod.mk.injEq] at hs
        obtain ⟨hr, _, hp⟩ := hs
        subst hr
        rw [← hp]
        exact ⟨hsd, fun h => absurd h (by decide), fun _ => hl2⟩
      · simp only [Prod.mk.injEq] at hs
        obtain ⟨hr, hc, hp⟩ := hs
        subst hr
        rw [← hp, ← hc]
        refine ⟨hsd, fun _ => ?_, fun h => absurd h (by decide)⟩
        exact (CPU.serves_switching_out { c with t := tr.2 } _
          ((Timer.step_data c.t tr hts).trans hst)).mpr hl2
  | switching_in =>
    obtain ⟨hsw, hahead⟩ := (CPU.serves_switching_in c p hst).mp hserve
    obtain ⟨_, hb, hsd⟩ := PCB.step_inactive_sound p hsound (Or.inr (Or.inl hsw))
    have hahead2 : p.step.2.cpuAhead := by
      unfold PCB.cpuAhead
      rw [hb]
      exact hahead
    rw [CPU.stepOn_switching_in c p hst] at hs
    cases hts : c.t.step with
    | none => simp [hts] at hs
    | some tr =>
      simp only [hts, Option.map_some', Option.some.injEq] at hs
      split at hs
      · split at hs
        · simp only [Prod.mk.injEq] at hs
          obtain ⟨hr, hc, hp⟩ := hs
          subst hr
          rw [← hp, ← hc]
          refine ⟨hsd, fun _ => ?_, fun h => absurd h (by decide)⟩
          simp only [PCB.cpuAhead_isProcessing _ hahead2, if_true]
          exact (CPU.serves_processing
            { c with t := Timer.init 0 CPUState.processing } _ rfl).mpr ⟨rfl, hahead2⟩
        · simp only [Prod.mk.injEq] at hs
          obtain ⟨hr, hc, hp⟩ := hs
          subst hr
          rw [← hp, ← hc]
          refine ⟨hsd, fun _ => ?_, fun h => absurd h (by decide)⟩
          exact (CPU.serves_processing
            { c with t := Timer.init c.settings.RR_TIME CPUState.processing } _ rfl).mpr
            ⟨rfl, hahead2⟩
      · simp only [Prod.mk.injEq] at hs
        obtain ⟨hr, hc, hp⟩ := hs
        subst hr
        rw [← hp, ← hc]
        refine ⟨hsd, fun _ => ?_, fun h => absurd h (by decide)⟩
        exact (CPU.serves_switching_in { c with t := tr.2 } _
          ((Timer.step_data c.t tr hts).trans hst)).mpr ⟨hstate.trans hsw, hahead2⟩

/-! ### The roles through the writes of the table -/

theorem mem_boundIds (cpus : List CPU) (k : Nat) :
    k ∈ boundIds cpus ↔ ∃ c ∈ cpus, c.proc = some k := by
  simp [boundIds, List.mem_filterMap]

theorem Roles.after_store {cpus : List CPU} {tbl : PCBTable} {ready : ReadyPriorityQueue Nat}
    {blocked : List Nat} (h : Roles cpus tbl ready blocked) (key : Nat) (q : PCB)
    (hq : q.sound) (hc : key ∉ boundIds cpus) (hr : key ∈ ready.ids → q.waiting)
    (hb : key ∈ blocked → q.sleeping) : Roles cpus (tbl.store key q) ready blocked := by
  obtain ⟨h1, h2, h3, h4⟩ := h
  have hlk : ∀ k p, (tbl.store key q).lookup k = some p →
      (k = key ∧ p = q) ∨ (k ≠ key ∧ tbl.lookup k = some p) := by
    intro k p hl
    rw [PCBTable.lookup_store_eq] at hl
    by_cases hk : k = key
    · rw [if_pos hk] at hl
      cases hl0 : tbl.lookup k with
      | none => simp [hl0] at hl
      | some p0 =>
        simp only [hl0, Option.map_some', Option.some.injEq] at hl
        exact Or.inl ⟨hk, hl.symm⟩
    · rw [if_neg hk] at hl
      exact Or.inr ⟨hk, hl⟩
  refine ⟨?_, ?_, ?_, ?_⟩
  · intro k p hl
    rcases hlk k p hl with ⟨_, hp⟩ | ⟨_, hl0⟩
    · rw [hp]; exact hq
    · exact h1 k p hl0
  · intro c hcm k p hk hl
    rcases hlk k p hl with ⟨hkk, _⟩ | ⟨_, hl0⟩
    · exact absurd ((mem_boundIds cpus key).mpr ⟨c, hcm, hkk ▸ hk⟩) hc
    · exact h2 c hcm k p hk hl0
  · intro k hk p hl
    rcases hlk k p hl with ⟨hkk, hp⟩ | ⟨_, hl0⟩
    · rw [hp]; exact hr (hkk ▸ hk)
    · exact h3 k hk p hl0
  · intro k hk p hl
    rcases hlk k p hl with ⟨hkk, hp⟩ | ⟨_, hl0⟩
    · rw [hp]; exact hb (hkk ▸ hk)
    · exact h4 k hk p hl0

theorem Roles.after_erase {cpus : List CPU} {tbl : PCBTable} {ready : ReadyPriorityQueue Nat}
    {blocked : List Nat} (h : Roles cpus tbl ready blocked) (key : Nat) :
    Roles cpus (tbl.erase key) ready blocked := by
  obtain ⟨h1, h2, h3, h4⟩ := h
  have hlk : ∀ k p, (tbl.erase key).lookup k = some p → tbl.lookup k = some p := by
    intro k p hl
    rw [PCBTable.lookup_erase] at hl
    by_cases hk : k = key
    · rw [if_pos hk] at hl
      cases hl
    · rw [if_neg hk] at hl
      exact hl
  exact ⟨fun k p hl => h1 k p (hlk k p hl), fun c hc k p hk hl => h2 c hc k p hk (hlk k p hl),
    fun k hk p hl => h3 k hk p (hlk k p hl), fun k hk p hl => h4 k hk p (hlk k p hl)⟩

theorem Roles.with_units {cpus cpus1 : List CPU} {tbl : PCBTable}
    {ready : ReadyPriorityQueue Nat} {blocked : List Nat} (h : Roles cpus tbl ready blocked)
    (hsub : ∀ c ∈ cpus1, c ∈ cpus) : Roles cpus1 tbl ready blocked :=
  ⟨h.1, fun c hc => h.2.1 c (hsub c hc), h.2.2.1, h.2.2.2⟩

theorem Roles.add_unit {cpus : List CPU} {tbl : PCBTable} {ready : ReadyPriorityQueue Nat}
    {blocked : List Nat} (h : Roles cpus tbl ready blocked) (c : CPU)
    (hc : ∀ k p, c.proc = some k → tbl.lookup k = some p → c.serves p) :
    Roles (c :: cpus) tbl ready blocked := by
  refine ⟨h.1, ?_, h.2.2.1, h.2.2.2⟩
  intro c1 hc1 k p hk hl
  rcases List.mem_cons.mp hc1 with h1 | h1
  · rw [h1] at hk ⊢
    exact hc k p hk hl
  · exact h.2.1 c1 h1 k p hk hl

theorem Roles.with_ready {cpus : List CPU} {tbl : PCBTable} {ready ready1 : ReadyPriorityQueue Nat}
    {blocked : List Nat} (h : Roles cpus tbl ready blocked)
    (hr : ∀ k ∈ ready1.ids, k ∈ ready.ids ∨ ∀ p, tbl.lookup k = some p → p.waiting) :
    Roles cpus tbl ready1 blocked := by
  refine ⟨h.1, h.2.1, ?_, h.2.2.2⟩
  intro k hk p hl
  rcases hr k hk with h1 | h1
  · exact h.2.2.1 k h1 p hl
  · exact h1 p hl

theorem Roles.with_blocked {cpus : List CPU} {tbl : PCBTable} {ready : ReadyPriorityQueue Nat}
    {blocked blocked1 : List Nat} (h : Roles cpus tbl ready blocked)
    (hb : ∀ k ∈ blocked1, k ∈ blocked ∨ ∀ p, tbl.lookup k = some p → p.sleeping) :
    Roles cpus tbl ready blocked1 := by
  refine ⟨h.1, h.2.1, h.2.2.1, ?_⟩
  intro k hk p hl
  rcases hb k hk with h1 | h1
  · exact h.2.2.2 k h1 p hl
  · exact h1 p hl

/-! ### The roles through the unit pass -/

theorem nodup_head_not_mem {k : Nat} {l : List Nat} (h : (k :: l).Nodup) : k ∉ l :=
  (List.nodup_cons.mp h).1

/-- The roles through `CPU::step`. -/
theorem CPU.step_roles (c : CPU) (others : List CPU) (tbl : PCBTable)
    (ready : ReadyPriorityQueue Nat) (blocked : List Nat) (r : Bool) (c1 : CPU)
    (tbl1 : PCBTable) (hs : c.step tbl = some (r, c1, tbl1)) (ht : c.tidy)
    (hp : Placed tbl (c.proc.toList ++ (boundIds others ++ (ready.ids ++ blocked))))
    (hr : Roles (c :: others) tbl ready blocked) :
    (c.getState = CPUState.idle ∧ tbl1 = tbl) ∨
    (c.getState ≠ CPUState.idle ∧ r = false ∧ Roles (c1 :: others) tbl1 ready blocked) ∨
    (c.getState ≠ CPUState.idle ∧ r = true ∧ Roles others tbl1 ready blocked ∧
      ∃ p1, tbl1.lookup c1.getPID = some p1 ∧ p1.leaving) := by
  by_cases hidle : c.getState = CPUState.idle
  · rw [CPU.step_idle c tbl hidle] at hs
    simp only [Option.some.injEq, Prod.mk.injEq] at hs
    exact Or.inl ⟨hidle, hs.2.2.symm⟩
  · right
    obtain ⟨key, p, p1, hk, hl, hon, htb⟩ := CPU.step_assigned_inv c tbl r c1 tbl1 hidle hs
    obtain ⟨_, hlast, hcase⟩ := CPU.stepOn_bound c.recordTick p r c1 p1 hon hidle
    have hserve : c.serves p := hr.2.1 c (List.mem_cons_self _ _) key p hk hl
    obtain ⟨hsd, hkeep, hleave⟩ := CPU.stepOn_roles c.recordTick p r c1 p1 hon hidle hserve
      (hr.1 key p hl)
    have hnd := hp.ids_nodup
    rw [hk] at hnd
    have hnot : key ∉ boundIds others ++ (ready.ids ++ blocked) := nodup_head_not_mem hnd
    simp only [List.mem_append, not_or] at hnot
    have hro : Roles others tbl1 ready blocked := by
      rw [htb]
      exact (hr.with_units (fun c0 h0 => List.mem_cons_of_mem _ h0)).after_store key p1 hsd
        hnot.1 (fun h => absurd h hnot.2.1) (fun h => absurd h hnot.2.2)
    have hl1 : tbl1.lookup key = some p1 := by
      rw [htb]
      exact PCBTable.lookup_store tbl key p p1 hl
    rcases hcase with ⟨hrf, hpr, _⟩ | ⟨hrt, _, _⟩
    · refine Or.inl ⟨hidle, hrf, hro.add_unit c1 ?_⟩
      intro k q hk1 hl2
      have hk2 : c.proc = some k := hpr ▸ hk1
      rw [hk] at hk2
      cases hk2
      rw [hl1] at hl2
      cases hl2
      exact hkeep hrf
    · refine Or.inr ⟨hidle, hrt, hro, p1, ?_, hleave hrt⟩
      have hpid : c1.getPID = key := hlast.trans (ht.2 key hk)
      rw [hpid]
      exact hl1

/-- The roles through the relocation of a released process. -/
theorem System.relocate_roles (sys : System) (id : Nat) (sys1 : System) (others : List CPU)
    (p1 : PCB) (h : sys.relocate id = some sys1)
    (hp : Placed sys.PCB_table (id :: (boundIds others ++ (sys.ready.ids ++ sys.blocked))))
    (hr : Roles others sys.PCB_table sys.ready sys.blocked)
    (hl : sys.PCB_table.lookup id = some p1) (hleave : p1.leaving)
    (hfin : Finished sys.retired) :
    Roles others sys1.PCB_table sys1.ready sys1.blocked ∧ Finished sys1.retired := by
  have hnot : id ∉ boundIds others ++ (sys.ready.ids ++ sys.blocked) :=
    nodup_head_not_mem hp.ids_nodup
  simp only [List.mem_append, not_or] at hnot
  have hsd : p1.sound := hr.1 id p1 hl
  unfold System.relocate at h
  simp only [hl] at h
  split at h
  · rename_i hex
    simp only [Option.some.injEq] at h
    subst h
    refine ⟨hr.after_erase id, ?_⟩
    intro q hq
    rcases List.mem_append.mp hq with hq | hq
    · exact hfin q hq
    · rw [List.mem_singleton] at hq
      rw [hq]
      rcases hleave with hx | hx
      · exact ⟨hx.2, hsd⟩
      · rw [hx.1] at hex
        cases hex
  · rename_i hex
    have hne : p1.bursts.bursts ≠ [] := by
      rcases hleave with hx | hx
      · exact absurd hx.1 hex
      · exact hx.2
    split at h
    · rename_i hproc
      cases hpush : sys.ready.push id p1.prio with
      | none => simp [hpush] at h
      | some rq =>
        simp only [hpush, Option.some.injEq] at h
        subst h
        have hperm := (ReadyPriorityQueue.push_ids sys.ready rq id p1.prio hpush).1
        have hw : PCB.waiting { p1 with state := ProcessState.ready } := ⟨rfl, hne, hproc⟩
        refine ⟨?_, hfin⟩
        apply Roles.with_ready
          (hr.after_store id { p1 with state := ProcessState.ready } hsd hnot.1
            (fun _ => hw) (fun hb => absurd hb hnot.2.2))
        intro k hk
        rcases List.mem_cons.mp (hperm.subset hk) with hk1 | hk1
        · right
          intro q hq
          rw [hk1, PCBTable.lookup_store sys.PCB_table id p1 _ hl] at hq
          cases hq
          exact hw
        · exact Or.inl hk1
    · rename_i hproc
      simp only [Option.some.injEq] at h
      subst h
      have hio : p1.bursts.processing = false := by
        simpa [ProcessBursts.isProcessing] using hproc
      have hw : PCB.sleeping { p1 with state := ProcessState.blocked } := ⟨rfl, hne, hio⟩
      refine ⟨?_, hfin⟩
      apply Roles.with_blocked
        (hr.after_store id { p1 with state := ProcessState.blocked } hsd hnot.1
          (fun hb => absurd hb hnot.2.1) (fun _ => hw))
      intro k hk
      rcases List.mem_append.mp hk with hk1 | hk1
      · exact Or.inl hk1
      · right
        intro q hq
        rw [List.mem_singleton] at hk1
        rw [hk1, PCBTable.lookup_store sys.PCB_table id p1 _ hl] at hq
        cases hq
        exact hw

/-- The roles through the assignment of the front of the ready queue. -/
theorem System.assignFront_roles (sys : System) (cpu cpu1 : CPU) (sys1 : System)
    (others : List CPU) (h : sys.assignFront cpu = some (cpu1, sys1))
    (hfree : cpu.proc = none)
    (hp : Placed sys.PCB_table (boundIds others ++ (sys.ready.ids ++ sys.blocked)))
    (hr : Roles others sys.PCB_table sys.ready sys.blocked) :
    Roles (cpu1 :: others) sys1.PCB_table sys1.ready sys1.blocked ∧
      sys1.retired = sys.retired := by
  unfold System.assignFront at h
  split at h
  · rename_i hne
    have hne1 : sys.ready.empty = false := by simpa using hne
    obtain ⟨x, q1, hfr, hpop, hids, _⟩ := ReadyPriorityQueue.front_pop_ids sys.ready hne1
    simp only [hfr] at h
    cases hl : sys.PCB_table.lookup x with
    | none => simp [CPU.assign, hl] at h
    | some p =>
      simp only [CPU.assign, hl, hpop, Option.some.injEq, Prod.mk.injEq] at h
      obtain ⟨hc, hsys⟩ := h
      subst hc hsys
      have hw : p.waiting := hr.2.2.1 x (by rw [hids]; exact List.mem_cons_self _ _) p hl
      have hnd := hp.ids_nodup
      rw [hids, List.cons_append] at hnd
      have hnot : x ∉ boundIds others ++ (q1.ids ++ sys.blocked) :=
        nodup_head_not_mem ((List.perm_middle.nodup_iff).mp hnd)
      simp only [List.mem_append, not_or] at hnot
      have hr1 : Roles others sys.PCB_table q1 sys.blocked :=
        hr.with_ready (fun k hk => Or.inl (by rw [hids]; exact List.mem_cons_of_mem _ hk))
      have hr2 := hr1.after_store x { p with state := ProcessState.switching } (hr.1 x p hl)
        hnot.1 (fun hx => absurd hx hnot.2.1) (fun hx => absurd hx hnot.2.2)
      refine ⟨hr2.add_unit _ ?_, rfl⟩
      intro k q hk hq
      simp only [Option.some.injEq] at hk
      subst hk
      rw [PCBTable.lookup_store sys.PCB_table x p _ hl] at hq
      cases hq
      exact (CPU.serves_switching_in
        { cpu with proc := some x, last_id := p.id,
                   t := Timer.init cpu.settings.SWITCHING_IN_DELAY CPUState.switching_in }
        _ rfl).mpr ⟨rfl, hw.2⟩
  · simp only [Option.some.injEq, Prod.mk.injEq] at h
    obtain ⟨hc, hsys⟩ := h
    subst hc hsys
    refine ⟨hr.add_unit cpu ?_, rfl⟩
    intro k q hk _
    rw [hfree] at hk
    cases hk

/-- The roles through the body of the unit loop for one unit. -/
theorem System.cpuBody_roles (sys : System) (cpu cpu1 : CPU) (sys1 : System)
    (others : List CPU) (h : sys.cpuBody cpu = some (cpu1, sys1)) (ht : cpu.tidy)
    (hp : Placed sys.PCB_table
      (cpu.proc.toList ++ (boundIds others ++ (sys.ready.ids ++ sys.blocked))))
    (hr : Roles (cpu :: others) sys.PCB_table sys.ready sys.blocked)
    (hfin : Finished sys.retired) :
    Roles (cpu1 :: others) sys1.PCB_table sys1.ready sys1.blocked ∧
      Finished sys1.retired := by
  unfold System.cpuBody at h
  cases hs : cpu.step sys.PCB_table with
  | none => simp [hs] at h
  | some res =>
    obtain ⟨r, c1, tbl1⟩ := res
    simp only [hs] at h
    obtain ⟨_, hcase⟩ := CPU.step_layout cpu sys.PCB_table _ r c1 tbl1 hs ht hp
    have hrole := CPU.step_roles cpu others sys.PCB_table sys.ready sys.blocked r c1 tbl1 hs
      ht hp hr
    have hro : Roles others sys.PCB_table sys.ready sys.blocked :=
      hr.with_units (fun c0 h0 => List.mem_cons_of_mem _ h0)
    rcases hcase with ⟨hidle, hrt, hpr, htb⟩ | ⟨hne, hrf, hpl⟩ | ⟨hne, hrt, hpr, hpl⟩
    · have ha := CPU.assigned_eq_false cpu hidle
      simp only [hrt, ha, Bool.not_false, Bool.or_true, if_true, Bool.not_true] at h
      simp only [Bool.false_eq_true, if_false] at h
      rw [ht.1.mp hidle] at hp
      obtain ⟨r1, r2⟩ := System.assignFront_roles { sys with PCB_table := tbl1 } c1 cpu1 sys1
        others h hpr (by rw [htb]; exact hp) (by rw [htb]; exact hro)
      exact ⟨r1, by rw [r2]; exact hfin⟩
    · have ha := CPU.assigned_eq_true cpu hne
      simp only [hrf, ha, Bool.not_true, Bool.or_false, Bool.false_eq_true, if_false,
        Option.some.injEq, Prod.mk.injEq] at h
      obtain ⟨hc, hsys⟩ := h
      subst hc hsys
      rcases hrole with ⟨hi, _⟩ | ⟨_, _, hr1⟩ | ⟨_, hrt, _⟩
      · exact absurd hi hne
      · exact ⟨hr1, hfin⟩
      · rw [hrf] at hrt
        cases hrt
    · have ha := CPU.assigned_eq_true cpu hne
      simp only [hrt, ha, Bool.not_true, Bool.or_false, Bool.not_false, if_true] at h
      rcases hrole with ⟨hi, _⟩ | ⟨_, hrf, _⟩ | ⟨_, _, hr1, p1, hl1, hleave⟩
      · exact absurd hi hne
      · rw [hrt] at hrf
        cases hrf
      · cases hrel : System.relocate { sys with PCB_table := tbl1 } c1.getPID with
        | none => simp [hrel] at h
        | some sys2 =>
          simp only [hrel] at h
          have hp2 := System.relocate_layout _ c1.getPID sys2 (boundIds others) hrel hpl
          obtain ⟨hr2, hfin2⟩ := System.relocate_roles _ c1.getPID sys2 others p1 hrel hpl hr1
            hl1 hleave hfin
          obtain ⟨r1, r2⟩ := System.assignFront_roles sys2 c1 cpu1 sys1 others h hpr hp2 hr2
          exact ⟨r1, by rw [r2]; exact hfin2⟩

/-- The roles through the unit loop. -/
theorem System.cpuLoop_roles : ∀ (todo done : List CPU) (sys sys1 : System),
    System.cpuLoop done todo sys = some sys1 →
    (∀ c ∈ done ++ todo, c.tidy) →
    Placed sys.PCB_table (boundIds (done ++ todo) ++ (sys.ready.ids ++ sys.blocked)) →
    Roles (done ++ todo) sys.PCB_table sys.ready sys.blocked → Finished sys.retired →
    Roles sys1.cpus sys1.PCB_table sys1.ready sys1.blocked ∧ Finished sys1.retired := by
  intro todo
  induction todo with
  | nil =>
    intro done sys sys1 h _ _ hr hfin
    simp only [System.cpuLoop, Option.some.injEq] at h
    subst h
    rw [List.append_nil] at hr
    exact ⟨hr, hfin⟩
  | cons cpu todo ih =>
    intro done sys sys1 h ht hp hr hfin
    simp only [System.cpuLoop] at h
    cases hb : sys.cpuBody cpu with
    | none => simp [hb] at h
    | some res =>
      obtain ⟨c1, sys2⟩ := res
      simp only [hb] at h
      have htc : cpu.tidy := ht cpu (by simp)
      have hp1 : Placed sys.PCB_table
          (cpu.proc.toList ++ (boundIds (done ++ todo) ++ (sys.ready.ids ++ sys.blocked))) := by
        apply hp.of_perm
        rw [boundIds_append, boundIds_append, boundIds_cons, ← Multiset.coe_eq_coe]
        simp only [← Multiset.coe_add]
        abel
      have hr1 : Roles (cpu :: (done ++ todo)) sys.PCB_table sys.ready sys.blocked := by
        apply hr.with_units
        intro c hc
        simp only [List.mem_cons, List.mem_append] at hc ⊢
        tauto
      obtain ⟨ht1, hp2⟩ := System.cpuBody_layout sys cpu c1 sys2 _ hb htc hp1
      obtain ⟨hr2, hfin2⟩ := System.cpuBody_roles sys cpu c1 sys2 _ hb htc hp1 hr1 hfin
      apply ih (done ++ [c1]) sys2 sys1 h
      · intro c hc
        simp only [List.append_assoc, List.singleton_append, List.mem_append,
          List.mem_cons] at hc
        rcases hc with hc | hc | hc
        · exact ht c (by simp [hc])
        · rw [hc]
          exact ht1
        · exact ht c (by simp [hc])
      · apply hp2.of_perm
        rw [boundIds_append, boundIds_append, boundIds_append, boundIds_cons, boundIds_nil,
          ← Multiset.coe_eq_coe]
        simp only [← Multiset.coe_add, Multiset.coe_nil]
        abel
      · apply hr2.with_units
        intro c hc
        simp only [List.append_assoc, List.singleton_append, List.mem_cons,
          List.mem_append] at hc ⊢
        tauto
      · exact hfin2

/-! ### The roles through the blocked pass and the ready pass -/

/-- The roles through the body of the blocked loop for one id. -/
theorem System.blockedBody_roles (sys : System) (id : Nat) (b : Bool) (sys1 : System)
    (cpus : List CPU) (rest : List Nat) (h : sys.blockedBody id = some (b, sys1))
    (hp : Placed sys.PCB_table (id :: ((boundIds cpus ++ rest) ++ sys.ready.ids)))
    (hr : Roles cpus sys.PCB_table sys.ready (id :: rest)) (hfin : Finished sys.retired) :
    Roles cpus sys1.PCB_table sys1.ready ((if b then [] else [id]) ++ rest) ∧
      Finished sys1.retired := by
  have hnot : id ∉ (boundIds cpus ++ rest) ++ sys.ready.ids := nodup_head_not_mem hp.ids_nodup
  simp only [List.mem_append, not_or] at hnot
  obtain ⟨⟨hnc, hnr⟩, hnq⟩ := hnot
  have hrest : Roles cpus sys.PCB_table sys.ready rest :=
    hr.with_blocked (fun k hk => Or.inl (List.mem_cons_of_mem _ hk))
  unfold System.blockedBody at h
  cases hl : sys.PCB_table.lookup id with
  | none => simp [hl] at h
  | some p =>
    have hsl : p.sleeping := hr.2.2.2 id (List.mem_cons_self _ _) p hl
    obtain ⟨hsd, hkeep, hflip⟩ := PCB.step_active_sound p (hr.1 id p hl) (Or.inr hsl)
    simp only [hl] at h
    split at h
    · rename_i hret
      split at h
      · rename_i hem
        simp only [Option.some.injEq, Prod.mk.injEq] at h
        obtain ⟨hb, hsys⟩ := h
        subst hb hsys
        refine ⟨(hrest.after_store id p.step.2 hsd hnc (fun hx => absurd hx hnq)
          (fun hx => absurd hx hnr)).after_erase id, ?_⟩
        intro q hq
        rcases List.mem_append.mp hq with hq | hq
        · exact hfin q hq
        · rw [List.mem_singleton] at hq
          rw [hq]
          exact ⟨(PCB.empty_iff _).mp hem, hsd⟩
      · rename_i hem
        cases hpush : sys.ready.push id p.step.2.prio with
        | none => simp [hpush] at h
        | some rq =>
          simp only [hpush, Option.some.injEq, Prod.mk.injEq] at h
          obtain ⟨hb, hsys⟩ := h
          subst hb hsys
          have hperm := (ReadyPriorityQueue.push_ids sys.ready rq id p.step.2.prio hpush).1
          have hw : PCB.waiting { p.step.2 with state := ProcessState.ready } := by
            refine ⟨rfl, fun hx => hem ((PCB.empty_iff _).mpr hx), ?_⟩
            show p.step.2.bursts.processing = true
            rw [hflip hret, hsl.2.2]
            rfl
          refine ⟨?_, hfin⟩
          apply Roles.with_ready (hrest.after_store id
            { p.step.2 with state := ProcessState.ready } hsd hnc (fun _ => hw)
            (fun hx => absurd hx hnr))
          intro k hk
          rcases List.mem_cons.mp (hperm.subset hk) with hk1 | hk1
          · right
            intro q hq
            rw [hk1, PCBTable.lookup_store sys.PCB_table id p _ hl] at hq
            cases hq
            exact hw
          · exact Or.inl hk1
    · rename_i hret
      have hret1 : p.step.1 = false := by simpa using hret
      simp only [Option.some.injEq, Prod.mk.injEq] at h
      obtain ⟨hb, hsys⟩ := h
      subst hb hsys
      have hw : p.step.2.sleeping :=
        ⟨(PCB.step_state p).trans hsl.1, (hkeep hret1).1, (hkeep hret1).2.trans hsl.2.2⟩
      exact ⟨hr.after_store id p.step.2 hsd hnc (fun hx => absurd hx hnq) (fun _ => hw), hfin⟩

/-- The roles through the blocked loop. -/
theorem System.blockedLoop_roles : ∀ (todo kept : List Nat) (sys sys1 : System),
    System.blockedLoop kept todo sys = some sys1 →
    Placed sys.PCB_table (boundIds sys.cpus ++ (sys.ready.ids ++ (kept ++ todo))) →
    Roles sys.cpus sys.PCB_table sys.ready (kept ++ todo) → Finished sys.retired →
    Roles sys1.cpus sys1.PCB_table sys1.ready sys1.blocked ∧ Finished sys1.retired := by
  intro todo
  induction todo with
  | nil =>
    intro kept sys sys1 h _ hr hfin
    simp only [System.blockedLoop, Option.some.injEq] at h
    subst h
    rw [List.append_nil] at hr
    exact ⟨hr, hfin⟩
  | cons id todo ih =>
    intro kept sys sys1 h hp hr hfin
    simp only [System.blockedLoop] at h
    cases hb : sys.blockedBody id with
    | none => simp [hb] at h
    | some res =>
      obtain ⟨b, sys2⟩ := res
      simp only [hb] at h
      have hp1 : Placed sys.PCB_table
          (id :: ((boundIds sys.cpus ++ (kept ++ todo)) ++ sys.ready.ids)) := by
        apply hp.of_perm
        rw [← Multiset.coe_eq_coe]
        simp only [← Multiset.coe_add, ← Multiset.cons_coe, ← Multiset.singleton_add]
        abel
      have hr1 : Roles sys.cpus sys.PCB_table sys.ready (id :: (kept ++ todo)) := by
        apply hr.with_blocked
        intro k hk
        left
        simp only [List.mem_cons, List.mem_append] at hk ⊢
        tauto
      obtain ⟨hp2, hc2⟩ := System.blockedBody_layout sys id b sys2 _ hb hp1
      obtain ⟨hr2, hfin2⟩ := System.blockedBody_roles sys id b sys2 sys.cpus _ hb hp1 hr1 hfin
      apply ih _ sys2 sys1 h
      · apply hp2.of_perm
        rw [hc2, ← Multiset.coe_eq_coe]
        cases b
        · simp only [Bool.false_eq_true, if_false, ← Multiset.coe_add, ← Multiset.cons_coe,
            ← Multiset.singleton_add, Multiset.coe_nil, Multiset.cons_zero]
          abel
        · simp only [if_true, ← Multiset.coe_add, Multiset.coe_nil]
          abel
      · rw [hc2]
        apply hr2.with_blocked
        intro k hk
        left
        cases b
        · simp only [Bool.false_eq_true, if_false, List.mem_append, List.mem_singleton,
            List.mem_cons, List.not_mem_nil, or_false] at hk ⊢
          tauto
        · simp only [if_true, List.nil_append, List.mem_append] at hk ⊢
          exact hk
      · exact hfin2

/-- The roles through the ready loop: a waiting process only records a tick. -/
theorem System.readyLoop_roles : ∀ (ids : List Nat) (sys sys1 : System),
    System.readyLoop ids sys = some sys1 → (∀ id ∈ ids, id ∈ sys.ready.ids) →
    Placed sys.PCB_table (boundIds sys.cpus ++ (sys.ready.ids ++ sys.blocked)) →
    Roles sys.cpus sys.PCB_table sys.ready sys.blocked →
    Roles sys1.cpus sys1.PCB_table sys1.ready sys1.blocked ∧ sys1.retired = sys.retired := by
  intro ids
  induction ids with
  | nil =>
    intro sys sys1 h _ _ hr
    simp only [System.readyLoop, Option.some.injEq] at h
    subst h
    exact ⟨hr, rfl⟩
  | cons id todo ih =>
    intro sys sys1 h hsub hp hr
    simp only [System.readyLoop] at h
    cases hl : sys.PCB_table.lookup id with
    | none => simp [hl] at h
    | some p =>
      simp only [hl] at h
      have hin : id ∈ sys.ready.ids := hsub id (List.mem_cons_self _ _)
      have hw : p.waiting := hr.2.2.1 id hin p hl
      obtain ⟨_, hb, hsd⟩ := PCB.step_inactive_sound p (hr.1 id p hl) (Or.inl hw.1)
      have hw2 : p.step.2.waiting := by
        unfold PCB.waiting PCB.cpuAhead
        rw [PCB.step_state, hb]
        exact hw
      have hnd := hp.ids_nodup
      have hd1 := List.disjoint_of_nodup_append hnd
      have hd2 := List.disjoint_of_nodup_append (List.nodup_append.mp hnd).2.1
      have hnc : id ∉ boundIds sys.cpus := fun hx => hd1 hx (List.mem_append_left _ hin)
      have hnb : id ∉ sys.blocked := fun hx => hd2 hin hx
      have hid : p.step.2.id = id := (PCB.step_id p).trans (hp.id_of_lookup id p hl)
      exact ih { sys with PCB_table := sys.PCB_table.store id p.step.2 } sys1 h
        (fun i hi => hsub i (List.mem_cons_of_mem _ hi)) (hp.of_store id p.step.2 hid)
        (hr.after_store id p.step.2 hsd hnc (fun _ => hw2) (fun hx => absurd hx hnb))

/-! ### The roles through the arrival pass -/

theorem PCB.init_sound (pi : ProcessInit) (s : Nat) (hv : pi.bursts.valid) :
    (PCB.init pi s).sound := by
  refine ⟨hv, ?_, ?_⟩
  · show (0 + cpuKindSum pi.bursts.processing pi.bursts.bursts) % STEP_MOD = _
    rw [Nat.zero_add]
    rfl
  · show (0 + ioKindSum pi.bursts.processing pi.bursts.bursts) % STEP_MOD = _
    rw [Nat.zero_add]
    rfl

theorem Roles.after_emplace {cpus : List CPU} {tbl : PCBTable} {ready : ReadyPriorityQueue Nat}
    {blocked : List Nat} (h : Roles cpus tbl ready blocked) (key : Nat) (q : PCB)
    (hnone : tbl.lookup key = none) (hq : q.sound) (hc : key ∉ boundIds cpus)
    (hr : key ∉ ready.ids) (hb : key ∉ blocked) :
    Roles cpus (tbl.emplace key q) ready blocked := by
  obtain ⟨h1, h2, h3, h4⟩ := h
  have hlk : ∀ k p, (tbl.emplace key q).lookup k = some p →
      (k = key ∧ p = q) ∨ (k ≠ key ∧ tbl.lookup k = some p) := by
    intro k p hl
    rw [PCBTable.lookup_emplace tbl key k q hnone] at hl
    by_cases hk : k = key
    · rw [if_pos hk] at hl
      exact Or.inl ⟨hk, (Option.some.inj hl).symm⟩
    · rw [if_neg hk] at hl
      exact Or.inr ⟨hk, hl⟩
  refine ⟨?_, ?_, ?_, ?_⟩
  · intro k p hl
    rcases hlk k p hl with ⟨_, hp⟩ | ⟨_, hl0⟩
    · rw [hp]; exact hq
    · exact h1 k p hl0
  · intro c hcm k p hk hl
    rcases hlk k p hl with ⟨hkk, _⟩ | ⟨_, hl0⟩
    · exact absurd ((mem_boundIds cpus key).mpr ⟨c, hcm, hkk ▸ hk⟩) hc
    · exact h2 c hcm k p hk hl0
  · intro k hk p hl
    rcases hlk k p hl with ⟨hkk, _⟩ | ⟨_, hl0⟩
    · exact absurd (hkk ▸ hk) hr
    · exact h3 k hk p hl0
  · intro k hk p hl
    rcases hlk k p hl with ⟨hkk, _⟩ | ⟨_, hl0⟩
    · exact absurd (hkk ▸ hk) hb
    · exact h4 k hk p hl0

/-- The roles through `addProcess` for an id that is not in the table and a
plan that is non-empty and valid. -/
theorem System.addProcess_roles (sys : System) (pi : ProcessInit) (s : Nat) (sys1 : System)
    (h : sys.addProcess pi s = some sys1) (hnone : sys.PCB_table.lookup pi.id = none)
    (hp : Placed sys.PCB_table (boundIds sys.cpus ++ (sys.ready.ids ++ sys.blocked)))
    (hr : Roles sys.cpus sys.PCB_table sys.ready sys.blocked)
    (hne : pi.bursts.bursts ≠ []) (hv : pi.bursts.valid) :
    Roles sys1.cpus sys1.PCB_table sys1.ready sys1.blocked ∧ sys1.retired = sys.retired := by
  have hnot : pi.id ∉ boundIds sys.cpus ++ (sys.ready.ids ++ sys.blocked) := by
    intro hx
    obtain ⟨q, hq, _⟩ := hp.has_record pi.id hx
    rw [hnone] at hq
    cases hq
  simp only [List.mem_append, not_or] at hnot
  have hsd := PCB.init_sound pi s hv
  have hem := hr.after_emplace pi.id (PCB.init pi s) hnone hsd hnot.1 hnot.2.1 hnot.2.2
  have hlk : (sys.PCB_table.emplace pi.id (PCB.init pi s)).lookup pi.id =
      some (PCB.init pi s) := by
    rw [PCBTable.lookup_emplace _ _ _ _ hnone, if_pos rfl]
  unfold System.addProcess at h
  simp only at h
  split at h
  · rename_i hproc
    cases hpush : sys.ready.push pi.id pi.prio with
    | none => simp [hpush] at h
    | some rq =>
      simp only [hpush, Option.some.injEq] at h
      subst h
      have hperm := (ReadyPriorityQueue.push_ids sys.ready rq pi.id pi.prio hpush).1
      refine ⟨?_, rfl⟩
      apply Roles.with_ready hem
      intro k hk
      rcases List.mem_cons.mp (hperm.subset hk) with hk1 | hk1
      · right
        intro q hq
        rw [hk1, hlk] at hq
        cases hq
        exact ⟨rfl, hne, hproc⟩
      · exact Or.inl hk1
  · rename_i hproc
    simp only [hlk, Option.some.injEq] at h
    subst h
    have hio : pi.bursts.processing = false := by
      simpa [ProcessBursts.isProcessing] using hproc
    have hw : PCB.sleeping { PCB.init pi s with state := ProcessState.blocked } :=
      ⟨rfl, hne, hio⟩
    refine ⟨?_, rfl⟩
    apply Roles.with_blocked (hem.after_store pi.id
      { PCB.init pi s with state := ProcessState.blocked } hsd hnot.1
      (fun hx => absurd hx hnot.2.1) (fun hx => absurd hx hnot.2.2))
    intro k hk
    rcases List.mem_append.mp hk with hk1 | hk1
    · exact Or.inl hk1
    · right
      intro q hq
      rw [List.mem_singleton] at hk1
      rw [hk1, PCBTable.lookup_store _ pi.id _ _ hlk] at hq
      cases hq
      exact hw

/-- The roles through the arrival loop. -/
theorem System.arrivalLoop_roles (s : Nat) :
    ∀ (todo kept : List (Timer ProcessInit)) (sys sys1 : System),
    System.arrivalLoop s kept todo sys = some sys1 →
    Placed sys.PCB_table (boundIds sys.cpus ++ (sys.ready.ids ++ sys.blocked)) →
    ((kept ++ todo).map fun t => t.data.id).Nodup →
    (∀ t ∈ kept ++ todo, sys.PCB_table.lookup t.data.id = none) →
    (∀ t ∈ kept ++ todo, t.data.bursts.bursts ≠ [] ∧ t.data.bursts.valid) →
    Roles sys.cpus sys.PCB_table sys.ready sys.blocked →
    Roles sys1.cpus sys1.PCB_table sys1.ready sys1.blocked ∧ sys1.retired = sys.retired ∧
      ∀ t ∈ sys1.process_entry_timers, t.data.bursts.bursts ≠ [] ∧ t.data.bursts.valid := by
  intro todo
  induction todo with
  | nil =>
    intro kept sys sys1 h _ _ _ hv hr
    simp only [System.arrivalLoop, Option.some.injEq] at h
    subst h
    rw [List.append_nil] at hv
    exact ⟨hr, rfl, hv⟩
  | cons t todo ih =>
    intro kept sys sys1 h hp hnd hnone hv hr
    simp only [System.arrivalLoop] at h
    cases hts : t.step with
    | none => simp [hts] at h
    | some tr =>
      have hd : tr.2.data = t.data := Timer.step_data t tr hts
      simp only [hts] at h
      split at h
      · cases ha : sys.addProcess tr.2.getData s with
        | none => simp [ha] at h
        | some sys2 =>
          simp only [ha] at h
          have hgd : tr.2.getData = t.data := hd
          rw [hgd] at ha
          have htn : sys.PCB_table.lookup t.data.id = none := hnone t (by simp)
          have htv := hv t (by simp)
          obtain ⟨hp2, hc2⟩ := System.addProcess_layout sys t.data s sys2 (boundIds sys.cpus)
            ha htn hp
          obtain ⟨hr2, hret2⟩ := System.addProcess_roles sys t.data s sys2 ha htn hp hr
            htv.1 htv.2
          have hsub : (kept ++ todo).Sublist (kept ++ t :: todo) :=
            List.Sublist.append_left (List.sublist_cons_self t todo) kept
          have hnd2 : ((kept ++ todo).map fun t => t.data.id).Nodup :=
            (hsub.map _).nodup hnd
          have hnone2 : ∀ t1 ∈ kept ++ todo, sys2.PCB_table.lookup t1.data.id = none := by
            intro t1 ht1
            have hmem : t1 ∈ kept ++ t :: todo := hsub.subset ht1
            have hne : t1.data.id ≠ t.data.id := by
              intro heq
              have hmid : (kept ++ t :: todo).map (fun t => t.data.id) =
                  kept.map (fun t => t.data.id) ++ t.data.id ::
                    todo.map (fun t => t.data.id) := by simp
              rw [hmid] at hnd
              have h3 := List.nodup_middle.mp hnd
              rw [List.nodup_cons] at h3
              apply h3.1
              rw [← heq, ← List.map_append]
              exact List.mem_map_of_mem _ ht1
            rw [(System.addProcess_other sys t.data s sys2 ha).1 _ hne]
            exact hnone t1 hmem
          obtain ⟨r1, r2, r3⟩ := ih kept sys2 sys1 h (by rw [hc2]; exact hp2) hnd2 hnone2
            (fun t1 ht1 => hv t1 (hsub.subset ht1)) hr2
          exact ⟨r1, r2.trans hret2, r3⟩
      · have hmap : ((kept ++ [tr.2]) ++ todo).map (fun t => t.data.id) =
            (kept ++ t :: todo).map fun t => t.data.id := by
          simp [hd]
        have hall : ∀ (P : ProcessInit → Prop), (∀ t1 ∈ kept ++ t :: todo, P t1.data) →
            ∀ t1 ∈ (kept ++ [tr.2]) ++ todo, P t1.data := by
          intro P hP t1 ht1
          simp only [List.append_assoc, List.singleton_append, List.mem_append,
            List.mem_cons] at ht1
          rcases ht1 with h1 | h1 | h1
          · exact hP t1 (by simp [h1])
          · rw [h1, hd]
            exact hP t (by simp)
          · exact hP t1 (by simp [h1])
        exact ih (kept ++ [tr.2]) sys sys1 h hp (by rw [hmap]; exact hnd)
          (hall (fun d => sys.PCB_table.lookup d.id = none) hnone)
          (hall (fun d => d.bursts.bursts ≠ [] ∧ d.bursts.valid) hv) hr

/-! ### The roles through a round and a run -/

/-- One round of the loop keeps the roles and the accounts. -/
theorem System.tick_sound (sys : System) (s : Nat) (sys1 : System)
    (h : sys.tick s = some sys1) (hl : sys.Layout) (hs : sys.Sound) : sys1.Sound := by
  obtain ⟨hp, ht, hnd, hnone⟩ := hl
  obtain ⟨hr, hfin, hv⟩ := hs
  unfold System.tick at h
  cases h1 : sys.cpuPass with
  | none => simp [h1] at h
  | some sysa =>
    simp only [h1] at h
    cases h2 : sysa.blockedPass with
    | none => simp [h2] at h
    | some sysb =>
      simp only [h2] at h
      cases h3 : sysb.readyPass with
      | none => simp [h3] at h
      | some sysc =>
        simp only [h3] at h
        obtain ⟨e1, t1, _⟩ := System.cpuLoop_evolves _ _ _ _ h1
        obtain ⟨e2, t2, _⟩ := System.blockedLoop_evolves _ _ _ _ h2
        have h3a : System.readyLoop sysb.ready.ids sysb = some sysc := by
          unfold System.readyPass at h3
          rw [ReadyPriorityQueue.visited_eq] at h3
          exact h3
        obtain ⟨e3, t3, _⟩ := System.readyLoop_evolves _ _ _ h3a
        obtain ⟨hta, hpa⟩ := System.cpuPass_layout sys sysa h1 ht hp
        obtain ⟨hra, hfa⟩ := System.cpuLoop_roles sys.cpus [] sys sysa h1 ht hp hr hfin
        obtain ⟨hpb, hcb⟩ := System.blockedLoop_layout sysa.blocked [] sysa sysb h2 hpa
        obtain ⟨hrb, hfb⟩ := System.blockedLoop_roles sysa.blocked [] sysa sysb h2 hpa hra hfa
        obtain ⟨hpc, hcc, hrc, hbc⟩ := System.readyLoop_layout _ _ sysb sysc h3a hpb
        obtain ⟨hrc1, hfc⟩ := System.readyLoop_roles _ sysb sysc h3a (fun _ hx => hx) hpb hrb
        have htim : sysc.process_entry_timers = sys.process_entry_timers := by
          rw [t3, t2, t1]
        have hev : System.Evolves sys sysc := (e1.follow e2).follow e3
        unfold System.arrivalPass at h
        rw [htim] at h
        obtain ⟨r1, r2, r3⟩ := System.arrivalLoop_roles s _ [] sysc sys1 h
          (by rw [hcc, hrc, hbc]; exact hpc) hnd
          (fun t ht1 => TableMoves.lookup_none hev _ (hnone t ht1)) hv hrc1
        refine ⟨r1, ?_, r3⟩
        rw [r2, hfc]
        exact hfb

/-- The loop of `simulate` keeps the layout, the roles and the accounts. -/
theorem System.loop_sound : ∀ (fuel s : Nat) (sys : System) (r : System × Nat),
    System.loop fuel s sys = some r → sys.Layout → sys.Sound → r.1.Layout ∧ r.1.Sound := by
  intro fuel
  induction fuel with
  | zero =>
    intro s sys r h hl hs
    simp only [System.loop, Option.some.injEq] at h
    subst h
    exact ⟨hl, hs⟩
  | succ fuel ih =>
    intro s sys r h hl hs
    rw [System.loop] at h
    by_cases hr : sys.running s = true
    · rw [if_pos hr] at h
      cases ht : sys.tick s with
      | none => simp [ht] at h
      | some sys1 =>
        simp only [ht] at h
        exact ih (s + 1) sys1 r h (System.tick_layout sys s sys1 ht hl)
          (System.tick_sound sys s sys1 ht hl hs)
    · rw [if_neg hr] at h
      simp only [Option.some.injEq] at h
      subst h
      exact ⟨hl, hs⟩

theorem System.startTimers_sound (sett : SystemSettings) (plans : List ProcessPlan)
    (hv : ∀ p ∈ plans, p.init.bursts.bursts ≠ [] ∧ p.init.bursts.valid) :
    ((System.init sett).startTimers plans).Sound := by
  refine ⟨⟨?_, ?_, ?_, ?_⟩, ?_, ?_⟩
  · intro k p hl
    cases hl
  · intro c _ k p _ hl
    cases hl
  · intro k _ p hl
    cases hl
  · intro k hk
    cases hk
  · intro p hp
    cases hp
  · intro t ht
    simp only [System.startTimers, System.init, List.nil_append, List.mem_map] at ht
    obtain ⟨p, hp, hpt⟩ := ht
    rw [← hpt]
    exact hv p hp

/-! ### Properties of records that every change keeps -/

theorem TableMoves.keeps_all {tbl : PCBTable} {ret : List PCB} {tbl1 : PCBTable}
    {ret1 : List PCB} (h : TableMoves tbl ret tbl1 ret1) (Q : PCB → Prop)
    (hQ : ∀ p q, PCB.Moves p q → Q p → Q q)
    (ht : ∀ k p, tbl.lookup k = some p → Q p) (hr : ∀ p ∈ ret, Q p) :
    (∀ k p, tbl1.lookup k = some p → Q p) ∧ ∀ p ∈ ret1, Q p := by
  induction h with
  | refl => exact ⟨ht, hr⟩
  | store tbl3 ret3 key p q _ hl hm ih =>
    refine ⟨?_, ih.2⟩
    intro k x hx
    rw [PCBTable.lookup_store_eq] at hx
    by_cases hk : k = key
    · rw [if_pos hk, hk, hl] at hx
      simp only [Option.map_some', Option.some.injEq] at hx
      rw [← hx]
      exact hQ p q hm (ih.1 key p hl)
    · rw [if_neg hk] at hx
      exact ih.1 k x hx
  | retire tbl3 ret3 key p _ hl _ ih =>
    constructor
    · intro k x hx
      rw [PCBTable.lookup_erase] at hx
      by_cases hk : k = key
      · rw [if_pos hk] at hx
        cases hx
      · rw [if_neg hk] at hx
        exact ih.1 k x hx
    · intro x hx
      rcases List.mem_append.mp hx with hx | hx
      · exact ih.2 x hx
      · rw [List.mem_singleton] at hx
        rw [hx]
        exact ih.1 key p hl

theorem PCBTable.lookup_emplace_cases (tbl : PCBTable) (key k : Nat) (q x : PCB)
    (h : (tbl.emplace key q).lookup k = some x) : x = q ∨ tbl.lookup k = some x := by
  cases hl : tbl.lookup key with
  | none =>
    rw [PCBTable.lookup_emplace tbl key k q hl] at h
    by_cases hk : k = key
    · rw [if_pos hk] at h
      exact Or.inl (Option.some.inj h).symm
    · rw [if_neg hk] at h
      exact Or.inr h
  | some y =>
    have he : tbl.emplace key q = tbl := by simp only [PCBTable.emplace, hl]
    rw [he] at h
    exact Or.inr h

theorem System.addProcess_keeps (Q : PCB → Prop) (hQ : ∀ p q, PCB.Moves p q → Q p → Q q)
    (sys : System) (pi : ProcessInit) (s : Nat) (sys1 : System)
    (h : sys.addProcess pi s = some sys1) (hq : Q (PCB.init pi s))
    (ht : ∀ k p, sys.PCB_table.lookup k = some p → Q p) :
    (∀ k p, sys1.PCB_table.lookup k = some p → Q p) ∧ sys1.retired = sys.retired := by
  have hem : ∀ k p, (sys.PCB_table.emplace pi.id (PCB.init pi s)).lookup k = some p → Q p := by
    intro k p hl
    rcases PCBTable.lookup_emplace_cases _ _ _ _ _ hl with h1 | h1
    · rw [h1]; exact hq
    · exact ht k p h1
  unfold System.addProcess at h
  simp only at h
  split at h
  · cases hpush : sys.ready.push pi.id pi.prio with
    | none => simp [hpush] at h
    | some rq =>
      simp only [hpush, Option.some.injEq] at h
      subst h
      exact ⟨hem, rfl⟩
  · cases hl : (sys.PCB_table.emplace pi.id (PCB.init pi s)).lookup pi.id with
    | none => simp [hl] at h
    | some p =>
      simp only [hl, Option.some.injEq] at h
      subst h
      refine ⟨?_, rfl⟩
      intro k x hx
      change ((sys.PCB_table.emplace pi.id (PCB.init pi s)).store pi.id _).lookup k = some x at hx
      rw [PCBTable.lookup_store_eq] at hx
      by_cases hk : k = pi.id
      · rw [if_pos hk, hk, hl] at hx
        simp only [Option.map_some', Option.some.injEq] at hx
        rw [← hx]
        exact hQ p _ (PCB.Moves.setState p p _ (PCB.Moves.refl p) (fun h => by cases h))
          (hem pi.id p hl)
      · rw [if_neg hk] at hx
        exact hem k x hx

theorem System.arrivalLoop_keeps (Q : PCB → Prop) (hQ : ∀ p q, PCB.Moves p q → Q p → Q q)
    (s : Nat) : ∀ (todo kept : List (Timer ProcessInit)) (sys sys1 : System),
    System.arrivalLoop s kept todo sys = some sys1 →
    (∀ k p, sys.PCB_table.lookup k = some p → Q p) →
    (∀ t ∈ kept ++ todo, ∀ s1, Q (PCB.init t.data s1)) →
    (∀ k p, sys1.PCB_table.lookup k = some p → Q p) ∧ sys1.retired = sys.retired ∧
      ∀ t ∈ sys1.process_entry_timers, ∀ s1, Q (PCB.init t.data s1) := by
  intro todo
  induction todo with
  | nil =>
    intro kept sys sys1 h ht hq
    simp only [System.arrivalLoop, Option.some.injEq] at h
    subst h
    rw [List.append_nil] at hq
    exact ⟨ht, rfl, hq⟩
  | cons t todo ih =>
    intro kept sys sys1 h ht hq
    simp only [System.arrivalLoop] at h
    cases hts : t.step with
    | none => simp [hts] at h
    | some tr =>
      have hd : tr.2.data = t.data := Timer.step_data t tr hts
      simp only [hts] at h
      split at h
      · cases ha : sys.addProcess tr.2.getData s with
        | none => simp [ha] at h
        | some sys2 =>
          simp only [ha] at h
          have hgd : tr.2.getData = t.data := hd
          rw [hgd] at ha
          obtain ⟨h1, h2⟩ := System.addProcess_keeps Q hQ sys t.data s sys2 ha
            (hq t (by simp) s) ht
          obtain ⟨r1, r2, r3⟩ := ih kept sys2 sys1 h h1
            (fun t1 ht1 => hq t1 (by
              simp only [List.mem_append, List.mem_cons] at ht1 ⊢
              tauto))
          exact ⟨r1, r2.trans h2, r3⟩
      · apply ih (kept ++ [tr.2]) sys sys1 h ht
        intro t1 ht1
        simp only [List.append_assoc, List.singleton_append, List.mem_append,
          List.mem_cons] at ht1
        rcases ht1 with h1 | h1 | h1
        · exact hq t1 (by simp [h1])
        · rw [h1, hd]
          exact hq t (by simp)
        · exact hq t1 (by simp [h1])

/-- One round of the loop keeps every property of records that the changes of
a record keep. -/
theorem System.tick_keeps (Q : PCB → Prop) (hQ : ∀ p q, PCB.Moves p q → Q p → Q q)
    (sys : System) (s : Nat) (sys1 : System) (h : sys.tick s = some sys1)
    (hk : sys.Keeps Q) : sys1.Keeps Q := by
  obtain ⟨sys3, hev, ht3, _, harr⟩ := System.tick_split sys s sys1 h
  obtain ⟨h1, h2⟩ := TableMoves.keeps_all hev Q hQ hk.1 hk.2.1
  obtain ⟨r1, r2, r3⟩ := System.arrivalLoop_keeps Q hQ s _ [] sys3 sys1 harr h1 hk.2.2
  exact ⟨r1, by rw [r2]; exact h2, r3⟩

theorem System.loop_keeps (Q : PCB → Prop) (hQ : ∀ p q, PCB.Moves p q → Q p → Q q) :
    ∀ (fuel s : Nat) (sys : System) (r : System × Nat),
    System.loop fuel s sys = some r → sys.Keeps Q → r.1.Keeps Q := by
  intro fuel
  induction fuel with
  | zero =>
    intro s sys r h hk
    simp only [System.loop, Option.some.injEq] at h
    subst h
    exact hk
  | succ fuel ih =>
    intro s sys r h hk
    rw [System.loop] at h
    by_cases hr : sys.running s = true
    · rw [if_pos hr] at h
      cases ht : sys.tick s with
      | none => simp [ht] at h
      | some sys1 =>
        simp only [ht] at h
        exact ih (s + 1) sys1 r h (System.tick_keeps Q hQ sys s sys1 ht hk)
    · rw [if_neg hr] at h
      simp only [Option.some.injEq] at h
      subst h
      exact hk

theorem PCB.fromPlan_moves (plans : List ProcessPlan) (p q : PCB) (h : PCB.Moves p q)
    (hp : p.fromPlan plans) : q.fromPlan plans := by
  obtain ⟨pl, hpl, h1, h2⟩ := hp
  obtain ⟨k1, _, _, _, _, k6⟩ := h.keeps
  exact ⟨pl, hpl, h1.trans k1.symm, k6.trans h2⟩

theorem System.startTimers_fromPlan (sett : SystemSettings) (plans : List ProcessPlan) :
    ((System.init sett).startTimers plans).Keeps (PCB.fromPlan plans) := by
  refine ⟨?_, ?_, ?_⟩
  · intro k p hl
    cases hl
  · intro p hp
    cases hp
  · intro t ht s
    simp only [System.startTimers, System.init, List.nil_append, List.mem_map] at ht
    obtain ⟨pl, hpl, hpt⟩ := ht
    rw [← hpt]
    exact ⟨pl, hpl, rfl, rfl⟩

/-! ### Burst ticks against the clock: one record -/

theorem ProcessBursts.step_sum (b : ProcessBursts) (hv : b.valid) :
    b.bursts.sum ≤ b.step.2.bursts.sum + 1 := by
  cases hb : b.bursts with
  | nil =>
    rw [ProcessBursts.step_of_nil b hb, hb]
    simp
  | cons h tl =>
    rcases ProcessBursts.step_valid b h tl hb hv with ⟨h2, hs⟩ | ⟨h1, hs⟩
    · rw [hs]
      simp only [List.sum_cons]
      omega
    · rw [hs, h1]
      simp only [List.sum_cons]
      omega

theorem PCB.step_bursts (p : PCB) :
    p.step.2.bursts = p.bursts ∨ p.step.2.bursts = p.bursts.step.2 := by
  by_cases hs : p.state = ProcessState.running ∨ p.state = ProcessState.blocked
  · exact Or.inr (PCB.step_of_active p hs).2
  · left
    simp [PCB.step, hs]

/-- One `PCB::step` takes at most one tick off the bursts. -/
theorem PCB.step_within (p : PCB) (N : Nat) (hv : p.bursts.valid) (hw : p.within N) :
    p.step.2.within (N + 1) := by
  unfold PCB.within at hw ⊢
  rw [PCB.step_plan]
  rcases PCB.step_bursts p with h | h
  · rw [h]
    omega
  · rw [h]
    have := ProcessBursts.step_sum p.bursts hv
    omega

/-- A `PCB::step` in state `ready`, `switching` or `exit` takes no tick off
the bursts. -/
theorem PCB.step_within_inactive (p : PCB) (N : Nat) (hw : p.within N)
    (hst : p.state = ProcessState.ready ∨ p.state = ProcessState.switching ∨
      p.state = ProcessState.exit) : p.step.2.within N := by
  unfold PCB.within at hw ⊢
  rw [PCB.step_plan, (PCB.step_of_inactive p hst).2]
  exact hw

/-- The assigned branch of `CPU::step` leaves the record as `PCB::step` left
it, the lifecycle state apart. -/
theorem CPU.stepOn_record (c : CPU) (p : PCB) (r : Bool) (c1 : CPU) (p1 : PCB)
    (hs : c.stepOn p = some (r, c1, p1)) :
    p1.bursts = p.step.2.bursts ∧ p1.stats = p.step.2.stats := by
  have hbusy : ∀ (hst : c.getState = CPUState.processing ∨ c.getState = CPUState.assigned_idle),
      p1.bursts = p.step.2.bursts ∧ p1.stats = p.step.2.stats := by
    intro hst
    by_cases hf : c.settings.RR_TIME = 0
    · rw [CPU.stepOn_busy_fcfs c p hst hf] at hs
      simp only [Option.some.injEq, Prod.mk.injEq] at hs
      obtain ⟨_, hc⟩ := hs
      split at hc
      · split at hc
        · simp only [CPU.deassignOn, Prod.mk.injEq] at hc
          rw [← hc.2]
          exact ⟨rfl, rfl⟩
        · simp only [Prod.mk.injEq] at hc
          rw [← hc.2]
          exact ⟨rfl, rfl⟩
      · simp only [Prod.mk.injEq] at hc
        rw [← hc.2]
        exact ⟨rfl, rfl⟩
    · rw [CPU.stepOn_busy_rr c p hst hf] at hs
      cases hts : c.t.step with
      | none => simp [hts] at hs
      | some tr =>
        simp only [hts, Option.map_some', Option.some.injEq] at hs
        split at hs <;>
          (simp only [Prod.mk.injEq] at hs
           rw [← hs.2.2]
           exact ⟨rfl, rfl⟩)
  cases hst : c.getState with
  | idle =>
    unfold CPU.stepOn at hs
    simp only [hst] at hs
    cases hts : c.t.step with
    | none => simp [hts] at hs
    | some tr =>
      simp [hts] at hs
      rw [← hs.2.2]
      exact ⟨rfl, rfl⟩
  | switching_out =>
    rw [CPU.stepOn_switching_out c p hst] at hs
    cases hts : c.t.step with
    | none => simp [hts] at hs
    | some tr =>
      simp only [hts, Option.map_some', Option.some.injEq] at hs
      split at hs <;>
        (simp only [Prod.mk.injEq] at hs
         rw [← hs.2.2]
         exact ⟨rfl, rfl⟩)
  | switching_in =>
    rw [CPU.stepOn_switching_in c p hst] at hs
    cases hts : c.t.step with
    | none => simp [hts] at hs
    | some tr =>
      simp only [hts, Option.map_some', Option.some.injEq] at hs
      split at hs
      · split at hs <;>
          (simp only [Prod.mk.injEq] at hs
           rw [← hs.2.2]
           exact ⟨rfl, rfl⟩)
      · simp only [Prod.mk.injEq] at hs
        rw [← hs.2.2]
        exact ⟨rfl, rfl⟩
  | processing => exact hbusy (Or.inl hst)
  | assigned_idle => exact hbusy (Or.inr hst)

theorem PCB.within_of_record (N : Nat) (q p1 : PCB) (h : p1.bursts = q.bursts ∧ p1.stats = q.stats)
    (hw : q.within N) : p1.within N := by
  unfold PCB.within at hw ⊢
  rw [h.1, h.2]
  exact hw

theorem PCB.within_mono (N M : Nat) (p : PCB) (h : N ≤ M) (hw : p.within N) : p.within M := by
  unfold PCB.within at hw ⊢
  omega

/-! ### Burst ticks against the clock: the writes of the table -/

theorem Timely.on_store {N : Nat} {tbl : PCBTable} {fresh : List Nat}
    (h : Timely N tbl fresh) (key : Nat) (q : PCB) (hq : q.within (N + 1))
    (hf : key ∈ fresh → q.within N) : Timely N (tbl.store key q) fresh := by
  have hlk : ∀ k p, (tbl.store key q).lookup k = some p →
      (k = key ∧ p = q) ∨ (k ≠ key ∧ tbl.lookup k = some p) := by
    intro k p hl
    rw [PCBTable.lookup_store_eq] at hl
    by_cases hk : k = key
    · rw [if_pos hk] at hl
      cases hl0 : tbl.lookup k with
      | none => simp [hl0] at hl
      | some p0 =>
        simp only [hl0, Option.map_some', Option.some.injEq] at hl
        exact Or.inl ⟨hk, hl.symm⟩
    · rw [if_neg hk] at hl
      exact Or.inr ⟨hk, hl⟩
  constructor
  · intro k p hl
    rcases hlk k p hl with ⟨_, hp⟩ | ⟨_, hl0⟩
    · rw [hp]; exact hq
    · exact h.1 k p hl0
  · intro k hk p hl
    rcases hlk k p hl with ⟨hkk, hp⟩ | ⟨_, hl0⟩
    · rw [hp]; exact hf (hkk ▸ hk)
    · exact h.2 k hk p hl0

theorem Timely.on_erase {N : Nat} {tbl : PCBTable} {fresh : List Nat}
    (h : Timely N tbl fresh) (key : Nat) : Timely N (tbl.erase key) fresh := by
  have hlk : ∀ k p, (tbl.erase key).lookup k = some p → tbl.lookup k = some p := by
    intro k p hl
    rw [PCBTable.lookup_erase] at hl
    by_cases hk : k = key
    · rw [if_pos hk] at hl
      cases hl
    · rw [if_neg hk] at hl
      exact hl
  exact ⟨fun k p hl => h.1 k p (hlk k p hl), fun k hk p hl => h.2 k hk p (hlk k p hl)⟩

theorem Timely.with_fresh {N : Nat} {tbl : PCBTable} {fresh fresh1 : List Nat}
    (h : Timely N tbl fresh)
    (hsub : ∀ k ∈ fresh1, k ∈ fresh ∨ ∀ p, tbl.lookup k = some p → p.within N) :
    Timely N tbl fresh1 := by
  refine ⟨h.1, ?_⟩
  intro k hk p hl
  rcases hsub k hk with h1 | h1
  · exact h.2 k h1 p hl
  · exact h1 p hl

/-- Burst ticks against the clock through `CPU::step` of an assigned unit:
the process loses at most one tick, and none when the unit releases it. -/
theorem CPU.step_timely (c : CPU) (tbl : PCBTable) (r : Bool) (c1 : CPU) (tbl1 : PCBTable)
    (N : Nat) (fresh : List Nat) (key : Nat) (p : PCB)
    (hs : c.step tbl = some (r, c1, tbl1)) (hne : c.getState ≠ CPUState.idle)
    (hk : c.proc = some key) (hl : tbl.lookup key = some p) (hserve : c.serves p)
    (hv : p.bursts.valid) (hw : p.within N) (ht : Timely N tbl fresh) (hkf : key ∉ fresh) :
    Timely N tbl1 fresh ∧ (r = true → ∀ p1, tbl1.lookup key = some p1 → p1.within N) := by
  obtain ⟨key1, p0, p1, hk1, hl1, hon, htb⟩ := CPU.step_assigned_inv c tbl r c1 tbl1 hne hs
  rw [hk] at hk1
  cases hk1
  rw [hl] at hl1
  cases hl1
  have hrec := CPU.stepOn_record c.recordTick p r c1 p1 hon
  have hw1 : p1.within (N + 1) := PCB.within_of_record _ _ _ hrec (PCB.step_within p N hv hw)
  refine ⟨by rw [htb]; exact ht.on_store key p1 hw1 (fun h => absurd h hkf), ?_⟩
  intro hr q hq
  rw [htb, PCBTable.lookup_store tbl key p p1 hl] at hq
  cases hq
  have hout : c.getState = CPUState.switching_out := by
    by_contra hno
    have := CPU.stepOn_false c.recordTick p r c1 p1 hno hon
    rw [hr] at this
    cases this
  have hleave : p.leaving := (CPU.serves_switching_out c p hout).mp hserve
  have hin : p.state = ProcessState.ready ∨ p.state = ProcessState.switching ∨
      p.state = ProcessState.exit := by
    rcases hleave with h | h
    · exact Or.inr (Or.inr h.1)
    · exact Or.inr (Or.inl h.1)
  exact PCB.within_of_record _ _ _ hrec (PCB.step_within_inactive p N hw hin)

/-- Burst ticks against the clock through the relocation of a released
process. -/
theorem System.relocate_timely (sys : System) (id : Nat) (sys1 : System) (rest : List Nat)
    (N : Nat) (p1 : PCB) (h : sys.relocate id = some sys1)
    (hl : sys.PCB_table.lookup id = some p1) (hleave : p1.leaving) (hw : p1.within N)
    (hT : Timely N sys.PCB_table (rest ++ (sys.ready.ids ++ sys.blocked)))
    (hR : RetiredBy (N + 1) sys.retired) :
    Timely N sys1.PCB_table (rest ++ (sys1.ready.ids ++ sys1.blocked)) ∧
      RetiredBy (N + 1) sys1.retired := by
  have hw1 : p1.within (N + 1) := PCB.within_mono _ _ _ (Nat.le_succ N) hw
  unfold System.relocate at h
  simp only [hl] at h
  split at h
  · rename_i hex
    simp only [Option.some.injEq] at h
    subst h
    refine ⟨hT.on_erase id, ?_⟩
    intro q hq
    rcases List.mem_append.mp hq with hq | hq
    · exact hR q hq
    · rw [List.mem_singleton] at hq
      rw [hq]
      rcases hleave with hx | hx
      · unfold PCB.within at hw
        rw [hx.2] at hw
        simp only [List.sum_nil] at hw
        omega
      · rw [hx.1] at hex
        cases hex
  · split at h
    · cases hpush : sys.ready.push id p1.prio with
      | none => simp [hpush] at h
      | some rq =>
        simp only [hpush, Option.some.injEq] at h
        subst h
        have hperm := (ReadyPriorityQueue.push_ids sys.ready rq id p1.prio hpush).1
        refine ⟨?_, hR⟩
        apply Timely.with_fresh
          (hT.on_store id { p1 with state := ProcessState.ready } hw1 (fun _ => hw))
        intro k hk
        simp only [List.mem_append] at hk ⊢
        rcases hk with hk | hk | hk
        · exact Or.inl (Or.inl hk)
        · rcases List.mem_cons.mp (hperm.subset hk) with hk1 | hk1
          · right
            intro q hq
            rw [hk1, PCBTable.lookup_store sys.PCB_table id p1 _ hl] at hq
            cases hq
            exact hw
          · exact Or.inl (Or.inr (Or.inl hk1))
        · exact Or.inl (Or.inr (Or.inr hk))
    · simp only [Option.some.injEq] at h
      subst h
      refine ⟨?_, hR⟩
      apply Timely.with_fresh
        (hT.on_store id { p1 with state := ProcessState.blocked } hw1 (fun _ => hw))
      intro k hk
      simp only [List.mem_append, List.mem_singleton] at hk ⊢
      rcases hk with hk | hk | hk | hk
      · exact Or.inl (Or.inl hk)
      · exact Or.inl (Or.inr (Or.inl hk))
      · exact Or.inl (Or.inr (Or.inr hk))
      · right
        intro q hq
        rw [hk, PCBTable.lookup_store sys.PCB_table id p1 _ hl] at hq
        cases hq
        exact hw

/-! ### Burst ticks against the clock: the unit pass -/

theorem System.assignFront_timely (sys : System) (cpu cpu1 : CPU) (sys1 : System)
    (others : List CPU) (rest : List Nat) (N : Nat)
    (h : sys.assignFront cpu = some (cpu1, sys1))
    (hp : Placed sys.PCB_table (boundIds others ++ (sys.ready.ids ++ sys.blocked)))
    (hsub : ∀ k ∈ rest, k ∈ boundIds others)
    (hT : Timely N sys.PCB_table (rest ++ (sys.ready.ids ++ sys.blocked))) :
    Timely N sys1.PCB_table (rest ++ (sys1.ready.ids ++ sys1.blocked)) ∧
      sys1.retired = sys.retired := by
  unfold System.assignFront at h
  split at h
  · rename_i hne
    have hne1 : sys.ready.empty = false := by simpa using hne
    obtain ⟨x, q1, hfr, hpop, hids, _⟩ := ReadyPriorityQueue.front_pop_ids sys.ready hne1
    simp only [hfr] at h
    cases hl : sys.PCB_table.lookup x with
    | none => simp [CPU.assign, hl] at h
    | some p =>
      simp only [CPU.assign, hl, hpop, Option.some.injEq, Prod.mk.injEq] at h
      obtain ⟨hc, hsys⟩ := h
      subst hc hsys
      have hnd := hp.ids_nodup
      rw [hids, List.cons_append] at hnd
      have hnot : x ∉ boundIds others ++ (q1.ids ++ sys.blocked) :=
        nodup_head_not_mem ((List.perm_middle.nodup_iff).mp hnd)
      simp only [List.mem_append, not_or] at hnot
      have hw : p.within N := hT.2 x (by simp [hids]) p hl
      refine ⟨?_, rfl⟩
      apply Timely.on_store
      · apply hT.with_fresh
        intro k hk
        left
        simp only [List.mem_append, hids, List.mem_cons] at hk ⊢
        tauto
      · exact PCB.within_mono _ _ _ (Nat.le_succ N) hw
      · intro hx
        exfalso
        simp only [List.mem_append] at hx
        rcases hx with hx | hx | hx
        · exact hnot.1 (hsub x hx)
        · exact hnot.2.1 hx
        · exact hnot.2.2 hx
  · simp only [Option.some.injEq, Prod.mk.injEq] at h
    obtain ⟨hc, hsys⟩ := h
    subst hc hsys
    exact ⟨hT, rfl⟩

/-- Burst ticks against the clock through the body of the unit loop for one
unit: afterwards the process of this unit may have lost its tick of the round;
those of the units `rest` still to serve, of the ready queue and of the blocked
list have not. -/
theorem System.cpuBody_timely (sys : System) (cpu cpu1 : CPU) (sys1 : System)
    (others : List CPU) (rest : List Nat) (N : Nat)
    (h : sys.cpuBody cpu = some (cpu1, sys1)) (ht : cpu.tidy)
    (hp : Placed sys.PCB_table
      (cpu.proc.toList ++ (boundIds others ++ (sys.ready.ids ++ sys.blocked))))
    (hr : Roles (cpu :: others) sys.PCB_table sys.ready sys.blocked)
    (hsub : ∀ k ∈ rest, k ∈ boundIds others)
    (hT : Timely N sys.PCB_table (cpu.proc.toList ++ (rest ++ (sys.ready.ids ++ sys.blocked))))
    (hR : RetiredBy (N + 1) sys.retired) :
    Timely N sys1.PCB_table (rest ++ (sys1.ready.ids ++ sys1.blocked)) ∧
      RetiredBy (N + 1) sys1.retired := by
  unfold System.cpuBody at h
  cases hs : cpu.step sys.PCB_table with
  | none => simp [hs] at h
  | some res =>
    obtain ⟨r, c1, tbl1⟩ := res
    simp only [hs] at h
    obtain ⟨_, hcase⟩ := CPU.step_layout cpu sys.PCB_table _ r c1 tbl1 hs ht hp
    have hrole := CPU.step_roles cpu others sys.PCB_table sys.ready sys.blocked r c1 tbl1 hs
      ht hp hr
    have hT0 : Timely N sys.PCB_table (rest ++ (sys.ready.ids ++ sys.blocked)) :=
      hT.with_fresh (fun k hk => Or.inl (List.mem_append_right _ hk))
    rcases hcase with ⟨hidle, hrt, hpr, htb⟩ | ⟨hne, hrf, hpl⟩ | ⟨hne, hrt, hpr, hpl⟩
    · have ha := CPU.assigned_eq_false cpu hidle
      simp only [hrt, ha, Bool.not_false, Bool.or_true, if_true, Bool.not_true] at h
      simp only [Bool.false_eq_true, if_false] at h
      rw [ht.1.mp hidle] at hp
      obtain ⟨r1, r2⟩ := System.assignFront_timely { sys with PCB_table := tbl1 } c1 cpu1 sys1
        others rest N h (by rw [htb]; exact hp) hsub (by rw [htb]; exact hT0)
      exact ⟨r1, by rw [r2]; exact hR⟩
    · have ha := CPU.assigned_eq_true cpu hne
      simp only [hrf, ha, Bool.not_true, Bool.or_false, Bool.false_eq_true, if_false,
        Option.some.injEq, Prod.mk.injEq] at h
      obtain ⟨hc, hsys⟩ := h
      subst hc hsys
      cases hk : cpu.proc with
      | none => exact absurd (ht.1.mpr hk) hne
      | some key =>
        rw [hk] at hp
        obtain ⟨p, hl, _⟩ := hp.has_record key (by simp)
        have hnot : key ∉ boundIds others ++ (sys.ready.ids ++ sys.blocked) :=
          nodup_head_not_mem hp.ids_nodup
        have hkf : key ∉ rest ++ (sys.ready.ids ++ sys.blocked) := by
          simp only [List.mem_append, not_or] at hnot ⊢
          exact ⟨fun hx => hnot.1 (hsub key hx), hnot.2⟩
        have hw : p.within N := hT.2 key (by simp [hk]) p hl
        exact ⟨(CPU.step_timely cpu sys.PCB_table r c1 tbl1 N _ key p hs hne hk hl
          (hr.2.1 cpu (List.mem_cons_self _ _) key p hk hl) (hr.1 key p hl).1 hw hT0 hkf).1, hR⟩
    · have ha := CPU.assigned_eq_true cpu hne
      simp only [hrt, ha, Bool.not_true, Bool.or_false, Bool.not_false, if_true] at h
      rcases hrole with ⟨hi, _⟩ | ⟨_, hrf, _⟩ | ⟨_, _, hr1, p1, hl1, hleave⟩
      · exact absurd hi hne
      · rw [hrt] at hrf
        cases hrf
      · cases hk : cpu.proc with
        | none => exact absurd (ht.1.mpr hk) hne
        | some key =>
          have hpk := hp
          rw [hk] at hpk
          obtain ⟨p, hl, _⟩ := hpk.has_record key (by simp)
          have hnot : key ∉ boundIds others ++ (sys.ready.ids ++ sys.blocked) :=
            nodup_head_not_mem hpk.ids_nodup
          have hkf : key ∉ rest ++ (sys.ready.ids ++ sys.blocked) := by
            simp only [List.mem_append, not_or] at hnot ⊢
            exact ⟨fun hx => hnot.1 (hsub key hx), hnot.2⟩
          have hw : p.within N := hT.2 key (by simp [hk]) p hl
          obtain ⟨hT1, hrel1⟩ := CPU.step_timely cpu sys.PCB_table r c1 tbl1 N _ key p hs hne hk
            hl (hr.2.1 cpu (List.mem_cons_self _ _) key p hk hl) (hr.1 key p hl).1 hw hT0 hkf
          have hpid : c1.getPID = key := by
            obtain ⟨key1, p0, p2, hk1, _, hon, _⟩ :=
              CPU.step_assigned_inv cpu sys.PCB_table r c1 tbl1 hne hs
            have := (CPU.stepOn_bound cpu.recordTick p0 r c1 p2 hon hne).2.1
            exact this.trans (ht.2 key hk)
          rw [hpid] at hl1
          have hw1 : p1.within N := hrel1 hrt p1 hl1
          cases hrel : System.relocate { sys with PCB_table := tbl1 } c1.getPID with
          | none => simp [hrel] at h
          | some sys2 =>
            simp only [hrel] at h
            have hp2 := System.relocate_layout _ c1.getPID sys2 (boundIds others) hrel hpl
            rw [hpid] at hrel
            obtain ⟨hT2, hR2⟩ := System.relocate_timely _ key sys2 rest N p1 hrel hl1 hleave
              hw1 hT1 hR
            obtain ⟨r1, r2⟩ := System.assignFront_timely sys2 c1 cpu1 sys1 others rest N h hp2
              hsub hT2
            exact ⟨r1, by rw [r2]; exact hR2⟩

theorem System.cpuLoop_timely (N : Nat) : ∀ (todo done : List CPU) (sys sys1 : System),
    System.cpuLoop done todo sys = some sys1 →
    (∀ c ∈ done ++ todo, c.tidy) →
    Placed sys.PCB_table (boundIds (done ++ todo) ++ (sys.ready.ids ++ sys.blocked)) →
    Roles (done ++ todo) sys.PCB_table sys.ready sys.blocked → Finished sys.retired →
    Timely N sys.PCB_table (boundIds todo ++ (sys.ready.ids ++ sys.blocked)) →
    RetiredBy (N + 1) sys.retired →
    Timely N sys1.PCB_table (sys1.ready.ids ++ sys1.blocked) ∧
      RetiredBy (N + 1) sys1.retired := by
  intro todo
  induction todo with
  | nil =>
    intro done sys sys1 h _ _ _ _ hT hR
    simp only [System.cpuLoop, Option.some.injEq] at h
    subst h
    exact ⟨hT, hR⟩
  | cons cpu todo ih =>
    intro done sys sys1 h ht hp hr hfin hT hR
    simp only [System.cpuLoop] at h
    cases hb : sys.cpuBody cpu with
    | none => simp [hb] at h
    | some res =>
      obtain ⟨c1, sys2⟩ := res
      simp only [hb] at h
      have htc : cpu.tidy := ht cpu (by simp)
      have hp1 : Placed sys.PCB_table
          (cpu.proc.toList ++ (boundIds (done ++ todo) ++ (sys.ready.ids ++ sys.blocked))) := by
        apply hp.of_perm
        rw [boundIds_append, boundIds_append, boundIds_cons, ← Multiset.coe_eq_coe]
        simp only [← Multiset.coe_add]
        abel
      have hr1 : Roles (cpu :: (done ++ todo)) sys.PCB_table sys.ready sys.blocked := by
        apply hr.with_units
        intro c hc
        simp only [List.mem_cons, List.mem_append] at hc ⊢
        tauto
      have hsub : ∀ k ∈ boundIds todo, k ∈ boundIds (done ++ todo) := by
        intro k hk
        rw [boundIds_append]
        exact List.mem_append_right _ hk
      have hT1 : Timely N sys.PCB_table
          (cpu.proc.toList ++ (boundIds todo ++ (sys.ready.ids ++ sys.blocked))) := by
        rw [boundIds_cons, List.append_assoc] at hT
        exact hT
      obtain ⟨ht1, hp2⟩ := System.cpuBody_layout sys cpu c1 sys2 _ hb htc hp1
      obtain ⟨hr2, hfin2⟩ := System.cpuBody_roles sys cpu c1 sys2 _ hb htc hp1 hr1 hfin
      obtain ⟨hT2, hR2⟩ := System.cpuBody_timely sys cpu c1 sys2 (done ++ todo) (boundIds todo)
        N hb htc hp1 hr1 hsub hT1 hR
      apply ih (done ++ [c1]) sys2 sys1 h
      · intro c hc
        simp only [List.append_assoc, List.singleton_append, List.mem_append,
          List.mem_cons] at hc
        rcases hc with hc | hc | hc
        · exact ht c (by simp [hc])
        · rw [hc]
          exact ht1
        · exact ht c (by simp [hc])
      · apply hp2.of_perm
        rw [boundIds_append, boundIds_append, boundIds_append, boundIds_cons, boundIds_nil,
          ← Multiset.coe_eq_coe]
        simp only [← Multiset.coe_add, Multiset.coe_nil]
        abel
      · apply hr2.with_units
        intro c hc
        simp only [List.append_assoc, List.singleton_append, List.mem_cons,
          List.mem_append] at hc ⊢
        tauto
      · exact hfin2
      · exact hT2
      · exact hR2

/-! ### Burst ticks against the clock: the other passes -/

theorem System.blockedBody_timely (sys : System) (id : Nat) (b : Bool) (sys1 : System)
    (todo : List Nat) (N : Nat) (h : sys.blockedBody id = some (b, sys1))
    (hsd : ∀ k p, sys.PCB_table.lookup k = some p → p.sound)
    (hT : Timely N sys.PCB_table (id :: todo)) (hnot : id ∉ todo)
    (hR : RetiredBy (N + 1) sys.retired) :
    Timely N sys1.PCB_table todo ∧ RetiredBy (N + 1) sys1.retired := by
  have hT0 : Timely N sys.PCB_table todo :=
    hT.with_fresh (fun k hk => Or.inl (List.mem_cons_of_mem _ hk))
  unfold System.blockedBody at h
  cases hl : sys.PCB_table.lookup id with
  | none => simp [hl] at h
  | some p =>
    have hw : p.within N := hT.2 id (List.mem_cons_self _ _) p hl
    have hw1 : p.step.2.within (N + 1) := PCB.step_within p N (hsd id p hl).1 hw
    simp only [hl] at h
    split at h
    · split at h
      · rename_i hem
        simp only [Option.some.injEq, Prod.mk.injEq] at h
        obtain ⟨hb, hsys⟩ := h
        subst hb hsys
        refine ⟨(hT0.on_store id p.step.2 hw1 (fun hx => absurd hx hnot)).on_erase id, ?_⟩
        intro q hq
        rcases List.mem_append.mp hq with hq | hq
        · exact hR q hq
        · rw [List.mem_singleton] at hq
          rw [hq]
          unfold PCB.within at hw1
          rw [(PCB.empty_iff _).mp hem] at hw1
          simp only [List.sum_nil] at hw1
          omega
      · cases hpush : sys.ready.push id p.step.2.prio with
        | none => simp [hpush] at h
        | some rq =>
          simp only [hpush, Option.some.injEq, Prod.mk.injEq] at h
          obtain ⟨hb, hsys⟩ := h
          subst hb hsys
          exact ⟨hT0.on_store id { p.step.2 with state := ProcessState.ready } hw1
            (fun hx => absurd hx hnot), hR⟩
    · simp only [Option.some.injEq, Prod.mk.injEq] at h
      obtain ⟨hb, hsys⟩ := h
      subst hb hsys
      exact ⟨hT0.on_store id p.step.2 hw1 (fun hx => absurd hx hnot), hR⟩

theorem System.blockedLoop_timely (N : Nat) : ∀ (todo kept : List Nat) (sys sys1 : System),
    System.blockedLoop kept todo sys = some sys1 →
    Placed sys.PCB_table (boundIds sys.cpus ++ (sys.ready.ids ++ (kept ++ todo))) →
    Roles sys.cpus sys.PCB_table sys.ready (kept ++ todo) → Finished sys.retired →
    Timely N sys.PCB_table todo → RetiredBy (N + 1) sys.retired →
    (∀ k p, sys1.PCB_table.lookup k = some p → p.within (N + 1)) ∧
      RetiredBy (N + 1) sys1.retired := by
  intro todo
  induction todo with
  | nil =>
    intro kept sys sys1 h _ _ _ hT hR
    simp only [System.blockedLoop, Option.some.injEq] at h
    subst h
    exact ⟨hT.1, hR⟩
  | cons id todo ih =>
    intro kept sys sys1 h hp hr hfin hT hR
    simp only [System.blockedLoop] at h
    cases hb : sys.blockedBody id with
    | none => simp [hb] at h
    | some res =>
      obtain ⟨b, sys2⟩ := res
      simp only [hb] at h
      have hp1 : Placed sys.PCB_table
          (id :: ((boundIds sys.cpus ++ (kept ++ todo)) ++ sys.ready.ids)) := by
        apply hp.of_perm
        rw [← Multiset.coe_eq_coe]
        simp only [← Multiset.coe_add, ← Multiset.cons_coe, ← Multiset.singleton_add]
        abel
      have hr1 : Roles sys.cpus sys.PCB_table sys.ready (id :: (kept ++ todo)) := by
        apply hr.with_blocked
        intro k hk
        left
        simp only [List.mem_cons, List.mem_append] at hk ⊢
        tauto
      have hnot : id ∉ todo := by
        have h1 := nodup_head_not_mem hp1.ids_nodup
        simp only [List.mem_append, not_or] at h1
        exact h1.1.2.2
      obtain ⟨hp2, hc2⟩ := System.blockedBody_layout sys id b sys2 _ hb hp1
      obtain ⟨hr2, hfin2⟩ := System.blockedBody_roles sys id b sys2 sys.cpus _ hb hp1 hr1 hfin
      obtain ⟨hT2, hR2⟩ := System.blockedBody_timely sys id b sys2 todo N hb hr.1 hT hnot hR
      apply ih _ sys2 sys1 h
      · apply hp2.of_perm
        rw [hc2, ← Multiset.coe_eq_coe]
        cases b
        · simp only [Bool.false_eq_true, if_false, ← Multiset.coe_add, ← Multiset.cons_coe,
            ← Multiset.singleton_add, Multiset.coe_nil, Multiset.cons_zero]
          abel
        · simp only [if_true, ← Multiset.coe_add, Multiset.coe_nil]
          abel
      · rw [hc2]
        apply hr2.with_blocked
        intro k hk
        left
        cases b
        · simp only [Bool.false_eq_true, if_false, List.mem_append, List.mem_singleton,
            List.mem_cons, List.not_mem_nil, or_false] at hk ⊢
          tauto
        · simp only [if_true, List.nil_append, List.mem_append] at hk ⊢
          exact hk
      · exact hfin2
      · exact hT2
      · exact hR2

theorem System.readyLoop_timely (M : Nat) : ∀ (ids : List Nat) (sys sys1 : System),
    System.readyLoop ids sys = some sys1 →
    (∀ id ∈ ids, ∀ p, sys.PCB_table.lookup id = some p → p.state = ProcessState.ready) →
    (∀ k p, sys.PCB_table.lookup k = some p → p.within M) →
    ∀ k p, sys1.PCB_table.lookup k = some p → p.within M := by
  intro ids
  induction ids with
  | nil =>
    intro sys sys1 h _ hw
    simp only [System.readyLoop, Option.some.injEq] at h
    subst h
    exact hw
  | cons id todo ih =>
    intro sys sys1 h hst hw
    simp only [System.readyLoop] at h
    cases hl : sys.PCB_table.lookup id with
    | none => simp [hl] at h
    | some p =>
      simp only [hl] at h
      have hready : p.state = ProcessState.ready := hst id (List.mem_cons_self _ _) p hl
      have hlk : ∀ k q, (sys.PCB_table.store id p.step.2).lookup k = some q →
          (q = p.step.2) ∨ sys.PCB_table.lookup k = some q := by
        intro k q hq
        rw [PCBTable.lookup_store_eq] at hq
        by_cases hk : k = id
        · rw [if_pos hk, hk, hl] at hq
          simp only [Option.map_some', Option.some.injEq] at hq
          exact Or.inl hq.symm
        · rw [if_neg hk] at hq
          exact Or.inr hq
      apply ih { sys with PCB_table := sys.PCB_table.store id p.step.2 } sys1 h
      · intro i hi q hq
        rcases hlk i q hq with h1 | h1
        · rw [h1, PCB.step_state]
          exact hready
        · exact hst i (List.mem_cons_of_mem _ hi) q h1
      · intro k q hq
        rcases hlk k q hq with h1 | h1
        · rw [h1]
          exact PCB.step_within_inactive p M (hw id p hl) (Or.inl hready)
        · exact hw k q h1

theorem PCB.init_within (pi : ProcessInit) (s M : Nat) : (PCB.init pi s).within M := by
  unfold PCB.within
  show pi.bursts.bursts.sum ≤ pi.bursts.bursts.sum + M
  omega

theorem System.addProcess_timely (M : Nat) (sys : System) (pi : ProcessInit) (s : Nat)
    (sys1 : System) (h : sys.addProcess pi s = some sys1)
    (hw : ∀ k p, sys.PCB_table.lookup k = some p → p.within M) :
    (∀ k p, sys1.PCB_table.lookup k = some p → p.within M) ∧ sys1.retired = sys.retired := by
  have hem : ∀ k p, (sys.PCB_table.emplace pi.id (PCB.init pi s)).lookup k = some p →
      p.within M := by
    intro k p hl
    rcases PCBTable.lookup_emplace_cases _ _ _ _ _ hl with h1 | h1
    · rw [h1]; exact PCB.init_within pi s M
    · exact hw k p h1
  unfold System.addProcess at h
  simp only at h
  split at h
  · cases hpush : sys.ready.push pi.id pi.prio with
    | none => simp [hpush] at h
    | some rq =>
      simp only [hpush, Option.some.injEq] at h
      subst h
      exact ⟨hem, rfl⟩
  · cases hl : (sys.PCB_table.emplace pi.id (PCB.init pi s)).lookup pi.id with
    | none => simp [hl] at h
    | some p =>
      simp only [hl, Option.some.injEq] at h
      subst h
      refine ⟨?_, rfl⟩
      intro k x hx
      change ((sys.PCB_table.emplace pi.id (PCB.init pi s)).store pi.id _).lookup k = some x at hx
      rw [PCBTable.lookup_store_eq] at hx
      by_cases hk : k = pi.id
      · rw [if_pos hk, hk, hl] at hx
        simp only [Option.map_some', Option.some.injEq] at hx
        rw [← hx]
        exact hem pi.id p hl
      · rw [if_neg hk] at hx
        exact hem k x hx

theorem System.arrivalLoop_timely (M s : Nat) :
    ∀ (todo kept : List (Timer ProcessInit)) (sys sys1 : System),
    System.arrivalLoop s kept todo sys = some sys1 →
    (∀ k p, sys.PCB_table.lookup k = some p → p.within M) →
    (∀ k p, sys1.PCB_table.lookup k = some p → p.within M) ∧ sys1.retired = sys.retired := by
  intro todo
  induction todo with
  | nil =>
    intro kept sys sys1 h hw
    simp only [System.arrivalLoop, Option.some.injEq] at h
    subst h
    exact ⟨hw, rfl⟩
  | cons t todo ih =>
    intro kept sys sys1 h hw
    simp only [System.arrivalLoop] at h
    cases hts : t.step with
    | none => simp [hts] at h
    | some tr =>
      simp only [hts] at h
      split at h
      · cases ha : sys.addProcess tr.2.getData s with
        | none => simp [ha] at h
        | some sys2 =>
          simp only [ha] at h
          obtain ⟨h1, h2⟩ := System.addProcess_timely M sys _ s sys2 ha hw
          obtain ⟨r1, r2⟩ := ih kept sys2 sys1 h h1
          exact ⟨r1, r2.trans h2⟩
      · exact ih _ sys sys1 h hw

/-! ### Burst ticks against the clock: a round and a run -/

/-- After the round of clock `s`, no record has lost more than `s + 1` burst
ticks: a round takes at most one tick off the bursts of a process. -/
theorem System.tick_ontime (sys : System) (s : Nat) (sys1 : System)
    (h : sys.tick s = some sys1) (hl : sys.Layout) (hs : sys.Sound) (ho : sys.OnTime s) :
    sys1.OnTime (s + 1) := by
  obtain ⟨hp, ht, hnd, hnone⟩ := hl
  obtain ⟨hr, hfin, hv⟩ := hs
  obtain ⟨hw, hret⟩ := ho
  have hT : Timely s sys.PCB_table (boundIds sys.cpus ++ (sys.ready.ids ++ sys.blocked)) :=
    ⟨fun k p hl => PCB.within_mono _ _ _ (Nat.le_succ s) (hw k p hl), fun k _ p hl => hw k p hl⟩
  have hR : RetiredBy (s + 1) sys.retired := fun p hp => Nat.le_succ_of_le (hret p hp)
  unfold System.tick at h
  cases h1 : sys.cpuPass with
  | none => simp [h1] at h
  | some sysa =>
    simp only [h1] at h
    cases h2 : sysa.blockedPass with
    | none => simp [h2] at h
    | some sysb =>
      simp only [h2] at h
      cases h3 : sysb.readyPass with
      | none => simp [h3] at h
      | some sysc =>
        simp only [h3] at h
        have h3a : System.readyLoop sysb.ready.ids sysb = some sysc := by
          unfold System.readyPass at h3
          rw [ReadyPriorityQueue.visited_eq] at h3
          exact h3
        obtain ⟨_, t1, _⟩ := System.cpuLoop_evolves _ _ _ _ h1
        obtain ⟨_, t2, _⟩ := System.blockedLoop_evolves _ _ _ _ h2
        obtain ⟨_, t3, _⟩ := System.readyLoop_evolves _ _ _ h3a
        obtain ⟨hta, hpa⟩ := System.cpuPass_layout sys sysa h1 ht hp
        obtain ⟨hra, hfa⟩ := System.cpuLoop_roles sys.cpus [] sys sysa h1 ht hp hr hfin
        obtain ⟨hTa, hRa⟩ := System.cpuLoop_timely s sys.cpus [] sys sysa h1 ht hp hr hfin hT hR
        obtain ⟨hpb, hcb⟩ := System.blockedLoop_layout sysa.blocked [] sysa sysb h2 hpa
        obtain ⟨hrb, hfb⟩ := System.blockedLoop_roles sysa.blocked [] sysa sysb h2 hpa hra hfa
        obtain ⟨hwb, hRb⟩ := System.blockedLoop_timely s sysa.blocked [] sysa sysb h2 hpa hra
          hfa (hTa.with_fresh (fun k hk => Or.inl (List.mem_append_right _ hk))) hRa
        obtain ⟨_, hfc⟩ := System.readyLoop_roles _ sysb sysc h3a (fun _ hx => hx) hpb hrb
        have hwc := System.readyLoop_timely (s + 1) _ sysb sysc h3a
          (fun id hid p hlp => (hrb.2.2.1 id hid p hlp).1) hwb
        unfold System.arrivalPass at h
        obtain ⟨hw1, hret1⟩ := System.arrivalLoop_timely (s + 1) s _ [] sysc sys1 h hwc
        refine ⟨hw1, ?_⟩
        rw [hret1, hfc]
        exact hRb

theorem System.loop_ontime : ∀ (fuel s : Nat) (sys : System) (r : System × Nat),
    System.loop fuel s sys = some r → sys.Layout → sys.Sound → sys.OnTime s →
    r.1.OnTime r.2 := by
  intro fuel
  induction fuel with
  | zero =>
    intro s sys r h _ _ ho
    simp only [System.loop, Option.some.injEq] at h
    subst h
    exact ho
  | succ fuel ih =>
    intro s sys r h hl hs ho
    rw [System.loop] at h
    by_cases hr : sys.running s = true
    · rw [if_pos hr] at h
      cases ht : sys.tick s with
      | none => simp [ht] at h
      | some sys1 =>
        simp only [ht] at h
        exact ih (s + 1) sys1 r h (System.tick_layout sys s sys1 ht hl)
          (System.tick_sound sys s sys1 ht hl hs) (System.tick_ontime sys s sys1 ht hl hs ho)
    · rw [if_neg hr] at h
      simp only [Option.some.injEq] at h
      subst h
      exact ho

/-! ### The account of a retired process, exactly -/

theorem History.foldl_durationOf_lt {E : Type} [DecidableEq E] (s : E) :
    ∀ (l : List (Period E)) (acc : Nat), acc < STEP_MOD →
      l.foldl (fun sum p => if p.state = s then (sum + p.duration) % STEP_MOD else sum) acc
        < STEP_MOD := by
  intro l
  induction l with
  | nil =>
    intro acc h
    exact h
  | cons p l ih =>
    intro acc h
    rw [List.foldl_cons]
    apply ih
    split
    · exact Nat.mod_lt _ (by decide)
    · exact h

theorem History.durationOf_lt {E : Type} [DecidableEq E] (h : History E) (s : E) :
    h.durationOf s < STEP_MOD :=
  History.foldl_durationOf_lt s h.trace 0 (by decide)

theorem cpuKindSum_add (l : List Nat) :
    ∀ f : Bool, cpuKindSum f l + ioKindSum f l = l.sum := by
  induction l with
  | nil =>
    intro f
    simp [ioKindSum, cpuKindSum_nil]
  | cons x xs ih =>
    intro f
    have h1 := ih true
    have h2 := ih false
    simp only [ioKindSum, Bool.not_true, Bool.not_false] at h1 h2
    simp only [ioKindSum, cpuKindSum_cons, Bool.not_not, List.sum_cons]
    cases f <;> simp <;> omega

theorem System.startTimers_ontime (sett : SystemSettings) (plans : List ProcessPlan) :
    ((System.init sett).startTimers plans).OnTime 0 := by
  refine ⟨?_, ?_⟩
  · intro k p hl
    cases hl
  · intro p hp
    cases hp

/-- Every process retired by a run on a valid workload belongs to a plan of
the workload, and its trace holds exactly the CPU-kind total of the plan in
state running and exactly the I/O-kind total in state blocked. -/
theorem System.simulate_retired (sett : SystemSettings) (plans : List ProcessPlan)
    (hids : (plans.map fun p => p.init.id).Nodup)
    (hv : ∀ pl ∈ plans, pl.init.bursts.bursts ≠ [] ∧ pl.init.bursts.valid)
    (r : System × Nat) (h : System.simulate (System.init sett) plans = some r) :
    ∀ p ∈ r.1.retired, p.fromPlan plans ∧
      p.stats.hist.durationOf ProcessState.running =
        cpuKindSum p.stats.plan.processing p.stats.plan.bursts ∧
      p.stats.hist.durationOf ProcessState.blocked =
        ioKindSum p.stats.plan.processing p.stats.plan.bursts := by
  intro p hp
  have hl0 := System.startTimers_layout sett plans hids
  have hs0 := System.startTimers_sound sett plans hv
  obtain ⟨_, hsd⟩ := System.loop_sound STEP_MAX 0 _ r h hl0 hs0
  have hk := System.loop_keeps (PCB.fromPlan plans) (PCB.fromPlan_moves plans) STEP_MAX 0 _ r h
    (System.startTimers_fromPlan sett plans)
  have ho := System.loop_ontime STEP_MAX 0 _ r h hl0 hs0 (System.startTimers_ontime sett plans)
  obtain ⟨hclock, _⟩ := System.loop_stops STEP_MAX 0 _ r h (Nat.zero_add _)
  obtain ⟨hempty, _, hacc⟩ := hsd.2.1 p hp
  have hsum : p.stats.plan.bursts.sum ≤ STEP_MAX := le_trans (ho.2 p hp) hclock
  have hadd := cpuKindSum_add p.stats.plan.bursts p.stats.plan.processing
  have hr := History.durationOf_lt p.stats.hist ProcessState.running
  have hb := History.durationOf_lt p.stats.hist ProcessState.blocked
  obtain ⟨a1, a2⟩ := hacc
  rw [hempty] at a1 a2
  simp only [ioKindSum, cpuKindSum_nil, Nat.add_zero] at a1 a2
  simp only [ioKindSum] at hadd
  have hmax : STEP_MAX < STEP_MOD := by decide
  refine ⟨hk.2.1 p hp, ?_, ?_⟩
  · rw [Nat.mod_eq_of_lt hr, Nat.mod_eq_of_lt (by omega)] at a1
    exact a1
  · rw [Nat.mod_eq_of_lt hb, Nat.mod_eq_of_lt (by omega)] at a2
    exact a2

/-- C13: in a run that returns on a workload with distinct ids whose plans are
non-empty sequences of positive bursts (each within the range of `Step`), every
retired process is the process of a plan of the workload, and its trace holds
in state running exactly the sum of the CPU-kind bursts of that plan and in
state blocked exactly the sum of its I/O-kind bursts (sums over the naturals,
no wrap-around): every burst tick is recorded once, in the state of its kind. -/
theorem System.burst_ticks_recorded (sett : SystemSettings) (plans : List ProcessPlan)
    (hids : (plans.map fun p => p.init.id).Nodup)
    (hv : ∀ pl ∈ plans, pl.init.bursts.bursts ≠ [] ∧
      ∀ x ∈ pl.init.bursts.bursts, 1 ≤ x ∧ x < STEP_MOD)
    (r : System × Nat) (h : System.simulate (System.init sett) plans = some r) :
    ∀ p ∈ r.1.retired, ∃ pl ∈ plans, pl.init.id = p.id ∧ p.stats.plan = pl.init.bursts ∧
      p.stats.hist.durationOf ProcessState.running =
        cpuKindSum pl.init.bursts.processing pl.init.bursts.bursts ∧
      p.stats.hist.durationOf ProcessState.blocked =
        ioKindSum pl.init.bursts.processing pl.init.bursts.bursts := by
  intro p hp
  obtain ⟨⟨pl, hpl, hid, hplan⟩, h1, h2⟩ := System.simulate_retired sett plans hids hv r h p hp
  refine ⟨pl, hpl, hid, hplan, ?_, ?_⟩
  · rw [← hplan]
    exact h1
  · rw [← hplan]
    exact h2

theorem System.burst_ticks_recorded_witness :
    ((scenarioA 1).map fun p => p.init.id).Nodup ∧
    (∀ pl ∈ scenarioA 1, pl.init.bursts.bursts ≠ [] ∧
      ∀ x ∈ pl.init.bursts.bursts, 1 ≤ x ∧ x < STEP_MOD) ∧
    ∃ r, System.simulate (System.init (oneUnit 0 1 1)) (scenarioA 1) = some r ∧
      r.1.retired.length = 1 ∧
      ∀ p ∈ r.1.retired, ∃ pl ∈ scenarioA 1, pl.init.id = p.id ∧
        p.stats.plan = pl.init.bursts ∧
        p.stats.hist.durationOf ProcessState.running =
          cpuKindSum pl.init.bursts.processing pl.init.bursts.bursts ∧
        p.stats.hist.durationOf ProcessState.blocked =
          ioKindSum pl.init.bursts.processing pl.init.bursts.bursts := by
  refine ⟨by decide, by decide, ?_⟩
  have hs : (System.simulate (System.init (oneUnit 0 1 1)) (scenarioA 1)).isSome = true := by
    decide
  have hlen : (System.simulate (System.init (oneUnit 0 1 1)) (scenarioA 1)).map
      (fun r => r.1.retired.length) = some 1 := by
    decide
  obtain ⟨r, hr⟩ := Option.isSome_iff_exists.mp hs
  rw [hr] at hlen
  exact ⟨r, hr, by simpa using hlen,
    System.burst_ticks_recorded (oneUnit 0 1 1) (scenarioA 1) (by decide) (by decide) r hr⟩

/-! ### The total of a trace -/

theorem History.foldl_duration {E : Type} :
    ∀ (l : List (Period E)) (acc : Nat), acc < STEP_MOD →
      l.foldl (fun sum p => (sum + p.duration) % STEP_MOD) acc =
        (acc + (l.map fun p => p.duration).sum) % STEP_MOD := by
  intro l
  induction l with
  | nil =>
    intro acc h
    simp [Nat.mod_eq_of_lt h]
  | cons p l ih =>
    intro acc h
    rw [List.foldl_cons, ih _ (Nat.mod_lt _ (by decide)), List.map_cons, List.sum_cons]
    unfold STEP_MOD
    omega

theorem History.foldl_durationOf {E : Type} [DecidableEq E] (s : E) :
    ∀ (l : List (Period E)) (acc : Nat), acc < STEP_MOD →
      l.foldl (fun sum p => if p.state = s then (sum + p.duration) % STEP_MOD else sum) acc =
        (acc + ((l.filter fun p => decide (p.state = s)).map fun p => p.duration).sum)
          % STEP_MOD := by
  intro l
  induction l with
  | nil =>
    intro acc h
    simp [Nat.mod_eq_of_lt h]
  | cons p l ih =>
    intro acc h
    rw [List.foldl_cons]
    by_cases hp : p.state = s
    · rw [if_pos hp, ih _ (Nat.mod_lt _ (by decide)), List.filter_cons_of_pos (by simpa using hp),
        List.map_cons, List.sum_cons]
      unfold STEP_MOD
      omega
    · rw [if_neg hp, ih _ h, List.filter_cons_of_neg (by simpa using hp)]

/-- The durations of a process trace, summed over the naturals, split by
state. -/
theorem Period.sum_by_state (l : List (Period ProcessState)) :
    (l.map fun p => p.duration).sum =
      ((l.filter fun p => decide (p.state = ProcessState.running)).map fun p => p.duration).sum +
      ((l.filter fun p => decide (p.state = ProcessState.blocked)).map fun p => p.duration).sum +
      ((l.filter fun p => decide (p.state = ProcessState.ready)).map fun p => p.duration).sum +
      ((l.filter fun p => decide (p.state = ProcessState.switching)).map fun p => p.duration).sum +
      ((l.filter fun p => decide (p.state = ProcessState.exit)).map fun p => p.duration).sum := by
  induction l with
  | nil => rfl
  | cons p l ih =>
    rw [List.map_cons, List.sum_cons, ih]
    cases hp : p.state <;> simp [List.filter_cons, hp] <;> omega

/-- The total duration of a process trace is the `Step` sum of its totals in
the five states. -/
theorem History.duration_split (h : History ProcessState) :
    h.duration =
      (h.durationOf ProcessState.running + h.durationOf ProcessState.blocked +
        h.durationOf ProcessState.ready + h.durationOf ProcessState.switching +
        h.durationOf ProcessState.exit) % STEP_MOD := by
  have h0 : 0 < STEP_MOD := by decide
  unfold History.duration History.durationOf
  rw [History.foldl_duration _ 0 h0, History.foldl_durationOf _ _ 0 h0,
    History.foldl_durationOf _ _ 0 h0, History.foldl_durationOf _ _ 0 h0,
    History.foldl_durationOf _ _ 0 h0, History.foldl_durationOf _ _ 0 h0,
    Period.sum_by_state h.trace]
  unfold STEP_MOD
  omega

/-- C12 as stated fails.  Scenario A (FCFS, delays 1, arrival 1): the retired
process has turnaround 12, while its plan total plus its time in ready, blocked
and switching is 10 + (0 + 3 + 1) = 14: the blocked ticks are burst ticks and
are counted twice, and the exit tick is left out.  Scenario B (quantum 2): no
process blocks, and the formula of the claim is one short of the turnaround
for both processes (18 against 19, 21 against 22): the exit tick. -/
theorem System.turnaround_not_plan_plus_three :
    (System.simulate (System.init (oneUnit 0 1 1)) (scenarioA 1)).map
      (fun r => r.1.retired.map fun p =>
        (p.stats.getTurnaround,
         p.stats.plan.bursts.sum + (p.stats.hist.durationOf ProcessState.ready +
           p.stats.hist.durationOf ProcessState.blocked +
           p.stats.hist.durationOf ProcessState.switching)))
      = some [(12, 14)] ∧
    (System.simulate (System.init (oneUnit 2 1 1)) (scenarioB 1)).map
      (fun r => r.1.retired.map fun p =>
        (p.stats.getTurnaround,
         p.stats.plan.bursts.sum + (p.stats.hist.durationOf ProcessState.ready +
           p.stats.hist.durationOf ProcessState.blocked +
           p.stats.hist.durationOf ProcessState.switching)))
      = some [(19, 18), (22, 21)] := by
  decide

/-- C12 (amended): in a run that returns on a workload with distinct ids whose
plans are non-empty sequences of positive bursts, every retired process is the
process of a plan of the workload and its turnaround (the total duration of its
trace) is, in `Step` arithmetic, the sum of all bursts of that plan plus
`getWait()`, the trace time in states ready, switching and exit; the time in
state blocked is part of the plan total and is not added again. -/
theorem System.turnaround_conserved (sett : SystemSettings) (plans : List ProcessPlan)
    (hids : (plans.map fun p => p.init.id).Nodup)
    (hv : ∀ pl ∈ plans, pl.init.bursts.bursts ≠ [] ∧
      ∀ x ∈ pl.init.bursts.bursts, 1 ≤ x ∧ x < STEP_MOD)
    (r : System × Nat) (h : System.simulate (System.init sett) plans = some r) :
    ∀ p ∈ r.1.retired, ∃ pl ∈ plans, pl.init.id = p.id ∧ p.stats.plan = pl.init.bursts ∧
      p.stats.getTurnaround = (pl.init.bursts.bursts.sum + p.stats.getWait) % STEP_MOD ∧
      p.stats.getWait =
        (p.stats.hist.durationOf ProcessState.ready +
          p.stats.hist.durationOf ProcessState.switching +
          p.stats.hist.durationOf ProcessState.exit) % STEP_MOD := by
  intro p hp
  obtain ⟨⟨pl, hpl, hid, hplan⟩, h1, h2⟩ := System.simulate_retired sett plans hids hv r h p hp
  have hadd := cpuKindSum_add p.stats.plan.bursts p.stats.plan.processing
  have hsplit := History.duration_split p.stats.hist
  refine ⟨pl, hpl, hid, hplan, ?_, ?_⟩
  · rw [← hplan]
    unfold ProcessStats.getTurnaround ProcessStats.getWait
    rw [hsplit, h1, h2]
    unfold STEP_MOD
    omega
  · unfold ProcessStats.getWait STEP_MOD
    omega

theorem System.turnaround_conserved_witness :
    ((scenarioB 1).map fun p => p.init.id).Nodup ∧
    (∀ pl ∈ scenarioB 1, pl.init.bursts.bursts ≠ [] ∧
      ∀ x ∈ pl.init.bursts.bursts, 1 ≤ x ∧ x < STEP_MOD) ∧
    ∃ r, System.simulate (System.init (oneUnit 2 1 1)) (scenarioB 1) = some r ∧
      r.1.retired.length = 2 ∧
      ∀ p ∈ r.1.retired, ∃ pl ∈ scenarioB 1, pl.init.id = p.id ∧
        p.stats.plan = pl.init.bursts ∧
        p.stats.getTurnaround = (pl.init.bursts.bursts.sum + p.stats.getWait) % STEP_MOD ∧
        p.stats.getWait =
          (p.stats.hist.durationOf ProcessState.ready +
            p.stats.hist.durationOf ProcessState.switching +
            p.stats.hist.durationOf ProcessState.exit) % STEP_MOD := by
  refine ⟨by decide, by decide, ?_⟩
  have hs : (System.simulate (System.init (oneUnit 2 1 1)) (scenarioB 1)).isSome = true := by
    decide
  have hlen : (System.simulate (System.init (oneUnit 2 1 1)) (scenarioB 1)).map
      (fun r => r.1.retired.length) = some 2 := by
    decide
  obtain ⟨r, hr⟩ := Option.isSome_iff_exists.mp hs
  rw [hr] at hlen
  exact ⟨r, hr, by simpa using hlen,
    System.turnaround_conserved (oneUnit 2 1 1) (scenarioB 1) (by decide) (by decide) r hr⟩

/-! ### The trace as a run-length encoding -/

theorem History.record_concat {E : Type} [DecidableEq E] (l : List E) (x : E) :
    History.record (l ++ [x]) = (History.record l).inc x := by
  simp [History.record, List.foldl_append]

theorem History.expand_concat {E : Type} (l : List (Period E)) (b : Period E) :
    History.expand { trace := l ++ [b] } =
      History.expand { trace := l } ++ List.replicate b.duration b.state := by
  simp [History.expand]

/-- The history after `n ≥ 1` calls `inc(s)`: one period, whose duration is `n`
in `Step` arithmetic. -/
theorem History.record_replicate {E : Type} [DecidableEq E] (s : E) :
    ∀ n : Nat, 1 ≤ n → History.record (List.replicate n s) =
      { trace := [{ state := s, duration := n % STEP_MOD }] } := by
  intro n
  induction n with
  | zero =>
    intro h
    omega
  | succ n ih =>
    intro _
    rcases Nat.eq_zero_or_pos n with h0 | hpos
    · subst h0
      rfl
    · rw [List.replicate_succ', History.record_concat, ih hpos]
      simp only [History.inc, History.push, List.getLast?_singleton, ne_eq, not_true_eq_false,
        if_false, List.dropLast_single, List.nil_append, Nat.mod_add_mod]

/-- C22 as stated fails: the duration of a period is a `Step` and wraps.
After `2^32` calls `inc(running)` on an empty history the trace is the single
period `(running, 0)`: its duration is not at least 1, and its expansion is
empty, not the call sequence. -/
theorem History.record_wraps :
    History.record (List.replicate STEP_MOD ProcessState.running) =
      { trace := [{ state := ProcessState.running, duration := 0 }] } ∧
    (History.record (List.replicate STEP_MOD ProcessState.running)).expand = [] := by
  have h1 : 1 ≤ STEP_MOD := Nat.le_of_ble_eq_true rfl
  have h := History.record_replicate ProcessState.running STEP_MOD h1
  rw [Nat.mod_self] at h
  constructor
  · exact h
  · rw [h]
    rfl

/-- C22 (amended): for every sequence of `inc(state)` calls on an empty history
in which no state comes `2^32` or more times in a row, the trace is the
run-length encoding of the sequence: expanding each period into `duration`
copies of its state gives back the call sequence, no two adjacent periods have
the same state, and every duration is at least 1 (and below `2^32`). -/
theorem History.inc_run_length {E : Type} [DecidableEq E] (calls : List E)
    (hrun : ∀ s, ¬ List.IsInfix (List.replicate STEP_MOD s) calls) :
    (History.record calls).expand = calls ∧
    List.Chain' (fun a b => a.state ≠ b.state) (History.record calls).trace ∧
    ∀ p ∈ (History.record calls).trace, 1 ≤ p.duration ∧ p.duration < STEP_MOD := by
  induction calls using List.reverseRecOn with
  | nil =>
    refine ⟨rfl, List.chain'_nil, ?_⟩
    intro p hp
    cases hp
  | append_singleton l x ih =>
    have hl : ∀ s, ¬ List.IsInfix (List.replicate STEP_MOD s) l :=
      fun s h => hrun s (h.trans (List.prefix_append l [x]).isInfix)
    obtain ⟨hexp, hchain, hdur⟩ := ih hl
    rw [History.record_concat]
    rcases History.inc_cases (History.record l) x with
      ⟨hold, hnew⟩ | ⟨t, b, hold, hbs, hnew⟩ | ⟨t, b, hold, hbs, hnew⟩
    · have hnil : l = [] := by
        rw [← hexp, History.expand, hold]
        rfl
      refine ⟨?_, ?_, ?_⟩
      · rw [History.expand, hnew, hnil]
        rfl
      · rw [hnew]
        exact List.chain'_singleton _
      · intro p hp
        rw [hnew, List.mem_singleton] at hp
        rw [hp]
        exact ⟨le_refl _, (by decide : 1 < STEP_MOD)⟩
    · have hb := hdur b (by rw [hold]; simp)
      have hexp1 : History.expand { trace := t } ++ List.replicate b.duration x = l := by
        rw [← hexp, ← hbs, ← History.expand_concat, ← hold]
      have hlt : b.duration + 1 < STEP_MOD := by
        by_contra hge
        have hd : b.duration + 1 = STEP_MOD := by omega
        apply hrun x
        refine ⟨History.expand { trace := t }, [], ?_⟩
        rw [List.append_nil, ← hd, List.replicate_succ', ← List.append_assoc, hexp1]
      refine ⟨?_, ?_, ?_⟩
      · have he : (History.record l).inc x = { trace := (History.record l).inc x |>.trace } := rfl
        rw [he, hnew, History.expand_concat]
        simp only
        rw [Nat.mod_eq_of_lt hlt, List.replicate_succ', ← List.append_assoc, hexp1]
      · rw [hnew, chain_concat_iff]
        rw [hold, chain_concat_iff] at hchain
        refine ⟨hchain.1, ?_⟩
        intro y hy
        have := hchain.2 y hy
        rw [hbs] at this
        exact this
      · intro p hp
        rw [hnew, List.mem_append, List.mem_singleton] at hp
        rcases hp with hp | hp
        · exact hdur p (by rw [hold]; exact List.mem_append_left _ hp)
        · rw [hp]
          simp only
          rw [Nat.mod_eq_of_lt hlt]
          exact ⟨by omega, hlt⟩
    · have hold1 : History.record l = { trace := t ++ [b] } := by
        rw [← hold]
      refine ⟨?_, ?_, ?_⟩
      · have he : (History.record l).inc x = { trace := (History.record l).inc x |>.trace } := rfl
        rw [he, hnew, History.expand_concat, ← hold, hexp]
        rfl
      · rw [hnew, chain_concat_iff]
        refine ⟨by rw [← hold]; exact hchain, ?_⟩
        intro y hy
        rw [List.getLast?_concat, Option.some.injEq] at hy
        rw [← hy]
        exact hbs
      · intro p hp
        rw [hnew, List.mem_append, List.mem_singleton] at hp
        rcases hp with hp | hp
        · exact hdur p (by rw [hold]; exact hp)
        · rw [hp]
          exact ⟨le_refl _, (by decide : 1 < STEP_MOD)⟩

theorem History.inc_run_length_witness :
    (∀ s, ¬ List.IsInfix (List.replicate STEP_MOD s)
      [ProcessState.ready, ProcessState.ready, ProcessState.running, ProcessState.ready]) ∧
    (History.record
      [ProcessState.ready, ProcessState.ready, ProcessState.running, ProcessState.ready]).trace =
      [{ state := ProcessState.ready, duration := 2 },
       { state := ProcessState.running, duration := 1 },
       { state := ProcessState.ready, duration := 1 }] ∧
    (History.record
      [ProcessState.ready, ProcessState.ready, ProcessState.running, ProcessState.ready]).expand =
      [ProcessState.ready, ProcessState.ready, ProcessState.running, ProcessState.ready] :=
  have hrun : ∀ s, ¬ List.IsInfix (List.replicate STEP_MOD s)
      [ProcessState.ready, ProcessState.ready, ProcessState.running, ProcessState.ready] := by
    intro s h
    have hlen := h.length_le
    rw [List.length_replicate] at hlen
    exact absurd hlen (by decide)
  ⟨hrun, by decide, (History.inc_run_length _ hrun).1⟩

/-! ### Iterating a ready queue and draining it -/

theorem ReadyPriorityQueue.drain_all {T : Type} : ∀ (fuel : Nat) (q : ReadyPriorityQueue T),
    q.ids.length ≤ fuel → ReadyPriorityQueue.drain fuel q = some q.ids := by
  intro fuel
  induction fuel with
  | zero =>
    intro q hlen
    have hnil : q.ids = [] := List.eq_nil_of_length_eq_zero (by omega)
    rw [ReadyPriorityQueue.drain, (ReadyPriorityQueue.empty_iff_ids q).mpr hnil, hnil]
    rfl
  | succ fuel ih =>
    intro q hlen
    rw [ReadyPriorityQueue.drain]
    cases he : q.empty with
    | true =>
      rw [(ReadyPriorityQueue.empty_iff_ids q).mp he]
      rfl
    | false =>
      obtain ⟨x, q1, hf, hp, hids, _⟩ := ReadyPriorityQueue.front_pop_ids q he
      have hlen1 : q1.ids.length ≤ fuel := by
        rw [hids, List.length_cons] at hlen
        omega
      simp only [hf, hp, ih q1 hlen1, hids]
      rfl

theorem System.readyLoop_ready : ∀ (ids : List Nat) (sys sys1 : System),
    System.readyLoop ids sys = some sys1 →
    sys1.ready = sys.ready ∧ sys1.blocked = sys.blocked ∧ sys1.cpus = sys.cpus := by
  intro ids
  induction ids with
  | nil =>
    intro sys sys1 h
    simp only [System.readyLoop, Option.some.injEq] at h
    subst h
    exact ⟨rfl, rfl, rfl⟩
  | cons id todo ih =>
    intro sys sys1 h
    simp only [System.readyLoop] at h
    cases hl : sys.PCB_table.lookup id with
    | none => simp [hl] at h
    | some p =>
      simp only [hl] at h
      exact ih { sys with PCB_table := sys.PCB_table.store id p.step.2 } sys1 h

/-- C29: iterating a ready queue from `begin()` to `end()` succeeds and visits
exactly the ids that repeated `front()`/`pop()` until `empty()` yields, in the
same order, namely the contents of the queues from bucket 0 upward, each bucket
front first; it visits nothing when the queue is empty; and the iteration works
on the iterator's own copy of the queues: the loop over the ready queue in
`System::simulate` leaves the ready queue as it was. -/
theorem ReadyPriorityQueue.iteration_is_drain {T : Type} (q : ReadyPriorityQueue T) :
    q.visited = q.drained ∧ q.visited = some q.queues.flatten ∧
    (q.empty = true → q.visited = some []) ∧
    ∀ sys sys1 : System, sys.readyPass = some sys1 → sys1.ready = sys.ready := by
  refine ⟨?_, ReadyPriorityQueue.visited_eq q, ?_, ?_⟩
  · rw [ReadyPriorityQueue.visited_eq, ReadyPriorityQueue.drained]
    exact (ReadyPriorityQueue.drain_all _ q (le_refl _)).symm
  · intro he
    rw [ReadyPriorityQueue.visited_eq, (ReadyPriorityQueue.empty_iff_ids q).mp he]
  · intro sys sys1 h
    unfold System.readyPass at h
    rw [ReadyPriorityQueue.visited_eq] at h
    exact (System.readyLoop_ready _ sys sys1 h).1

/-! ### Every live id in exactly one place -/

theorem Placed.count_one {tbl : PCBTable} {ids : List Nat} (h : Placed tbl ids) (k : Nat) :
    ((∃ p, tbl.lookup k = some p) → ids.count k = 1) ∧
    (tbl.lookup k = none → ids.count k = 0) := by
  constructor
  · intro hp
    have hk : k ∈ ids := h.2.2.symm.subset ((PCBTable.mem_keys_iff tbl k).mpr hp)
    exact List.count_eq_one_of_mem h.ids_nodup hk
  · intro hn
    apply List.count_eq_zero_of_not_mem
    intro hk
    exact (PCBTable.lookup_none_iff tbl k).mp hn (h.2.2.subset hk)

/-- C27: at every tick boundary of a run on a workload with unique ids (the
state after any number `n` of rounds), every id of the live table is in exactly
one of three places, and there once: the number of units bound to it, the number
of its occurrences in the ready queue and the number of its occurrences in the
blocked list add up to 1; and an id that is not in the live table is in none of
them. -/
theorem System.one_place (sett : SystemSettings) (plans : List ProcessPlan)
    (hids : (plans.map fun p => p.init.id).Nodup) (n : Nat) (sys : System)
    (h : System.ticks n 0 ((System.init sett).startTimers plans) = some sys) (k : Nat) :
    ((∃ p, sys.PCB_table.lookup k = some p) →
      (boundIds sys.cpus).count k + sys.ready.ids.count k + sys.blocked.count k = 1) ∧
    (sys.PCB_table.lookup k = none →
      (boundIds sys.cpus).count k = 0 ∧ sys.ready.ids.count k = 0 ∧
        sys.blocked.count k = 0) := by
  have hl := System.ticks_layout n 0 _ sys h (System.startTimers_layout sett plans hids)
  obtain ⟨h1, h2⟩ := hl.1.count_one k
  rw [List.count_append, List.count_append] at h1 h2
  constructor
  · intro hp
    have := h1 hp
    omega
  · intro hn
    have := h2 hn
    omega

theorem System.one_place_witness :
    ((scenarioB 1).map fun p => p.init.id).Nodup ∧
    ∃ sys, System.ticks 5 0 ((System.init (oneUnit 2 1 1)).startTimers (scenarioB 1)) = some sys ∧
      (boundIds sys.cpus, sys.ready.ids, sys.blocked, sys.PCB_table.keys) = ([0], [1], [], [0, 1]) ∧
      ∀ k, ((∃ p, sys.PCB_table.lookup k = some p) →
        (boundIds sys.cpus).count k + sys.ready.ids.count k + sys.blocked.count k = 1) ∧
      (sys.PCB_table.lookup k = none →
        (boundIds sys.cpus).count k = 0 ∧ sys.ready.ids.count k = 0 ∧
          sys.blocked.count k = 0) := by
  refine ⟨by decide, ?_⟩
  have hs : (System.ticks 5 0
      ((System.init (oneUnit 2 1 1)).startTimers (scenarioB 1))).isSome = true := by
    decide
  have hv : (System.ticks 5 0 ((System.init (oneUnit 2 1 1)).startTimers (scenarioB 1))).map
      (fun sys => (boundIds sys.cpus, sys.ready.ids, sys.blocked, sys.PCB_table.keys)) =
      some ([0], [1], [], [0, 1]) := by
    decide
  obtain ⟨sys, hsys⟩ := Option.isSome_iff_exists.mp hs
  rw [hsys] at hv
  exact ⟨sys, hsys, by simpa using hv,
    System.one_place (oneUnit 2 1 1) (scenarioB 1) (by decide) 5 sys hsys⟩

/-! ### The relocation of a released process -/

theorem System.relocate_frame (sys : System) (id : Nat) (sys2 : System)
    (h : sys.relocate id = some sys2) :
    (∀ k, k ≠ id → sys2.PCB_table.lookup k = sys.PCB_table.lookup k) ∧
    (∀ k, k ≠ id → (k ∈ sys2.ready.ids ↔ k ∈ sys.ready.ids)) ∧
    (∀ k, k ≠ id → (k ∈ sys2.blocked ↔ k ∈ sys.blocked)) ∧
    (∀ p, p ∈ sys.retired → p ∈ sys2.retired) ∧
    sys2.cpus = sys.cpus ∧ sys2.process_entry_timers = sys.process_entry_timers := by
  unfold System.relocate at h
  cases hl : sys.PCB_table.lookup id with
  | none => simp [hl] at h
  | some pcb =>
    simp only [hl] at h
    split at h
    · simp only [Option.some.injEq] at h
      subst h
      refine ⟨?_, fun _ _ => Iff.rfl, fun _ _ => Iff.rfl, ?_, rfl, rfl⟩
      · intro k hk
        show (sys.PCB_table.erase id).lookup k = _
        rw [PCBTable.lookup_erase, if_neg hk]
      · intro p hp
        exact List.mem_append_left _ hp
    · split at h
      · cases hpush : sys.ready.push id pcb.prio with
        | none => simp [hpush] at h
        | some r =>
          simp only [hpush, Option.some.injEq] at h
          subst h
          obtain ⟨hperm, _⟩ := ReadyPriorityQueue.push_ids sys.ready r id pcb.prio hpush
          refine ⟨?_, ?_, fun _ _ => Iff.rfl, fun _ hp => hp, rfl, rfl⟩
          · intro k hk
            show (sys.PCB_table.store id _).lookup k = _
            rw [PCBTable.lookup_store_eq, if_neg hk]
          · intro k hk
            show k ∈ r.ids ↔ _
            rw [hperm.mem_iff, List.mem_cons]
            constructor
            · rintro (h1 | h1)
              · exact absurd h1 hk
              · exact h1
            · exact Or.inr
      · simp only [Option.some.injEq] at h
        subst h
        refine ⟨?_, fun _ _ => Iff.rfl, ?_, fun _ hp => hp, rfl, rfl⟩
        · intro k hk
          show (sys.PCB_table.store id _).lookup k = _
          rw [PCBTable.lookup_store_eq, if_neg hk]
        · intro k hk
          show k ∈ sys.blocked ++ [id] ↔ _
          rw [List.mem_append, List.mem_singleton]
          constructor
          · rintro (h1 | h1)
            · exact h1
            · exact absurd h1 hk
          · exact Or.inl

/-- C25: when a unit that was assigned at the start of its step signals (its
`step()` returns true), the body of the unit loop relocates the process under
the id `getPID()` of the unit and then serves the unit from the ready queue.
The relocation of the record `pcb` found under that id goes by the rule:
state `exit`: the record is appended to `retired` and erased from the table;
otherwise, head burst CPU-kind (`isProcessing()`): the id is pushed to the ready
queue at the priority of the record and the state of the record becomes `ready`
(the relocation fails exactly when that `push` fails); otherwise: the id is
appended to `blocked` and the state becomes `blocked`.  The relocation leaves
every other record of the table as it was, changes the membership of no other
id in the ready queue or the blocked list, drops nothing from `retired`, and
leaves the units and the pending timers alone. -/
theorem System.relocation_rule (sys : System) (cpu c1 : CPU) (tbl1 : PCBTable) (pcb : PCB)
    (hbusy : cpu.assigned = true) (hstep : cpu.step sys.PCB_table = some (true, c1, tbl1))
    (hl : tbl1.lookup c1.getPID = some pcb) :
    c1.getPID = cpu.getPID ∧
    sys.cpuBody cpu =
      (System.relocate { sys with PCB_table := tbl1 } c1.getPID).bind
        (fun sys2 => sys2.assignFront c1) ∧
    (pcb.state = ProcessState.exit →
      System.relocate { sys with PCB_table := tbl1 } c1.getPID =
        some { sys with retired := sys.retired ++ [pcb], PCB_table := tbl1.erase c1.getPID }) ∧
    (pcb.state ≠ ProcessState.exit → pcb.bursts.isProcessing = true →
      System.relocate { sys with PCB_table := tbl1 } c1.getPID =
        (sys.ready.push c1.getPID pcb.prio).map fun r =>
          { sys with
            ready := r
            PCB_table := tbl1.store c1.getPID { pcb with state := ProcessState.ready } }) ∧
    (pcb.state ≠ ProcessState.exit → pcb.bursts.isProcessing = false →
      System.relocate { sys with PCB_table := tbl1 } c1.getPID =
        some { sys with
          blocked := sys.blocked ++ [c1.getPID]
          PCB_table := tbl1.store c1.getPID { pcb with state := ProcessState.blocked } }) ∧
    ∀ sys2, System.relocate { sys with PCB_table := tbl1 } c1.getPID = some sys2 →
      (∀ k, k ≠ c1.getPID → sys2.PCB_table.lookup k = tbl1.lookup k) ∧
      (∀ k, k ≠ c1.getPID → (k ∈ sys2.ready.ids ↔ k ∈ sys.ready.ids)) ∧
      (∀ k, k ≠ c1.getPID → (k ∈ sys2.blocked ↔ k ∈ sys.blocked)) ∧
      (∀ p, p ∈ sys.retired → p ∈ sys2.retired) ∧
      sys2.cpus = sys.cpus ∧ sys2.process_entry_timers = sys.process_entry_timers := by
  refine ⟨?_, ?_, ?_, ?_, ?_, ?_⟩
  · by_cases hidle : cpu.getState = CPUState.idle
    · simp [CPU.assigned, hidle] at hbusy
    · obtain ⟨key, p, p1, _, _, hon, _⟩ :=
        CPU.step_assigned_inv cpu sys.PCB_table true c1 tbl1 hidle hstep
      exact (CPU.stepOn_frame _ _ _ _ _ hon).2.2
  · simp only [System.cpuBody, hstep, hbusy, Bool.true_or, Bool.not_true, if_true,
      Bool.not_false]
    cases System.relocate { sys with PCB_table := tbl1 } c1.getPID <;> rfl
  · intro he
    simp [System.relocate, hl, he]
  · intro hne hp
    simp only [System.relocate, hl, hne, hp, if_false, if_true]
    cases sys.ready.push c1.getPID pcb.prio <;> rfl
  · intro hne hp
    simp [System.relocate, hl, hne, hp]
  · intro sys2 h2
    exact System.relocate_frame _ _ sys2 h2

theorem System.relocation_rule_witness :
    (boundCPU rrTwo CPUState.switching_out 1).assigned = true ∧
    (boundCPU rrTwo CPUState.switching_out 1).step releasingSystem.PCB_table =
      some (true, releasedCPU, tableOf releasedPCBStepped) ∧
    (tableOf releasedPCBStepped).lookup releasedCPU.getPID = some releasedPCBStepped ∧
    System.relocate { releasingSystem with PCB_table := tableOf releasedPCBStepped }
        releasedCPU.getPID =
      (releasingSystem.ready.push releasedCPU.getPID releasedPCBStepped.prio).map fun r =>
        { releasingSystem with
          ready := r
          PCB_table := (tableOf releasedPCBStepped).store releasedCPU.getPID
            { releasedPCBStepped with state := ProcessState.ready } } :=
  ⟨by decide, by decide, by decide,
   (System.relocation_rule releasingSystem (boundCPU rrTwo CPUState.switching_out 1) releasedCPU
      (tableOf releasedPCBStepped) releasedPCBStepped (by decide) (by decide)
      (by decide)).2.2.2.1 (by decide) (by decide)⟩

/-! ### What a round does to the units -/

theorem CPU.step_true_idle (c : CPU) (tbl : PCBTable) (c1 : CPU) (tbl1 : PCBTable)
    (hs : c.step tbl = some (true, c1, tbl1)) : c1.getState = CPUState.idle := by
  by_cases hidle : c.getState = CPUState.idle
  · rw [CPU.step_idle c tbl hidle] at hs
    simp only [Option.some.injEq, Prod.mk.injEq, true_and] at hs
    rw [← hs.1]
    exact hidle
  · obtain ⟨key, p, p1, _, _, hon, _⟩ := CPU.step_assigned_inv c tbl true c1 tbl1 hidle hs
    rcases (CPU.stepOn_bound _ p true c1 p1 hon hidle).2.2 with ⟨h1, _⟩ | ⟨_, _, h3⟩
    · exact absurd h1 (by decide)
    · exact h3

theorem System.assignFront_unit (sys : System) (cpu cpu1 : CPU) (sys1 : System)
    (h : sys.assignFront cpu = some (cpu1, sys1)) :
    cpu1 = cpu ∨ ∃ key r, cpu.assign key sys.PCB_table = some r ∧ cpu1 = r.1 := by
  unfold System.assignFront at h
  split at h
  · cases hfr : sys.ready.front with
    | none => simp [hfr] at h
    | some id =>
      simp only [hfr] at h
      cases ha : cpu.assign id sys.PCB_table with
      | none => simp [ha] at h
      | some r =>
        simp only [ha] at h
        cases hpop : sys.ready.pop with
        | none => simp [hpop] at h
        | some rq =>
          simp only [hpop, Option.some.injEq, Prod.mk.injEq] at h
          exact Or.inr ⟨id, r, ha, h.1.symm⟩
  · simp only [Option.some.injEq, Prod.mk.injEq] at h
    exact Or.inl h.1.symm

/-- The unit the body of the unit loop leaves: the unit after its step, or,
when that step has signalled and so left the unit idle, that unit with a
process assigned. -/
theorem System.cpuBody_unit (sys : System) (cpu cpu1 : CPU) (sys1 : System)
    (h : sys.cpuBody cpu = some (cpu1, sys1)) :
    ∃ b c2 tbl2, cpu.step sys.PCB_table = some (b, c2, tbl2) ∧
      (cpu1 = c2 ∨ (c2.getState = CPUState.idle ∧
        ∃ key tbl r, c2.assign key tbl = some r ∧ cpu1 = r.1)) := by
  unfold System.cpuBody at h
  cases hs : cpu.step sys.PCB_table with
  | none => simp [hs] at h
  | some res =>
    obtain ⟨b, c2, tbl2⟩ := res
    simp only [hs] at h
    refine ⟨b, c2, tbl2, rfl, ?_⟩
    have hidle : (b || !cpu.assigned) = true → c2.getState = CPUState.idle := by
      intro hb
      cases b with
      | true => exact CPU.step_true_idle cpu _ c2 tbl2 hs
      | false =>
        simp only [Bool.false_or, Bool.not_eq_true'] at hb
        have hi : cpu.getState = CPUState.idle := by
          simpa [CPU.assigned] using hb
        rw [CPU.step_idle cpu _ hi] at hs
        simp at hs
    split at h
    · rename_i hb
      have hc2 := hidle hb
      split at h
      · cases hrel : System.relocate { sys with PCB_table := tbl2 } c2.getPID with
        | none => simp [hrel] at h
        | some sys2 =>
          simp only [hrel] at h
          rcases System.assignFront_unit sys2 c2 cpu1 sys1 h with h1 | ⟨key, r, h1, h2⟩
          · exact Or.inl h1
          · exact Or.inr ⟨hc2, key, _, r, h1, h2⟩
      · rcases System.assignFront_unit _ c2 cpu1 sys1 h with h1 | ⟨key, r, h1, h2⟩
        · exact Or.inl h1
        · exact Or.inr ⟨hc2, key, _, r, h1, h2⟩
    · simp only [Option.some.injEq, Prod.mk.injEq] at h
      exact Or.inl h.1.symm

/-- What the body of the unit loop makes of a property of units, the unit
loop makes of it for all units. -/
theorem System.cpuLoop_units (P Q : CPU → Prop)
    (hbody : ∀ (sys : System) (c c1 : CPU) (sys1 : System),
      sys.cpuBody c = some (c1, sys1) → P c → Q c1) :
    ∀ (todo done : List CPU) (sys sys1 : System),
    System.cpuLoop done todo sys = some sys1 → (∀ c ∈ done, Q c) → (∀ c ∈ todo, P c) →
    ∀ c ∈ sys1.cpus, Q c := by
  intro todo
  induction todo with
  | nil =>
    intro done sys sys1 h hd _
    simp only [System.cpuLoop, Option.some.injEq] at h
    subst h
    exact hd
  | cons cpu todo ih =>
    intro done sys sys1 h hd ht
    simp only [System.cpuLoop] at h
    cases hb : sys.cpuBody cpu with
    | none => simp [hb] at h
    | some r =>
      simp only [hb] at h
      apply ih (done ++ [r.1]) r.2 sys1 h
      · intro c hc
        rw [List.mem_append, List.mem_singleton] at hc
        rcases hc with hc | hc
        · exact hd c hc
        · rw [hc]
          exact hbody sys cpu r.1 r.2 hb (ht cpu (List.mem_cons_self _ _))
      · intro c hc
        exact ht c (List.mem_cons_of_mem _ hc)

theorem System.blockedLoop_cpus : ∀ (todo kept : List Nat) (sys sys1 : System),
    System.blockedLoop kept todo sys = some sys1 → sys1.cpus = sys.cpus := by
  intro todo
  induction todo with
  | nil =>
    intro kept sys sys1 h
    simp only [System.blockedLoop, Option.some.injEq] at h
    subst h
    rfl
  | cons id todo ih =>
    intro kept sys sys1 h
    simp only [System.blockedLoop] at h
    cases hb : sys.blockedBody id with
    | none => simp [hb] at h
    | some r =>
      simp only [hb] at h
      rw [ih _ r.2 sys1 h]
      unfold System.blockedBody at hb
      cases hl : sys.PCB_table.lookup id with
      | none => simp [hl] at hb
      | some p =>
        simp only [hl] at hb
        split at hb
        · split at hb
          · simp only [Option.some.injEq] at hb
            rw [← hb]
          · cases hpush : sys.ready.push id p.step.2.prio with
            | none => simp [hpush] at hb
            | some rq =>
              simp only [hpush, Option.some.injEq] at hb
              rw [← hb]
        · simp only [Option.some.injEq] at hb
          rw [← hb]

theorem System.addProcess_cpus (sys : System) (pi : ProcessInit) (s : Nat) (sys1 : System)
    (h : sys.addProcess pi s = some sys1) : sys1.cpus = sys.cpus := by
  unfold System.addProcess at h
  simp only at h
  split at h
  · cases hpush : sys.ready.push pi.id pi.prio with
    | none => simp [hpush] at h
    | some rq =>
      simp only [hpush, Option.some.injEq] at h
      rw [← h]
  · cases hl : (sys.PCB_table.emplace pi.id (PCB.init pi s)).lookup pi.id with
    | none => simp [hl] at h
    | some p =>
      simp only [hl, Option.some.injEq] at h
      rw [← h]

theorem System.arrivalLoop_cpus (s : Nat) :
    ∀ (todo kept : List (Timer ProcessInit)) (sys sys1 : System),
    System.arrivalLoop s kept todo sys = some sys1 → sys1.cpus = sys.cpus := by
  intro todo
  induction todo with
  | nil =>
    intro kept sys sys1 h
    simp only [System.arrivalLoop, Option.some.injEq] at h
    subst h
    rfl
  | cons t todo ih =>
    intro kept sys sys1 h
    simp only [System.arrivalLoop] at h
    cases hts : t.step with
    | none => simp [hts] at h
    | some tr =>
      simp only [hts] at h
      split at h
      · cases ha : sys.addProcess tr.2.getData s with
        | none => simp [ha] at h
        | some sys2 =>
          simp only [ha] at h
          rw [ih kept sys2 sys1 h, System.addProcess_cpus sys _ s sys2 ha]
      · exact ih _ sys sys1 h

/-- A round serves every unit once, by the body of the unit loop, and the
other passes leave the units alone. -/
theorem System.tick_units (P Q : CPU → Prop)
    (hbody : ∀ (sys : System) (c c1 : CPU) (sys1 : System),
      sys.cpuBody c = some (c1, sys1) → P c → Q c1)
    (sys : System) (s : Nat) (sys1 : System) (h : sys.tick s = some sys1)
    (hP : ∀ c ∈ sys.cpus, P c) : ∀ c ∈ sys1.cpus, Q c := by
  unfold System.tick at h
  cases h1 : sys.cpuPass with
  | none => simp [h1] at h
  | some sysa =>
    simp only [h1] at h
    cases h2 : sysa.blockedPass with
    | none => simp [h2] at h
    | some sysb =>
      simp only [h2] at h
      cases h3 : sysb.readyPass with
      | none => simp [h3] at h
      | some sysc =>
        simp only [h3] at h
        have h3a : System.readyLoop sysb.ready.ids sysb = some sysc := by
          unfold System.readyPass at h3
          rw [ReadyPriorityQueue.visited_eq] at h3
          exact h3
        have ha := System.cpuLoop_units P Q hbody sys.cpus [] sys sysa h1
          (fun c hc => absurd hc (List.not_mem_nil c)) hP
        rw [System.arrivalLoop_cpus s _ [] sysc sys1 h, (System.readyLoop_ready _ sysb sysc h3a).2.2,
          System.blockedLoop_cpus _ [] sysa sysb h2]
        exact ha

/-! ### The trace of a unit against the clock -/

theorem History.duration_eq_total {E : Type} (h : History E) :
    h.duration = h.total % STEP_MOD := by
  unfold History.duration History.total
  rw [History.foldl_duration h.trace 0 (by decide), Nat.zero_add]

theorem History.total_inc {E : Type} [DecidableEq E] (h : History E) (s : E)
    (hlt : h.total + 1 < STEP_MOD) : (h.inc s).total = h.total + 1 := by
  unfold History.total at hlt ⊢
  rcases History.inc_cases h s with ⟨hold, hnew⟩ | ⟨l, b, hold, _, hnew⟩ | ⟨l, b, hold, _, hnew⟩
  · rw [hnew, hold]
    rfl
  · rw [hold, List.map_append, List.sum_append] at hlt
    simp only [List.map_cons, List.map_nil, List.sum_cons, List.sum_nil, Nat.add_zero] at hlt
    rw [hnew, hold]
    simp only [List.map_append, List.sum_append, List.map_cons, List.map_nil, List.sum_cons,
      List.sum_nil, Nat.add_zero]
    rw [Nat.mod_eq_of_lt (by omega)]
    omega
  · rw [hnew, hold]
    simp only [List.map_append, List.sum_append, List.map_cons, List.map_nil, List.sum_cons,
      List.sum_nil, Nat.add_zero]

theorem CPU.assign_frame (c : CPU) (key : Nat) (tbl : PCBTable) (r : CPU × PCBTable)
    (h : c.assign key tbl = some r) :
    r.1.stats = c.stats ∧ r.1.settings = c.settings ∧ r.1.proc = some key ∧
      r.1.t = Timer.init c.settings.SWITCHING_IN_DELAY CPUState.switching_in := by
  unfold CPU.assign at h
  cases hl : tbl.lookup key with
  | none => simp [hl] at h
  | some p =>
    simp only [hl, Option.some.injEq] at h
    rw [← h]
    exact ⟨rfl, rfl, rfl, rfl⟩

/-- The body of the unit loop records one tick in the trace of the unit, of
the state the unit is in when the body starts. -/
theorem System.cpuBody_hist (sys : System) (cpu cpu1 : CPU) (sys1 : System)
    (h : sys.cpuBody cpu = some (cpu1, sys1)) :
    cpu1.stats.hist = cpu.stats.hist.inc cpu.getState ∧ cpu1.settings = cpu.settings := by
  obtain ⟨b, c2, tbl2, hs, hc⟩ := System.cpuBody_unit sys cpu cpu1 sys1 h
  obtain ⟨h1, h2⟩ := CPU.step_frame cpu _ b c2 tbl2 hs
  rcases hc with hc | ⟨_, key, tbl, r, ha, hc⟩
  · rw [hc]
    exact ⟨h1, h2⟩
  · obtain ⟨a1, a2, _, _⟩ := CPU.assign_frame c2 key tbl r ha
    rw [hc, a1, a2]
    exact ⟨h1, h2⟩

theorem System.tick_unit_total (sys : System) (s : Nat) (sys1 : System)
    (h : sys.tick s = some sys1) (hs : s + 1 < STEP_MOD)
    (hc : ∀ c ∈ sys.cpus, c.stats.hist.total = s) :
    ∀ c ∈ sys1.cpus, c.stats.hist.total = s + 1 := by
  apply System.tick_units (fun c => c.stats.hist.total = s) (fun c => c.stats.hist.total = s + 1)
    _ sys s sys1 h hc
  intro sy c c1 sy1 hb hP
  rw [(System.cpuBody_hist sy c c1 sy1 hb).1, History.total_inc _ _ (by rw [hP]; exact hs), hP]

theorem System.ticks_unit_total : ∀ (n s : Nat) (sys sys1 : System),
    System.ticks n s sys = some sys1 → s + n < STEP_MOD →
    (∀ c ∈ sys.cpus, c.stats.hist.total = s) → ∀ c ∈ sys1.cpus, c.stats.hist.total = s + n := by
  intro n
  induction n with
  | zero =>
    intro s sys sys1 h _ hc
    simp only [System.ticks, Option.some.injEq] at h
    subst h
    exact hc
  | succ n ih =>
    intro s sys sys1 h hs hc
    simp only [System.ticks] at h
    cases ht : sys.tick s with
    | none => simp [ht] at h
    | some sys2 =>
      simp only [ht] at h
      have h2 := ih (s + 1) sys2 sys1 h (by omega)
        (System.tick_unit_total sys s sys2 ht (by omega) hc)
      intro c hc1
      rw [h2 c hc1]
      omega

theorem System.loop_unit_total : ∀ (fuel s : Nat) (sys : System) (r : System × Nat),
    System.loop fuel s sys = some r → s + fuel < STEP_MOD →
    (∀ c ∈ sys.cpus, c.stats.hist.total = s) → ∀ c ∈ r.1.cpus, c.stats.hist.total = r.2 := by
  intro fuel
  induction fuel with
  | zero =>
    intro s sys r h _ hc
    simp only [System.loop, Option.some.injEq] at h
    subst h
    exact hc
  | succ fuel ih =>
    intro s sys r h hs hc
    rw [System.loop] at h
    by_cases hr : sys.running s = true
    · rw [if_pos hr] at h
      cases ht : sys.tick s with
      | none => simp [ht] at h
      | some sys1 =>
        simp only [ht] at h
        exact ih (s + 1) sys1 r h (by omega) (System.tick_unit_total sys s sys1 ht (by omega) hc)
    · rw [if_neg hr] at h
      simp only [Option.some.injEq] at h
      subst h
      exact hc

theorem System.startTimers_unit_total (sett : SystemSettings) (plans : List ProcessPlan) :
    ∀ c ∈ ((System.init sett).startTimers plans).cpus, c.stats.hist.total = 0 := by
  intro c hc
  simp only [System.startTimers, System.init, List.mem_map] at hc
  obtain ⟨i, _, hi⟩ := hc
  rw [← hi]
  rfl

/-- C24: every call of `CPU::step()` adds exactly one tick to the trace of the
unit, recorded (by `inc`) for the state the unit is in when the call starts;
so after the `T` rounds of a run every unit has a trace of total duration `T`,
the clock at which the run stops, the same for all units, both as the sum of the
durations over the naturals and as `History::duration()`; and the same holds
after any number `n < 2^32` of rounds. -/
theorem System.unit_ticks (sett : SystemSettings) (plans : List ProcessPlan)
    (r : System × Nat) (h : System.simulate (System.init sett) plans = some r) :
    (∀ c ∈ r.1.cpus, c.stats.hist.total = r.2 ∧ c.stats.hist.duration = r.2) ∧
    (∀ (c : CPU) (tbl : PCBTable) (b : Bool) (c1 : CPU) (tbl1 : PCBTable),
      c.step tbl = some (b, c1, tbl1) → c1.stats.hist = c.stats.hist.inc c.getState) ∧
    (∀ n sys, n < STEP_MOD →
      System.ticks n 0 ((System.init sett).startTimers plans) = some sys →
      ∀ c ∈ sys.cpus, c.stats.hist.total = n ∧ c.stats.hist.duration = n) := by
  have hmax : STEP_MAX < STEP_MOD := by decide
  refine ⟨?_, ?_, ?_⟩
  · intro c hc
    have ht := System.loop_unit_total STEP_MAX 0 _ r h (by rw [Nat.zero_add]; exact hmax)
      (System.startTimers_unit_total sett plans) c hc
    obtain ⟨hle, _⟩ := System.loop_stops STEP_MAX 0 _ r h (Nat.zero_add _)
    refine ⟨ht, ?_⟩
    rw [History.duration_eq_total, ht, Nat.mod_eq_of_lt (by omega)]
  · intro c tbl b c1 tbl1 hs
    exact (CPU.step_frame c tbl b c1 tbl1 hs).1
  · intro n sys hn ht c hc
    have ht := System.ticks_unit_total n 0 _ sys ht (by rw [Nat.zero_add]; exact hn)
      (System.startTimers_unit_total sett plans) c hc
    rw [Nat.zero_add] at ht
    refine ⟨ht, ?_⟩
    rw [History.duration_eq_total, ht, Nat.mod_eq_of_lt hn]

theorem System.unit_ticks_witness :
    ∃ r, System.simulate (System.init (oneUnit 2 1 1)) (scenarioB 1) = some r ∧ r.2 = 24 ∧
      ∀ c ∈ r.1.cpus, c.stats.hist.total = r.2 ∧ c.stats.hist.duration = r.2 := by
  have hs : (System.simulate (System.init (oneUnit 2 1 1)) (scenarioB 1)).isSome = true := by
    decide
  have hclock : (System.simulate (System.init (oneUnit 2 1 1)) (scenarioB 1)).map
      (fun r => r.2) = some 24 := by
    decide
  obtain ⟨r, hr⟩ := Option.isSome_iff_exists.mp hs
  rw [hr] at hclock
  exact ⟨r, hr, by simpa using hclock,
    (System.unit_ticks (oneUnit 2 1 1) (scenarioB 1) r hr).1⟩

/-! ### The census through a round -/

/-- The unit pass, the blocked pass and the ready pass keep the keys of the
table distinct and every record under its id, and move ids only from the table
to the retired collection. -/
theorem TableMoves.census {tbl : PCBTable} {ret : List PCB} {tbl1 : PCBTable}
    {ret1 : List PCB} (h : TableMoves tbl ret tbl1 ret1) (hk : tbl.keys.Nodup)
    (hid : ∀ e ∈ tbl.entries, e.2.id = e.1) :
    tbl1.keys.Nodup ∧ (∀ e ∈ tbl1.entries, e.2.id = e.1) ∧
      (tbl1.keys ++ ret1.map fun p => p.id).Perm (tbl.keys ++ ret.map fun p => p.id) := by
  induction h with
  | refl => exact ⟨hk, hid, List.Perm.refl _⟩
  | store tbl3 ret3 key p q _ hl hm ih =>
    obtain ⟨h1, h2, h3⟩ := ih
    have hpl : Placed tbl3 tbl3.keys := ⟨h1, h2, List.Perm.refl _⟩
    have hq : q.id = key := hm.keeps.1.trans (hpl.id_of_lookup key p hl)
    obtain ⟨r1, r2, _⟩ := hpl.of_store key q hq
    refine ⟨r1, r2, ?_⟩
    rw [PCBTable.keys_store]
    exact h3
  | retire tbl3 ret3 key p _ hl _ ih =>
    obtain ⟨h1, h2, h3⟩ := ih
    have hpl : Placed tbl3 tbl3.keys := ⟨h1, h2, List.Perm.refl _⟩
    have hp : p.id = key := hpl.id_of_lookup key p hl
    have hmem : key ∈ tbl3.keys := (PCBTable.mem_keys_iff tbl3 key).mpr ⟨p, hl⟩
    have hperm : (key :: tbl3.keys.erase key).Perm tbl3.keys := (List.perm_cons_erase hmem).symm
    obtain ⟨r1, r2, r3⟩ := (hpl.of_perm hperm).of_erase
    refine ⟨r1, r2, ?_⟩
    refine List.Perm.trans ?_ h3
    rw [List.map_append, List.map_cons, List.map_nil, hp]
    rw [← Multiset.coe_eq_coe] at r3 hperm ⊢
    simp only [← Multiset.coe_add, ← Multiset.cons_coe, ← Multiset.singleton_add,
      Multiset.coe_nil, Multiset.cons_zero] at r3 hperm ⊢
    rw [← r3, ← hperm]
    abel

theorem System.addProcess_keys (sys : System) (pi : ProcessInit) (s : Nat) (sys1 : System)
    (h : sys.addProcess pi s = some sys1) (hk : sys.PCB_table.lookup pi.id = none) :
    sys1.PCB_table.keys = sys.PCB_table.keys ++ [pi.id] ∧ sys1.retired = sys.retired := by
  unfold System.addProcess at h
  simp only at h
  split at h
  · cases hpush : sys.ready.push pi.id pi.prio with
    | none => simp [hpush] at h
    | some rq =>
      simp only [hpush, Option.some.injEq] at h
      subst h
      exact ⟨PCBTable.keys_emplace _ _ _ hk, rfl⟩
  · cases hl : (sys.PCB_table.emplace pi.id (PCB.init pi s)).lookup pi.id with
    | none => simp [hl] at h
    | some p =>
      simp only [hl, Option.some.injEq] at h
      subst h
      refine ⟨?_, rfl⟩
      show ((sys.PCB_table.emplace pi.id (PCB.init pi s)).store pi.id _).keys = _
      rw [PCBTable.keys_store, PCBTable.keys_emplace _ _ _ hk]

/-- The arrival pass moves the id of every timer that fires from the pending
timers to the table. -/
theorem System.arrivalLoop_census (s : Nat) :
    ∀ (todo kept : List (Timer ProcessInit)) (sys sys1 : System),
    System.arrivalLoop s kept todo sys = some sys1 →
    (todo.map fun t => t.data.id).Nodup →
    (∀ t ∈ todo, sys.PCB_table.lookup t.data.id = none) →
    sys1.census.Perm (((kept ++ todo).map fun t => t.data.id) ++
      (sys.PCB_table.keys ++ sys.retired.map fun p => p.id)) := by
  intro todo
  induction todo with
  | nil =>
    intro kept sys sys1 h _ _
    simp only [System.arrivalLoop, Option.some.injEq] at h
    subst h
    rw [List.append_nil]
    exact List.Perm.refl _
  | cons t todo ih =>
    intro kept sys sys1 h hnd hnone
    simp only [System.arrivalLoop] at h
    rw [List.map_cons, List.nodup_cons] at hnd
    obtain ⟨hnotin, hnd1⟩ := hnd
    cases hts : t.step with
    | none => simp [hts] at h
    | some tr =>
      simp only [hts] at h
      have hd : tr.2.data = t.data := Timer.step_data t tr hts
      split at h
      · cases ha : sys.addProcess tr.2.getData s with
        | none => simp [ha] at h
        | some sys2 =>
          simp only [ha] at h
          have hd1 : tr.2.getData = t.data := hd
          rw [hd1] at ha
          have hfresh := hnone t (List.mem_cons_self _ _)
          obtain ⟨hkeys, hret⟩ := System.addProcess_keys sys t.data s sys2 ha hfresh
          have hother := (System.addProcess_other sys t.data s sys2 ha).1
          have hnone2 : ∀ t1 ∈ todo, sys2.PCB_table.lookup t1.data.id = none := by
            intro t1 ht1
            have hne : t1.data.id ≠ t.data.id := by
              intro he
              apply hnotin
              rw [← he]
              exact List.mem_map_of_mem (fun t => t.data.id) ht1
            rw [hother _ hne]
            exact hnone t1 (List.mem_cons_of_mem _ ht1)
          refine (ih kept sys2 sys1 h hnd1 hnone2).trans ?_
          rw [hkeys, hret]
          simp only [List.map_append, List.map_cons]
          rw [← Multiset.coe_eq_coe]
          simp only [← Multiset.coe_add, ← Multiset.cons_coe, ← Multiset.singleton_add,
            Multiset.coe_nil, Multiset.cons_zero]
          abel
      · have h2 := ih (kept ++ [tr.2]) sys sys1 h hnd1
          (fun t1 ht1 => hnone t1 (List.mem_cons_of_mem _ ht1))
        refine h2.trans ?_
        simp only [List.map_append, List.map_cons, List.map_nil, hd, List.append_assoc,
          List.singleton_append]
        exact List.Perm.refl _

theorem System.tick_census (sys : System) (s : Nat) (sys1 : System)
    (h : sys.tick s = some sys1) (hl : sys.Layout) : sys1.census.Perm sys.census := by
  obtain ⟨sys3, hev, ht3, _, harr⟩ := System.tick_split sys s sys1 h
  obtain ⟨hp, _, hnd, hnone⟩ := hl
  obtain ⟨_, _, hperm⟩ := TableMoves.census hev hp.1 hp.2.1
  have h1 := System.arrivalLoop_census s _ [] sys3 sys1 harr hnd
    (fun t ht => TableMoves.lookup_none hev t.data.id (hnone t ht))
  refine h1.trans ?_
  rw [List.nil_append]
  exact List.Perm.append_left _ hperm

theorem System.ticks_census : ∀ (n s : Nat) (sys sys1 : System),
    System.ticks n s sys = some sys1 → sys.Layout → sys1.census.Perm sys.census := by
  intro n
  induction n with
  | zero =>
    intro s sys sys1 h _
    simp only [System.ticks, Option.some.injEq] at h
    subst h
    exact List.Perm.refl _
  | succ n ih =>
    intro s sys sys1 h hl
    simp only [System.ticks] at h
    cases ht : sys.tick s with
    | none => simp [ht] at h
    | some sys2 =>
      simp only [ht] at h
      exact (ih (s + 1) sys2 sys1 h (System.tick_layout sys s sys2 ht hl)).trans
        (System.tick_census sys s sys2 ht hl)

theorem System.loop_census : ∀ (fuel s : Nat) (sys : System) (r : System × Nat),
    System.loop fuel s sys = some r → sys.Layout → r.1.census.Perm sys.census := by
  intro fuel
  induction fuel with
  | zero =>
    intro s sys r h _
    simp only [System.loop, Option.some.injEq] at h
    subst h
    exact List.Perm.refl _
  | succ fuel ih =>
    intro s sys r h hl
    rw [System.loop] at h
    by_cases hr : sys.running s = true
    · rw [if_pos hr] at h
      cases ht : sys.tick s with
      | none => simp [ht] at h
      | some sys1 =>
        simp only [ht] at h
        exact (ih (s + 1) sys1 r h (System.tick_layout sys s sys1 ht hl)).trans
          (System.tick_census sys s sys1 ht hl)
    · rw [if_neg hr] at h
      simp only [Option.some.injEq] at h
      subst h
      exact List.Perm.refl _

theorem System.startTimers_census (sett : SystemSettings) (plans : List ProcessPlan) :
    ((System.init sett).startTimers plans).census = plans.map fun p => p.init.id := by
  simp [System.census, System.startTimers, System.init, Timer.init, PCBTable.keys]

/-- C23: for a workload with unique ids.  When `simulate` stops before the
overflow guard (the clock is below `2^32 - 1`), the live table and the list of
pending arrival timers are both empty and the retired collection holds exactly
one record for each planned process id: its ids are a rearrangement of the ids of
the plans, none twice, and every retired record is the record of a plan.  At
every tick boundary (the state after any number `n` of rounds) the numbers of
pending timers, of live records and of retired records add up to the number of
plans, the ids in the three collections being a rearrangement of the planned
ids. -/
theorem System.halt_census (sett : SystemSettings) (plans : List ProcessPlan)
    (hids : (plans.map fun p => p.init.id).Nodup) :
    (∀ r, System.simulate (System.init sett) plans = some r → r.2 < STEP_MAX →
      r.1.PCB_table.entries = [] ∧ r.1.process_entry_timers = [] ∧
      (r.1.retired.map fun p => p.id).Perm (plans.map fun p => p.init.id) ∧
      (r.1.retired.map fun p => p.id).Nodup ∧ ∀ p ∈ r.1.retired, p.fromPlan plans) ∧
    (∀ n sys, System.ticks n 0 ((System.init sett).startTimers plans) = some sys →
      sys.process_entry_timers.length + sys.PCB_table.entries.length + sys.retired.length =
        plans.length ∧
      sys.census.Perm (plans.map fun p => p.init.id)) := by
  have hl0 := System.startTimers_layout sett plans hids
  constructor
  · intro r h hlt
    obtain ⟨_, hstop⟩ := System.loop_stops STEP_MAX 0 _ r h (Nat.zero_add _)
    have hc := System.loop_census STEP_MAX 0 _ r h hl0
    rw [System.startTimers_census] at hc
    have hk := System.loop_keeps (PCB.fromPlan plans) (PCB.fromPlan_moves plans) STEP_MAX 0 _ r h
      (System.startTimers_fromPlan sett plans)
    have hboth : r.1.PCB_table.entries = [] ∧ r.1.process_entry_timers = [] := by
      simpa [System.running, hlt, PCBTable.empty] using hstop
    have hperm : (r.1.retired.map fun p => p.id).Perm (plans.map fun p => p.init.id) := by
      have he : r.1.census = r.1.retired.map fun p => p.id := by
        simp [System.census, PCBTable.keys, hboth.1, hboth.2]
      rw [← he]
      exact hc
    exact ⟨hboth.1, hboth.2, hperm, hperm.nodup_iff.mpr hids, hk.2.1⟩
  · intro n sys h
    have hc := System.ticks_census n 0 _ sys h hl0
    rw [System.startTimers_census] at hc
    refine ⟨?_, hc⟩
    have hlen := hc.length_eq
    simp only [System.census, PCBTable.keys, List.length_append, List.length_map] at hlen
    omega

theorem System.halt_census_witness :
    ((scenarioB 1).map fun p => p.init.id).Nodup ∧
    ∃ r, System.simulate (System.init (oneUnit 2 1 1)) (scenarioB 1) = some r ∧ r.2 < STEP_MAX ∧
      r.1.PCB_table.entries = [] ∧ r.1.process_entry_timers = [] ∧
      (r.1.retired.map fun p => p.id).Perm ((scenarioB 1).map fun p => p.init.id) ∧
      (r.1.retired.map fun p => p.id).Nodup ∧ ∀ p ∈ r.1.retired, p.fromPlan (scenarioB 1) := by
  refine ⟨by decide, ?_⟩
  have hs : (System.simulate (System.init (oneUnit 2 1 1)) (scenarioB 1)).isSome = true := by
    decide
  have hclock : (System.simulate (System.init (oneUnit 2 1 1)) (scenarioB 1)).map
      (fun r => r.2) = some 24 := by
    decide
  obtain ⟨r, hr⟩ := Option.isSome_iff_exists.mp hs
  rw [hr] at hclock
  have h24 : r.2 = 24 := by simpa using hclock
  have hlt : r.2 < STEP_MAX := by
    rw [h24]
    decide
  exact ⟨r, hr, hlt,
    (System.halt_census (oneUnit 2 1 1) (scenarioB 1) (by decide)).1 r hr hlt⟩

/-! ### The blocked pass -/

/-- The body of the blocked loop for one id, by the words of the
specification. -/
theorem System.blockedBody_spec (sys : System) (id : Nat) (b : Bool) (sys2 : System)
    (h : sys.blockedBody id = some (b, sys2)) :
    ∃ p, sys.PCB_table.lookup id = some p ∧
      b = !sys.PCB_table.blockedStays id ∧
      (∀ k, k ≠ id → sys2.PCB_table.lookup k = sys.PCB_table.lookup k) ∧
      sys2.PCB_table.lookup id = p.afterBlocked ∧
      sys2.retired = sys.retired ++ (sys.PCB_table.blockedRetires id).toList ∧
      ReadyPriorityQueue.run (sys.PCB_table.blockedPushes id).toList sys.ready =
        some sys2.ready := by
  unfold System.blockedBody at h
  cases hl : sys.PCB_table.lookup id with
  | none => simp [hl] at h
  | some p =>
    simp only [hl] at h
    refine ⟨p, rfl, ?_⟩
    simp only [PCBTable.blockedStays, PCBTable.blockedRetires, PCBTable.blockedPushes, hl,
      PCB.afterBlocked]
    cases hs : p.step.1 with
    | false =>
      simp only [hs, Bool.false_eq_true, if_false, Option.some.injEq, Prod.mk.injEq] at h
      obtain ⟨hb, hsys⟩ := h
      subst hsys
      refine ⟨by rw [← hb]; rfl, ?_, ?_, ?_, ?_⟩
      · intro k hk
        show (sys.PCB_table.store id p.step.2).lookup k = _
        rw [PCBTable.lookup_store_eq, if_neg hk]
      · show (sys.PCB_table.store id p.step.2).lookup id = _
        rw [PCBTable.lookup_store_eq, if_pos rfl, hl]
        rfl
      · simp
      · simp [ReadyPriorityQueue.run]
    | true =>
      simp only [hs, if_true] at h
      cases he : p.step.2.bursts.empty with
      | true =>
        simp only [he, if_true, Option.some.injEq, Prod.mk.injEq] at h
        obtain ⟨hb, hsys⟩ := h
        subst hsys
        refine ⟨by rw [← hb]; rfl, ?_, ?_, ?_, ?_⟩
        · intro k hk
          show ((sys.PCB_table.store id p.step.2).erase id).lookup k = _
          rw [PCBTable.lookup_erase, if_neg hk, PCBTable.lookup_store_eq, if_neg hk]
        · show ((sys.PCB_table.store id p.step.2).erase id).lookup id = _
          rw [PCBTable.lookup_erase, if_pos rfl]
          rfl
        · simp
        · simp [ReadyPriorityQueue.run]
      | false =>
        simp only [he, Bool.false_eq_true, if_false] at h
        cases hpush : sys.ready.push id p.step.2.prio with
        | none => simp [hpush] at h
        | some rq =>
          simp only [hpush, Option.some.injEq, Prod.mk.injEq] at h
          obtain ⟨hb, hsys⟩ := h
          subst hsys
          refine ⟨by rw [← hb]; rfl, ?_, ?_, ?_, ?_⟩
          · intro k hk
            show (sys.PCB_table.store id _).lookup k = _
            rw [PCBTable.lookup_store_eq, if_neg hk]
          · show (sys.PCB_table.store id _).lookup id = _
            rw [PCBTable.lookup_store_eq, if_pos rfl, hl]
            rfl
          · simp
          · simp [ReadyPriorityQueue.run, hpush]

theorem ReadyPriorityQueue.run_concat {T : Type} :
    ∀ (l1 l2 : List (RPQCall T)) (q : ReadyPriorityQueue T),
    ReadyPriorityQueue.run (l1 ++ l2) q =
      (ReadyPriorityQueue.run l1 q).bind (ReadyPriorityQueue.run l2) := by
  intro l1
  induction l1 with
  | nil =>
    intro l2 q
    rfl
  | cons c l1 ih =>
    intro l2 q
    cases c with
    | push v p =>
      simp only [List.cons_append, ReadyPriorityQueue.run]
      cases q.push v p with
      | none => rfl
      | some q1 => exact ih l2 q1
    | pop =>
      simp only [List.cons_append, ReadyPriorityQueue.run]
      cases q.pop with
      | none => rfl
      | some q1 => exact ih l2 q1

theorem filterMap_cons_toList {α β : Type} (f : α → Option β) (a : α) (l : List α) :
    (a :: l).filterMap f = (f a).toList ++ l.filterMap f := by
  rw [List.filterMap_cons]
  cases f a <;> rfl

/-- The blocked loop, by the words of the specification: which ids stay, which
records are retired and which ids are pushed, all in the order of the list, and
what becomes of every record. -/
theorem System.blockedLoop_spec : ∀ (todo kept : List Nat) (sys sys1 : System),
    System.blockedLoop kept todo sys = some sys1 → todo.Nodup →
    sys1.blocked = kept ++ todo.filter sys.PCB_table.blockedStays ∧
    sys1.retired = sys.retired ++ todo.filterMap sys.PCB_table.blockedRetires ∧
    ReadyPriorityQueue.run (todo.filterMap sys.PCB_table.blockedPushes) sys.ready =
      some sys1.ready ∧
    (∀ id ∈ todo, ∃ p, sys.PCB_table.lookup id = some p ∧
      sys1.PCB_table.lookup id = p.afterBlocked) ∧
    (∀ k, k ∉ todo → sys1.PCB_table.lookup k = sys.PCB_table.lookup k) := by
  intro todo
  induction todo with
  | nil =>
    intro kept sys sys1 h _
    simp only [System.blockedLoop, Option.some.injEq] at h
    subst h
    refine ⟨by simp, by simp, rfl, ?_, fun _ _ => rfl⟩
    intro id hid
    cases hid
  | cons id todo ih =>
    intro kept sys sys1 h hnd
    simp only [System.blockedLoop] at h
    rw [List.nodup_cons] at hnd
    obtain ⟨hnot, hnd1⟩ := hnd
    cases hb : sys.blockedBody id with
    | none => simp [hb] at h
    | some r =>
      obtain ⟨b, sys2⟩ := r
      simp only [hb] at h
      obtain ⟨p, hl, hbs, hother, hself, hret, hrun⟩ := System.blockedBody_spec sys id b sys2 hb
      obtain ⟨i1, i2, i3, i4, i5⟩ := ih _ sys2 sys1 h hnd1
      have hsame : ∀ k ∈ todo, sys2.PCB_table.lookup k = sys.PCB_table.lookup k := by
        intro k hk
        apply hother
        intro he
        exact hnot (he ▸ hk)
      have c1 : todo.filter sys2.PCB_table.blockedStays =
          todo.filter sys.PCB_table.blockedStays := by
        apply List.filter_congr
        intro k hk
        simp only [PCBTable.blockedStays, hsame k hk]
      have c2 : todo.filterMap sys2.PCB_table.blockedRetires =
          todo.filterMap sys.PCB_table.blockedRetires := by
        apply List.filterMap_congr
        intro k hk
        simp only [PCBTable.blockedRetires, hsame k hk]
      have c3 : todo.filterMap sys2.PCB_table.blockedPushes =
          todo.filterMap sys.PCB_table.blockedPushes := by
        apply List.filterMap_congr
        intro k hk
        simp only [PCBTable.blockedPushes, hsame k hk]
      refine ⟨?_, ?_, ?_, ?_, ?_⟩
      · rw [i1, c1, List.filter_cons]
        cases hst : sys.PCB_table.blockedStays id with
        | true =>
          rw [hst] at hbs
          rw [hbs]
          simp
        | false =>
          rw [hst] at hbs
          rw [hbs]
          simp
      · rw [i2, c2, hret, filterMap_cons_toList, List.append_assoc]
      · rw [filterMap_cons_toList, ReadyPriorityQueue.run_concat, hrun, Option.some_bind,
          ← c3]
        exact i3
      · intro k hk
        rcases List.mem_cons.mp hk with hk | hk
        · rw [hk]
          exact ⟨p, hl, by rw [i5 id hnot, hself]⟩
        · obtain ⟨q, hq1, hq2⟩ := i4 k hk
          exact ⟨q, by rw [← hsame k hk]; exact hq1, hq2⟩
      · intro k hk
        rw [List.mem_cons, not_or] at hk
        rw [i5 k hk.2, hother k hk.1]

/-- C26: the blocked pass of a round, on a blocked collection without
duplicates (as it is throughout a run on unique ids), in terms of the records
at the start of the pass.  The pass steps the record of every blocked id, in the
order of the collection (insertion order).  The ids whose step completes no
burst stay in the collection, in their original relative order, and no other id
does.  The records whose step completes the last burst are appended to `retired`
in that order and leave the table; the ids whose step completes a burst with
bursts left are pushed to the ready queue in that order, each at the priority of
its record, and their records get state `ready`.  Every record of a blocked id
is its stepped record (with state `ready` if pushed), and every other record of
the table is as before. -/
theorem System.blocked_pass_rule (sys sys1 : System) (h : sys.blockedPass = some sys1)
    (hnd : sys.blocked.Nodup) :
    sys1.blocked = sys.blocked.filter sys.PCB_table.blockedStays ∧
    sys1.retired = sys.retired ++ sys.blocked.filterMap sys.PCB_table.blockedRetires ∧
    ReadyPriorityQueue.run (sys.blocked.filterMap sys.PCB_table.blockedPushes) sys.ready =
      some sys1.ready ∧
    (∀ id ∈ sys.blocked, ∃ p, sys.PCB_table.lookup id = some p ∧
      sys1.PCB_table.lookup id = p.afterBlocked) ∧
    (∀ k, k ∉ sys.blocked → sys1.PCB_table.lookup k = sys.PCB_table.lookup k) := by
  obtain ⟨h1, h2, h3, h4, h5⟩ := System.blockedLoop_spec sys.blocked [] sys sys1 h hnd
  exact ⟨by rw [h1, List.nil_append], h2, h3, h4, h5⟩

theorem System.blocked_pass_rule_witness :
    blockedSample.blocked.Nodup ∧
    ∃ sys1, blockedSample.blockedPass = some sys1 ∧
      (sys1.blocked, sys1.retired.map (fun p => p.id), sys1.ready.ids, sys1.PCB_table.keys) =
        ([0], [2], [1], [0, 1]) ∧
      sys1.blocked = blockedSample.blocked.filter blockedSample.PCB_table.blockedStays ∧
      sys1.retired = blockedSample.retired ++
        blockedSample.blocked.filterMap blockedSample.PCB_table.blockedRetires ∧
      ReadyPriorityQueue.run
        (blockedSample.blocked.filterMap blockedSample.PCB_table.blockedPushes)
        blockedSample.ready = some sys1.ready := by
  refine ⟨by decide, ?_⟩
  have hs : blockedSample.blockedPass.isSome = true := by decide
  have hv : blockedSample.blockedPass.map (fun sys1 =>
      (sys1.blocked, sys1.retired.map (fun p => p.id), sys1.ready.ids, sys1.PCB_table.keys)) =
      some ([0], [2], [1], [0, 1]) := by
    decide
  obtain ⟨sys1, hsys⟩ := Option.isSome_iff_exists.mp hs
  rw [hsys] at hv
  have hr := System.blocked_pass_rule blockedSample sys1 hsys (by decide)
  exact ⟨sys1, hsys, by simpa using hv, hr.1, hr.2.1, hr.2.2.1⟩

/-! ### The order of the units in the unit pass -/

/-- The step of a quiet unit returns false. -/
theorem CPU.step_quiet (c : CPU) (tbl : PCBTable) (r : Bool) (c1 : CPU) (tbl1 : PCBTable)
    (hq : c.quiet) (hs : c.step tbl = some (r, c1, tbl1)) : r = false := by
  obtain ⟨hne, hout⟩ := hq
  obtain ⟨key, p, p1, _, _, hon, _⟩ := CPU.step_assigned_inv c tbl r c1 tbl1 hne hs
  by_cases hst : c.getState = CPUState.switching_out
  · obtain ⟨h2, hM⟩ := hout hst
    rw [CPU.stepOn_switching_out _ p (by rw [CPU.recordTick_getState]; exact hst),
      CPU.recordTick_t, Timer.step_pos c.t (by omega) hM] at hon
    have hd : decide (c.t.count - 1 = 0) = false := by
      rw [decide_eq_false_iff_not]
      omega
    simp only [Option.map_some', hd, Bool.false_eq_true, if_false, Option.some.injEq,
      Prod.mk.injEq] at hon
    exact hon.1.symm
  · exact CPU.stepOn_false _ p r c1 p1 (by rw [CPU.recordTick_getState]; exact hst) hon

/-- The body of the unit loop for a quiet unit leaves the ready queue alone. -/
theorem System.cpuBody_quiet (sys : System) (cpu cpu1 : CPU) (sys1 : System)
    (h : sys.cpuBody cpu = some (cpu1, sys1)) (hq : cpu.quiet) : sys1.ready = sys.ready := by
  unfold System.cpuBody at h
  cases hs : cpu.step sys.PCB_table with
  | none => simp [hs] at h
  | some res =>
    obtain ⟨r, c1, tbl1⟩ := res
    have hr : r = false := CPU.step_quiet cpu _ r c1 tbl1 hq hs
    subst hr
    simp only [hs, CPU.assigned_eq_true cpu hq.1, Bool.not_true, Bool.or_false,
      Bool.false_eq_true, if_false, Option.some.injEq, Prod.mk.injEq] at h
    rw [← h.2]

/-- The body of the unit loop for an idle unit, the ready queue not being
empty: the unit takes the front of the queue. -/
theorem System.cpuBody_idle (sys : System) (cpu cpu1 : CPU) (sys1 : System) (a : Nat)
    (rest : List Nat) (h : sys.cpuBody cpu = some (cpu1, sys1))
    (hi : cpu.getState = CPUState.idle) (hready : sys.ready.ids = a :: rest) :
    cpu1.proc = some a ∧ sys1.ready.ids = rest := by
  have hne : sys.ready.empty = false := by
    cases he : sys.ready.empty with
    | false => rfl
    | true =>
      rw [(ReadyPriorityQueue.empty_iff_ids sys.ready).mp he] at hready
      cases hready
  obtain ⟨x, q1, hf, hp, hids, _⟩ := ReadyPriorityQueue.front_pop_ids sys.ready hne
  rw [hready, List.cons.injEq] at hids
  obtain ⟨hx, hq1⟩ := hids
  unfold System.cpuBody at h
  rw [CPU.step_idle cpu _ hi] at h
  simp only [CPU.assigned_eq_false cpu hi, Bool.not_false, Bool.or_true, if_true,
    Bool.not_true, Bool.false_eq_true, if_false] at h
  unfold System.assignFront at h
  simp only [hne, Bool.not_false, if_true, hf, hp] at h
  cases ha : cpu.recordTick.assign x sys.PCB_table with
  | none => simp [ha] at h
  | some r =>
    simp only [ha, Option.some.injEq, Prod.mk.injEq] at h
    obtain ⟨h1, h2⟩ := h
    rw [← h1, ← h2, (CPU.assign_frame _ x _ r ha).2.2.1, ← hx]
    exact ⟨rfl, hq1.symm⟩

/-- The unit loop over quiet units leaves the ready queue alone. -/
theorem System.cpuLoop_quiet : ∀ (todo more done : List CPU) (sys sys1 : System),
    System.cpuLoop done (todo ++ more) sys = some sys1 → (∀ c ∈ todo, c.quiet) →
    ∃ done1 sys2, done1.length = todo.length ∧ sys2.ready = sys.ready ∧
      System.cpuLoop (done ++ done1) more sys2 = some sys1 := by
  intro todo
  induction todo with
  | nil =>
    intro more done sys sys1 h _
    exact ⟨[], sys, rfl, rfl, by rw [List.append_nil]; exact h⟩
  | cons cpu todo ih =>
    intro more done sys sys1 h hq
    simp only [List.cons_append, System.cpuLoop] at h
    cases hb : sys.cpuBody cpu with
    | none => simp [hb] at h
    | some r =>
      simp only [hb] at h
      obtain ⟨done1, sys2, hlen, hr, hloop⟩ := ih more (done ++ [r.1]) r.2 sys1 h
        (fun c hc => hq c (List.mem_cons_of_mem _ hc))
      refine ⟨r.1 :: done1, sys2, by simp [hlen], ?_, ?_⟩
      · rw [hr]
        exact System.cpuBody_quiet sys cpu r.1 r.2 hb (hq cpu (List.mem_cons_self _ _))
      · rw [List.append_assoc, List.singleton_append] at hloop
        exact hloop

/-- The unit loop returns the units served before, followed by one unit for
each unit still to serve. -/
theorem System.cpuLoop_shape : ∀ (todo done : List CPU) (sys sys1 : System),
    System.cpuLoop done todo sys = some sys1 →
    ∃ res, sys1.cpus = done ++ res ∧ res.length = todo.length := by
  intro todo
  induction todo with
  | nil =>
    intro done sys sys1 h
    simp only [System.cpuLoop, Option.some.injEq] at h
    subst h
    exact ⟨[], by simp, rfl⟩
  | cons cpu todo ih =>
    intro done sys sys1 h
    simp only [System.cpuLoop] at h
    cases hb : sys.cpuBody cpu with
    | none => simp [hb] at h
    | some r =>
      simp only [hb] at h
      obtain ⟨res, h1, h2⟩ := ih (done ++ [r.1]) r.2 sys1 h
      refine ⟨r.1 :: res, ?_, by simp [h2]⟩
      rw [h1, List.append_assoc, List.singleton_append]

/-- C30 as stated fails.  Three units, three processes arriving together:
after the first round all three units are idle and the ready queue holds the
ids 0, 1, 2, front first.  Units 1 and 2 are both idle and the queue holds at
least two ids, yet the unit pass of the next round binds unit 1 to id 1, not to
the front 0 (which unit 0 takes), and unit 2 to id 2. -/
theorem System.idle_unit_not_served_front :
    (System.ticks 1 0 ((System.init (unitsOf 3)).startTimers threePlans)).map
      (fun sys => (sys.cpus.map (fun c => c.getState), sys.ready.ids, sys.ready.front)) =
      some ([CPUState.idle, CPUState.idle, CPUState.idle], [0, 1, 2], some 0) ∧
    ((System.ticks 1 0 ((System.init (unitsOf 3)).startTimers threePlans)).bind
      System.cpuPass).map (fun sys => sys.cpus.map (fun c => c.proc)) =
      some [some 0, some 1, some 2] := by
  decide

/-- C30 (amended): units are served in index order within a round.  If at the
start of the unit pass units `i < j` are both idle, every other unit with an
index below `j` is quiet (assigned and not on the last tick of switching out, so
that its step does not signal), and the ready queue holds at least two ids, `a`
at the front and `b` next in drain order, then after the unit pass unit `i` is
bound to `a` and unit `j` is bound to `b`. -/
theorem System.idle_units_in_order (sys sys1 : System) (pre mid post : List CPU) (ci cj : CPU)
    (a b : Nat) (rest : List Nat)
    (hcpus : sys.cpus = pre ++ ci :: (mid ++ cj :: post))
    (hi : ci.getState = CPUState.idle) (hj : cj.getState = CPUState.idle)
    (hquiet : ∀ c, c ∈ pre ∨ c ∈ mid → c.quiet)
    (hready : sys.ready.ids = a :: b :: rest)
    (h : sys.cpuPass = some sys1) :
    ∃ pre1 ci1 mid1 cj1 post1, sys1.cpus = pre1 ++ ci1 :: (mid1 ++ cj1 :: post1) ∧
      pre1.length = pre.length ∧ mid1.length = mid.length ∧ post1.length = post.length ∧
      ci1.proc = some a ∧ cj1.proc = some b := by
  unfold System.cpuPass at h
  rw [hcpus] at h
  obtain ⟨pre1, sysa, hlen1, hra, h1⟩ := System.cpuLoop_quiet pre _ [] sys sys1 h
    (fun c hc => hquiet c (Or.inl hc))
  simp only [System.cpuLoop] at h1
  cases hb1 : sysa.cpuBody ci with
  | none => simp [hb1] at h1
  | some r1 =>
    simp only [hb1] at h1
    obtain ⟨hpa, hrb⟩ := System.cpuBody_idle sysa ci r1.1 r1.2 a (b :: rest) hb1 hi
      (by rw [hra]; exact hready)
    obtain ⟨mid1, sysc, hlen2, hrc, h2⟩ := System.cpuLoop_quiet mid _ _ r1.2 sys1 h1
      (fun c hc => hquiet c (Or.inr hc))
    simp only [System.cpuLoop] at h2
    cases hb2 : sysc.cpuBody cj with
    | none => simp [hb2] at h2
    | some r2 =>
      simp only [hb2] at h2
      obtain ⟨hpb, _⟩ := System.cpuBody_idle sysc cj r2.1 r2.2 b rest hb2 hj
        (by rw [hrc]; exact hrb)
      obtain ⟨post1, hshape, hlen3⟩ := System.cpuLoop_shape post _ r2.2 sys1 h2
      refine ⟨pre1, r1.1, mid1, r2.1, post1, ?_, hlen1, hlen2, hlen3, hpa, hpb⟩
      rw [hshape]
      simp

theorem System.idle_units_in_order_witness :
    ∃ sys sys1 c0 c1 c2,
      System.ticks 2 0 ((System.init (unitsOf 3)).startTimers staggeredPlans) = some sys ∧
      sys.cpus = [c0] ++ c1 :: ([] ++ c2 :: []) ∧ c0.getState = CPUState.switching_in ∧
      c1.getState = CPUState.idle ∧ c2.getState = CPUState.idle ∧
      sys.ready.ids = 1 :: 2 :: [] ∧ sys.cpuPass = some sys1 ∧
      ∃ pre1 ci1 mid1 cj1 post1, sys1.cpus = pre1 ++ ci1 :: (mid1 ++ cj1 :: post1) ∧
        pre1.length = [c0].length ∧ mid1.length = ([] : List CPU).length ∧
        post1.length = ([] : List CPU).length ∧ ci1.proc = some 1 ∧ cj1.proc = some 2 := by
  have hs : (System.ticks 2 0
      ((System.init (unitsOf 3)).startTimers staggeredPlans)).isSome = true := by
    decide
  obtain ⟨sys, hsys⟩ := Option.isSome_iff_exists.mp hs
  have hv : (System.ticks 2 0 ((System.init (unitsOf 3)).startTimers staggeredPlans)).map
      (fun sys => (sys.cpus.map (fun c => c.getState), sys.ready.ids, sys.cpuPass.isSome)) =
      some ([CPUState.switching_in, CPUState.idle, CPUState.idle], [1, 2], true) := by
    decide
  rw [hsys] at hv
  simp only [Option.map_some', Option.some.injEq, Prod.mk.injEq] at hv
  obtain ⟨hc, hr, hp⟩ := hv
  obtain ⟨sys1, hsys1⟩ := Option.isSome_iff_exists.mp hp
  obtain ⟨c0, l0, e0, s0, hc⟩ := List.map_eq_cons_iff.mp hc
  obtain ⟨c1, l1, e1, s1, hc⟩ := List.map_eq_cons_iff.mp hc
  obtain ⟨c2, l2, e2, s2, hc⟩ := List.map_eq_cons_iff.mp hc
  have e3 : l2 = [] := List.map_eq_nil_iff.mp hc
  have hcpus : sys.cpus = [c0] ++ c1 :: ([] ++ c2 :: []) := by
    rw [e0, e1, e2, e3]
    rfl
  have hq : ∀ c, c ∈ [c0] ∨ c ∈ ([] : List CPU) → c.quiet := by
    intro c hc1
    rcases hc1 with h1 | h1
    · rw [List.mem_singleton] at h1
      rw [h1]
      exact ⟨by rw [s0]; decide, fun h2 => by rw [s0] at h2; cases h2⟩
    · cases h1
  exact ⟨sys, sys1, c0, c1, c2, hsys, hcpus, s0, s1, s2, hr, hsys1,
    System.idle_units_in_order sys sys1 [c0] [] [] c1 c2 1 2 [] hcpus s1 s2 hq hr hsys1⟩

/-! ### Counting steps: the writes of the table -/

theorem History.duration_inc {E : Type} [DecidableEq E] (h : History E) (s : E) :
    (h.inc s).duration = (h.duration + 1) % STEP_MOD := by
  rw [History.duration_eq_total, History.duration_eq_total]
  unfold History.total
  rcases History.inc_cases h s with ⟨hold, hnew⟩ | ⟨l, b, hold, _, hnew⟩ | ⟨l, b, hold, _, hnew⟩
  · rw [hnew, hold]
    rfl
  · rw [hnew, hold]
    simp only [List.map_append, List.sum_append, List.map_cons, List.map_nil, List.sum_cons,
      List.sum_nil, Nat.add_zero]
    unfold STEP_MOD
    omega
  · rw [hnew, hold]
    simp only [List.map_append, List.sum_append, List.map_cons, List.map_nil, List.sum_cons,
      List.sum_nil, Nat.add_zero]
    unfold STEP_MOD
    omega

/-- A record that comes from another by `n` steps has its id, and its trace
is longer by `n` ticks, in `Step` arithmetic. -/
theorem PCB.StepsTo.duration {n : Nat} {p q : PCB} (h : PCB.StepsTo n p q) :
    q.id = p.id ∧ q.stats.hist.duration = (p.stats.hist.duration + n) % STEP_MOD := by
  induction h with
  | refl p =>
    refine ⟨rfl, ?_⟩
    rw [Nat.add_zero, History.duration_eq_total, Nat.mod_mod]
  | step n p q _ ih =>
    refine ⟨(PCB.step_id q).trans ih.1, ?_⟩
    rw [PCB.step_hist, History.duration_inc, ih.2]
    unfold STEP_MOD
    omega
  | setState n p q s _ ih => exact ih

/-- The trace after `inc(s)`: a last period of state `s` whose duration is one
more than the ticks open for `s`, after the periods before the last one when
that is of state `s`, and after the whole trace otherwise. -/
theorem History.inc_shape (h : History CPUState) (s : CPUState) :
    ∃ l, (h.inc s).trace =
        l ++ [{ state := s, duration := (openTicks s h.trace + 1) % STEP_MOD }] ∧
      ((l = h.trace.dropLast ∧ ∃ b, h.trace.getLast? = some b ∧ b.state = s) ∨
       (l = h.trace ∧ ∀ b, h.trace.getLast? = some b → b.state ≠ s)) := by
  rcases History.inc_cases h s with ⟨hold, hnew⟩ | ⟨l, b, hold, hbs, hnew⟩ | ⟨l, b, hold, hbs, hnew⟩
  · refine ⟨[], ?_, Or.inr ⟨hold.symm, ?_⟩⟩
    · rw [hnew, hold]
      rfl
    · intro b hb
      rw [hold] at hb
      cases hb
  · refine ⟨l, ?_, Or.inl ⟨?_, b, ?_, hbs⟩⟩
    · rw [hnew, hold]
      simp [openTicks, hbs]
    · rw [hold, List.dropLast_concat]
    · rw [hold, List.getLast?_concat]
  · refine ⟨l ++ [b], ?_, Or.inr ⟨hold.symm, ?_⟩⟩
    · rw [hnew, hold]
      simp only [openTicks, List.getLast?_concat, hbs, if_false, Nat.zero_add]
      rfl
    · intro b1 hb1
      rw [hold, List.getLast?_concat, Option.some.injEq] at hb1
      rw [← hb1]
      exact hbs

theorem periodsOf_concat (st : CPUState) (l : List (Period CPUState)) (b : Period CPUState) :
    periodsOf st (l ++ [b]) = periodsOf st l + if b.state = st then 1 else 0 := by
  unfold periodsOf
  rw [List.countP_append, List.countP_cons, List.countP_nil]
  simp

theorem trace_eq_dropLast_concat (l : List (Period CPUState)) (b : Period CPUState)
    (h : l.getLast? = some b) : l = l.dropLast ++ [b] := by
  rcases List.eq_nil_or_concat l with hl | ⟨l1, b1, hl⟩
  · rw [hl] at h
    cases h
  · rw [List.concat_eq_append] at hl
    rw [hl, List.getLast?_concat, Option.some.injEq] at h
    rw [hl, List.dropLast_concat, h]

/-- A step keeps the invariant of the switching periods: the tick of the state
`st` is recorded, and the unit goes on to the state and count `(st1, n1)`. -/
theorem TraceInv.record (I O : Nat) (hIM : I < STEP_MOD) (hO : 1 ≤ O) (hOM : O < STEP_MOD)
    (h : History CPUState) (st : CPUState) (n : Nat) (st1 : CPUState) (n1 : Nat)
    (hinv : TraceInv I O h.trace st n) (htr : switchStep O st n st1 n1) :
    TraceInv I O (h.inc st).trace st1 n1 := by
  obtain ⟨hchain, hlast, hempty, hdrop, hAin, hBin, hAout, hBout, hbal⟩ := hinv
  obtain ⟨l, hnew, hl⟩ := History.inc_shape h st
  have hmod : ∀ x : Nat, x + 1 < STEP_MOD → (x + 1) % STEP_MOD = x + 1 :=
    fun x hx => Nat.mod_eq_of_lt hx
  have hdin : st = CPUState.switching_in →
      (openTicks st h.trace + 1) % STEP_MOD = openTicks CPUState.switching_in h.trace + 1 := by
    intro hs
    obtain ⟨h1, h2⟩ := hAin hs
    rw [hs]
    exact hmod _ (by omega)
  have hdout : st = CPUState.switching_out →
      (openTicks st h.trace + 1) % STEP_MOD = openTicks CPUState.switching_out h.trace + 1 := by
    intro hs
    obtain ⟨h1, h2⟩ := hAout hs
    rw [hs]
    exact hmod _ (by omega)
  generalize (openTicks st h.trace + 1) % STEP_MOD = d at hnew hdin hdout
  have hlast1 : (h.inc st).trace.getLast? = some { state := st, duration := d } := by
    rw [hnew, List.getLast?_concat]
  have hdrop1 : (h.inc st).trace.dropLast = l := by
    rw [hnew, List.dropLast_concat]
  have hopen : ∀ x, openTicks x (h.inc st).trace = if st = x then d else 0 := by
    intro x
    simp only [openTicks, hlast1]
  refine ⟨?_, ?_, ?_, ?_, ?_, ?_, ?_, ?_, ?_⟩
  · rw [hnew, chain_concat_iff]
    rcases hl with ⟨hl1, b, hb, hbs⟩ | ⟨hl1, hne⟩
    · have he := trace_eq_dropLast_concat h.trace b hb
      rw [he, chain_concat_iff] at hchain
      rw [hl1]
      refine ⟨hchain.1, fun x hx => ?_⟩
      have := hchain.2 x hx
      rw [hbs] at this
      exact this
    · rw [hl1]
      refine ⟨hchain, fun x hx => ?_⟩
      rcases hlast x hx with h1 | h1
      · exact absurd h1 (hne x hx)
      · exact h1
  · intro b hb
    rw [hlast1, Option.some.injEq] at hb
    rw [← hb]
    show st = st1 ∨ st.follows st1 = true
    rcases htr with ⟨h1, h2⟩ | ⟨h1, ⟨_, h2 | h2⟩ | ⟨_, h2, _⟩⟩ |
      ⟨h1, ⟨_, h2⟩ | ⟨_, h2, _⟩⟩ | ⟨h1 | h1, h2 | h2 | ⟨h2, _⟩⟩ <;>
      rw [h1, h2] <;> simp [CPUState.follows]
  · intro he
    rw [hnew] at he
    simp at he
  · rw [hdrop1]
    rcases hl with ⟨hl1, _⟩ | ⟨hl1, hne⟩
    · rw [hl1]
      exact hdrop
    · rw [hl1]
      intro p hp
      cases hg : h.trace.getLast? with
      | none =>
        rw [List.getLast?_eq_none_iff] at hg
        rw [hg] at hp
        cases hp
      | some b =>
        rw [trace_eq_dropLast_concat h.trace b hg, List.mem_append, List.mem_singleton] at hp
        rcases hp with hp | hp
        · exact hdrop p hp
        · rw [hp]
          have hbst := hne b hg
          constructor
          · intro hb
            exact hBin (fun hs => hbst (hb.trans hs.symm)) b hg hb
          · intro hb
            exact hBout (fun hs => hbst (hb.trans hs.symm)) b hg hb
  · intro hs1
    rcases htr with ⟨_, h2⟩ | ⟨h1, ⟨_, h2 | h2⟩ | ⟨hn, _, hn1⟩⟩ |
      ⟨_, ⟨_, h2⟩ | ⟨_, h2, _⟩⟩ | ⟨_, h2 | h2 | ⟨h2, _⟩⟩
    · rw [h2] at hs1; cases hs1
    · rw [h2] at hs1; cases hs1
    · rw [h2] at hs1; cases hs1
    · obtain ⟨a1, a2⟩ := hAin h1
      rw [hopen, if_pos h1, hdin h1, hn1]
      omega
    · rw [h2] at hs1; cases hs1
    · rw [h2] at hs1; cases hs1
    · rw [h2] at hs1; cases hs1
    · rw [h2] at hs1; cases hs1
    · rw [h2] at hs1; cases hs1
  · intro hs1 b hb hbs
    rw [hlast1, Option.some.injEq] at hb
    rw [← hb] at hbs ⊢
    have hst : st = CPUState.switching_in := hbs
    obtain ⟨a1, a2⟩ := hAin hst
    show d = I
    rw [hdin hst]
    rcases htr with ⟨h1, _⟩ | ⟨_, ⟨hn, _⟩ | ⟨_, h2, _⟩⟩ | ⟨h1, _⟩ | ⟨h1 | h1, _⟩
    · rw [hst] at h1; cases h1
    · omega
    · exact absurd h2 hs1
    · rw [hst] at h1; cases h1
    · rw [hst] at h1; cases h1
    · rw [hst] at h1; cases h1
  · intro hs1
    rcases htr with ⟨_, h2⟩ | ⟨_, ⟨_, h2 | h2⟩ | ⟨_, h2, _⟩⟩ |
      ⟨h1, ⟨_, h2⟩ | ⟨hn, _, hn1⟩⟩ | ⟨h1, h2 | h2 | ⟨_, hn1⟩⟩
    · rw [h2] at hs1; cases hs1
    · rw [h2] at hs1; cases hs1
    · rw [h2] at hs1; cases hs1
    · rw [h2] at hs1; cases hs1
    · rw [h2] at hs1; cases hs1
    · obtain ⟨a1, a2⟩ := hAout h1
      rw [hopen, if_pos h1, hdout h1, hn1]
      omega
    · rw [h2] at hs1; cases hs1
    · rw [h2] at hs1; cases hs1
    · have hne : ¬ st = CPUState.switching_out := by
        rcases h1 with h1 | h1 <;> rw [h1] <;> decide
      rw [hopen, if_neg hne, hn1]
      omega
  · intro hs1 b hb hbs
    rw [hlast1, Option.some.injEq] at hb
    rw [← hb] at hbs ⊢
    have hst : st = CPUState.switching_out := hbs
    obtain ⟨a1, a2⟩ := hAout hst
    show d = O
    rw [hdout hst]
    rcases htr with ⟨h1, _⟩ | ⟨h1, _⟩ | ⟨_, ⟨hn, _⟩ | ⟨_, h2, _⟩⟩ | ⟨h1 | h1, _⟩
    · rw [hst] at h1; cases h1
    · rw [hst] at h1; cases h1
    · omega
    · exact absurd h2 hs1
    · rw [hst] at h1; cases h1
    · rw [hst] at h1; cases h1
  · rw [hlast1]
    simp only
    rw [hnew, periodsOf_concat, periodsOf_concat]
    simp only
    rcases hl with ⟨hl1, b, hb, hbs⟩ | ⟨hl1, hne⟩
    · rw [hb] at hbal
      simp only [hbs] at hbal
      rw [trace_eq_dropLast_concat h.trace b hb, periodsOf_concat, periodsOf_concat, hbs,
        ← hl1] at hbal
      omega
    · rw [hl1]
      cases hg : h.trace.getLast? with
      | none =>
        rw [hg] at hbal
        simp only [Nat.add_zero] at hbal
        rcases hempty (List.getLast?_eq_none_iff.mp hg) with h1 | h1 <;>
          rw [h1] <;> simp [CPUState.serving] <;> omega
      | some b =>
        rw [hg] at hbal
        simp only at hbal
        have hf : b.state.follows st = true := by
          rcases hlast b hg with h1 | h1
          · exact absurd h1 (hne b hg)
          · exact h1
        revert hf hbal
        cases b.state <;> cases st <;> simp [CPUState.follows, CPUState.serving]

/-! ### The switching periods: the steps of a unit -/

/-- The change of state and timer count `CPU::step` makes, for a unit whose
timer, while it is switching, has a count of at least 1 that is a `Step`. -/
theorem CPU.step_switchStep (c : CPU) (tbl : PCBTable) (r : Bool) (c1 : CPU) (tbl1 : PCBTable)
    (hs : c.step tbl = some (r, c1, tbl1))
    (hsw : c.getState = CPUState.switching_in ∨ c.getState = CPUState.switching_out →
      1 ≤ c.t.count ∧ c.t.count < STEP_MOD) :
    switchStep c.settings.SWITCHING_OUT_DELAY c.getState c.t.count c1.getState c1.t.count := by
  have hbusy : ∀ (hst : c.getState = CPUState.processing ∨ c.getState = CPUState.assigned_idle),
      switchStep c.settings.SWITCHING_OUT_DELAY c.getState c.t.count c1.getState c1.t.count := by
    intro hst
    have hne : c.getState ≠ CPUState.idle := by
      rcases hst with h | h <;> rw [h] <;> decide
    obtain ⟨key, p, p1, _, _, hon, _⟩ := CPU.step_assigned_inv c tbl r c1 tbl1 hne hs
    refine Or.inr (Or.inr (Or.inr ⟨hst, ?_⟩))
    by_cases hf : c.settings.RR_TIME = 0
    · rw [CPU.stepOn_busy_fcfs c.recordTick p hst hf] at hon
      simp only [Option.some.injEq, Prod.mk.injEq] at hon
      obtain ⟨_, hc⟩ := hon
      split at hc
      · split at hc
        · simp only [CPU.deassignOn, Prod.mk.injEq] at hc
          rw [← hc.1]
          exact Or.inr (Or.inr ⟨rfl, rfl⟩)
        · simp only [Prod.mk.injEq] at hc
          rw [← hc.1]
          by_cases hp : p.step.2.state = ProcessState.running
          · right; left
            simp [CPU.getState, Timer.getData, hp, Timer.init]
          · left
            simp [CPU.getState, Timer.getData, hp, Timer.init]
      · simp only [Prod.mk.injEq] at hc
        rw [← hc.1]
        rcases hst with h | h
        · exact Or.inl h
        · exact Or.inr (Or.inl h)
    · rw [CPU.stepOn_busy_rr c.recordTick p hst hf, CPU.recordTick_t] at hon
      cases hts : c.t.step with
      | none => simp [hts] at hon
      | some tr =>
        have hd := Timer.step_data c.t tr hts
        simp only [hts, Option.map_some', Option.some.injEq] at hon
        split at hon
        · simp only [Prod.mk.injEq] at hon
          rw [← hon.2.1]
          exact Or.inr (Or.inr ⟨rfl, rfl⟩)
        · simp only [Prod.mk.injEq] at hon
          rw [← hon.2.1]
          have hg : ({ c.recordTick with t := tr.2 } : CPU).getState = c.getState := hd
          rw [hg]
          rcases hst with h | h
          · exact Or.inl h
          · exact Or.inr (Or.inl h)
  cases hst : c.getState with
  | idle =>
    rw [CPU.step_idle c tbl hst] at hs
    simp only [Option.some.injEq, Prod.mk.injEq] at hs
    rw [← hs.2.1]
    exact Or.inl ⟨rfl, hst⟩
  | processing =>
    have := hbusy (Or.inl hst)
    rw [hst] at this
    exact this
  | assigned_idle =>
    have := hbusy (Or.inr hst)
    rw [hst] at this
    exact this
  | switching_in =>
    have hne : c.getState ≠ CPUState.idle := by rw [hst]; decide
    obtain ⟨h1, hM⟩ := hsw (Or.inl hst)
    obtain ⟨key, p, p1, _, _, hon, _⟩ := CPU.step_assigned_inv c tbl r c1 tbl1 hne hs
    rw [CPU.stepOn_switching_in c.recordTick p hst, CPU.recordTick_t,
      Timer.step_pos c.t h1 hM] at hon
    simp only [Option.map_some', Option.some.injEq] at hon
    refine Or.inr (Or.inl ⟨rfl, ?_⟩)
    by_cases hz : c.t.count - 1 = 0
    · left
      refine ⟨by omega, ?_⟩
      simp only [hz, decide_True, if_true] at hon
      split at hon
      · simp only [Prod.mk.injEq] at hon
        rw [← hon.2.1]
        by_cases hp : p.step.2.bursts.isProcessing = true
        · left
          simp [CPU.getState, Timer.getData, hp, Timer.init]
        · right
          simp [CPU.getState, Timer.getData, hp, Timer.init]
      · simp only [Prod.mk.injEq] at hon
        rw [← hon.2.1]
        exact Or.inl rfl
    · right
      simp only [hz, decide_False, Bool.false_eq_true, if_false, Prod.mk.injEq] at hon
      rw [← hon.2.1]
      exact ⟨by omega, hst, rfl⟩
  | switching_out =>
    have hne : c.getState ≠ CPUState.idle := by rw [hst]; decide
    obtain ⟨h1, hM⟩ := hsw (Or.inr hst)
    obtain ⟨key, p, p1, _, _, hon, _⟩ := CPU.step_assigned_inv c tbl r c1 tbl1 hne hs
    rw [CPU.stepOn_switching_out c.recordTick p hst, CPU.recordTick_t,
      Timer.step_pos c.t h1 hM] at hon
    simp only [Option.map_some', Option.some.injEq] at hon
    refine Or.inr (Or.inr (Or.inl ⟨rfl, ?_⟩))
    by_cases hz : c.t.count - 1 = 0
    · left
      simp only [hz, decide_True, if_true, Prod.mk.injEq] at hon
      rw [← hon.2.1]
      exact ⟨by omega, rfl⟩
    · right
      simp only [hz, decide_False, Bool.false_eq_true, if_false, Prod.mk.injEq] at hon
      rw [← hon.2.1]
      exact ⟨by omega, hst, rfl⟩

theorem CPU.step_switchInv (I O : Nat) (hIM : I < STEP_MOD) (hO : 1 ≤ O) (hOM : O < STEP_MOD)
    (c : CPU) (tbl : PCBTable) (r : Bool) (c1 : CPU) (tbl1 : PCBTable)
    (hs : c.step tbl = some (r, c1, tbl1)) (hinv : c.switchInv I O) : c1.switchInv I O := by
  obtain ⟨hi, ho, htr⟩ := hinv
  obtain ⟨hhist, hsett⟩ := CPU.step_frame c tbl r c1 tbl1 hs
  have hsw : c.getState = CPUState.switching_in ∨ c.getState = CPUState.switching_out →
      1 ≤ c.t.count ∧ c.t.count < STEP_MOD := by
    intro h
    rcases h with h | h
    · have := htr.2.2.2.2.1 h
      omega
    · have := htr.2.2.2.2.2.2.1 h
      omega
  have hstep := CPU.step_switchStep c tbl r c1 tbl1 hs hsw
  rw [ho] at hstep
  refine ⟨by rw [hsett]; exact hi, by rw [hsett]; exact ho, ?_⟩
  rw [hhist]
  exact TraceInv.record I O hIM hO hOM c.stats.hist c.getState c.t.count _ _ htr hstep

theorem CPU.assign_switchInv (I O : Nat) (hI : 1 ≤ I) (c : CPU) (key : Nat) (tbl : PCBTable)
    (r : CPU × PCBTable) (ha : c.assign key tbl = some r) (hidle : c.getState = CPUState.idle)
    (hinv : c.switchInv I O) : r.1.switchInv I O := by
  obtain ⟨hi, ho, hchain, hlast, hempty, hdrop, hAin, hBin, hAout, hBout, hbal⟩ := hinv
  obtain ⟨a1, a2, _, a4⟩ := CPU.assign_frame c key tbl r ha
  have hst : r.1.getState = CPUState.switching_in := by
    show r.1.t.data = _
    rw [a4]
    rfl
  have hcount : r.1.t.count = I := by
    rw [a4, ← hi]
    rfl
  have hprev : ∀ b, c.stats.hist.trace.getLast? = some b →
      b.state = CPUState.idle ∨ b.state = CPUState.switching_out := by
    intro b hb
    rcases hlast b hb with h1 | h1
    · rw [hidle] at h1
      exact Or.inl h1
    · rw [hidle] at h1
      revert h1
      cases b.state <;> simp [CPUState.follows]
  refine ⟨by rw [a2]; exact hi, by rw [a2]; exact ho, ?_⟩
  rw [a1, hst, hcount]
  refine ⟨hchain, ?_, fun _ => Or.inr rfl, hdrop, ?_, fun h => absurd rfl h, ?_, ?_, hbal⟩
  · intro b hb
    right
    rcases hprev b hb with h1 | h1 <;> rw [h1] <;> rfl
  · intro _
    refine ⟨?_, hI⟩
    have h0 : openTicks CPUState.switching_in c.stats.hist.trace = 0 := by
      unfold openTicks
      cases hg : c.stats.hist.trace.getLast? with
      | none => rfl
      | some b =>
        have hne : ¬ b.state = CPUState.switching_in := by
          rcases hprev b hg with h1 | h1 <;> rw [h1] <;> decide
        simp [hne]
    rw [h0, Nat.zero_add]
  · intro h
    cases h
  · intro _ b hb hbs
    exact hBout (by rw [hidle]; decide) b hb hbs

/-! ### The switching periods: a round and a run -/

theorem System.cpuBody_switchInv (I O : Nat) (hI : 1 ≤ I) (hIM : I < STEP_MOD) (hO : 1 ≤ O)
    (hOM : O < STEP_MOD) (sys : System) (cpu cpu1 : CPU) (sys1 : System)
    (h : sys.cpuBody cpu = some (cpu1, sys1)) (hinv : cpu.switchInv I O) :
    cpu1.switchInv I O := by
  obtain ⟨b, c2, tbl2, hs, hc⟩ := System.cpuBody_unit sys cpu cpu1 sys1 h
  have h2 := CPU.step_switchInv I O hIM hO hOM cpu _ b c2 tbl2 hs hinv
  rcases hc with hc | ⟨hidle, key, tbl, r, ha, hc⟩
  · rw [hc]
    exact h2
  · rw [hc]
    exact CPU.assign_switchInv I O hI c2 key tbl r ha hidle h2

theorem System.ticks_switchInv (I O : Nat) (hI : 1 ≤ I) (hIM : I < STEP_MOD) (hO : 1 ≤ O)
    (hOM : O < STEP_MOD) : ∀ (n s : Nat) (sys sys1 : System),
    System.ticks n s sys = some sys1 → (∀ c ∈ sys.cpus, c.switchInv I O) →
    ∀ c ∈ sys1.cpus, c.switchInv I O := by
  intro n
  induction n with
  | zero =>
    intro s sys sys1 h hc
    simp only [System.ticks, Option.some.injEq] at h
    subst h
    exact hc
  | succ n ih =>
    intro s sys sys1 h hc
    simp only [System.ticks] at h
    cases ht : sys.tick s with
    | none => simp [ht] at h
    | some sys2 =>
      simp only [ht] at h
      exact ih (s + 1) sys2 sys1 h
        (System.tick_units _ _ (System.cpuBody_switchInv I O hI hIM hO hOM) sys s sys2 ht hc)

theorem System.loop_switchInv (I O : Nat) (hI : 1 ≤ I) (hIM : I < STEP_MOD) (hO : 1 ≤ O)
    (hOM : O < STEP_MOD) : ∀ (fuel s : Nat) (sys : System) (r : System × Nat),
    System.loop fuel s sys = some r → (∀ c ∈ sys.cpus, c.switchInv I O) →
    ∀ c ∈ r.1.cpus, c.switchInv I O := by
  intro fuel
  induction fuel with
  | zero =>
    intro s sys r h hc
    simp only [System.loop, Option.some.injEq] at h
    subst h
    exact hc
  | succ fuel ih =>
    intro s sys r h hc
    rw [System.loop] at h
    by_cases hr : sys.running s = true
    · rw [if_pos hr] at h
      cases ht : sys.tick s with
      | none => simp [ht] at h
      | some sys1 =>
        simp only [ht] at h
        exact ih (s + 1) sys1 r h
          (System.tick_units _ _ (System.cpuBody_switchInv I O hI hIM hO hOM) sys s sys1 ht hc)
    · rw [if_neg hr] at h
      simp only [Option.some.injEq] at h
      subst h
      exact hc

theorem System.startTimers_switchInv (sett : SystemSettings) (plans : List ProcessPlan) :
    ∀ c ∈ ((System.init sett).startTimers plans).cpus,
      c.switchInv sett.SWITCHING_IN_DELAY sett.SWITCHING_OUT_DELAY := by
  intro c hc
  simp only [System.startTimers, System.init, List.mem_map] at hc
  obtain ⟨i, _, hi⟩ := hc
  rw [← hi]
  refine ⟨rfl, rfl, List.chain'_nil, ?_, fun _ => Or.inl rfl, ?_, ?_, ?_, ?_, ?_, rfl⟩
  · intro b hb
    cases hb
  · intro p hp
    cases hp
  · intro h
    cases h
  · intro _ b hb
    cases hb
  · intro h
    cases h
  · intro _ b hb
    cases hb

/-- The trace of an idle unit: every switching period is exact, and there are
as many switching-in as switching-out periods. -/
theorem CPU.switchInv_idle (I O : Nat) (c : CPU) (hinv : c.switchInv I O)
    (hidle : c.getState = CPUState.idle) :
    (∀ p ∈ c.stats.hist.trace, p.exact I O) ∧
    periodsOf CPUState.switching_in c.stats.hist.trace =
      periodsOf CPUState.switching_out c.stats.hist.trace := by
  obtain ⟨_, _, _, hlast, _, hdrop, _, hBin, _, hBout, hbal⟩ := hinv
  have hni : c.getState ≠ CPUState.switching_in := by rw [hidle]; decide
  have hno : c.getState ≠ CPUState.switching_out := by rw [hidle]; decide
  cases hg : c.stats.hist.trace.getLast? with
  | none =>
    rw [hg] at hbal
    refine ⟨?_, hbal⟩
    rw [List.getLast?_eq_none_iff.mp hg]
    intro p hp
    cases hp
  | some b =>
    rw [hg] at hbal
    have hb : b.state = CPUState.idle ∨ b.state = CPUState.switching_out := by
      rcases hlast b hg with h1 | h1
      · rw [hidle] at h1
        exact Or.inl h1
      · rw [hidle] at h1
        revert h1
        cases b.state <;> simp [CPUState.follows]
    constructor
    · intro p hp
      rw [trace_eq_dropLast_concat _ b hg, List.mem_append, List.mem_singleton] at hp
      rcases hp with hp | hp
      · exact hdrop p hp
      · rw [hp]
        exact ⟨fun h => hBin hni b hg h, fun h => hBout hno b hg h⟩
    · have hs : b.state.serving = false := by
        rcases hb with h1 | h1 <;> rw [h1] <;> rfl
      simp only [hs, Bool.false_eq_true, if_false, Nat.add_zero] at hbal
      exact hbal

theorem System.ticks_sound : ∀ (n s : Nat) (sys sys1 : System),
    System.ticks n s sys = some sys1 → sys.Layout → sys.Sound → sys1.Sound := by
  intro n
  induction n with
  | zero =>
    intro s sys sys1 h _ hs
    simp only [System.ticks, Option.some.injEq] at h
    subst h
    exact hs
  | succ n ih =>
    intro s sys sys1 h hl hs
    simp only [System.ticks] at h
    cases ht : sys.tick s with
    | none => simp [ht] at h
    | some sys2 =>
      simp only [ht] at h
      exact ih (s + 1) sys2 sys1 h (System.tick_layout sys s sys2 ht hl)
        (System.tick_sound sys s sys2 ht hl hs)

/-! ### The process of a switching unit -/

/-- When the unit loop reaches a unit, the process bound to the unit is in
the role the unit serves. -/
theorem System.cpuLoop_serving : ∀ (pre done : List CPU) (c : CPU) (post : List CPU)
    (sys sys1 : System),
    System.cpuLoop done (pre ++ c :: post) sys = some sys1 →
    (∀ u ∈ done ++ (pre ++ c :: post), u.tidy) →
    Placed sys.PCB_table
      (boundIds (done ++ (pre ++ c :: post)) ++ (sys.ready.ids ++ sys.blocked)) →
    Roles (done ++ (pre ++ c :: post)) sys.PCB_table sys.ready sys.blocked →
    Finished sys.retired →
    ∃ done1 sysm, done1.length = done.length + pre.length ∧
      System.cpuLoop done1 (c :: post) sysm = some sys1 ∧
      ∀ k, c.proc = some k → ∃ p, sysm.PCB_table.lookup k = some p ∧ c.serves p := by
  intro pre
  induction pre with
  | nil =>
    intro done c post sys sys1 h _ hp hr _
    refine ⟨done, sys, rfl, h, ?_⟩
    intro k hk
    have hmem : c ∈ done ++ ([] ++ c :: post) := by simp
    have hkb : k ∈ boundIds (done ++ ([] ++ c :: post)) :=
      (mem_boundIds _ k).mpr ⟨c, hmem, hk⟩
    obtain ⟨p, hl, _⟩ := hp.has_record k (List.mem_append_left _ hkb)
    exact ⟨p, hl, hr.2.1 c hmem k p hk hl⟩
  | cons cpu pre ih =>
    intro done c post sys sys1 h ht hp hr hfin
    simp only [List.cons_append, System.cpuLoop] at h
    cases hb : sys.cpuBody cpu with
    | none => simp [hb] at h
    | some res =>
      obtain ⟨c1, sys2⟩ := res
      simp only [hb] at h
      have htc : cpu.tidy := ht cpu (by simp)
      have hp1 : Placed sys.PCB_table (cpu.proc.toList ++
          (boundIds (done ++ (pre ++ c :: post)) ++ (sys.ready.ids ++ sys.blocked))) := by
        apply hp.of_perm
        rw [← Multiset.coe_eq_coe]
        simp only [List.cons_append, boundIds_append, boundIds_cons, ← Multiset.coe_add]
        abel
      have hr1 : Roles (cpu :: (done ++ (pre ++ c :: post))) sys.PCB_table sys.ready
          sys.blocked := by
        apply hr.with_units
        intro u hu
        simp only [List.cons_append, List.mem_cons, List.mem_append] at hu ⊢
        tauto
      obtain ⟨ht1, hp2⟩ := System.cpuBody_layout sys cpu c1 sys2 _ hb htc hp1
      obtain ⟨hr2, hfin2⟩ := System.cpuBody_roles sys cpu c1 sys2 _ hb htc hp1 hr1 hfin
      obtain ⟨done1, sysm, hlen, hloop, hserve⟩ := ih (done ++ [c1]) c post sys2 sys1 h
        (by
          intro u hu
          simp only [List.append_assoc, List.singleton_append, List.mem_append,
            List.mem_cons] at hu
          rcases hu with hu | hu | hu | hu | hu
          · exact ht u (by simp [hu])
          · rw [hu]
            exact ht1
          · exact ht u (by simp [hu])
          · exact ht u (by simp [hu])
          · exact ht u (by simp [hu]))
        (by
          apply hp2.of_perm
          rw [← Multiset.coe_eq_coe]
          simp only [List.cons_append, boundIds_append, boundIds_cons, boundIds_nil,
            ← Multiset.coe_add, Multiset.coe_nil]
          abel)
        (by
          apply hr2.with_units
          intro u hu
          simp only [List.append_assoc, List.singleton_append, List.mem_cons,
            List.mem_append] at hu ⊢
          tauto)
        hfin2
      refine ⟨done1, sysm, ?_, hloop, hserve⟩
      rw [hlen]
      simp only [List.length_append, List.length_cons, List.length_nil]
      omega

/-- The step of a switching unit on a process in state `switching` or `exit`:
the bursts of the process are untouched and its trace gets one tick of its
state. -/
theorem CPU.step_switching_record (c : CPU) (tbl : PCBTable) (b : Bool) (c1 : CPU)
    (tbl1 : PCBTable) (k : Nat) (p : PCB) (hs : c.step tbl = some (b, c1, tbl1))
    (hne : c.getState ≠ CPUState.idle) (hk : c.proc = some k) (hl : tbl.lookup k = some p)
    (hp : p.state = ProcessState.switching ∨ p.state = ProcessState.exit) :
    ∃ p1, tbl1.lookup k = some p1 ∧ p1.bursts = p.bursts ∧
      p1.stats.hist = p.stats.hist.inc p.state := by
  obtain ⟨key, p0, p1, hk1, hl1, hon, htb⟩ := CPU.step_assigned_inv c tbl b c1 tbl1 hne hs
  rw [hk] at hk1
  cases hk1
  rw [hl] at hl1
  cases hl1
  obtain ⟨h1, h2⟩ := CPU.stepOn_record c.recordTick p b c1 p1 hon
  refine ⟨p1, by rw [htb]; exact PCBTable.lookup_store tbl k p p1 hl, ?_, ?_⟩
  · rw [h1]
    exact (PCB.step_of_inactive p (by tauto)).2
  · rw [h2]
    exact PCB.step_hist p

theorem System.loop_layout : ∀ (fuel s : Nat) (sys : System) (r : System × Nat),
    System.loop fuel s sys = some r → sys.Layout → r.1.Layout := by
  intro fuel
  induction fuel with
  | zero =>
    intro s sys r h hl
    simp only [System.loop, Option.some.injEq] at h
    subst h
    exact hl
  | succ fuel ih =>
    intro s sys r h hl
    rw [System.loop] at h
    by_cases hr : sys.running s = true
    · rw [if_pos hr] at h
      cases ht : sys.tick s with
      | none => simp [ht] at h
      | some sys1 =>
        simp only [ht] at h
        exact ih (s + 1) sys1 r h (System.tick_layout sys s sys1 ht hl)
    · rw [if_neg hr] at h
      simp only [Option.some.injEq] at h
      subst h
      exact hl

/-- C21: for switch-in delay `I` and switch-out delay `O`, both at least 1
(and values of `Step`).  In every completed run on unique ids (the run returns
with the live table empty), every `switching_in` period of the trace of a unit
has duration exactly `I` and every `switching_out` period exactly `O`, the
periods of a trace follow each other as idle, switching_in, processing or
assigned_idle, switching_out, and there are as many `switching_in` as
`switching_out` periods: one of each per assignment, an assignment being what
puts a unit into `switching_in` with `I` ticks on its timer.  At every tick
boundary the invariant `switchInv` holds of every unit (every period but an open
last one is exact).  And when the unit loop of a round, on a valid workload,
reaches a unit that is switching in or out, the process bound to it is in state
`switching` or `exit`, and the step of the unit leaves the bursts of the process
as they are and records the tick in the trace of the process under that state
(never as running or blocked). -/
theorem System.switch_periods (sett : SystemSettings) (plans : List ProcessPlan)
    (hI : 1 ≤ sett.SWITCHING_IN_DELAY) (hIM : sett.SWITCHING_IN_DELAY < STEP_MOD)
    (hO : 1 ≤ sett.SWITCHING_OUT_DELAY) (hOM : sett.SWITCHING_OUT_DELAY < STEP_MOD)
    (hids : (plans.map fun p => p.init.id).Nodup) :
    (∀ r, System.simulate (System.init sett) plans = some r → r.1.PCB_table.entries = [] →
      ∀ c ∈ r.1.cpus,
        (∀ p ∈ c.stats.hist.trace,
          (p.state = CPUState.switching_in → p.duration = sett.SWITCHING_IN_DELAY) ∧
          (p.state = CPUState.switching_out → p.duration = sett.SWITCHING_OUT_DELAY)) ∧
        List.Chain' (fun a b => a.state.follows b.state = true) c.stats.hist.trace ∧
        periodsOf CPUState.switching_in c.stats.hist.trace =
          periodsOf CPUState.switching_out c.stats.hist.trace) ∧
    (∀ n sys, System.ticks n 0 ((System.init sett).startTimers plans) = some sys →
      ∀ c ∈ sys.cpus, c.switchInv sett.SWITCHING_IN_DELAY sett.SWITCHING_OUT_DELAY) ∧
    (∀ (c : CPU) (key : Nat) (tbl : PCBTable) (r : CPU × PCBTable),
      c.assign key tbl = some r →
      r.1.getState = CPUState.switching_in ∧ r.1.t.count = c.settings.SWITCHING_IN_DELAY) ∧
    ((∀ pl ∈ plans, pl.init.bursts.bursts ≠ [] ∧
        ∀ x ∈ pl.init.bursts.bursts, 1 ≤ x ∧ x < STEP_MOD) →
      ∀ n sys sysa, System.ticks n 0 ((System.init sett).startTimers plans) = some sys →
      sys.cpuPass = some sysa →
      ∀ pre c post, sys.cpus = pre ++ c :: post →
      c.getState = CPUState.switching_in ∨ c.getState = CPUState.switching_out →
      ∃ done1 sysm k p b c1 tbl1 p1, done1.length = pre.length ∧
        System.cpuLoop done1 (c :: post) sysm = some sysa ∧
        c.proc = some k ∧ sysm.PCB_table.lookup k = some p ∧
        (p.state = ProcessState.switching ∨ p.state = ProcessState.exit) ∧
        c.step sysm.PCB_table = some (b, c1, tbl1) ∧ tbl1.lookup k = some p1 ∧
        p1.bursts = p.bursts ∧ p1.stats.hist = p.stats.hist.inc p.state) := by
  have hl0 := System.startTimers_layout sett plans hids
  have hs0 := System.startTimers_switchInv sett plans
  refine ⟨?_, ?_, ?_, ?_⟩
  · intro r h hempty c hc
    have hinv := System.loop_switchInv _ _ hI hIM hO hOM STEP_MAX 0 _ r h hs0 c hc
    have hl := System.loop_layout STEP_MAX 0 _ r h hl0
    have hidle : c.getState = CPUState.idle := by
      rw [(hl.2.1 c hc).1]
      cases hk : c.proc with
      | none => rfl
      | some k =>
        exfalso
        have hkb : k ∈ boundIds r.1.cpus := (mem_boundIds _ k).mpr ⟨c, hc, hk⟩
        have := hl.1.2.2.subset (List.mem_append_left _ hkb)
        simp [PCBTable.keys, hempty] at this
    obtain ⟨h1, h2⟩ := CPU.switchInv_idle _ _ c hinv hidle
    exact ⟨h1, hinv.2.2.1, h2⟩
  · intro n sys h
    exact System.ticks_switchInv _ _ hI hIM hO hOM n 0 _ sys h hs0
  · intro c key tbl r ha
    obtain ⟨_, _, _, a4⟩ := CPU.assign_frame c key tbl r ha
    constructor
    · show r.1.t.data = _
      rw [a4]
      rfl
    · rw [a4]
      rfl
  · intro hv n sys sysa h hpass pre c post hcpus hst
    have hl := System.ticks_layout n 0 _ sys h hl0
    have hsd := System.ticks_sound n 0 _ sys h hl0 (System.startTimers_sound sett plans hv)
    unfold System.cpuPass at hpass
    rw [hcpus] at hpass
    have hne : c.getState ≠ CPUState.idle := by
      rcases hst with h1 | h1 <;> rw [h1] <;> decide
    obtain ⟨done1, sysm, hlen, hloop, hserve⟩ := System.cpuLoop_serving pre [] c post sys sysa
      hpass (by rw [List.nil_append, ← hcpus]; exact hl.2.1)
      (by rw [List.nil_append, ← hcpus]; exact hl.1)
      (by rw [List.nil_append, ← hcpus]; exact hsd.1) hsd.2.1
    have hc : c ∈ sys.cpus := by
      rw [hcpus]
      simp
    cases hk : c.proc with
    | none => exact absurd ((hl.2.1 c hc).1.mpr hk) hne
    | some k =>
      obtain ⟨p, hlk, hsv⟩ := hserve k hk
      have hp : p.state = ProcessState.switching ∨ p.state = ProcessState.exit := by
        rcases hst with h1 | h1
        · exact Or.inl ((CPU.serves_switching_in c p h1).mp hsv).1
        · rcases (CPU.serves_switching_out c p h1).mp hsv with h2 | h2
          · exact Or.inr h2.1
          · exact Or.inl h2.1
      have hloop1 := hloop
      simp only [System.cpuLoop] at hloop1
      cases hb : sysm.cpuBody c with
      | none => simp [hb] at hloop1
      | some res =>
        obtain ⟨b, c2, tbl2, hstep, _⟩ := System.cpuBody_unit sysm c res.1 res.2 hb
        obtain ⟨p1, q1, q2, q3⟩ := CPU.step_switching_record c sysm.PCB_table b c2 tbl2 k p
          hstep hne hk hlk hp
        exact ⟨done1, sysm, k, p, b, c2, tbl2, p1, by simpa using hlen, hloop, rfl, hlk, hp,
          hstep, q1, q2, q3⟩

theorem System.switch_periods_witness :
    (1 ≤ (oneUnit 0 7 3).SWITCHING_IN_DELAY ∧ (oneUnit 0 7 3).SWITCHING_IN_DELAY < STEP_MOD ∧
      1 ≤ (oneUnit 0 7 3).SWITCHING_OUT_DELAY ∧ (oneUnit 0 7 3).SWITCHING_OUT_DELAY < STEP_MOD ∧
      ((scenarioA 1).map fun p => p.init.id).Nodup) ∧
    ∃ r, System.simulate (System.init (oneUnit 0 7 3)) (scenarioA 1) = some r ∧
      r.1.PCB_table.entries = [] ∧
      r.1.cpus.map (fun c => c.stats.hist.trace) =
        [[{ state := CPUState.idle, duration := 2 },
          { state := CPUState.switching_in, duration := 7 },
          { state := CPUState.processing, duration := 5 },
          { state := CPUState.assigned_idle, duration := 3 },
          { state := CPUState.processing, duration := 2 },
          { state := CPUState.switching_out, duration := 3 }]] ∧
      ∀ c ∈ r.1.cpus,
        (∀ p ∈ c.stats.hist.trace,
          (p.state = CPUState.switching_in →
            p.duration = (oneUnit 0 7 3).SWITCHING_IN_DELAY) ∧
          (p.state = CPUState.switching_out →
            p.duration = (oneUnit 0 7 3).SWITCHING_OUT_DELAY)) ∧
        List.Chain' (fun a b => a.state.follows b.state = true) c.stats.hist.trace ∧
        periodsOf CPUState.switching_in c.stats.hist.trace =
          periodsOf CPUState.switching_out c.stats.hist.trace := by
  refine ⟨⟨by decide, by decide, by decide, by decide, by decide⟩, ?_⟩
  have hs : (System.simulate (System.init (oneUnit 0 7 3)) (scenarioA 1)).isSome = true := by
    decide
  have hv : (System.simulate (System.init (oneUnit 0 7 3)) (scenarioA 1)).map
      (fun r => (r.1.PCB_table.entries, r.1.cpus.map (fun c => c.stats.hist.trace))) =
      some ([],
        [[{ state := CPUState.idle, duration := 2 },
          { state := CPUState.switching_in, duration := 7 },
          { state := CPUState.processing, duration := 5 },
          { state := CPUState.assigned_idle, duration := 3 },
          { state := CPUState.processing, duration := 2 },
          { state := CPUState.switching_out, duration := 3 }]]) := by
    decide
  obtain ⟨r, hr⟩ := Option.isSome_iff_exists.mp hs
  rw [hr] at hv
  simp only [Option.map_some', Option.some.injEq, Prod.mk.injEq] at hv
  exact ⟨r, hr, hv.1, hv.2,
    (System.switch_periods (oneUnit 0 7 3) (scenarioA 1) (by decide) (by decide) (by decide)
      (by decide) (by decide)).1 r hr hv.1⟩

/-! ### Scenario C: switch-in delay 7, switch-out delay 3 -/

/-- C34: FCFS (quantum 0), one unit, switch-in delay 7, switch-out delay 3, one
process with id 0, priority 0, arrival 1 and bursts `[5 CPU, 3 I/O, 2 CPU]`:
the run completes when the clock is 22, with nothing left in the table or
pending; the process is retired with `started = 0` and trace exactly
`[switching:7, running:5, blocked:3, running:2, exit:3]`, its turnaround is 20
and its wait 10; the unit's trace is exactly `[idle:2, switching_in:7,
processing:5, assigned_idle:3, processing:2, switching_out:3]`. -/
theorem System.scenarioC_run :
    (System.simulate (System.init (oneUnit 0 7 3)) (scenarioA 1)).map
        (fun r => (System.report r,
          r.1.retired.map (fun p => (p.stats.getTurnaround, p.stats.getWait))))
      = some
        ({ clock := 22,
           retired := [{ id := 0, started := 0, trace :=
             [{ state := ProcessState.switching, duration := 7 },
              { state := ProcessState.running, duration := 5 },
              { state := ProcessState.blocked, duration := 3 },
              { state := ProcessState.running, duration := 2 },
              { state := ProcessState.exit, duration := 3 }] }],
           units := [[{ state := CPUState.idle, duration := 2 },
             { state := CPUState.switching_in, duration := 7 },
             { state := CPUState.processing, duration := 5 },
             { state := CPUState.assigned_idle, duration := 3 },
             { state := CPUState.processing, duration := 2 },
             { state := CPUState.switching_out, duration := 3 }]],
           inTable := 0, pending := 0 },
         [(20, 10)]) := by
  decide

/-! ### One step against `stepsRemaining` -/

/-- On a non-empty sequence `stepsRemaining()` is the sum of the CPU-kind
elements in `Step` arithmetic. -/
theorem ProcessBursts.stepsRemaining_cons (x : Nat) (rest : List Nat) (f : Bool) :
    ({ bursts := x :: rest, processing := f } : ProcessBursts).stepsRemaining =
      some (cpuKindSum f (x :: rest) % STEP_MOD) := by
  have h0 : (0 : Nat) < STEP_MOD := by decide
  cases f
  · simp [ProcessBursts.stepsRemaining, ProcessBursts.stepsRemainingLoop_eq _ _ h0,
      cpuKindSum_cons]
  · simp [ProcessBursts.stepsRemaining, ProcessBursts.stepsRemainingLoop_eq _ _ h0]

/-- On the empty sequence `stepsRemaining()` is 0, whatever the flag. -/
theorem ProcessBursts.stepsRemaining_nil (f : Bool) :
    ({ bursts := [], processing := f } : ProcessBursts).stepsRemaining = some 0 := by
  cases f <;> rfl

/-- C36 as stated fails.  With bursts `[2^31, 1, 2^31]` and a CPU-kind head
`stepsRemaining()` is `0` before the step and `2^32 - 1` after it, so it is not
lowered by 1; and on the empty sequence with the flag set the step changes
nothing and `stepsRemaining()` stays `0`. -/
theorem ProcessBursts.step_not_always_lowers :
    ¬ (∀ b : ProcessBursts, b.bursts ≠ [] → b.valid → b.processing = true →
        ∃ n, b.stepsRemaining = some (n + 1) ∧ b.step.2.stepsRemaining = some n) ∧
    (({ bursts := [2147483648, 1, 2147483648], processing := true } : ProcessBursts).valid ∧
      ({ bursts := [2147483648, 1, 2147483648], processing := true } :
        ProcessBursts).stepsRemaining = some 0 ∧
      ({ bursts := [2147483648, 1, 2147483648], processing := true } :
        ProcessBursts).step.2.stepsRemaining = some 4294967295) ∧
    (({ bursts := [], processing := true } : ProcessBursts).stepsRemaining = some 0 ∧
      ({ bursts := [], processing := true } : ProcessBursts).step.2.stepsRemaining = some 0) := by
  have hv : ({ bursts := [2147483648, 1, 2147483648], processing := true } :
      ProcessBursts).valid := by
    intro x hx
    simp only [List.mem_cons, List.mem_singleton, List.not_mem_nil, or_false] at hx
    rcases hx with rfl | rfl | rfl <;> decide
  refine ⟨?_, ⟨hv, by decide, by decide⟩, by decide, by decide⟩
  intro h
  obtain ⟨n, h1, -⟩ := h _ (by decide) hv rfl
  have h2 : ({ bursts := [2147483648, 1, 2147483648], processing := true } :
      ProcessBursts).stepsRemaining = some 0 := by decide
  rw [h2] at h1
  simp at h1

/-- C36 (amended): for every burst sequence of durations in `1 .. 2^32 - 1`,
one `ProcessBursts::step()` leaves `stepsRemaining()` unchanged when
`isProcessing()` did not hold before the step, also when the step pops the head
and flips the flag.  When `isProcessing()` held and the sequence is not empty,
`stepsRemaining()` goes from `n` to `n - 1` in `Step` arithmetic, also when the
step pops the head and flips the flag and when it pops the last burst; it is
lowered by exactly 1 whenever the CPU-kind sum is below `2^32`.  On the empty
sequence the step changes nothing and `stepsRemaining()` is 0. -/
theorem ProcessBursts.step_lowers_remaining (b : ProcessBursts) (hv : b.valid) :
    (b.processing = false → b.step.2.stepsRemaining = b.stepsRemaining) ∧
    (b.processing = true → b.bursts ≠ [] →
      ∃ n, b.stepsRemaining = some n ∧
        b.step.2.stepsRemaining = some ((n + (STEP_MOD - 1)) % STEP_MOD) ∧
        (cpuKindSum true b.bursts < STEP_MOD →
          1 ≤ n ∧ b.step.2.stepsRemaining = some (n - 1))) ∧
    (b.bursts = [] → b.step.2 = b ∧ b.stepsRemaining = some 0) := by
  have hM : STEP_MOD = 4294967296 := rfl
  obtain ⟨bs, f⟩ := b
  cases bs with
  | nil =>
    refine ⟨fun _ => rfl, fun _ hne => absurd rfl hne, fun _ => ⟨rfl, ?_⟩⟩
    exact ProcessBursts.stepsRemaining_nil f
  | cons h tl =>
    have hh : 1 ≤ h ∧ h < STEP_MOD := hv h (List.mem_cons_self _ _)
    have hcase := ProcessBursts.step_valid { bursts := h :: tl, processing := f } h tl rfl hv
    refine ⟨?_, ?_, fun he => by cases he⟩
    · intro hf
      simp only at hf
      subst hf
      rcases hcase with ⟨-, hs⟩ | ⟨h1, hs⟩
      · rw [hs]
        simp only [ProcessBursts.stepsRemaining_cons, cpuKindSum_cons, Bool.false_eq_true,
          if_false]
      · rw [hs]
        subst h1
        cases tl with
        | nil =>
          simp only [Bool.not_false, ProcessBursts.stepsRemaining_nil,
            ProcessBursts.stepsRemaining_cons, cpuKindSum_cons, cpuKindSum_nil,
            Bool.false_eq_true, if_false]
          rfl
        | cons y rest =>
          simp only [Bool.not_false, ProcessBursts.stepsRemaining_cons, cpuKindSum_cons,
            Bool.false_eq_true, if_false, if_true, Bool.not_true, Nat.zero_add]
    · intro hf _
      simp only at hf
      subst hf
      refine ⟨cpuKindSum true (h :: tl) % STEP_MOD, ProcessBursts.stepsRemaining_cons _ _ _, ?_⟩
      have hsum : cpuKindSum true (h :: tl) = h + cpuKindSum false tl := by
        simp [cpuKindSum_cons]
      rcases hcase with ⟨h2, hs⟩ | ⟨h1, hs⟩
      · have hafter :
            (ProcessBursts.step { bursts := h :: tl, processing := true }).2.stepsRemaining
              = some ((h - 1 + cpuKindSum false tl) % STEP_MOD) := by
          rw [hs]
          simp only [ProcessBursts.stepsRemaining_cons, cpuKindSum_cons, Bool.not_true, if_true]
        rw [hafter, hsum]
        generalize cpuKindSum false tl = S
        rw [hM]
        refine ⟨congrArg some (by omega), fun hlt => ⟨by omega, congrArg some (by omega)⟩⟩
      · subst h1
        have hafter :
            (ProcessBursts.step { bursts := 1 :: tl, processing := true }).2.stepsRemaining
              = some (cpuKindSum false tl % STEP_MOD) := by
          rw [hs]
          cases tl with
          | nil =>
            rw [cpuKindSum_nil]
            exact ProcessBursts.stepsRemaining_nil _
          | cons y rest => exact ProcessBursts.stepsRemaining_cons _ _ _
        rw [hafter, hsum]
        generalize cpuKindSum false tl = S
        rw [hM]
        refine ⟨congrArg some (by omega), fun hlt => ⟨by omega, congrArg some (by omega)⟩⟩

theorem ProcessBursts.step_lowers_remaining_witness :
    (({ bursts := [5, 3, 2], processing := true } : ProcessBursts).valid ∧
      ({ bursts := [5, 3, 2], processing := true } : ProcessBursts).stepsRemaining = some 7 ∧
      ({ bursts := [5, 3, 2], processing := true } : ProcessBursts).step.2.stepsRemaining
        = some 6 ∧
      ∃ n, ({ bursts := [5, 3, 2], processing := true } : ProcessBursts).stepsRemaining
          = some n ∧
        ({ bursts := [5, 3, 2], processing := true } : ProcessBursts).step.2.stepsRemaining =
          some ((n + (STEP_MOD - 1)) % STEP_MOD) ∧
        (cpuKindSum true [5, 3, 2] < STEP_MOD →
          1 ≤ n ∧ ({ bursts := [5, 3, 2], processing := true } :
            ProcessBursts).step.2.stepsRemaining = some (n - 1))) ∧
    (({ bursts := [1], processing := true } : ProcessBursts).valid ∧
      ({ bursts := [1], processing := true } : ProcessBursts).stepsRemaining = some 1 ∧
      ({ bursts := [1], processing := true } : ProcessBursts).step.2 =
        { bursts := [], processing := false } ∧
      ({ bursts := [1], processing := true } : ProcessBursts).step.2.stepsRemaining = some 0 ∧
      ∃ n, ({ bursts := [1], processing := true } : ProcessBursts).stepsRemaining = some n ∧
        ({ bursts := [1], processing := true } : ProcessBursts).step.2.stepsRemaining =
          some ((n + (STEP_MOD - 1)) % STEP_MOD) ∧
        (cpuKindSum true [1] < STEP_MOD →
          1 ≤ n ∧ ({ bursts := [1], processing := true } :
            ProcessBursts).step.2.stepsRemaining = some (n - 1))) := by
  have hv : ({ bursts := [5, 3, 2], processing := true } : ProcessBursts).valid := by
    intro x hx
    simp only [List.mem_cons, List.mem_singleton, List.not_mem_nil, or_false] at hx
    rcases hx with rfl | rfl | rfl <;> decide
  have hv1 : ({ bursts := [1], processing := true } : ProcessBursts).valid := by
    intro x hx
    simp only [List.mem_singleton] at hx
    subst hx
    decide
  exact ⟨⟨hv, by decide, by decide,
      (ProcessBursts.step_lowers_remaining { bursts := [5, 3, 2], processing := true }
        hv).2.1 rfl (by decide)⟩,
    ⟨hv1, by decide, by decide, by decide,
      (ProcessBursts.step_lowers_remaining { bursts := [1], processing := true }
        hv1).2.1 rfl (by decide)⟩⟩

/-! ### The roles of the queued processes -/

/-- C35: at every tick boundary of a run on a valid workload (unique ids,
non-empty plans of bursts in `1 .. 2^32 - 1`), that is in the state after any
number `n` of rounds, every id in the ready queue has a record in the table
with lifecycle state `ready` and a non-empty burst sequence whose head is
CPU-kind, and every id in the blocked list has a record in the table with
lifecycle state `blocked` and a non-empty burst sequence whose head is
I/O-kind. -/
theorem System.queued_roles (sett : SystemSettings) (plans : List ProcessPlan)
    (hids : (plans.map fun p => p.init.id).Nodup)
    (hv : ∀ p ∈ plans, p.init.bursts.bursts ≠ [] ∧ p.init.bursts.valid)
    (n : Nat) (sys : System)
    (h : System.ticks n 0 ((System.init sett).startTimers plans) = some sys) :
    (∀ k ∈ sys.ready.ids, ∃ p, sys.PCB_table.lookup k = some p ∧ p.id = k ∧
      p.state = ProcessState.ready ∧ p.bursts.bursts ≠ [] ∧ p.bursts.isProcessing = true) ∧
    (∀ k ∈ sys.blocked, ∃ p, sys.PCB_table.lookup k = some p ∧ p.id = k ∧
      p.state = ProcessState.blocked ∧ p.bursts.bursts ≠ [] ∧
      p.bursts.isProcessing = false) := by
  have hl0 := System.startTimers_layout sett plans hids
  have hl := System.ticks_layout n 0 _ sys h hl0
  have hs := System.ticks_sound n 0 _ sys h hl0 (System.startTimers_sound sett plans hv)
  constructor
  · intro k hk
    obtain ⟨p, hp, hid⟩ := hl.1.has_record k
      (List.mem_append_right _ (List.mem_append_left _ hk))
    have hw := hs.1.2.2.1 k hk p hp
    exact ⟨p, hp, hid, hw.1, hw.2.1, hw.2.2⟩
  · intro k hk
    obtain ⟨p, hp, hid⟩ := hl.1.has_record k
      (List.mem_append_right _ (List.mem_append_right _ hk))
    have hw := hs.1.2.2.2 k hk p hp
    exact ⟨p, hp, hid, hw.1, hw.2.1, hw.2.2⟩

theorem System.queued_roles_witness :
    ((mixedPlans.map fun p => p.init.id).Nodup ∧
      ∀ p ∈ mixedPlans, p.init.bursts.bursts ≠ [] ∧ p.init.bursts.valid) ∧
    ∃ sys, System.ticks 6 0 ((System.init (oneUnit 2 1 1)).startTimers mixedPlans) = some sys ∧
      (sys.ready.ids, sys.blocked) = ([2], [0]) ∧
      (∀ k ∈ sys.ready.ids, ∃ p, sys.PCB_table.lookup k = some p ∧ p.id = k ∧
        p.state = ProcessState.ready ∧ p.bursts.bursts ≠ [] ∧
        p.bursts.isProcessing = true) ∧
      (∀ k ∈ sys.blocked, ∃ p, sys.PCB_table.lookup k = some p ∧ p.id = k ∧
        p.state = ProcessState.blocked ∧ p.bursts.bursts ≠ [] ∧
        p.bursts.isProcessing = false) := by
  have hv : ∀ p ∈ mixedPlans, p.init.bursts.bursts ≠ [] ∧ p.init.bursts.valid := by
    intro p hp
    simp only [mixedPlans, List.mem_cons, List.mem_singleton, List.not_mem_nil, or_false] at hp
    rcases hp with rfl | rfl | rfl
    all_goals
      refine ⟨by decide, ?_⟩
      intro x hx
      simp only [List.mem_cons, List.mem_singleton, List.not_mem_nil, or_false] at hx
      rcases hx with rfl | rfl | rfl <;> decide
  refine ⟨⟨by decide, hv⟩, ?_⟩
  have hs : (System.ticks 6 0
      ((System.init (oneUnit 2 1 1)).startTimers mixedPlans)).isSome = true := by
    decide
  have hq : (System.ticks 6 0 ((System.init (oneUnit 2 1 1)).startTimers mixedPlans)).map
      (fun sys => (sys.ready.ids, sys.blocked)) = some ([2], [0]) := by
    decide
  obtain ⟨sys, hsys⟩ := Option.isSome_iff_exists.mp hs
  rw [hsys] at hq
  exact ⟨sys, hsys, by simpa using hq,
    System.queued_roles (oneUnit 2 1 1) mixedPlans (by decide) hv 6 sys hsys⟩

/-! ### A zero switch-in delay -/

/-- The step of an assigned unit on an expired switch-in timer fails. -/
theorem CPU.step_unarmed (c : CPU) (tbl : PCBTable) (hu : c.unarmed)
    (ha : c.assigned = true) : c.step tbl = none := by
  obtain ⟨hst, hc⟩ := hu.2 ha
  have hne : c.getState ≠ CPUState.idle := by rw [hst]; decide
  cases hk : c.proc with
  | none => simp [CPU.step, ha, hk]
  | some key =>
    cases hp : tbl.lookup key with
    | none => simp [CPU.step, ha, hk, hp]
    | some p =>
      rw [CPU.step_assigned c tbl key p hne hk hp,
        CPU.stepOn_switching_in _ p (by rw [CPU.recordTick_getState]; exact hst),
        CPU.recordTick_t]
      simp [Timer.step, hc]

/-- With switch-in delay 0, `assign` leaves the unit assigned on an expired
timer, and the record it binds in state `switching`. -/
theorem CPU.assign_unarmed (c : CPU) (key : Nat) (tbl : PCBTable) (r : CPU × PCBTable)
    (h0 : c.settings.SWITCHING_IN_DELAY = 0) (h : c.assign key tbl = some r) :
    r.1.t = Timer.init 0 CPUState.switching_in ∧ r.1.assigned = true ∧ r.1.unarmed ∧
      r.2.hasSwitching := by
  unfold CPU.assign at h
  cases hp : tbl.lookup key with
  | none => simp [hp] at h
  | some p =>
    simp only [hp, Option.some.injEq] at h
    subst h
    refine ⟨by simp only [h0], by simp [CPU.assigned, CPU.getState, Timer.getData, Timer.init],
      ⟨h0, fun _ => ⟨rfl, by simp only [h0]; rfl⟩⟩, key, _,
      PCBTable.lookup_store tbl key p _ hp, rfl⟩

theorem PCBTable.hasSwitching_store_step (tbl : PCBTable) (id : Nat) (p : PCB)
    (h : tbl.hasSwitching) (hp : tbl.lookup id = some p) :
    (tbl.store id p.step.2).hasSwitching := by
  obtain ⟨k, q, hq, hs⟩ := h
  by_cases hk : k = id
  · subst hk
    rw [hp] at hq
    obtain rfl := Option.some.inj hq
    exact ⟨k, _, PCBTable.lookup_store tbl k p _ hp, by rw [PCB.step_state]; exact hs⟩
  · exact ⟨k, q, by rw [PCBTable.lookup_store_ne tbl id k _ hk]; exact hq, hs⟩

/-- The body of the unit pass on a unit of switch-in delay 0: the unit was not
assigned, it stays on switch-in delay 0, and when it leaves assigned the table
holds a record in state `switching`. -/
theorem System.cpuBody_unarmed (sys : System) (c c1 : CPU) (sys1 : System)
    (h : sys.cpuBody c = some (c1, sys1)) (hu : c.unarmed) :
    c1.unarmed ∧ (c1.assigned = true → sys1.PCB_table.hasSwitching) ∧
      (sys.PCB_table.hasSwitching → sys1.PCB_table.hasSwitching) := by
  have hna : c.assigned = false := by
    cases ha : c.assigned with
    | false => rfl
    | true =>
      unfold System.cpuBody at h
      simp [CPU.step_unarmed c sys.PCB_table hu ha] at h
  have hidle : c.getState = CPUState.idle := by
    simpa [CPU.assigned] using hna
  have hrt : c.recordTick.unarmed := by
    refine ⟨hu.1, fun ha => ?_⟩
    rw [CPU.assigned, CPU.recordTick_getState, hidle] at ha
    simp at ha
  have hrta : c.recordTick.assigned = false := by
    simp [CPU.assigned, CPU.recordTick_getState, hidle]
  unfold System.cpuBody at h
  simp only [CPU.step_idle c sys.PCB_table hidle, hna, Bool.not_false, Bool.or_true,
    Bool.not_true, Bool.false_eq_true, if_true, if_false] at h
  unfold System.assignFront at h
  split at h
  · cases hfr : sys.ready.front with
    | none => simp [hfr] at h
    | some id =>
      simp only [hfr] at h
      cases has : c.recordTick.assign id sys.PCB_table with
      | none => simp [has] at h
      | some r =>
        simp only [has] at h
        cases hpop : sys.ready.pop with
        | none => simp [hpop] at h
        | some rq =>
          simp only [hpop, Option.some.injEq, Prod.mk.injEq] at h
          obtain ⟨h1, h2⟩ := h
          subst h1
          subst h2
          obtain ⟨_, _, hu1, hsw⟩ := CPU.assign_unarmed c.recordTick id sys.PCB_table r hu.1 has
          exact ⟨hu1, fun _ => hsw, fun _ => hsw⟩
  · simp only [Option.some.injEq, Prod.mk.injEq] at h
    obtain ⟨h1, h2⟩ := h
    subst h1
    subst h2
    refine ⟨hrt, fun ha => ?_, fun hs => hs⟩
    rw [hrta] at ha
    cases ha

theorem System.cpuLoop_unarmed : ∀ (todo done : List CPU) (sys sys1 : System),
    System.cpuLoop done todo sys = some sys1 →
    (∀ c ∈ todo, c.unarmed) → (∀ c ∈ done, c.unarmed) →
    ((∃ c ∈ done, c.assigned = true) → sys.PCB_table.hasSwitching) →
    (∀ c ∈ sys1.cpus, c.unarmed) ∧
      ((∃ c ∈ sys1.cpus, c.assigned = true) → sys1.PCB_table.hasSwitching) := by
  intro todo
  induction todo with
  | nil =>
    intro done sys sys1 h _ hd hsw
    simp only [System.cpuLoop, Option.some.injEq] at h
    subst h
    exact ⟨hd, hsw⟩
  | cons c todo ih =>
    intro done sys sys1 h ht hd hsw
    unfold System.cpuLoop at h
    cases hb : sys.cpuBody c with
    | none => simp [hb] at h
    | some r =>
      simp only [hb] at h
      obtain ⟨hu1, ha1, hk1⟩ := System.cpuBody_unarmed sys c r.1 r.2 hb
        (ht c (List.mem_cons_self _ _))
      refine ih _ _ _ h (fun x hx => ht x (List.mem_cons_of_mem _ hx)) ?_ ?_
      · intro x hx
        rcases List.mem_append.mp hx with hx | hx
        · exact hd x hx
        · rw [List.mem_singleton] at hx
          subst hx
          exact hu1
      · rintro ⟨x, hx, hxa⟩
        rcases List.mem_append.mp hx with hx | hx
        · exact hk1 (hsw ⟨x, hx, hxa⟩)
        · rw [List.mem_singleton] at hx
          subst hx
          exact ha1 hxa

theorem System.blockedBody_hasSwitching (sys : System) (id : Nat) (r : Bool × System)
    (h : sys.blockedBody id = some r) (hs : sys.PCB_table.hasSwitching) :
    r.2.PCB_table.hasSwitching := by
  unfold System.blockedBody at h
  cases hp : sys.PCB_table.lookup id with
  | none => simp [hp] at h
  | some p =>
    simp only [hp] at h
    split at h
    · rename_i hst
      have hother : ∃ k q, k ≠ id ∧ sys.PCB_table.lookup k = some q ∧
          q.state = ProcessState.switching := by
        obtain ⟨k, q, hq, hsw⟩ := hs
        refine ⟨k, q, ?_, hq, hsw⟩
        intro hk
        subst hk
        rw [hp] at hq
        obtain rfl := Option.some.inj hq
        rw [(PCB.step_of_inactive p (Or.inr (Or.inl hsw))).1] at hst
        cases hst
      obtain ⟨k, q, hk, hq, hsw⟩ := hother
      split at h
      · simp only [Option.some.injEq] at h
        subst h
        refine ⟨k, q, ?_, hsw⟩
        show ((sys.PCB_table.store id p.step.2).erase id).lookup k = some q
        rw [PCBTable.lookup_erase, if_neg hk, PCBTable.lookup_store_ne _ _ _ _ hk]
        exact hq
      · cases hpush : sys.ready.push id p.step.2.prio with
        | none => simp [hpush] at h
        | some rq =>
          simp only [hpush, Option.some.injEq] at h
          subst h
          refine ⟨k, q, ?_, hsw⟩
          show (sys.PCB_table.store id _).lookup k = some q
          rw [PCBTable.lookup_store_ne _ _ _ _ hk]
          exact hq
    · simp only [Option.some.injEq] at h
      subst h
      exact PCBTable.hasSwitching_store_step sys.PCB_table id p hs hp

theorem System.blockedLoop_hasSwitching : ∀ (todo kept : List Nat) (sys sys1 : System),
    System.blockedLoop kept todo sys = some sys1 → sys.PCB_table.hasSwitching →
    sys1.PCB_table.hasSwitching := by
  intro todo
  induction todo with
  | nil =>
    intro kept sys sys1 h hs
    simp only [System.blockedLoop, Option.some.injEq] at h
    subst h
    exact hs
  | cons id todo ih =>
    intro kept sys sys1 h hs
    unfold System.blockedLoop at h
    cases hb : sys.blockedBody id with
    | none => simp [hb] at h
    | some r =>
      simp only [hb] at h
      exact ih _ _ _ h (System.blockedBody_hasSwitching sys id r hb hs)

theorem System.readyLoop_hasSwitching : ∀ (ids : List Nat) (sys sys1 : System),
    System.readyLoop ids sys = some sys1 → sys.PCB_table.hasSwitching →
    sys1.PCB_table.hasSwitching := by
  intro ids
  induction ids with
  | nil =>
    intro sys sys1 h hs
    simp only [System.readyLoop, Option.some.injEq] at h
    subst h
    exact hs
  | cons id todo ih =>
    intro sys sys1 h hs
    unfold System.readyLoop at h
    cases hp : sys.PCB_table.lookup id with
    | none => simp [hp] at h
    | some p =>
      simp only [hp] at h
      exact ih _ _ h (PCBTable.hasSwitching_store_step sys.PCB_table id p hs hp)

theorem System.addProcess_present (sys : System) (pi : ProcessInit) (s : Nat) (sys1 : System)
    (h : sys.addProcess pi s = some sys1) (k : Nat)
    (hk : ∃ p, sys.PCB_table.lookup k = some p) : ∃ p, sys1.PCB_table.lookup k = some p := by
  by_cases hne : k = pi.id
  · subst hne
    obtain ⟨q, hq⟩ := hk
    have hem : sys.PCB_table.emplace pi.id (PCB.init pi s) = sys.PCB_table := by
      simp only [PCBTable.emplace, hq]
    unfold System.addProcess at h
    simp only [hem] at h
    split at h
    · cases hpush : sys.ready.push pi.id pi.prio with
      | none => simp [hpush] at h
      | some rq =>
        simp only [hpush, Option.some.injEq] at h
        subst h
        exact ⟨q, hq⟩
    · simp only [hq, Option.some.injEq] at h
      subst h
      exact ⟨_, PCBTable.lookup_store sys.PCB_table pi.id q _ hq⟩
  · rw [(System.addProcess_other sys pi s sys1 h).1 k hne]
    exact hk

theorem System.arrivalLoop_present (s : Nat) :
    ∀ (todo kept : List (Timer ProcessInit)) (sys sys1 : System),
    System.arrivalLoop s kept todo sys = some sys1 → ∀ k,
    (∃ p, sys.PCB_table.lookup k = some p) → ∃ p, sys1.PCB_table.lookup k = some p := by
  intro todo
  induction todo with
  | nil =>
    intro kept sys sys1 h k hk
    simp only [System.arrivalLoop, Option.some.injEq] at h
    subst h
    exact hk
  | cons t todo ih =>
    intro kept sys sys1 h k hk
    unfold System.arrivalLoop at h
    cases ht : t.step with
    | none => simp [ht] at h
    | some r =>
      simp only [ht] at h
      split at h
      · cases ha : sys.addProcess r.2.getData s with
        | none => simp [ha] at h
        | some sys2 =>
          simp only [ha] at h
          exact ih _ _ _ h k (System.addProcess_present sys _ s sys2 ha k hk)
      · exact ih _ _ _ h k hk

theorem PCBTable.empty_of_lookup (tbl : PCBTable) (k : Nat) (p : PCB)
    (h : tbl.lookup k = some p) : tbl.empty = false := by
  have hm := PCBTable.lookup_mem tbl k p h
  unfold PCBTable.empty
  cases he : tbl.entries with
  | nil => rw [he] at hm; cases hm
  | cons _ _ => rfl

/-- A round on units of switch-in delay 0 that succeeds: the units stay so, and
when one of them is assigned afterwards the table is not empty. -/
theorem System.tick_unarmed (sys : System) (s : Nat) (sys1 : System)
    (h : sys.tick s = some sys1) (hu : ∀ c ∈ sys.cpus, c.unarmed) :
    (∀ c ∈ sys1.cpus, c.unarmed) ∧
      ((∃ c ∈ sys1.cpus, c.assigned = true) → sys1.PCB_table.empty = false) := by
  unfold System.tick at h
  cases h1 : sys.cpuPass with
  | none => simp [h1] at h
  | some sysa =>
    simp only [h1] at h
    cases h2 : sysa.blockedPass with
    | none => simp [h2] at h
    | some sysb =>
      simp only [h2] at h
      cases h3 : sysb.readyPass with
      | none => simp [h3] at h
      | some sysc =>
        simp only [h3] at h
        obtain ⟨hua, hsa⟩ := System.cpuLoop_unarmed _ _ _ _ h1 hu
          (fun c hc => by cases hc) (fun ⟨c, hc, _⟩ => by cases hc)
        have hcb : sysb.cpus = sysa.cpus := System.blockedLoop_cpus _ _ _ _ h2
        obtain ⟨ids, h3b⟩ : ∃ ids, System.readyLoop ids sysb = some sysc := by
          unfold System.readyPass at h3
          cases hv : sysb.ready.visited with
          | none => simp [hv] at h3
          | some ids => exact ⟨ids, by simpa [hv] using h3⟩
        have hcc : sysc.cpus = sysb.cpus := (System.readyLoop_ready _ _ _ h3b).2.2
        have hc1 : sys1.cpus = sysc.cpus := System.arrivalLoop_cpus s _ _ _ _ h
        have hcpus : sys1.cpus = sysa.cpus := by rw [hc1, hcc, hcb]
        rw [hcpus]
        refine ⟨hua, fun ha => ?_⟩
        have hsb := System.blockedLoop_hasSwitching _ _ _ _ h2 (hsa ha)
        obtain ⟨k, p, hp, _⟩ := System.readyLoop_hasSwitching _ _ _ h3b hsb
        obtain ⟨q, hq⟩ := System.arrivalLoop_present s _ _ _ _ h k ⟨p, hp⟩
        exact PCBTable.empty_of_lookup _ k q hq

/-- A round on a system one of whose units is assigned on an expired switch-in
timer fails. -/
theorem System.cpuLoop_fails : ∀ (todo done : List CPU) (sys : System) (c : CPU),
    c ∈ todo → c.unarmed → c.assigned = true → System.cpuLoop done todo sys = none := by
  intro todo
  induction todo with
  | nil =>
    intro done sys c hc
    cases hc
  | cons x todo ih =>
    intro done sys c hc hu ha
    unfold System.cpuLoop
    cases hb : sys.cpuBody x with
    | none => rfl
    | some r =>
      simp only
      rcases List.mem_cons.mp hc with hx | hx
      · subst hx
        unfold System.cpuBody at hb
        simp [CPU.step_unarmed c sys.PCB_table hu ha] at hb
      · exact ih _ _ c hx hu ha

theorem System.tick_fails (sys : System) (s : Nat) (c : CPU) (hc : c ∈ sys.cpus)
    (hu : c.unarmed) (ha : c.assigned = true) : sys.tick s = none := by
  unfold System.tick System.cpuPass
  rw [System.cpuLoop_fails sys.cpus [] sys c hc hu ha]

/-- A round on a system with an empty table and no pending timer leaves the
table empty and no timer pending. -/
theorem System.tick_quiescent (sys : System) (s : Nat) (sys1 : System)
    (h : sys.tick s = some sys1) (he : sys.PCB_table.empty = true)
    (ht : sys.process_entry_timers = []) :
    sys1.PCB_table.empty = true ∧ sys1.process_entry_timers = [] := by
  obtain ⟨sys3, hev, _, _, harr⟩ := System.tick_split sys s sys1 h
  rw [ht] at harr
  simp only [System.arrivalLoop, Option.some.injEq] at harr
  subst harr
  refine ⟨?_, rfl⟩
  show sys3.PCB_table.empty = true
  cases hb : sys3.PCB_table.empty with
  | true => rfl
  | false =>
    exfalso
    unfold PCBTable.empty at hb he
    cases he3 : sys3.PCB_table.entries with
    | nil => rw [he3] at hb; cases hb
    | cons e l =>
      have hk : e.1 ∈ sys3.PCB_table.keys := by
        unfold PCBTable.keys
        rw [he3]
        exact List.mem_cons_self _ _
      have hnone : sys.PCB_table.lookup e.1 = none := by
        rw [PCBTable.lookup_none_iff]
        unfold PCBTable.keys
        rw [List.isEmpty_iff.mp he]
        exact List.not_mem_nil _
      exact (PCBTable.lookup_none_iff _ _).mp (TableMoves.lookup_none hev e.1 hnone) hk

theorem System.ticks_add : ∀ (j m s : Nat) (sys : System),
    System.ticks (j + m) s sys = (System.ticks j s sys).bind fun sysj =>
      System.ticks m (s + j) sysj := by
  intro j
  induction j with
  | zero =>
    intro m s sys
    simp [System.ticks]
  | succ j ih =>
    intro m s sys
    have he : j + 1 + m = (j + m) + 1 := by omega
    rw [he]
    simp only [System.ticks]
    cases ht : sys.tick s with
    | none => rfl
    | some sys1 =>
      show System.ticks (j + m) (s + 1) sys1 =
        (System.ticks j (s + 1) sys1).bind fun sysj => System.ticks m (s + (j + 1)) sysj
      have hs : s + 1 + j = s + (j + 1) := by omega
      rw [ih m (s + 1) sys1, hs]

theorem System.ticks_unarmed : ∀ (n s : Nat) (sys sysn : System),
    System.ticks n s sys = some sysn →
    (∀ c ∈ sys.cpus, c.unarmed) →
    ((∃ c ∈ sys.cpus, c.assigned = true) → sys.PCB_table.empty = false) →
    (∀ c ∈ sysn.cpus, c.unarmed) ∧
      ((∃ c ∈ sysn.cpus, c.assigned = true) → sysn.PCB_table.empty = false) := by
  intro n
  induction n with
  | zero =>
    intro s sys sysn h hu hne
    simp only [System.ticks, Option.some.injEq] at h
    subst h
    exact ⟨hu, hne⟩
  | succ n ih =>
    intro s sys sysn h hu _
    unfold System.ticks at h
    cases ht : sys.tick s with
    | none => simp [ht] at h
    | some sys1 =>
      simp only [ht] at h
      obtain ⟨hu1, hne1⟩ := System.tick_unarmed sys s sys1 ht hu
      exact ih _ _ _ h hu1 hne1

theorem System.ticks_quiescent : ∀ (n s : Nat) (sys sysn : System),
    System.ticks n s sys = some sysn → sys.PCB_table.empty = true →
    sys.process_entry_timers = [] →
    sysn.PCB_table.empty = true ∧ sysn.process_entry_timers = [] := by
  intro n
  induction n with
  | zero =>
    intro s sys sysn h he ht
    simp only [System.ticks, Option.some.injEq] at h
    subst h
    exact ⟨he, ht⟩
  | succ n ih =>
    intro s sys sysn h he ht
    unfold System.ticks at h
    cases hk : sys.tick s with
    | none => simp [hk] at h
    | some sys1 =>
      simp only [hk] at h
      obtain ⟨he1, ht1⟩ := System.tick_quiescent sys s sys1 hk he ht
      exact ih _ _ _ h he1 ht1

theorem System.startTimers_unarmed (sett : SystemSettings) (plans : List ProcessPlan)
    (h0 : sett.SWITCHING_IN_DELAY = 0) :
    (∀ c ∈ ((System.init sett).startTimers plans).cpus, c.unarmed) ∧
    ((∃ c ∈ ((System.init sett).startTimers plans).cpus, c.assigned = true) →
      ((System.init sett).startTimers plans).PCB_table.empty = false) := by
  have hall : ∀ c ∈ ((System.init sett).startTimers plans).cpus,
      c.settings = sett ∧ c.assigned = false := by
    intro c hc
    simp only [System.startTimers, System.init, List.mem_map] at hc
    obtain ⟨i, _, rfl⟩ := hc
    exact ⟨rfl, rfl⟩
  constructor
  · intro c hc
    obtain ⟨h1, h2⟩ := hall c hc
    refine ⟨by rw [h1]; exact h0, fun ha => ?_⟩
    rw [h2] at ha
    cases ha
  · rintro ⟨c, hc, ha⟩
    rw [(hall c hc).2] at ha
    cases ha

/-- C33 (amended): with `SWITCHING_IN_DELAY = 0`, whatever the quantum,
`assign()` arms the timer `Timer(0, switching_in)` and leaves the unit assigned;
stepping that timer fails (its count is 0), and so does the next `step()` of
the unit on any table.  When a unit is assigned at the tick boundary `n` of a
run (the state after `n` rounds), the round of clock `n` fails; so the run
aborts instead of completing whenever `n < STEP_MAX`, that is unless the
assignment was made in the last round the clock allows. -/
theorem System.zero_switch_in_aborts (sett : SystemSettings)
    (h0 : sett.SWITCHING_IN_DELAY = 0) :
    (∀ (c : CPU) (key : Nat) (tbl : PCBTable) (r : CPU × PCBTable),
      c.settings = sett → c.assign key tbl = some r →
      r.1.t = Timer.init 0 CPUState.switching_in ∧ r.1.assigned = true ∧
        Timer.step r.1.t = none ∧ ∀ tbl2, r.1.step tbl2 = none) ∧
    (∀ (plans : List ProcessPlan) (n : Nat) (sys : System),
      System.ticks n 0 ((System.init sett).startTimers plans) = some sys →
      (∃ c ∈ sys.cpus, c.assigned = true) →
      sys.tick n = none ∧
        (n < STEP_MAX → System.simulate (System.init sett) plans = none)) := by
  constructor
  · intro c key tbl r hc h
    obtain ⟨ht, ha, hu, _⟩ := CPU.assign_unarmed c key tbl r (by rw [hc]; exact h0) h
    refine ⟨ht, ha, ?_, fun tbl2 => CPU.step_unarmed r.1 tbl2 hu ha⟩
    rw [ht]
    rfl
  · intro plans n sys h hex
    obtain ⟨hu0, hne0⟩ := System.startTimers_unarmed sett plans h0
    obtain ⟨hu, hne⟩ := System.ticks_unarmed n 0 _ sys h hu0 hne0
    obtain ⟨c, hc, ha⟩ := hex
    have hfail : sys.tick n = none := System.tick_fails sys n c hc (hu c hc) ha
    refine ⟨hfail, fun hn => ?_⟩
    have hrun : ∀ j, j < n → ∀ sysj,
        System.ticks j 0 ((System.init sett).startTimers plans) = some sysj →
        sysj.running (0 + j) = true := by
      intro j hj sysj hsj
      have hjn : j + (n - j) = n := by omega
      have h2 := System.ticks_add j (n - j) 0 ((System.init sett).startTimers plans)
      rw [hjn, h, hsj, Option.some_bind] at h2
      cases hq : (sysj.PCB_table.empty && sysj.process_entry_timers.isEmpty) with
      | false =>
        have hlt : j < STEP_MAX := by omega
        simp [System.running, hlt, hq]
      | true =>
        rw [Bool.and_eq_true] at hq
        obtain ⟨he, _⟩ := System.ticks_quiescent (n - j) (0 + j) sysj sys h2.symm hq.1
          (List.isEmpty_iff.mp hq.2)
        rw [hne ⟨c, hc, ha⟩] at he
        cases he
    have hsplit : STEP_MAX = n + ((STEP_MAX - n - 1) + 1) := by omega
    have hl := System.loop_of_ticks n 0 _ sys ((STEP_MAX - n - 1) + 1) h hrun
    rw [← hsplit, Nat.zero_add] at hl
    unfold System.simulate
    rw [hl]
    unfold System.loop
    have hr : sys.running n = true := by
      simp [System.running, hn, hne ⟨c, hc, ha⟩]
    simp only [hr, if_true, hfail]

theorem System.zero_switch_in_aborts_witness :
    (oneUnit 0 0 1).SWITCHING_IN_DELAY = 0 ∧
    ∃ sys, System.ticks 2 0 ((System.init (oneUnit 0 0 1)).startTimers (scenarioA 1)) = some sys ∧
      (∃ c ∈ sys.cpus, c.assigned = true) ∧ sys.tick 2 = none ∧
      System.simulate (System.init (oneUnit 0 0 1)) (scenarioA 1) = none := by
  refine ⟨rfl, ?_⟩
  have hs : (System.ticks 2 0
      ((System.init (oneUnit 0 0 1)).startTimers (scenarioA 1))).isSome = true := by
    decide
  have hv : (System.ticks 2 0 ((System.init (oneUnit 0 0 1)).startTimers (scenarioA 1))).map
      (fun sys => sys.cpus.map fun c => c.assigned) = some [true] := by
    decide
  obtain ⟨sys, hsys⟩ := Option.isSome_iff_exists.mp hs
  rw [hsys] at hv
  simp only [Option.map_some', Option.some.injEq] at hv
  have hex : ∃ c ∈ sys.cpus, c.assigned = true := by
    obtain ⟨c, l, hcl, hca, _⟩ := List.map_eq_cons_iff.mp hv
    exact ⟨c, by rw [hcl]; exact List.mem_cons_self _ _, hca⟩
  have hmain := (System.zero_switch_in_aborts (oneUnit 0 0 1) rfl).2 (scenarioA 1) 2 sys hsys hex
  exact ⟨sys, hsys, hex, hmain.1, hmain.2 (by decide)⟩

theorem waitingSystem_start :
    (System.init (oneUnit 0 0 1)).startTimers latePlans = waitingSystem {} 4294967294 := rfl

theorem waitingSystem_cpuPass (h : History CPUState) (k : Nat) :
    (waitingSystem h k).cpuPass = some (waitingSystem (h.inc CPUState.idle) k) := rfl

theorem waitingSystem_blockedPass (h : History CPUState) (k : Nat) :
    (waitingSystem h k).blockedPass = some (waitingSystem h k) := rfl

theorem waitingSystem_readyPass (h : History CPUState) (k : Nat) :
    (waitingSystem h k).readyPass = some (waitingSystem h k) := rfl

/-- A round while the arrival timer has at least two ticks left: the unit
records an idle tick and the timer loses one tick. -/
theorem waitingSystem_tick (h : History CPUState) (k s : Nat) (hk : k + 2 < STEP_MOD) :
    (waitingSystem h (k + 2)).tick s = some (waitingSystem (h.inc CPUState.idle) (k + 1)) := by
  unfold System.tick
  rw [waitingSystem_cpuPass]
  simp only
  rw [waitingSystem_blockedPass]
  simp only
  rw [waitingSystem_readyPass]
  simp only
  unfold System.arrivalPass
  show System.arrivalLoop s []
    [Timer.init (k + 2) { id := 0, prio := 0, bursts := { bursts := [5] } }] _ = _
  unfold System.arrivalLoop
  rw [Timer.step_init_pos (k + 2) _ (by omega) hk]
  have hd : decide (k + 2 - 1 = 0) = false := by
    rw [decide_eq_false_iff_not]
    omega
  simp only [hd, Bool.false_eq_true, if_false, List.nil_append]
  have he : k + 2 - 1 = k + 1 := by omega
  rw [he]
  rfl

/-- The last two rounds before the clock stops: the timer fires and the process
enters the table and the ready queue; in the next round the idle unit is
assigned the process, on a switch-in timer of count 0. -/
theorem waitingSystem_arrival (h : History CPUState) (s : Nat) :
    ∃ sys1, (waitingSystem h 1).tick s = some sys1 ∧ sys1.PCB_table.empty = false ∧
      ∃ sys2, sys1.tick (s + 1) = some sys2 ∧
        sys2.cpus.map (fun c => (c.assigned, c.proc, c.t)) =
          [(true, some 0, Timer.init 0 CPUState.switching_in)] :=
  ⟨_, rfl, rfl, _, rfl, rfl⟩

theorem System.ticks_step (n s : Nat) (sys sys1 : System) (h : sys.tick s = some sys1) :
    System.ticks (n + 1) s sys = System.ticks n (s + 1) sys1 := by
  simp only [System.ticks, h]

theorem System.loop_zero (s : Nat) (sys : System) : System.loop 0 s sys = some (sys, s) := rfl

theorem waitingSystem_ticks : ∀ (n : Nat) (h : History CPUState) (k s : Nat),
    n + k + 1 < STEP_MOD →
    ∃ h1, System.ticks n s (waitingSystem h (n + k + 1)) = some (waitingSystem h1 (k + 1)) := by
  intro n
  induction n with
  | zero =>
    intro h k s _
    refine ⟨h, ?_⟩
    rw [Nat.zero_add]
    rfl
  | succ n ih =>
    intro h k s hk
    have he : n + 1 + k + 1 = (n + k) + 2 := by omega
    have hk2 : n + k + 2 < STEP_MOD := by omega
    obtain ⟨h1, ht⟩ := ih (h.inc CPUState.idle) k (s + 1) (by omega)
    refine ⟨h1, ?_⟩
    rw [he, System.ticks_step n s _ _ (waitingSystem_tick h (n + k) s hk2)]
    exact ht

/-- The run of a workload like `latePlans`, in general: with the only arrival
at `a + 1`, the first `a + 2` rounds succeed, the table or the timer list is
non-empty before each of them, and after them the unit is assigned on a
switch-in timer of count 0. -/
theorem waitingSystem_run (a : Nat) (ha : a + 2 < STEP_MOD) :
    ∃ sys, System.ticks (a + 2) 0 (waitingSystem {} (a + 1)) = some sys ∧
      (∀ j, j < a + 2 → ∀ sysj, System.ticks j 0 (waitingSystem {} (a + 1)) = some sysj →
        (sysj.PCB_table.empty && sysj.process_entry_timers.isEmpty) = false) ∧
      sys.cpus.map (fun c => (c.assigned, c.proc, c.t)) =
        [(true, some 0, Timer.init 0 CPUState.switching_in)] := by
  obtain ⟨h1, ht⟩ := waitingSystem_ticks a {} 0 0 (by omega)
  rw [Nat.add_zero, Nat.zero_add] at ht
  obtain ⟨sys1, hs1, hne1, sys2, hs2, hprops⟩ := waitingSystem_arrival h1 (0 + a)
  have hsucc : System.ticks (a + 1) 0 (waitingSystem {} (a + 1)) = some sys1 := by
    rw [System.ticks_succ, ht, Option.some_bind]
    exact hs1
  refine ⟨sys2, ?_, ?_, hprops⟩
  · have he : a + 2 = (a + 1) + 1 := rfl
    rw [he, System.ticks_succ, hsucc, Option.some_bind]
    exact hs2
  · intro j hj sysj hsj
    by_cases hja : j ≤ a
    · obtain ⟨h2, ht2⟩ := waitingSystem_ticks j {} (a - j) 0 (by omega)
      have he : j + (a - j) + 1 = a + 1 := by omega
      rw [he, hsj] at ht2
      obtain rfl := Option.some.inj ht2
      rfl
    · have he : j = a + 1 := by omega
      subst he
      rw [hsucc] at hsj
      obtain rfl := Option.some.inj hsj
      rw [hne1]
      rfl

theorem waitingSystem_loop (a : Nat) (ha : a + 2 ≤ STEP_MAX) :
    ∃ sys, System.loop (a + 2) 0 (waitingSystem {} (a + 1)) = some (sys, a + 2) ∧
      sys.cpus.map (fun c => (c.assigned, c.proc, c.t)) =
        [(true, some 0, Timer.init 0 CPUState.switching_in)] := by
  have hM : STEP_MAX < STEP_MOD := by decide
  obtain ⟨sys, hs, hrun, hprops⟩ := waitingSystem_run a (by omega)
  have hloop := System.loop_of_ticks (a + 2) 0 _ sys 0 hs (fun j hj sysj hsj => by
    have hlt : j < STEP_MAX := by omega
    have hq := hrun j hj sysj hsj
    simp only [System.running, Nat.zero_add, hlt, decide_True, hq, Bool.not_false,
      Bool.and_self])
  rw [Nat.add_zero, Nat.zero_add, System.loop_zero] at hloop
  exact ⟨sys, hloop, hprops⟩

/-- C33 as stated fails: with zero switch-in delay (one unit, FCFS) and the
only process arriving at `2^32 - 2`, the process is assigned in the last round
the clock allows; the run completes with the clock at `STEP_MAX` and the unit
assigned on a switch-in timer of count 0, which is never stepped. -/
theorem System.late_assignment_completes :
    (oneUnit 0 0 1).SWITCHING_IN_DELAY = 0 ∧
    ∃ r, System.simulate (System.init (oneUnit 0 0 1)) latePlans = some r ∧
      r.2 = STEP_MAX ∧
      r.1.cpus.map (fun c => (c.assigned, c.proc, c.t)) =
        [(true, some 0, Timer.init 0 CPUState.switching_in)] := by
  refine ⟨rfl, ?_⟩
  have e1 : (4294967293 : Nat) + 2 = STEP_MAX := by decide
  have e2 : (4294967293 : Nat) + 1 = 4294967294 := by decide
  obtain ⟨sys, hloop, hprops⟩ := waitingSystem_loop 4294967293 (by decide)
  rw [e1, e2] at hloop
  refine ⟨(sys, STEP_MAX), ?_, rfl, hprops⟩
  unfold System.simulate
  rw [waitingSystem_start]
  exact hloop

/-! ### When the scheduler assigns -/

/-- A step returns true only from `idle` or `switching_out` and then leaves the
unit idle and unbound; a step that returns false was made by an assigned unit,
which stays assigned and bound to the same process. -/
theorem CPU.step_coherent (c : CPU) (tbl : PCBTable) (b : Bool) (c2 : CPU) (tbl2 : PCBTable)
    (hs : c.step tbl = some (b, c2, tbl2)) (hc : c.coherent) :
    c2.coherent ∧
    (b = true → c2.getState = CPUState.idle ∧ c2.proc = none ∧
      (c.getState = CPUState.idle ∨ c.getState = CPUState.switching_out)) ∧
    (b = false → c.getState ≠ CPUState.idle ∧ c2.proc = c.proc ∧
      c2.getState ≠ CPUState.idle) := by
  by_cases hidle : c.getState = CPUState.idle
  · rw [CPU.step_idle c tbl hidle] at hs
    simp only [Option.some.injEq, Prod.mk.injEq] at hs
    obtain ⟨hb, hc2, _⟩ := hs
    subst hb
    subst hc2
    refine ⟨hc, fun _ => ⟨hidle, hc.mp hidle, Or.inl hidle⟩, fun hf => Bool.noConfusion hf⟩
  · obtain ⟨key, p, p1, hk, _, hon, _⟩ := CPU.step_assigned_inv c tbl b c2 tbl2 hidle hs
    obtain ⟨_, _, hcase⟩ := CPU.stepOn_bound c.recordTick p b c2 p1 hon
      (by rw [CPU.recordTick_getState]; exact hidle)
    rw [CPU.recordTick_proc] at hcase
    rcases hcase with ⟨hb, hp, hne⟩ | ⟨hb, hp, hi⟩
    · subst hb
      refine ⟨⟨fun h => absurd h hne, fun h => ?_⟩, fun hf => Bool.noConfusion hf,
        fun _ => ⟨hidle, hp, hne⟩⟩
      rw [hp, hk] at h
      cases h
    · subst hb
      refine ⟨⟨fun _ => hp, fun _ => hi⟩, fun _ => ⟨hi, hp, Or.inr ?_⟩, fun hf => Bool.noConfusion hf⟩
      by_contra hso
      have := CPU.stepOn_false c.recordTick p true c2 p1
        (by rw [CPU.recordTick_getState]; exact hso) hon
      cases this

theorem System.cpuBody_coherent (sys : System) (c c1 : CPU) (sys1 : System)
    (h : sys.cpuBody c = some (c1, sys1)) (hc : c.coherent) : c1.coherent := by
  obtain ⟨b, c2, tbl2, hs, hcase⟩ := System.cpuBody_unit sys c c1 sys1 h
  rcases hcase with h1 | ⟨_, key, tbl, r, ha, h1⟩
  · rw [h1]
    exact (CPU.step_coherent c _ b c2 tbl2 hs hc).1
  · obtain ⟨_, _, hp, ht⟩ := CPU.assign_frame c2 key tbl r ha
    rw [h1]
    constructor
    · intro hi
      rw [CPU.getState, ht] at hi
      cases hi
    · intro hn
      rw [hp] at hn
      cases hn

theorem System.ticks_coherent : ∀ (n s : Nat) (sys sysn : System),
    System.ticks n s sys = some sysn → (∀ c ∈ sys.cpus, c.coherent) →
    ∀ c ∈ sysn.cpus, c.coherent := by
  intro n
  induction n with
  | zero =>
    intro s sys sysn h hc
    simp only [System.ticks, Option.some.injEq] at h
    subst h
    exact hc
  | succ n ih =>
    intro s sys sysn h hc
    unfold System.ticks at h
    cases ht : sys.tick s with
    | none => simp [ht] at h
    | some sys1 =>
      simp only [ht] at h
      exact ih _ _ _ h
        (System.tick_units CPU.coherent CPU.coherent System.cpuBody_coherent sys s sys1 ht hc)

theorem System.startTimers_coherent (sett : SystemSettings) (plans : List ProcessPlan) :
    ∀ c ∈ ((System.init sett).startTimers plans).cpus, c.coherent := by
  intro c hc
  simp only [System.startTimers, System.init, List.mem_map] at hc
  obtain ⟨i, _, rfl⟩ := hc
  exact ⟨fun _ => rfl, fun _ => rfl⟩

/-- A step puts a unit into `switching_out`, which is what `deassign` does,
only from `processing` or `assigned_idle`. -/
theorem CPU.step_to_switching_out (c : CPU) (tbl : PCBTable) (b : Bool) (c2 : CPU)
    (tbl2 : PCBTable) (hs : c.step tbl = some (b, c2, tbl2))
    (h2 : c2.getState = CPUState.switching_out) (hne : c.getState ≠ CPUState.switching_out) :
    c.getState = CPUState.processing ∨ c.getState = CPUState.assigned_idle := by
  cases hst : c.getState with
  | idle =>
    rw [CPU.step_idle c tbl hst] at hs
    simp only [Option.some.injEq, Prod.mk.injEq] at hs
    rw [← hs.2.1, CPU.recordTick_getState, hst] at h2
    cases h2
  | switching_out => exact absurd hst hne
  | processing => exact Or.inl rfl
  | assigned_idle => exact Or.inr rfl
  | switching_in =>
    exfalso
    have hni : c.getState ≠ CPUState.idle := by rw [hst]; decide
    obtain ⟨key, p, p1, _, _, hon, _⟩ := CPU.step_assigned_inv c tbl b c2 tbl2 hni hs
    rw [CPU.stepOn_switching_in c.recordTick p (by rw [CPU.recordTick_getState]; exact hst),
      CPU.recordTick_t] at hon
    cases hts : c.t.step with
    | none => simp [hts] at hon
    | some tr =>
      simp only [hts, Option.map_some', Option.some.injEq] at hon
      have hd : tr.2.data = CPUState.switching_in := by
        rw [Timer.step_data c.t tr hts]
        exact hst
      split at hon
      · split at hon
        · simp only [Prod.mk.injEq] at hon
          rw [← hon.2.1] at h2
          revert h2
          simp only [CPU.getState, Timer.getData]
          split <;> simp [Timer.init]
        · simp only [Prod.mk.injEq] at hon
          rw [← hon.2.1] at h2
          cases h2
      · simp only [Prod.mk.injEq] at hon
        rw [← hon.2.1] at h2
        simp only [CPU.getState, Timer.getData] at h2
        rw [hd] at h2
        cases h2

/-- C31: in every run, for every unit `c` of the state after any number `n` of
rounds and the system `sysm` in which the unit pass reaches it, with
`(b, c2, tbl2)` the result of the unit's `step()`: the scheduler goes on to
`assign` only when the step returned true or the unit was idle; the unit was
then idle at the start of the round or has just finished switching out, it is
idle and bound to no process at the moment of the call, and the unit the pass
leaves is `c2` or the result of `assign` on `c2`.  Otherwise the pass leaves the
unit as its step left it, still assigned and bound to the same process.  The
step of an idle unit only records the tick, and a step starts a switch-out,
which is what `deassign` does, only from `processing` or `assigned_idle`. -/
theorem System.assign_only_idle (sett : SystemSettings) (plans : List ProcessPlan) (n : Nat)
    (sys : System) (h : System.ticks n 0 ((System.init sett).startTimers plans) = some sys)
    (c : CPU) (hc : c ∈ sys.cpus) (sysm : System) (b : Bool) (c2 : CPU) (tbl2 : PCBTable)
    (hstep : c.step sysm.PCB_table = some (b, c2, tbl2)) :
    ((b || !c.assigned) = true →
      (c.getState = CPUState.idle ∨ (c.getState = CPUState.switching_out ∧ b = true)) ∧
      c2.getState = CPUState.idle ∧ c2.assigned = false ∧ c2.proc = none ∧
      ∀ c1 sys1, sysm.cpuBody c = some (c1, sys1) →
        c1 = c2 ∨ ∃ key tbl r, c2.assign key tbl = some r ∧ c1 = r.1) ∧
    ((b || !c.assigned) = false →
      sysm.cpuBody c = some (c2, { sysm with PCB_table := tbl2 }) ∧
      c2.proc = c.proc ∧ c2.assigned = true ∧ c.proc ≠ none) ∧
    (c.getState = CPUState.idle → c2 = c.recordTick ∧ tbl2 = sysm.PCB_table) ∧
    (c2.getState = CPUState.switching_out → c.getState ≠ CPUState.switching_out →
      c.getState = CPUState.processing ∨ c.getState = CPUState.assigned_idle) := by
  have hco : c.coherent :=
    System.ticks_coherent n 0 _ sys h (System.startTimers_coherent sett plans) c hc
  obtain ⟨hco2, htrue, hfalse⟩ := CPU.step_coherent c _ b c2 tbl2 hstep hco
  have hassigned : c.assigned = true ↔ c.getState ≠ CPUState.idle := by
    simp [CPU.assigned]
  refine ⟨?_, ?_, ?_, fun h2 hne => CPU.step_to_switching_out c _ b c2 tbl2 hstep h2 hne⟩
  · intro hb
    have hwhy : c.getState = CPUState.idle ∨ (c.getState = CPUState.switching_out ∧ b = true) := by
      cases b with
      | true =>
        rcases (htrue rfl).2.2 with hi | ho
        · exact Or.inl hi
        · exact Or.inr ⟨ho, rfl⟩
      | false =>
        simp only [Bool.false_or, Bool.not_eq_true', ← Bool.not_eq_true] at hb
        left
        by_contra hne
        exact hb (hassigned.mpr hne)
    have hidle2 : c2.getState = CPUState.idle := by
      cases b with
      | true => exact (htrue rfl).1
      | false =>
        rcases hwhy with hi | ⟨_, hf⟩
        · exact absurd hi (hfalse rfl).1
        · cases hf
    refine ⟨hwhy, hidle2, by simp [CPU.assigned, hidle2], hco2.mp hidle2, ?_⟩
    intro c1 sys1 hbody
    obtain ⟨b', c2', tbl2', hs', hcase⟩ := System.cpuBody_unit sysm c c1 sys1 hbody
    rw [hstep] at hs'
    simp only [Option.some.injEq, Prod.mk.injEq] at hs'
    obtain ⟨_, h2, _⟩ := hs'
    subst h2
    rcases hcase with h1 | ⟨_, key, tbl, r, ha, h1⟩
    · exact Or.inl h1
    · exact Or.inr ⟨key, tbl, r, ha, h1⟩
  · intro hb
    rw [Bool.or_eq_false_iff] at hb
    obtain ⟨hb1, hb2⟩ := hb
    subst hb1
    have ha : c.assigned = true := by simpa using hb2
    obtain ⟨hne, hp, hne2⟩ := hfalse rfl
    refine ⟨?_, hp, by simp [CPU.assigned, hne2], fun hn => hne (hco.mpr hn)⟩
    simp [System.cpuBody, hstep, ha]
  · intro hi
    rw [CPU.step_idle c _ hi] at hstep
    simp only [Option.some.injEq, Prod.mk.injEq] at hstep
    exact ⟨hstep.2.1.symm, hstep.2.2.symm⟩

theorem System.assign_only_idle_witness :
    ∃ sys c, System.ticks 1 0 ((System.init (oneUnit 2 1 1)).startTimers (scenarioB 1)) = some sys ∧
      c ∈ sys.cpus ∧ c.step sys.PCB_table = some (true, c.recordTick, sys.PCB_table) ∧
      sys.ready.ids = [0, 1] ∧
      (c.getState = CPUState.idle ∨ (c.getState = CPUState.switching_out ∧ true = true)) ∧
      c.recordTick.getState = CPUState.idle ∧ c.recordTick.assigned = false ∧
      c.recordTick.proc = none ∧
      ∀ c1 sys1, sys.cpuBody c = some (c1, sys1) →
        c1 = c.recordTick ∨
          ∃ key tbl r, c.recordTick.assign key tbl = some r ∧ c1 = r.1 := by
  have hs : (System.ticks 1 0
      ((System.init (oneUnit 2 1 1)).startTimers (scenarioB 1))).isSome = true := by
    decide
  have hv : (System.ticks 1 0 ((System.init (oneUnit 2 1 1)).startTimers (scenarioB 1))).map
      (fun sys => (sys.cpus.map (fun c => c.getState), sys.ready.ids)) =
      some ([CPUState.idle], [0, 1]) := by
    decide
  obtain ⟨sys, hsys⟩ := Option.isSome_iff_exists.mp hs
  rw [hsys] at hv
  simp only [Option.map_some', Option.some.injEq, Prod.mk.injEq] at hv
  obtain ⟨c, l, hcl, hci, _⟩ := List.map_eq_cons_iff.mp hv.1
  have hc : c ∈ sys.cpus := by rw [hcl]; exact List.mem_cons_self _ _
  have hstep := CPU.step_idle c sys.PCB_table hci
  have hmain := System.assign_only_idle (oneUnit 2 1 1) (scenarioB 1) 1 sys hsys c hc sys true
    c.recordTick sys.PCB_table hstep
  exact ⟨sys, c, hsys, hc, hstep, hv.2, hmain.1 rfl⟩

/-! ### The quantum against the head burst -/

/-- From a round-robin unit in state `processing` with `n` ticks left on its
quantum timer, bound to a running process with `r` ticks left on its head
burst: after `j ≤ min n r` steps the head burst has lost `j` ticks, and is
popped, with the flag flipped, when `j = r`. -/
theorem CPU.rr_quantum_bursts : ∀ (j : Nat) (c : CPU) (tbl : PCBTable) (key : Nat) (p : PCB)
    (r : Nat) (tl : List Nat),
    c.getState = CPUState.processing → c.settings.RR_TIME ≠ 0 → c.proc = some key →
    tbl.lookup key = some p → 1 ≤ c.t.count → c.t.count < STEP_MOD →
    p.state = ProcessState.running → p.bursts.bursts = r :: tl → 1 ≤ r → r < STEP_MOD →
    j ≤ min c.t.count r →
    ∃ cj tblj pj, CPU.stepN j c tbl = some (cj, tblj) ∧ tblj.lookup key = some pj ∧
      (j < r → pj.bursts.bursts = (r - j) :: tl ∧ pj.bursts.processing = p.bursts.processing) ∧
      (j = r → pj.bursts.bursts = tl ∧ pj.bursts.processing = !p.bursts.processing) := by
  intro j
  induction j with
  | zero =>
    intro c tbl key p r tl _ _ _ hp _ _ _ hb hr _ _
    refine ⟨c, tbl, p, rfl, hp, fun _ => ⟨hb, rfl⟩, ?_⟩
    intro h0
    omega
  | succ j ih =>
    intro c tbl key p r tl hst hf hk hp hn hM hs hb hr hrM hj
    have hstep := CPU.step_busy_rr c tbl key p (Or.inl hst) hf hk hp hn hM
    have hpb : p.step.2.bursts = p.bursts.step.2 := (PCB.step_of_active p (Or.inl hs)).2
    by_cases hone : c.t.count = 1 ∨ r = 1
    · have hj0 : j = 0 := by omega
      subst hj0
      have hcond : (p.step.1 || decide (c.t.count - 1 = 0)) = true := by
        rcases hone with h | h
        · simp [h]
        · subst h
          simp [PCB.step_running_one p tl hs hb]
      rw [if_pos hcond] at hstep
      refine ⟨_, _, _, (CPU.stepN_succ_of_step 0 c tbl _ _ _ hstep).trans (CPU.stepN_zero _ _),
        PCBTable.lookup_store tbl key p _ hp, ?_, ?_⟩
      · intro hlt
        have h2 : 2 ≤ r := by omega
        show p.step.2.bursts.bursts = (r - (0 + 1)) :: tl ∧
          p.step.2.bursts.processing = p.bursts.processing
        rw [hpb, ProcessBursts.step_of_ge_two p.bursts r tl hb hrM h2]
        exact ⟨rfl, rfl⟩
      · intro heq
        have h1 : r = 1 := by omega
        subst h1
        show p.step.2.bursts.bursts = tl ∧
          p.step.2.bursts.processing = !p.bursts.processing
        rw [hpb, ProcessBursts.step_of_one p.bursts tl hb]
        exact ⟨rfl, rfl⟩
    · have h2n : 2 ≤ c.t.count := by omega
      have h2r : 2 ≤ r := by omega
      obtain ⟨hp1, hp2, hp3⟩ := PCB.step_running_ge_two p r tl hs hb h2r hrM
      have hflag : p.step.2.bursts.processing = p.bursts.processing := by
        rw [hpb, ProcessBursts.step_of_ge_two p.bursts r tl hb hrM h2r]
      have hcond : ¬ (p.step.1 || decide (c.t.count - 1 = 0)) = true := by
        have : ¬ (c.t.count - 1 = 0) := by omega
        simp [hp1, this]
      rw [if_neg hcond] at hstep
      have hlk := PCBTable.lookup_store tbl key p p.step.2 hp
      obtain ⟨cj, tblj, pj, hrun, hlook, hlt, heq⟩ :=
        ih { c.recordTick with t := { c.t with count := c.t.count - 1 } }
          (tbl.store key p.step.2) key p.step.2 (r - 1) tl hst hf hk hlk
          (by show 1 ≤ c.t.count - 1; omega) (by show c.t.count - 1 < STEP_MOD; omega)
          hp2 hp3 (by omega) (by omega) (by show j ≤ min (c.t.count - 1) (r - 1); omega)
      refine ⟨cj, tblj, pj, ?_, hlook, ?_, ?_⟩
      · rw [CPU.stepN_succ_of_step j c tbl _ _ _ hstep]
        exact hrun
      · intro h
        obtain ⟨q1, q2⟩ := hlt (by omega)
        have he : r - 1 - j = r - (j + 1) := by omega
        rw [he] at q1
        exact ⟨q1, q2.trans hflag⟩
      · intro h
        obtain ⟨q1, q2⟩ := heq (by omega)
        exact ⟨q1, by rw [q2, hflag]⟩

/-- C32: under round-robin with quantum `Q ≥ 1`, take a unit whose switch-in
completes on its next step, bound to a process (in state `switching`, as
`assign` left it) whose head burst has `r ≥ 1` ticks left.  That step leaves
the unit in `processing` and the bursts as they were.  The next `min Q r` steps
are each taken in state `processing`, and the last of them puts the unit in
`switching_out`: the unit's trace grows by exactly `min Q r` ticks of
`processing`.  The head burst has then lost exactly `min Q r` ticks: it has
`r - Q` ticks left when `Q < r`, and it is popped, with the flag flipped, when
`r ≤ Q`. -/
theorem CPU.rr_quantum_account (c : CPU) (tbl : PCBTable) (key : Nat) (p : PCB)
    (r : Nat) (tl : List Nat) (Q : Nat)
    (hQ : c.settings.RR_TIME = Q) (hQ1 : 1 ≤ Q) (hQM : Q < STEP_MOD)
    (hst : c.getState = CPUState.switching_in) (hn : c.t.count = 1)
    (hk : c.proc = some key) (hp : tbl.lookup key = some p)
    (hs : p.state = ProcessState.switching) (hb : p.bursts.bursts = r :: tl)
    (hr : 1 ≤ r) (hrM : r < STEP_MOD) :
    ∃ c1 tbl1 p1 ck tblk pk,
      c.step tbl = some (false, c1, tbl1) ∧ c1.getState = CPUState.processing ∧
      tbl1.lookup key = some p1 ∧ p1.bursts = p.bursts ∧
      (∀ j, j < min Q r → ∃ cj tblj, CPU.stepN j c1 tbl1 = some (cj, tblj) ∧
        cj.getState = CPUState.processing) ∧
      CPU.stepN (min Q r) c1 tbl1 = some (ck, tblk) ∧
      ck.getState = CPUState.switching_out ∧
      ck.stats.hist = (fun h => h.inc CPUState.processing)^[min Q r] c1.stats.hist ∧
      tblk.lookup key = some pk ∧
      (Q < r → pk.bursts.bursts = (r - Q) :: tl ∧
        pk.bursts.processing = p.bursts.processing) ∧
      (r ≤ Q → pk.bursts.bursts = tl ∧ pk.bursts.processing = !p.bursts.processing) := by
  have hf : c.settings.RR_TIME ≠ 0 := by omega
  have hstep := CPU.step_switch_in_done_rr c tbl key p hst hf hk hp hn
  have hlk := PCBTable.lookup_store tbl key p
    { p.step.2 with state := ProcessState.running } hp
  have hbs : p.step.2.bursts = p.bursts :=
    (PCB.step_of_inactive p (Or.inr (Or.inl hs))).2
  have hb1 : ({ p.step.2 with state := ProcessState.running } : PCB).bursts.bursts = r :: tl := by
    show p.step.2.bursts.bursts = r :: tl
    rw [hbs, hb]
  have hrun := fun j (hj : j ≤ min c.settings.RR_TIME r) =>
    CPU.rr_quantum_run j
      { c.recordTick with t := Timer.init c.settings.RR_TIME CPUState.processing }
      (tbl.store key { p.step.2 with state := ProcessState.running }) key
      { p.step.2 with state := ProcessState.running } r tl rfl hf hk hlk
      (by show 1 ≤ c.settings.RR_TIME; omega) (by show c.settings.RR_TIME < STEP_MOD; omega)
      rfl hb1 hr hrM hj
  obtain ⟨ck, tblk, hk1, hhist, _, hout⟩ := hrun (min Q r) (by rw [hQ])
  obtain ⟨ck2, tblk2, pk, hk2, hlook, hlt, heq⟩ :=
    CPU.rr_quantum_bursts (min Q r)
      { c.recordTick with t := Timer.init c.settings.RR_TIME CPUState.processing }
      (tbl.store key { p.step.2 with state := ProcessState.running }) key
      { p.step.2 with state := ProcessState.running } r tl rfl hf hk hlk
      (by show 1 ≤ c.settings.RR_TIME; omega) (by show c.settings.RR_TIME < STEP_MOD; omega)
      rfl hb1 hr hrM (by show min Q r ≤ min c.settings.RR_TIME r; rw [hQ])
  rw [hk1] at hk2
  simp only [Option.some.injEq, Prod.mk.injEq] at hk2
  obtain ⟨e1, e2⟩ := hk2
  subst e1
  subst e2
  refine ⟨_, _, _, ck, tblk, pk, hstep, rfl, hlk, hbs, ?_, hk1,
    hout (by show min Q r = min c.settings.RR_TIME r; rw [hQ]), hhist, hlook, ?_, ?_⟩
  · intro j hj
    obtain ⟨cj, tblj, hj1, _, hproc, _⟩ := hrun j (by rw [hQ]; omega)
    exact ⟨cj, tblj, hj1, hproc (by show j < min c.settings.RR_TIME r; rw [hQ]; exact hj)⟩
  · intro hlt'
    have hm : min Q r = Q := by omega
    rw [hm] at hlt
    obtain ⟨q1, q2⟩ := hlt hlt'
    exact ⟨q1, by rw [q2, hbs]⟩
  · intro hle
    have hm : min Q r = r := by omega
    obtain ⟨q1, q2⟩ := heq hm
    exact ⟨q1, by rw [q2, hbs]⟩

theorem CPU.rr_quantum_account_witness :
    ∃ c1 tbl1 p1 ck tblk pk,
      (boundCPU rrFive CPUState.switching_in 1).step (tableOf shortBurstPCB) =
        some (false, c1, tbl1) ∧ c1.getState = CPUState.processing ∧
      tbl1.lookup 0 = some p1 ∧ p1.bursts = shortBurstPCB.bursts ∧
      (∀ j, j < min 5 2 → ∃ cj tblj, CPU.stepN j c1 tbl1 = some (cj, tblj) ∧
        cj.getState = CPUState.processing) ∧
      CPU.stepN (min 5 2) c1 tbl1 = some (ck, tblk) ∧
      ck.getState = CPUState.switching_out ∧
      ck.stats.hist = (fun h => h.inc CPUState.processing)^[min 5 2] c1.stats.hist ∧
      tblk.lookup 0 = some pk ∧
      (5 < 2 → pk.bursts.bursts = (2 - 5) :: [3] ∧
        pk.bursts.processing = shortBurstPCB.bursts.processing) ∧
      (2 ≤ 5 → pk.bursts.bursts = [3] ∧
        pk.bursts.processing = !shortBurstPCB.bursts.processing) :=
  CPU.rr_quantum_account (boundCPU rrFive CPUState.switching_in 1) (tableOf shortBurstPCB) 0
    shortBurstPCB 2 [3] 5 rfl (by decide) (by decide) rfl rfl rfl rfl rfl rfl (by decide)
    (by decide)

end Simulation
